import Mathlib

/-!
# Form field store and validation coordinator

A shallow embedding of `src/utils.js`, `src/createFieldsStore.js` and the
store-facing methods of `src/createBaseForm.js`.

JavaScript values are modelled by `JSVal`: objects are association lists in
insertion order, arrays are lists (a hole of a sparse array is `undefined`),
numbers are integers.  Strict equality `===` is structural equality, so object
identity is not modelled.  The methods of the form that only render or notify
(`forceUpdate`, `warning`, `onFieldsChange`, `onValuesChange`) do not touch the
store and are left out.
-/

namespace RcForm

/-! ## JavaScript values -/

/-- A JavaScript value. -/
inductive JSVal where
  | undefined : JSVal
  | null : JSVal
  | bool (b : Bool) : JSVal
  | num (n : Int) : JSVal
  | str (s : String) : JSVal
  | arr (xs : List JSVal) : JSVal
  | obj (kvs : List (String × JSVal)) : JSVal
  deriving Repr, Inhabited

/-- The own properties of a JavaScript object, in the order `Object.keys` lists
them.  This is the order of insertion as long as no key is an array index (`0`,
`1`, ...); JavaScript lists array-index keys first, in ascending order, so a list
with such a key after another key stands for no object, and the statements that
depend on the order of traversal exclude index keys. -/
abbrev Props := List (String × JSVal)

mutual
/-- Structural equality test on values. -/
def JSVal.beq : JSVal → JSVal → Bool
  | .undefined, .undefined => true
  | .null, .null => true
  | .bool a, .bool b => decide (a = b)
  | .num a, .num b => decide (a = b)
  | .str a, .str b => decide (a = b)
  | .arr a, .arr b => JSVal.beqList a b
  | .obj a, .obj b => JSVal.beqProps a b
  | _, _ => false
/-- Structural equality test on lists of values. -/
def JSVal.beqList : List JSVal → List JSVal → Bool
  | [], [] => true
  | x :: xs, y :: ys => JSVal.beq x y && JSVal.beqList xs ys
  | _, _ => false
/-- Structural equality test on property lists. -/
def JSVal.beqProps : List (String × JSVal) → List (String × JSVal) → Bool
  | [], [] => true
  | (k, x) :: xs, (l, y) :: ys => decide (k = l) && (JSVal.beq x y && JSVal.beqProps xs ys)
  | _, _ => false
end

mutual
theorem JSVal.beq_refl : ∀ a : JSVal, JSVal.beq a a = true
  | .undefined => by simp [JSVal.beq]
  | .null => by simp [JSVal.beq]
  | .bool _ => by simp [JSVal.beq]
  | .num _ => by simp [JSVal.beq]
  | .str _ => by simp [JSVal.beq]
  | .arr xs => by simp [JSVal.beq, JSVal.beqList_refl xs]
  | .obj kvs => by simp [JSVal.beq, JSVal.beqProps_refl kvs]
theorem JSVal.beqList_refl : ∀ xs : List JSVal, JSVal.beqList xs xs = true
  | [] => by simp [JSVal.beqList]
  | x :: xs => by simp [JSVal.beqList, JSVal.beq_refl x, JSVal.beqList_refl xs]
theorem JSVal.beqProps_refl : ∀ xs : List (String × JSVal), JSVal.beqProps xs xs = true
  | [] => by simp [JSVal.beqProps]
  | (_, x) :: xs => by simp [JSVal.beqProps, JSVal.beq_refl x, JSVal.beqProps_refl xs]
end

mutual
theorem JSVal.eq_of_beq : ∀ a b : JSVal, JSVal.beq a b = true → a = b
  | .undefined, b => by cases b <;> simp [JSVal.beq]
  | .null, b => by cases b <;> simp [JSVal.beq]
  | .bool _, b => by cases b <;> simp [JSVal.beq]
  | .num _, b => by cases b <;> simp [JSVal.beq]
  | .str _, b => by cases b <;> simp [JSVal.beq]
  | .arr xs, b => by
    cases b <;> simp [JSVal.beq]
    exact JSVal.eq_of_beqList xs _
  | .obj kvs, b => by
    cases b <;> simp [JSVal.beq]
    exact JSVal.eq_of_beqProps kvs _
theorem JSVal.eq_of_beqList : ∀ xs ys : List JSVal, JSVal.beqList xs ys = true → xs = ys
  | [], ys => by cases ys <;> simp [JSVal.beqList]
  | x :: xs, ys => by
    cases ys with
    | nil => simp [JSVal.beqList]
    | cons y ys =>
      simp only [JSVal.beqList, Bool.and_eq_true, List.cons.injEq]
      exact fun h => ⟨JSVal.eq_of_beq x y h.1, JSVal.eq_of_beqList xs ys h.2⟩
theorem JSVal.eq_of_beqProps :
    ∀ xs ys : List (String × JSVal), JSVal.beqProps xs ys = true → xs = ys
  | [], ys => by cases ys <;> simp [JSVal.beqProps]
  | (k, x) :: xs, ys => by
    cases ys with
    | nil => simp [JSVal.beqProps]
    | cons y ys =>
      obtain ⟨l, y⟩ := y
      simp only [JSVal.beqProps, Bool.and_eq_true, decide_eq_true_eq, List.cons.injEq,
        Prod.mk.injEq]
      exact fun h => ⟨⟨h.1, JSVal.eq_of_beq x y h.2.1⟩, JSVal.eq_of_beqProps xs ys h.2.2⟩
end

instance : DecidableEq JSVal := fun a b =>
  if h : JSVal.beq a b = true then isTrue (JSVal.eq_of_beq a b h)
  else isFalse (fun e => h (e ▸ JSVal.beq_refl a))

/-- JavaScript truthiness (`!!v`). -/
def JSVal.truthy : JSVal → Bool
  | .undefined => false
  | .null => false
  | .bool b => b
  | .num n => decide (n ≠ 0)
  | .str s => decide (s ≠ "")
  | .arr _ => true
  | .obj _ => true

/-- Is the value an array or a plain object (`typeof v === 'object' && v !== null`)? -/
def JSVal.isObject : JSVal → Bool
  | .arr _ => true
  | .obj _ => true
  | _ => false

/-! ## Objects as ordered key/value lists -/

/-- Read of an own property (`o[k]`), `none` when the key is absent. -/
def Obj.get? {α : Type} : List (String × α) → String → Option α
  | [], _ => none
  | (k, v) :: t, key => if k = key then some v else Obj.get? t key

/-- Membership test of a key (`k in o`). -/
def Obj.has {α : Type} (o : List (String × α)) (key : String) : Bool :=
  (Obj.get? o key).isSome

/-- Assignment `o[k] = v`: an existing key keeps its position, a new key is appended. -/
def Obj.set {α : Type} : List (String × α) → String → α → List (String × α)
  | [], key, v => [(key, v)]
  | (k, w) :: t, key, v => if k = key then (k, v) :: t else (k, w) :: Obj.set t key v

/-- Removal `delete o[k]`. -/
def Obj.del {α : Type} : List (String × α) → String → List (String × α)
  | [], _ => []
  | (k, w) :: t, key => if k = key then t else (k, w) :: Obj.del t key

/-- The keys of an object (`Object.keys(o)`). -/
def Obj.keys {α : Type} (o : List (String × α)) : List String := o.map Prod.fst

/-- Object spread `{...a, ...b}`. -/
def Obj.spread {α : Type} (a b : List (String × α)) : List (String × α) :=
  b.foldl (fun acc kv => Obj.set acc kv.1 kv.2) a

/-- Member read `o.k` on a property list, `undefined` when absent. -/
def Props.get (o : Props) (key : String) : JSVal := (Obj.get? o key).getD .undefined

/-! ## `utils.js`: the path codec -/

/-- The state threaded through `treeTraverse`: what the callback has collected so
far, and the messages given to `console.error`. -/
structure Trav (σ : Type) where
  acc : σ
  log : List String
  deriving Repr, DecidableEq

mutual
/-- `treeTraverse(path, tree, isLeafNode, errorMessage, callback)` of `utils.js`.
A `null` that is not a leaf makes `Object.keys(tree)` raise a `TypeError`. -/
def treeTraverse {σ : Type} (isLeafNode : String → JSVal → Bool) (errorMessage : String)
    (callback : String → JSVal → σ → σ) :
    String → JSVal → Trav σ → Except String (Trav σ)
  | path, tree, st =>
    if isLeafNode path tree then
      .ok { st with acc := callback path tree st.acc }
    else
      match tree with
      | .undefined => .ok st
      | .arr xs => treeTraverseArr isLeafNode errorMessage callback path xs 0 st
      | .obj kvs => treeTraverseObj isLeafNode errorMessage callback path kvs st
      | .null => .error "TypeError: Cannot convert undefined or null to object"
      | .bool _ => .ok { st with log := st.log ++ [errorMessage] }
      | .num _ => .ok { st with log := st.log ++ [errorMessage] }
      | .str _ => .ok { st with log := st.log ++ [errorMessage] }
/-- The `tree.forEach((subTree, index) => ...)` loop of `treeTraverse`, from `index` on. -/
def treeTraverseArr {σ : Type} (isLeafNode : String → JSVal → Bool) (errorMessage : String)
    (callback : String → JSVal → σ → σ) :
    String → List JSVal → Nat → Trav σ → Except String (Trav σ)
  | _, [], _, st => .ok st
  | path, subTree :: rest, index, st =>
    match treeTraverse isLeafNode errorMessage callback
        (path ++ "[" ++ toString index ++ "]") subTree st with
    | .ok st1 => treeTraverseArr isLeafNode errorMessage callback path rest (index + 1) st1
    | .error e => .error e
/-- The `Object.keys(tree).forEach(subTreeKey => ...)` loop of `treeTraverse`: the
property list is walked as it stands, which is the order of `Object.keys(tree)` when
no key of `tree` is an array index (see `Props`). -/
def treeTraverseObj {σ : Type} (isLeafNode : String → JSVal → Bool) (errorMessage : String)
    (callback : String → JSVal → σ → σ) :
    String → List (String × JSVal) → Trav σ → Except String (Trav σ)
  | _, [], st => .ok st
  | path, (subTreeKey, subTree) :: rest, st =>
    match treeTraverse isLeafNode errorMessage callback
        (path ++ (if path = "" then "" else ".") ++ subTreeKey) subTree st with
    | .ok st1 => treeTraverseObj isLeafNode errorMessage callback path rest st1
    | .error e => .error e
end

/-- `flattenFields(maybeNestedFields, isLeafNode, errorMessage)` of `utils.js`: the
flat object `fields` together with the `console.error` log; the path starts as `''`
(the default of the `undefined` that is passed). -/
def flattenFields (maybeNestedFields : JSVal) (isLeafNode : String → JSVal → Bool)
    (errorMessage : String) : Except String (Trav Props) :=
  treeTraverse isLeafNode errorMessage (fun path node fields => Obj.set fields path node)
    "" maybeNestedFields { acc := [], log := [] }

/-- The leaf predicate "the node is a leaf value": neither an array nor an object. -/
def isLeafValue (_path : String) (node : JSVal) : Bool := !node.isObject

/-! ## The `lodash` path functions used by the store -/

namespace Lodash

/-- The characters of `\w`. -/
def isWordChar (c : Char) : Bool := c.isAlphanum || c = '_'

/-- Modelled from the spec: `reIsPlainProp = /^\w*$/` of lodash (imported, not under
`src/`), the test for a path that is a single plain key. -/
def reIsPlainProp (s : List Char) : Bool := s.all isWordChar

/-- The tail `[^[\]]*\]` of `reIsDeepProp`, tried right after a `[`. -/
def closesBracket : List Char → Bool
  | [] => false
  | c :: cs => if c = ']' then true else if c = '[' then false else closesBracket cs

/-- The tail `(?:(?!q)[^\\]|\\.)*?q\]` of a quoted key, tried right after `[q`:
the number of characters up to and including the closing `]`, when it matches. -/
def quotedClose (q : Char) : List Char → Option Nat
  | [] => none
  | [_] => none
  | c :: d :: ds =>
    if c = q then (if d = ']' then some 2 else none)
    else if c = '\\' then
      (if d = '\n' ∨ d = '\r' then none else (quotedClose q ds).map (· + 2))
    else (quotedClose q (d :: ds)).map (· + 1)

/-- Modelled from the spec: `reIsDeepProp` of lodash (imported, not under `src/`),
`/\.|\[(?:[^[\]]*|(["'])(?:(?!\1)[^\\]|\\.)*?\1)\]/`: does the string hold a `.` or a
bracketed key somewhere? -/
def reIsDeepProp : List Char → Bool
  | [] => false
  | c :: cs =>
    if c = '.' then true
    else if c = '[' then
      closesBracket cs
        || (match cs with
            | q :: r => (q = '"' || q = '\'') && (quotedClose q r).isSome
            | [] => false)
        || reIsDeepProp cs
    else reIsDeepProp cs

/-- Modelled from the spec: `isKey(value, object)` of lodash (imported, not under
`src/`) for a string `value`: the path is one key when it is plain, or not deep,
or a key of the object itself. -/
def isKey (value : String) (object : JSVal) : Bool :=
  reIsPlainProp value.toList || !reIsDeepProp value.toList ||
    (match object with
     | .obj kvs => Obj.has kvs value
     | _ => false)

/-- The characters that end a plain run of `rePropName`: `.`, `[` and `]`. -/
def isSpecial (c : Char) : Bool := c = '.' || c = '[' || c = ']'

/-- The digits `\d+` at the head of a list: how many there are. -/
def digitsLen : List Char → Nat
  | [] => 0
  | c :: cs => if c.isDigit then digitsLen cs + 1 else 0

/-- The alternative `\[(-?\d+(?:\.\d+)?)\]` of `rePropName`, tried right after the
`[`: the number text and the count of characters up to and including the `]`. -/
def bracketNumber (cs : List Char) : Option (List Char × Nat) :=
  let sign := if cs.head? = some '-' then 1 else 0
  let n := digitsLen (cs.drop sign)
  if n = 0 then none
  else
    let afterInt := cs.drop (sign + n)
    match afterInt with
    | ']' :: _ => some (cs.take (sign + n), sign + n + 1)
    | '.' :: fr =>
      let m := digitsLen fr
      if m = 0 then none
      else
        match fr.drop m with
        | ']' :: _ => some (cs.take (sign + n + 1 + m), sign + n + 1 + m + 1)
        | _ => none
    | _ => none

/-- The replacement of `reEscapeChar = /\\(\\)?/g` by `$1`: a doubled backslash
becomes one, a single backslash is dropped. -/
def unescape : List Char → List Char
  | [] => []
  | [c] => if c = '\\' then [] else [c]
  | c :: d :: ds =>
    if c = '\\' then (if d = '\\' then '\\' :: unescape ds else unescape (d :: ds))
    else c :: unescape (d :: ds)

/-- The alternative `\[(["'])(...)\2\]` of `rePropName`, tried right after the `[`:
the unescaped key and the count of characters up to and including the `]`. -/
def bracketQuoted (cs : List Char) : Option (List Char × Nat) :=
  match cs with
  | q :: r =>
    if q = '"' ∨ q = '\'' then
      match quotedClose q r with
      | some n => some (unescape (r.take (n - 2)), n + 1)
      | none => none
    else none
  | [] => none

/-- The lookahead `(?=(?:\.|\[\])(?:\.|\[\]|$))` of `rePropName`: an empty key. -/
def emptyKeyAhead (cs : List Char) : Bool :=
  let next (r : List Char) : Bool :=
    match r with
    | [] => true
    | '.' :: _ => true
    | '[' :: ']' :: _ => true
    | _ => false
  match cs with
  | '.' :: r => next r
  | '[' :: ']' :: r => next r
  | _ => false

/-- The scan of `string.replace(rePropName, ...)` in `stringToPath`: `skip` counts
the characters of the current match that are still to be passed over. -/
def scanPath : List Char → Nat → List String
  | [], _ => []
  | _ :: cs, skip + 1 => scanPath cs skip
  | c :: cs, 0 =>
    if !isSpecial c then
      let run := cs.takeWhile (fun d => !isSpecial d)
      String.mk (c :: run) :: scanPath cs run.length
    else if c = '[' then
      match bracketNumber cs with
      | some (key, n) => String.mk key :: scanPath cs n
      | none =>
        match bracketQuoted cs with
        | some (key, n) => String.mk key :: scanPath cs n
        | none => if emptyKeyAhead (c :: cs) then "" :: scanPath cs 0 else scanPath cs 0
    else if emptyKeyAhead (c :: cs) then "" :: scanPath cs 0 else scanPath cs 0

/-- Modelled from the spec: `stringToPath(string)` of lodash (imported, not under
`src/`): the keys of a path string such as `a[0].b`; a leading `.` gives an empty
first key. -/
def stringToPath (s : String) : List String :=
  (if s.toList.head? = some '.' then [""] else []) ++ scanPath s.toList 0

/-- Modelled from the spec: `castPath(value, object)` of lodash (imported, not under
`src/`) for a string path. -/
def castPath (value : String) (object : JSVal) : List String :=
  if isKey value object then [value] else stringToPath value

/-- The test `reIsUint = /^(?:0|[1-9]\d*)$/`, with the number read. -/
def parseUint (cs : List Char) : Option Nat :=
  match cs with
  | [] => none
  | c :: rest =>
    if (c :: rest).all Char.isDigit && (c ≠ '0' || rest = []) then
      some ((c :: rest).foldl (fun n d => 10 * n + (d.toNat - '0'.toNat)) 0)
    else none

/-- Modelled from the spec: `isIndex(value)` of lodash (imported, not under `src/`)
for a string key: an unsigned integer below `MAX_SAFE_INTEGER`. -/
def isIndex (key : String) : Bool :=
  match parseUint key.toList with
  | some n => decide (n < 9007199254740991)
  | none => false

/-- The array index a string key denotes, if it is one (below `2^32 - 1`). -/
def arrayIndex? (key : String) : Option Nat :=
  match parseUint key.toList with
  | some n => if n < 4294967295 then some n else none
  | none => none

/-- The keys `baseSet` refuses to write through. -/
def isForbiddenKey (key : String) : Bool :=
  key = "__proto__" || key = "constructor" || key = "prototype"

/-- Array element assignment `xs[i] = v`; the holes a write past the end leaves
are `undefined`. -/
def setAt (xs : List JSVal) (i : Nat) (v : JSVal) : List JSVal :=
  if i < xs.length then xs.set i v
  else xs ++ List.replicate (i - xs.length) JSVal.undefined ++ [v]

/-- Property read `o[key]` on a value that is neither `null` nor `undefined`. -/
def getProp (o : JSVal) (key : String) : JSVal :=
  match o with
  | .obj kvs => Props.get kvs key
  | .arr xs =>
    if key = "length" then .num xs.length
    else
      match arrayIndex? key with
      | some i => xs.getD i .undefined
      | none => .undefined
  | .str s =>
    if key = "length" then .num s.length
    else
      match arrayIndex? key with
      | some i => (match s.toList[i]? with
                   | some c => .str (String.mk [c])
                   | none => .undefined)
      | none => .undefined
  | _ => .undefined

/-- Modelled from the spec: `assignValue(object, key, value)` of lodash (imported,
not under `src/`).  A key of an array that is not an index would become an extra
property of the array, which `JSVal` cannot hold: the array is left as it is. -/
def assignValue (object : JSVal) (key : String) (value : JSVal) : JSVal :=
  match object with
  | .obj kvs => .obj (Obj.set kvs key value)
  | .arr xs =>
    (match arrayIndex? key with
     | some i => .arr (setAt xs i value)
     | none => .arr xs)
  | other => other

/-- The loop of `baseSet(object, path, value)` from the container `nested` on: a
missing or primitive step becomes `[]` when the next key is an index and `{}`
otherwise; a forbidden key stops the walk. -/
def baseSetPath : List String → JSVal → JSVal → JSVal
  | [], nested, _ => nested
  | [key], nested, value =>
    if isForbiddenKey key then nested else assignValue nested key value
  | key :: next :: rest, nested, value =>
    if isForbiddenKey key then nested
    else
      let objValue := getProp nested key
      let newValue :=
        if objValue.isObject then objValue
        else if isIndex next then JSVal.arr [] else JSVal.obj []
      assignValue nested key (baseSetPath (next :: rest) newValue value)

/-- Modelled from the spec: `set(object, path, value)` of lodash (imported, not under
`src/`): "setting a value into a tree along its path segments". -/
def set (object : JSVal) (path : String) (value : JSVal) : JSVal :=
  if object.isObject then baseSetPath (castPath path object) object value else object

/-- The loop of `baseGet(object, path)`. -/
def baseGetPath : List String → JSVal → JSVal
  | [], object => object
  | key :: rest, object =>
    match object with
    | .undefined => .undefined
    | .null => .undefined
    | o => baseGetPath rest (getProp o key)

/-- Modelled from the spec: `get(object, path)` of lodash (imported, not under
`src/`): the value found along the path, `undefined` when a step is missing. -/
def get (object : JSVal) (path : String) : JSVal :=
  match object with
  | .undefined => .undefined
  | .null => .undefined
  | o =>
    match castPath path o with
    | [] => .undefined
    | keys => baseGetPath keys o

end Lodash

/-- The assembly `names.reduce((acc, name) => set(acc, name, flat[name]), {})` used by
`getNestedFields` and `getAllValues`, on the entries of a flat object. -/
def unflatten (flat : Props) : JSVal :=
  flat.foldl (fun acc kv => Lodash.set acc kv.1 kv.2) (.obj [])

/-! ## `utils.js`: rules and triggers -/

/-- A `trigger` as a caller writes it: one action name or a list of them. -/
inductive TriggerSpec where
  | one (action : String) : TriggerSpec
  | many (actions : List String) : TriggerSpec
  deriving Repr, DecidableEq

/-- An entry of the `validate` option as a caller writes it. -/
structure ValidateOption where
  trigger : Option TriggerSpec := none
  rules : Option (List JSVal) := none
  deriving Repr, DecidableEq

/-- An entry of a field's normalized `validate` list: `trigger` is a list of action
names, `rules` is absent when the entry has none.  A rule is an opaque value. -/
structure ValidateItem where
  trigger : List String
  rules : Option (List JSVal) := none
  deriving Repr, DecidableEq

/-- The unification `item.trigger || []`, then a string becomes a one-element list. -/
def normalizeTrigger : Option TriggerSpec → List String
  | none => []
  | some (.one action) => if action = "" then [] else [action]
  | some (.many actions) => actions

/-- `normalizeValidateRules(validate, rules, validateTrigger)` of `utils.js`. -/
def normalizeValidateRules (validate : List ValidateOption) (rules : Option (List JSVal))
    (validateTrigger : Option TriggerSpec) : List ValidateItem :=
  let validateRules : List ValidateItem :=
    validate.map (fun item => { trigger := normalizeTrigger item.trigger, rules := item.rules })
  match rules with
  | some rs => validateRules ++ [{ trigger := normalizeTrigger validateTrigger, rules := some rs }]
  | none => validateRules

/-- The test `!!item.rules && item.rules.length` of an entry. -/
def ValidateItem.hasRules (item : ValidateItem) : Bool :=
  match item.rules with
  | some rs => !rs.isEmpty
  | none => false

/-- `getValidateTriggers(validateRules)` of `utils.js`. -/
def getValidateTriggers (validateRules : List ValidateItem) : List String :=
  ((validateRules.filter (fun item => item.hasRules)).map (fun item => item.trigger)).foldl
    (fun pre curr => pre ++ curr) []

/-- `hasRules(validate)` of `utils.js`; `validate` is absent on a field that was
never registered. -/
def hasRules (validate : Option (List ValidateItem)) : Bool :=
  match validate with
  | some items => items.any (fun item => item.hasRules)
  | none => false

/-- `getValueFromEvent(e)` of `utils.js`. -/
def getValueFromEvent (e : JSVal) : JSVal :=
  if !e.truthy then e
  else
    match e with
    | .obj kvs =>
      let target := Props.get kvs "target"
      if !target.truthy then e
      else
        match target with
        | .obj t => if Props.get t "type" = .str "checkbox" then Props.get t "checked"
                    else Props.get t "value"
        | _ => .undefined
    | _ => e

/-- `isEmptyObject(obj)` of `utils.js` on an object or array. -/
def isEmptyObject : JSVal → Bool
  | .obj kvs => kvs.isEmpty
  | .arr xs => xs.isEmpty
  | _ => true

/-- `startsWith(str, prefix)` of `utils.js`: `str.lastIndexOf(prefix, 0) === 0`. -/
def startsWith (str pre : String) : Bool := pre.toList.isPrefixOf str.toList

/-! ## `createFieldsStore.js` -/

/-- The test `partOf(a, b)`: `b` starts with `a` and goes on with `.` or `[`. -/
def partOf (a b : String) : Bool :=
  a.toList.isPrefixOf b.toList &&
    (b.toList[a.length]? = some '.' || b.toList[a.length]? = some '[')

/-- A field record: a JavaScript object with the members `name`, `value`,
`errors`, `touched`, `dirty`, `validating`, each of which may be absent. -/
abbrev Field := Props

/-- The metadata of a field; a member that is `none` is absent from the object. -/
structure FieldMeta where
  name : Option String := none
  trigger : Option String := none
  valuePropName : Option String := none
  validate : Option (List ValidateItem) := none
  rules : Option (List JSVal) := none
  validateTrigger : Option TriggerSpec := none
  initialValue : Option JSVal := none
  normalize : Option (JSVal → JSVal → JSVal → JSVal) := none
  hidden : Option Bool := none
  validateFirst : Option Bool := none
  getValueFromEvent : Option (List JSVal → JSVal) := none
  getValueProps : Option (JSVal → Props) := none

/-- The state of a `FieldsStore`: `fields` and `fieldsMeta`, both keyed by the flat
field name. -/
structure FieldsStore where
  fields : List (String × Field) := []
  fieldsMeta : List (String × FieldMeta) := []

namespace FieldsStore

/-- `setFieldMeta(name, meta)`. -/
def setFieldMeta (s : FieldsStore) (name : String) (m : FieldMeta) : FieldsStore :=
  { s with fieldsMeta := Obj.set s.fieldsMeta name m }

/-- The metadata `this.fieldsMeta[name] || {}` that `getFieldMeta` returns. -/
def metaOf (s : FieldsStore) (name : String) : FieldMeta :=
  (Obj.get? s.fieldsMeta name).getD {}

/-- `getFieldMeta(name)`: the metadata, and the store in which `fieldsMeta[name]`
has been assigned (a name never seen gets the empty metadata). -/
def getFieldMeta (s : FieldsStore) (name : String) : FieldMeta × FieldsStore :=
  (s.metaOf name, { s with fieldsMeta := Obj.set s.fieldsMeta name (s.metaOf name) })

/-- `getValueFromFields(name, fields)`. -/
def getValueFromFields (s : FieldsStore) (name : String) (fields : List (String × Field)) :
    JSVal × FieldsStore :=
  match Obj.get? fields name with
  | some field =>
    if Obj.has field "value" then (Props.get field "value", s)
    else ((s.getFieldMeta name).1.initialValue.getD .undefined, (s.getFieldMeta name).2)
  | none => ((s.getFieldMeta name).1.initialValue.getD .undefined, (s.getFieldMeta name).2)

/-- `getAllFieldsName()`. -/
def getAllFieldsName (s : FieldsStore) : List String := Obj.keys s.fieldsMeta

/-- `getValidFieldsName()`: the names whose metadata is not `hidden`.  The
`getFieldMeta` it calls is on keys of `fieldsMeta`, which leaves the store as it is. -/
def getValidFieldsName (s : FieldsStore) : List String :=
  (Obj.keys s.fieldsMeta).filter (fun name => !((s.metaOf name).hidden.getD false))

/-- `getValidFieldsFullName(maybePartialName)` for a list of names. -/
def getValidFieldsFullName (s : FieldsStore) (maybePartialNames : List String) : List String :=
  s.getValidFieldsName.filter (fun fullName =>
    maybePartialNames.any (fun partialName =>
      fullName = partialName ||
        (startsWith fullName partialName &&
          (fullName.toList[partialName.length]? = some '.' ||
            fullName.toList[partialName.length]? = some '['))))

/-- `getField(name)`: `{ ...this.fields[name], name }`. -/
def getField (s : FieldsStore) (name : String) : Field :=
  Obj.set ((Obj.get? s.fields name).getD []) "name" (.str name)

/-- `getFieldMember(name, member)`. -/
def getFieldMember (s : FieldsStore) (name member : String) : JSVal :=
  Props.get (s.getField name) member

/-- The values `nowValues` that `setFields` collects: for every key of `fieldsMeta`
its value in `nowFields`, else its `initialValue`. -/
def nowValues (s : FieldsStore) (nowFields : List (String × Field)) : Props :=
  (Obj.keys s.fieldsMeta).foldl
    (fun acc f => Obj.set acc f (s.getValueFromFields f nowFields).1) []

/-- `setFields(fields)`: the new records replace the old ones name by name, then
every field with a `normalize` function has its value recomputed.  Every
`getFieldMeta` of the loop is on a key of `fieldsMeta`. -/
def setFields (s : FieldsStore) (fields : List (String × Field)) : FieldsStore :=
  let nowFields := Obj.spread s.fields fields
  let values := s.nowValues nowFields
  let normalized := values.foldl
    (fun (acc : List (String × Field)) (fv : String × JSVal) =>
      match (s.metaOf fv.1).normalize with
      | some normalize =>
        let nowValue := normalize fv.2 (s.getValueFromFields fv.1 s.fields).1 (.obj values)
        if nowValue ≠ fv.2 then
          Obj.set acc fv.1 (Obj.set ((Obj.get? acc fv.1).getD []) "value" nowValue)
        else acc
      | none => acc)
    nowFields
  { s with fields := normalized }

/-- `resetFields(ns)`: the names to reset, each with the empty record. -/
def resetFields (s : FieldsStore) (ns : Option (List String)) : List (String × Field) :=
  let names :=
    match ns with
    | some l => s.getValidFieldsFullName l
    | none => s.getAllFieldsName
  names.foldl
    (fun acc name =>
      match Obj.get? s.fields name with
      | some field => if Obj.has field "value" then Obj.set acc name [] else acc
      | none => acc)
    []

/-- The loop `names.reduce((acc, f) => set(acc, f, getter(f)), init)` with a getter
that may assign metadata. -/
def reduceSet (getter : FieldsStore → String → JSVal × FieldsStore)
    (key : String → String) :
    List String → JSVal → FieldsStore → JSVal × FieldsStore
  | [], acc, s => (acc, s)
  | f :: rest, acc, s =>
    reduceSet getter key rest (Lodash.set acc (key f) (getter s f).1) (getter s f).2

/-- `getNestedFields(names, getter)`. -/
def getNestedFields (s : FieldsStore) (names : Option (List String))
    (getter : FieldsStore → String → JSVal × FieldsStore) : JSVal × FieldsStore :=
  reduceSet getter id (names.getD s.getValidFieldsName) (.obj []) s

/-- `getNestedField(name, getter)`: the getter's value for a full name, else the
nested values of the fields under `name`. -/
def getNestedField (s : FieldsStore) (name : String)
    (getter : FieldsStore → String → JSVal × FieldsStore) : JSVal × FieldsStore :=
  let fullNames := s.getValidFieldsFullName [name]
  if fullNames.length = 0 ∨ (fullNames.length = 1 ∧ fullNames.head? = some name) then
    getter s name
  else
    let isArrayValue : Bool :=
      (fullNames.head?.bind (fun n => n.toList[name.length]?)) = some '['
    let suffixNameStartIndex := if isArrayValue then name.length else name.length + 1
    reduceSet getter (fun fullName => String.mk (fullName.toList.drop suffixNameStartIndex))
      fullNames (if isArrayValue then .arr [] else .obj []) s

/-- `getFieldValue(name)`. -/
def getFieldValue (s : FieldsStore) (name : String) : JSVal × FieldsStore :=
  s.getNestedField name (fun st fullName => st.getValueFromFields fullName s.fields)

/-- `getFieldsValue(names)`. -/
def getFieldsValue (s : FieldsStore) (names : Option (List String)) : JSVal × FieldsStore :=
  s.getNestedFields names (fun st name => st.getFieldValue name)

/-- `getAllValues()`. -/
def getAllValues (s : FieldsStore) : JSVal × FieldsStore :=
  reduceSet (fun st name => st.getValueFromFields name s.fields) id
    (Obj.keys s.fieldsMeta) (.obj []) s

/-- `isValidNestedFieldName(name)`. -/
def isValidNestedFieldName (s : FieldsStore) (name : String) : Bool :=
  s.getAllFieldsName.all (fun n => !partOf n name && !partOf name n)

/-- `clearField(name)`. -/
def clearField (s : FieldsStore) (name : String) : FieldsStore :=
  { fields := Obj.del s.fields name, fieldsMeta := Obj.del s.fieldsMeta name }

/-- `flattenRegisteredFields(fields)`. -/
def flattenRegisteredFields (s : FieldsStore) (fields : JSVal) : Except String (Trav Props) :=
  flattenFields fields (fun path _ => decide (path ∈ s.getAllFieldsName))
    "You cannot set field before registering it."

end FieldsStore

/-! ## `createBaseForm.js`: the store-facing methods of the form -/

/-- The options a caller gives to `getFieldProps` (`usersFieldOption`); a member
that is `none` is not supplied. -/
structure FieldOption where
  trigger : Option String := none
  valuePropName : Option String := none
  validate : Option (List ValidateOption) := none
  rules : Option (List JSVal) := none
  validateTrigger : Option TriggerSpec := none
  initialValue : Option JSVal := none
  normalize : Option (JSVal → JSVal → JSVal → JSVal) := none
  hidden : Option Bool := none
  validateFirst : Option Bool := none
  getValueFromEvent : Option (List JSVal → JSVal) := none
  getValueProps : Option (JSVal → Props) := none
  exclusive : Bool := false

/-- The state of the form component that its methods read and write: the store,
the cache of cleared fields, and what went to `console.error` (the output of
`treeTraverse` and, outside production, of `warning`). -/
structure Form where
  fieldsStore : FieldsStore := {}
  clearedFieldMetaCache : List (String × (Field × FieldMeta)) := []
  production : Bool := false
  console : List String := []

/-- An error the external validator reports: `{ message, field }`. -/
structure ValidateError where
  field : String
  message : String
  deriving Repr, DecidableEq

/-- The error object as a value. -/
def ValidateError.toJS (e : ValidateError) : JSVal :=
  .obj [("message", .str e.message), ("field", .str e.field)]

/-- A value on which `'value' in field` raises a `TypeError` when
`getValueFromFields` tests `field && 'value' in field`: it is truthy, so that the
test reaches the `in`, and it is not an object (a boolean `true`, a number other
than 0, a string other than `''`). -/
def raisesOnIn (v : JSVal) : Bool := v.truthy && !v.isObject

/-- The record a leaf of `flattenRegisteredFields` is read as, once it has passed
the test of `raisesOnIn`: an object gives its members, an array its elements under
their indices; `undefined`, `null`, `false`, `0` and `''` are stored as they are
and read like a record without members by `getField`, `getValueFromFields` and
`resetFields` (`field && ...` is false on them and `{ ...field }` has no member). -/
def asField : JSVal → Field
  | .obj kvs => kvs
  | .arr xs => xs.enum.map (fun ix => (toString ix.1, ix.2))
  | _ => []

/-- The member `field.name` of a record of a batch, a string. -/
def fieldName (field : Field) : String :=
  match Props.get field "name" with
  | .str s => s
  | _ => "undefined"

/-- `getRules(fieldMeta, action)`: reading `validate` of a metadata that has none
raises a `TypeError`; an entry without `rules` contributes `undefined`. -/
def getRules (fieldMeta : FieldMeta) (action : Option String) : Except String (List JSVal) :=
  match fieldMeta.validate with
  | none => .error "TypeError: Cannot read property 'filter' of undefined"
  | some validate =>
    .ok (((validate.filter (fun item =>
        match action with
        | none => true
        | some a => a = "" || item.trigger.contains a)).map
      (fun item => item.rules.getD [JSVal.undefined])).flatten)

/-- The arguments the completion callback of a validation pass receives. -/
structure CallbackArgs where
  errors : JSVal
  values : JSVal
  deriving Repr, DecidableEq

/-- What a validation pass hands to the external validator and keeps for its
completion: the rules and the snapshotted values by field name, the errors kept
from the fields it skipped, the requested names, and whether there is a callback. -/
structure PendingPass where
  allRules : List (String × List JSVal)
  allValues : Props
  alreadyErrors : JSVal
  fieldNames : Option (List String)
  hasCallback : Bool
  deriving Repr, DecidableEq

/-- The state of the `fields.forEach` loop of `validateFieldsInternal`. -/
structure Selection where
  store : FieldsStore
  allRules : List (String × List JSVal) := []
  allValues : Props := []
  allFields : List (String × Field) := []
  alreadyErrors : JSVal := .obj []

/-- One turn of the `fields.forEach` loop of `validateFieldsInternal`. -/
def selectField (force : Bool) (action : Option String) (sel : Selection) (field : Field) :
    Except String Selection :=
  let name := fieldName field
  if !force && Props.get field "dirty" = .bool false then
    if (Props.get field "errors").truthy then
      .ok { sel with
        alreadyErrors :=
          Lodash.set sel.alreadyErrors name (.obj [("errors", Props.get field "errors")]) }
    else .ok sel
  else
    let fieldMeta := (sel.store.getFieldMeta name).1
    let newField :=
      Obj.set (Obj.set (Obj.set field "errors" .undefined) "validating" (.bool true))
        "dirty" (.bool true)
    match getRules fieldMeta action with
    | .error e => .error e
    | .ok rules =>
      .ok { store := (sel.store.getFieldMeta name).2
            allRules := Obj.set sel.allRules name rules
            allValues := Obj.set sel.allValues name (Props.get newField "value")
            allFields := Obj.set sel.allFields name newField
            alreadyErrors := sel.alreadyErrors }

/-- The whole `fields.forEach` loop of `validateFieldsInternal`. -/
def selectFields (force : Bool) (action : Option String) :
    Selection → List Field → Except String Selection
  | sel, [] => .ok sel
  | sel, field :: rest =>
    match selectField force action sel field with
    | .ok sel1 => selectFields force action sel1 rest
    | .error e => .error e

/-- The loop `Object.keys(allValues).forEach((f) => allValues[f] = getFieldValue(f))`. -/
def refreshValues : List String → Props → FieldsStore → Props × FieldsStore
  | [], allValues, s => (allValues, s)
  | f :: rest, allValues, s =>
    refreshValues rest (Obj.set allValues f (s.getFieldValue f).1) (s.getFieldValue f).2

/-- How the synchronous part of a validation pass ends: either the callback has
been called at once (nothing was selected), or the validator has been invoked. -/
inductive PassResult where
  | finished (form : Form) (called : CallbackArgs) : PassResult
  | dispatched (form : Form) (pass : PendingPass) : PassResult

namespace Form

/-- `setFields(maybeNestedFields)` of the form: flatten by registered names, then
`fieldsStore.setFields`.  Every flat name is a key of `fieldsMeta`, so the loop of
`fieldsStore.setFields` over `Object.keys(fieldsMeta)` calls `getValueFromFields`
on each of them, and `'value' in field` raises a `TypeError` when the value given
for one of them is a truthy primitive; the store is then left as it was. -/
def setFields (fm : Form) (maybeNestedFields : JSVal) : Except String Form :=
  match fm.fieldsStore.flattenRegisteredFields maybeNestedFields with
  | .error e => .error e
  | .ok t =>
    if t.acc.any (fun kv => raisesOnIn kv.2) then
      .error "TypeError: Cannot use 'in' operator to search for 'value'"
    else
      .ok { fm with
        fieldsStore := fm.fieldsStore.setFields (t.acc.map (fun kv => (kv.1, asField kv.2)))
        console := fm.console ++ t.log }

/-- `onCollectCommon(name, action, args)`: the record to store and the metadata. -/
def onCollectCommon (fm : Form) (name _action : String) (args : List JSVal) :
    (Field × FieldMeta) × Form :=
  let fieldMeta := (fm.fieldsStore.getFieldMeta name).1
  let store1 := (fm.fieldsStore.getFieldMeta name).2
  let value :=
    match fieldMeta.getValueFromEvent with
    | some extract => extract args
    | none => getValueFromEvent (args.headD .undefined)
  let field := store1.getField name
  ((Obj.set (Obj.set field "value" value) "touched" (.bool true), fieldMeta),
    { fm with fieldsStore := store1 })

/-- `onCollect(name, action, ...args)`. -/
def onCollect (fm : Form) (name action : String) (args : List JSVal) : Except String Form :=
  let r := fm.onCollectCommon name action args
  let newField := Obj.set r.1.1 "dirty" (.bool (hasRules r.1.2.validate))
  r.2.setFields (.obj [(name, .obj newField)])

/-- `getFieldProps(name, usersFieldOption)`, its effect on the form: an empty name
is refused; the two `warning` calls only write to the console outside production.
The input props it returns are not part of the state. -/
def getFieldProps (fm : Form) (name : String) (usersFieldOption : FieldOption) :
    Except String Form :=
  if name = "" then .error "Must call `getFieldProps` with valid name string!"
  else
    let warnings : List String :=
      if fm.production then []
      else
        (if fm.fieldsStore.isValidNestedFieldName name then []
         else ["One field name cannot be part of another, e.g. `a` and `a.b`."]) ++
        (if usersFieldOption.exclusive then
           ["`option.exclusive` of `getFieldProps`|`getFieldDecorator` had been remove."]
         else [])
    let trigger := usersFieldOption.trigger.getD "onChange"
    let validateTrigger := usersFieldOption.validateTrigger.getD (.one trigger)
    let validate := usersFieldOption.validate.getD []
    let old := (fm.fieldsStore.getFieldMeta name).1
    let store1 := (fm.fieldsStore.getFieldMeta name).2
    let validateRules :=
      normalizeValidateRules validate usersFieldOption.rules (some validateTrigger)
    let newMeta : FieldMeta :=
      { name := some name
        trigger := some trigger
        valuePropName := some (usersFieldOption.valuePropName.getD "value")
        validate := some validateRules
        rules := usersFieldOption.rules <|> old.rules
        validateTrigger := usersFieldOption.validateTrigger <|> old.validateTrigger
        initialValue := usersFieldOption.initialValue <|> old.initialValue
        normalize := usersFieldOption.normalize <|> old.normalize
        hidden := usersFieldOption.hidden <|> old.hidden
        validateFirst := usersFieldOption.validateFirst <|> old.validateFirst
        getValueFromEvent := usersFieldOption.getValueFromEvent <|> old.getValueFromEvent
        getValueProps := usersFieldOption.getValueProps <|> old.getValueProps }
    .ok { fm with
      fieldsStore := store1.setFieldMeta name newMeta
      clearedFieldMetaCache := Obj.del fm.clearedFieldMetaCache name
      console := fm.console ++ warnings }

/-- `validateFieldsInternal(fields, { fieldNames, action, options }, callback)` up to
the call of the validator: `force` is `options.force === true`. -/
def validateFieldsInternal (fm : Form) (fields : List Field) (fieldNames : Option (List String))
    (action : Option String) (force : Bool) (hasCallback : Bool) : Except String PassResult :=
  match selectFields force action { store := fm.fieldsStore } fields with
  | .error e => .error e
  | .ok sel =>
    match
      ({ fm with fieldsStore := sel.store } : Form).setFields
        (.obj (sel.allFields.map (fun kv => (kv.1, JSVal.obj kv.2)))) with
    | .error e => .error e
    | .ok fm1 =>
      let refreshed := refreshValues (Obj.keys sel.allValues) sel.allValues fm1.fieldsStore
      if hasCallback && sel.allFields.isEmpty then
        let vals := refreshed.2.getFieldsValue fieldNames
        .ok (.finished { fm1 with fieldsStore := vals.2 }
          { errors := if isEmptyObject sel.alreadyErrors then .null else sel.alreadyErrors
            values := vals.1 })
      else
        .ok (.dispatched { fm1 with fieldsStore := refreshed.2 }
          { allRules := sel.allRules
            allValues := refreshed.1
            alreadyErrors := sel.alreadyErrors
            fieldNames := fieldNames
            hasCallback := hasCallback })

end Form

/-- The in-place change of the value that `baseGetPath` finds along `path`. -/
def mutateAt : List String → JSVal → JSVal → JSVal
  | [], _, new => new
  | key :: rest, o, new => Lodash.assignValue o key (mutateAt rest (Lodash.getProp o key) new)

/-- One turn of `errors.forEach` in the validator callback: make room for the
field's entry when there is none, then push the error on its `errors` list (a
`TypeError` when that is not an array). -/
def groupError (errorsGroup : JSVal) (e : ValidateError) : Except String JSVal :=
  let field := Lodash.get errorsGroup e.field
  let grouped :=
    match field with
    | .obj _ => errorsGroup
    | .null => errorsGroup
    | _ => Lodash.set errorsGroup e.field (.obj [("errors", .arr [])])
  match Lodash.get grouped (e.field ++ ".errors") with
  | .arr fieldErrors =>
    .ok (mutateAt (Lodash.castPath (e.field ++ ".errors") grouped) grouped
      (.arr (fieldErrors ++ [e.toJS])))
  | _ => .error "TypeError: Cannot read property 'push' of undefined"

/-- The whole `errors.forEach` loop of the validator callback. -/
def groupErrors : JSVal → List ValidateError → Except String JSVal
  | errorsGroup, [] => .ok errorsGroup
  | errorsGroup, e :: rest =>
    match groupError errorsGroup e with
    | .ok g => groupErrors g rest
    | .error err => .error err

/-- The state of the `Object.keys(allRules).forEach` loop of the validator
callback: the names found expired and the records to commit. -/
structure Reconciled where
  expired : List String := []
  nowAllFields : List (String × Field) := []
  deriving Repr, DecidableEq

/-- The test `a !== b` of JavaScript.  Booleans, numbers, strings, `null` and
`undefined` differ when they are not equal.  An array or an object differs from
every value but itself, and two arrays or objects with equal contents need not be
one and the same: `same` tells whether they are, and is read only when `a` and `b`
are equal arrays or objects. -/
def strictNe (same : Bool) (a b : JSVal) : Bool :=
  decide (a ≠ b) || (a.isObject && !same)

/-- One turn of the `Object.keys(allRules).forEach` loop of the validator callback.
`same name` tells whether the value the record of `name` holds now is the very
array or object the pass snapshotted, for the test `nowField.value !==
allValues[name]`. -/
def reconcileField (same : String → Bool) (store : FieldsStore) (allValues : Props)
    (errorsGroup : JSVal) (acc : Reconciled) (name : String) : Reconciled :=
  let fieldErrors := Lodash.get errorsGroup name
  let nowField := store.getField name
  if strictNe (same name) (Props.get nowField "value") (Props.get allValues name) then
    { acc with expired := acc.expired ++ [name] }
  else
    let errors := if fieldErrors.truthy then Lodash.getProp fieldErrors "errors" else fieldErrors
    let committed :=
      Obj.set (Obj.set (Obj.set (Obj.set nowField "errors" errors)
        "value" (Props.get allValues name)) "validating" (.bool false)) "dirty" (.bool false)
    { acc with nowAllFields := Obj.set acc.nowAllFields name committed }

/-- The entry the callback gets for an expired field. -/
def expiredEntry (name : String) : JSVal :=
  .obj [("expired", .bool true),
    ("errors", .arr [.obj [("message", .str (name ++ " need to revalidate")),
      ("field", .str name)]])]

/-- The completion of a validation pass: the callback given to
`validator.validate`, run on the form as it is when the validator completes, with
the errors it reports (`none` when it reports no list).  It returns the form and
what the caller's callback receives.  For a field whose value is an array or an
object, `same name` tells whether the record still holds the very array or object
the pass snapshotted (an equal copy written in the meantime is another one). -/
def Form.validateCallback (fm : Form) (pass : PendingPass) (errors : Option (List ValidateError))
    (same : String → Bool) : Except String (Form × Option CallbackArgs) :=
  match groupErrors pass.alreadyErrors (errors.getD []) with
  | .error e => .error e
  | .ok errorsGroup =>
    let rec0 : Reconciled := {}
    let r := (Obj.keys pass.allRules).foldl
      (reconcileField same fm.fieldsStore pass.allValues errorsGroup) rec0
    match fm.setFields (.obj (r.nowAllFields.map (fun kv => (kv.1, JSVal.obj kv.2)))) with
    | .error e => .error e
    | .ok fm1 =>
      if pass.hasCallback then
        let reported := r.expired.foldl
          (fun g name => Lodash.set g name (expiredEntry name)) errorsGroup
        let vals := fm1.fieldsStore.getFieldsValue pass.fieldNames
        .ok ({ fm1 with fieldsStore := vals.2 },
          some { errors := if isEmptyObject reported then .null else reported
                 values := vals.1 })
      else .ok (fm1, none)

/-- The form as the synchronous part of a validation pass leaves it. -/
def PassResult.form : PassResult → Form
  | .finished form _ => form
  | .dispatched form _ => form

/-- The rules a validation pass hands to the validator, by field name (none when
the pass finished at once). -/
def PassResult.dispatchedRules : PassResult → List (String × List JSVal)
  | .finished _ _ => []
  | .dispatched _ pass => pass.allRules

/-- The values a validation pass hands to the validator, by field name (none when
the pass finished at once). -/
def PassResult.dispatchedValues : PassResult → Props
  | .finished _ _ => []
  | .dispatched _ pass => pass.allValues

/-- Is a record of a batch selected for validation: the pass is forced, or the
record's `dirty` is not `false`. -/
def isSelected (force : Bool) (field : Field) : Bool :=
  force || !decide (Props.get field "dirty" = .bool false)

/-- The record `newField` that the selection stores for a selected record. -/
def markValidating (field : Field) : Field :=
  Obj.set (Obj.set (Obj.set field "errors" .undefined) "validating" (.bool true))
    "dirty" (.bool true)

/-- The rules `getRules` gives for a metadata, none when it raises. -/
def rulesFor (fieldMeta : FieldMeta) (action : Option String) : List JSVal :=
  match getRules fieldMeta action with
  | .ok rules => rules
  | .error _ => []

/-! ## Concrete forms for the instances below -/

/-- An error entry as a record carries it. -/
def Demo.errorE : JSVal := .obj [("message", .str "x is required"), ("field", .str "x")]

/-- The metadata of a registered field with one rule that fires on `onChange`. -/
def Demo.ruled : FieldMeta :=
  { name := none, trigger := some "onChange", valuePropName := some "value",
    validate := some [{ trigger := ["onChange"], rules := some [.str "required"] }] }

/-- A store with the fields `x` (clean, with a last error) and `y` (dirty). -/
def Demo.store : FieldsStore :=
  { fields :=
      [("x", [("value", .num 1), ("errors", .arr [Demo.errorE]), ("dirty", .bool false)]),
       ("y", [("value", .num 2), ("dirty", .bool true)])],
    fieldsMeta := [("x", Demo.ruled), ("y", Demo.ruled)] }

/-- The record of `x` as `validateFields` puts it in a batch. -/
def Demo.x : Field :=
  [("value", .num 1), ("errors", .arr [Demo.errorE]), ("dirty", .bool false), ("name", .str "x")]

/-- The batch `validateFields` builds from `Demo.store` for `x` and `y`. -/
def Demo.batch : List Field :=
  [Demo.x, [("value", .num 2), ("dirty", .bool true), ("name", .str "y")]]

/-- A `normalize` function that is not idempotent: it adds one to a number. -/
def Demo.bump (value _prev _all : JSVal) : JSVal :=
  match value with
  | .num n => .num (n + 1)
  | v => v

/-- The store `Demo.store` in which `x` has the `normalize` function `Demo.bump`. -/
def Demo.storeBump : FieldsStore :=
  { fields := Demo.store.fields,
    fieldsMeta := [("x", { Demo.ruled with normalize := some Demo.bump }), ("y", Demo.ruled)] }

/-- Has the value of a field changed since the pass snapshotted it: the test
`nowField.value !== allValues[name]` of the validator callback, with `same name`
telling whether an array or object value is the very one that was snapshotted. -/
def isExpired (same : String → Bool) (store : FieldsStore) (allValues : Props)
    (name : String) : Bool :=
  strictNe (same name) (Props.get (store.getField name) "value") (Props.get allValues name)

/-- The record the validator callback commits for a field that is not expired. -/
def committedField (store : FieldsStore) (allValues : Props) (errorsGroup : JSVal)
    (name : String) : Field :=
  Obj.set (Obj.set (Obj.set (Obj.set (store.getField name) "errors"
    (if (Lodash.get errorsGroup name).truthy then
      Lodash.getProp (Lodash.get errorsGroup name) "errors"
     else Lodash.get errorsGroup name))
    "value" (Props.get allValues name)) "validating" (.bool false)) "dirty" (.bool false)

/-- A store with the one field `f`, dirty, holding the value 1. -/
def Demo.storeF : FieldsStore :=
  { fields := [("f", [("value", .num 1), ("dirty", .bool true)])],
    fieldsMeta := [("f", Demo.ruled)] }

/-- The batch of the record of `f` with the value 1. -/
def Demo.batchF : List Field := [[("value", .num 1), ("dirty", .bool true), ("name", .str "f")]]

/-- A change event whose target carries `value`. -/
def Demo.event (value : JSVal) : JSVal := .obj [("target", .obj [("value", value)])]

/-- The staleness scenario on a store: a pass over `f` is dispatched while `f`
holds 1, `onCollect` then sets `f` to 2, and the validator completes with an
error for `f`. -/
def Demo.staleRun (store : FieldsStore) : Except String (Form × Option CallbackArgs) :=
  match Form.validateFieldsInternal { fieldsStore := store } Demo.batchF (some ["f"]) none
      false true with
  | .ok (.dispatched fm1 pass) =>
    (match fm1.onCollect "f" "onChange" [Demo.event (.num 2)] with
     | .ok fm2 =>
       fm2.validateCallback pass (some [{ field := "f", message := "f is required" }])
         (fun _ => true)
     | .error e => .error e)
  | .ok (.finished _ _) => .error "the pass was not dispatched"
  | .error e => .error e

/-- A store whose one field `f` holds the array `[1]` and is being validated. -/
def Demo.storeList : FieldsStore :=
  { fields := [("f", [("value", .arr [.num 1]), ("validating", .bool true),
      ("dirty", .bool true)])],
    fieldsMeta := [("f", Demo.ruled)] }

/-- A pending pass over `f` that snapshotted the array `[1]`. -/
def Demo.passList : PendingPass :=
  { allRules := [("f", [])], allValues := [("f", .arr [.num 1])], alreadyErrors := .obj [],
    fieldNames := none, hasCallback := true }

/-- A store whose field `f` holds 1 and is being validated, in which the empty name
is registered as well. -/
def Demo.storeEmptyName : FieldsStore :=
  { fields := [("f", [("value", .num 1), ("validating", .bool true), ("dirty", .bool true)])],
    fieldsMeta := [("f", Demo.ruled), ("", {})] }

/-- A pending pass over `f` that snapshotted the value 1. -/
def Demo.passOne : PendingPass :=
  { allRules := [("f", [])], allValues := [("f", .num 1)], alreadyErrors := .obj [],
    fieldNames := none, hasCallback := true }

/-! ## Key paths: the conditions under which `set` and `get` act as a map -/

namespace Lodash

/-- The value a list of digits denotes, read from the accumulator `acc` on. -/
def digitsValue (cs : List Char) (acc : Nat) : Nat :=
  cs.foldl (fun n d => 10 * n + (d.toNat - '0'.toNat)) acc

/-- The keys `castPath` gives for a name on an object that has no key equal to the
name itself. -/
def keyPath (name : String) : List String := castPath name (.obj [])

/-- Can the container take a write under the key: an object takes any key, an
array the keys that are array indices. -/
def accepts (o : JSVal) (key : String) : Bool :=
  match o with
  | .obj _ => true
  | .arr _ => (arrayIndex? key).isSome
  | _ => false

/-- The path is clear in the value: every step of it that exists is a container
that takes the next key, and a step that does not exist is `undefined`. -/
def clearPath : List String → JSVal → Bool
  | [], _ => true
  | [key], o => accepts o key
  | key :: next :: rest, o =>
    accepts o key &&
      (decide (getProp o key = .undefined) || clearPath (next :: rest) (getProp o key))

/-- No key of the path is one `baseSet` refuses, and every key of it that lodash
takes for an index is an array index. -/
def plainKeys (path : List String) : Bool :=
  path.all (fun key => !isForbiddenKey key && (!isIndex key || (arrayIndex? key).isSome))

/-- The two paths part below a common container that one of them may create: the
first keys that differ are such that a container made for the second path (an
array when its key is an index) takes the key of the first. -/
def apartBelow : List String → List String → Bool
  | key :: p, key2 :: q =>
    if key = key2 then apartBelow p q else (!isIndex key2 || (arrayIndex? key).isSome)
  | _, _ => false

/-- The two paths part: neither is a prefix of the other, and below the root the
first keys that differ are compatible (`apartBelow`). -/
def apart : List String → List String → Bool
  | key :: p, key2 :: q => if key = key2 then apartBelow p q else true
  | _, _ => false

end Lodash

/-- The own keys of an object, none for any other value. -/
def topKeys : JSVal → List String
  | .obj kvs => Obj.keys kvs
  | _ => []

/-- The entry that the grouping of the validator's errors holds for a field with
the listed errors: nothing when there is none. -/
def entryOf (errors : List JSVal) : JSVal :=
  if errors.isEmpty then .undefined else .obj [("errors", .arr errors)]

/-- The errors of the list that name the field, as values, in order. -/
def errorsFor (errors : List ValidateError) (name : String) : List JSVal :=
  (errors.filter (fun e => decide (e.field = name))).map ValidateError.toJS

/-- The names address distinct places: each has a key path that is not empty,
holds no refused key, starts with a key without path syntax and is extended by
`errors` for `name.errors`; and the key paths of two different names part. -/
def namesApart (names : List String) : Bool :=
  names.all (fun n =>
    !(Lodash.keyPath n).isEmpty && Lodash.plainKeys (Lodash.keyPath n) &&
      !Lodash.reIsDeepProp ((Lodash.keyPath n).headD "").toList &&
      decide (Lodash.keyPath (n ++ ".errors") = Lodash.keyPath n ++ ["errors"]) &&
      names.all (fun m => decide (m = n) || Lodash.apart (Lodash.keyPath n) (Lodash.keyPath m)))

/-- The object holds nothing at the names: it is an object whose keys have no path
syntax, and the key path of each name is clear in it and leads to `undefined`. -/
def vacantAt (o : JSVal) (names : List String) : Bool :=
  (match o with
   | .obj _ => true
   | _ => false) &&
    (topKeys o).all (fun t => !Lodash.reIsDeepProp t.toList) &&
    names.all (fun n =>
      Lodash.clearPath (Lodash.keyPath n) o &&
        decide (Lodash.baseGetPath (Lodash.keyPath n) o = .undefined))

/-- The object groups the errors by name: it is an object whose keys have no path
syntax, and for every name the key path is clear in it and leads to the entry of
the errors `acc name`. -/
def Grouped (names : List String) (acc : String → List JSVal) (o : JSVal) : Prop :=
  (∃ kvs, o = .obj kvs) ∧ (∀ t ∈ topKeys o, Lodash.reIsDeepProp t.toList = false) ∧
    ∀ n ∈ names,
      Lodash.clearPath (Lodash.keyPath n) o = true ∧
        Lodash.baseGetPath (Lodash.keyPath n) o = entryOf (acc n)

/-- A store with the nested fields `user.name` (value `"al"`) and `list[0]` (value 3). -/
def Demo.storeNested : FieldsStore :=
  { fields := [("user.name", [("value", .str "al")]), ("list[0]", [("value", .num 3)])],
    fieldsMeta := [("user.name", Demo.ruled), ("list[0]", Demo.ruled)] }

/-- A pass over `user.name` and `list[0]` that snapshotted the values of
`Demo.storeNested`. -/
def Demo.passNested : PendingPass :=
  { allRules := [("user.name", [.str "required"]), ("list[0]", [.str "required"])],
    allValues := [("user.name", .str "al"), ("list[0]", .num 3)],
    alreadyErrors := .obj [],
    fieldNames := none,
    hasCallback := true }

/-- A pass over `f` that snapshotted `undefined` as its value. -/
def Demo.passUndefined : PendingPass :=
  { allRules := [("f", [.str "required"])],
    allValues := [("f", .undefined)],
    alreadyErrors := .obj [],
    fieldNames := none,
    hasCallback := true }

/-- A store whose field `f` holds the array `[1]`, marked by a pass. -/
def Demo.storeCopy : FieldsStore :=
  { fields := [("f", [("value", .arr [.num 1]), ("validating", .bool true),
      ("dirty", .bool true)])],
    fieldsMeta := [("f", Demo.ruled)] }

/-- A pass over `f` that snapshotted the array `[1]`. -/
def Demo.passCopy : PendingPass :=
  { allRules := [("f", [.str "required"])],
    allValues := [("f", .arr [.num 1])],
    alreadyErrors := .obj [],
    fieldNames := none,
    hasCallback := true }

/-- A store whose field `f` holds 1, marked by a pass, in which the empty name is
registered as well. -/
def Demo.storeBlank : FieldsStore :=
  { fields := [("f", [("value", .num 1), ("validating", .bool true), ("dirty", .bool true)])],
    fieldsMeta := [("f", Demo.ruled), ("", {})] }

/-- A pass over `f` that snapshotted the value 1. -/
def Demo.passBlank : PendingPass :=
  { allRules := [("f", [.str "required"])],
    allValues := [("f", .num 1)],
    alreadyErrors := .obj [],
    fieldNames := none,
    hasCallback := true }

/-- The value the last pair of the list with the key `n` carries, `dflt` when no
pair has that key. -/
def lastOf (l : List (String × JSVal)) (n : String) (dflt : JSVal) : JSVal :=
  l.foldl (fun acc kv => if kv.1 = n then kv.2 else acc) dflt

/-- The object holds the values `val` at the names: it is an object whose keys have
no path syntax, and for every name the key path is clear in it and leads to
`val name`. -/
def Placed (names : List String) (val : String → JSVal) (o : JSVal) : Prop :=
  (∃ kvs, o = .obj kvs) ∧ (∀ t ∈ topKeys o, Lodash.reIsDeepProp t.toList = false) ∧
    ∀ n ∈ names,
      Lodash.clearPath (Lodash.keyPath n) o = true ∧
        Lodash.baseGetPath (Lodash.keyPath n) o = val n

/-- The value `onCollectCommon` takes from the arguments of the event: what the
`getValueFromEvent` of the metadata extracts, else the default extraction from the
first argument. -/
def collectedValue (fieldMeta : FieldMeta) (args : List JSVal) : JSVal :=
  match fieldMeta.getValueFromEvent with
  | some extract => extract args
  | none => getValueFromEvent (args.headD .undefined)

/-- The record `onCollect` stores for a field: the present record with the
collected `value`, `touched = true` and `dirty` set to whether the field has rules. -/
def collectedField (store : FieldsStore) (name : String) (args : List JSVal) : Field :=
  Obj.set (Obj.set (Obj.set (store.getField name) "value"
    (collectedValue (store.metaOf name) args)) "touched" (.bool true))
    "dirty" (.bool (hasRules (store.metaOf name).validate))

/-- The store `Demo.storeF` in which `f` has the `normalize` function `Demo.bump`. -/
def Demo.storeFBump : FieldsStore :=
  { fields := Demo.storeF.fields,
    fieldsMeta := [("f", { Demo.ruled with normalize := some Demo.bump })] }

/-- The form and the pending pass that the dispatch of a pass over `Demo.batchF`
leaves on `Demo.storeF`. -/
def Demo.dispatchedF : Form × PendingPass :=
  match Form.validateFieldsInternal { fieldsStore := Demo.storeF } Demo.batchF (some ["f"]) none
      false true with
  | .ok (.dispatched fm1 pass) => (fm1, pass)
  | _ =>
    ({}, { allRules := [], allValues := [], alreadyErrors := .obj [], fieldNames := none,
           hasCallback := false })

/-- The entry that the errors of a finished pass hold for a record of the batch: for
a selected record the expired entry when its field is expired (`stale`) and the
entry of the validator's errors for it otherwise; for a skipped record its retained
`errors` when that member is truthy; nothing else. -/
def reportedEntry (force : Bool) (stale : String → Bool) (errors : List ValidateError)
    (field : Field) : JSVal :=
  if isSelected force field then
    if stale (fieldName field) then expiredEntry (fieldName field)
    else entryOf (errorsFor errors (fieldName field))
  else if (Props.get field "errors").truthy then .obj [("errors", Props.get field "errors")]
  else .undefined

/-- The entries `alreadyErrors` gets in the selection loop: for every skipped record
with a truthy `errors` member, its name and `{ errors }`. -/
def retainedEntries (force : Bool) (fields : List Field) : List (String × JSVal) :=
  (fields.filter (fun f => !isSelected force f && (Props.get f "errors").truthy)).map
    (fun f => (fieldName f, .obj [("errors", Props.get f "errors")]))

/-- The form and the pending pass that the dispatch of a pass over `Demo.batch`
leaves on `Demo.store`. -/
def Demo.dispatchedXY : Form × PendingPass :=
  match Form.validateFieldsInternal { fieldsStore := Demo.store } Demo.batch (some ["x", "y"])
      none false true with
  | .ok (.dispatched fm1 pass) => (fm1, pass)
  | _ =>
    ({}, { allRules := [], allValues := [], alreadyErrors := .obj [], fieldNames := none,
           hasCallback := false })

/-- A store in which `a.b` and `a` are both registered, both dirty. -/
def Demo.storeAB : FieldsStore :=
  { fields := [("a.b", [("value", .num 2), ("dirty", .bool true)]),
      ("a", [("value", .num 1), ("dirty", .bool true)])],
    fieldsMeta := [("a.b", Demo.ruled), ("a", Demo.ruled)] }

/-- The batch `validateFields` builds from `Demo.storeAB` for `a.b` and `a`. -/
def Demo.batchAB : List Field :=
  [[("value", .num 2), ("dirty", .bool true), ("name", .str "a.b")],
   [("value", .num 1), ("dirty", .bool true), ("name", .str "a")]]

/-- A pass over `Demo.batchAB` on `Demo.storeAB` that the validator completes at
once with one error for `a.b`: the form and what the callback receives. -/
def Demo.runAB : Except String (Form × Option CallbackArgs) :=
  match Form.validateFieldsInternal { fieldsStore := Demo.storeAB } Demo.batchAB
      (some ["a.b", "a"]) none false true with
  | .ok (.dispatched fm1 pass) =>
    fm1.validateCallback pass (some [{ field := "a.b", message := "bad" }]) (fun _ => true)
  | .ok (.finished _ _) => .error "the pass was not dispatched"
  | .error e => .error e

/-- The staleness scenario on `Demo.storeAB`: a pass over `a.b` and `a` is
dispatched, `onCollect` then sets `a.b` to 5, and the validator completes with an
error for `a.b`. -/
def Demo.staleRunAB : Except String (Form × Option CallbackArgs) :=
  match Form.validateFieldsInternal { fieldsStore := Demo.storeAB } Demo.batchAB
      (some ["a.b", "a"]) none false true with
  | .ok (.dispatched fm1 pass) =>
    (match fm1.onCollect "a.b" "onChange" [Demo.event (.num 5)] with
     | .ok fm2 =>
       fm2.validateCallback pass (some [{ field := "a.b", message := "bad" }]) (fun _ => true)
     | .error e => .error e)
  | .ok (.finished _ _) => .error "the pass was not dispatched"
  | .error e => .error e

/-- The errors the callback receives from a pass over the one clean record `x`
whose `errors` member is the empty list. -/
def Demo.runEmptyErrors : Except String JSVal :=
  match Form.validateFieldsInternal
      { fieldsStore :=
          { fields := [("x", [("value", .num 1), ("errors", .arr []), ("dirty", .bool false)])],
            fieldsMeta := [("x", Demo.ruled)] } }
      [[("value", .num 1), ("errors", .arr []), ("dirty", .bool false), ("name", .str "x")]]
      (some ["x"]) none false true with
  | .ok (.finished _ cb) => .ok cb.errors
  | .ok (.dispatched _ _) => .error "the pass was dispatched"
  | .error e => .error e

/-! ## Nested structures and their leaves -/

/-- A step from a container to one of its children: a key of an object or an index
of an array. -/
inductive Seg where
  | key (k : String) : Seg
  | idx (i : Nat) : Seg
  deriving Repr, DecidableEq

/-- The key lodash reads for a step: the key itself, or the decimal numeral of the
index. -/
def Seg.name : Seg → String
  | .key k => k
  | .idx i => toString i

/-- The path string `treeTraverse` gives to a child: `path.key` (the bare key when
the path is empty) or `path[index]`. -/
def Seg.extend (path : String) : Seg → String
  | .key k => path ++ (if path = "" then "" else ".") ++ k
  | .idx i => path ++ "[" ++ toString i ++ "]"

/-- The path string of the node reached from the node of `path` by the steps. -/
def renderPath (path : String) (segs : List Seg) : String := segs.foldl Seg.extend path

mutual
/-- The leaves of a nested structure in the order `treeTraverse` visits them, each
with the steps that lead to it: a value that is neither an array nor an object is
its own leaf. -/
def leaves : JSVal → List (List Seg × JSVal)
  | .arr xs => leavesArr xs 0
  | .obj kvs => leavesObj kvs
  | .undefined => [([], .undefined)]
  | .null => [([], .null)]
  | .bool b => [([], .bool b)]
  | .num n => [([], .num n)]
  | .str s => [([], .str s)]
/-- The leaves below the elements of an array, the first of which has index `i`. -/
def leavesArr : List JSVal → Nat → List (List Seg × JSVal)
  | [], _ => []
  | x :: rest, i => (leaves x).map (fun ql => (Seg.idx i :: ql.1, ql.2)) ++ leavesArr rest (i + 1)
/-- The leaves below the members of an object. -/
def leavesObj : List (String × JSVal) → List (List Seg × JSVal)
  | [] => []
  | (k, x) :: rest => (leaves x).map (fun ql => (Seg.key k :: ql.1, ql.2)) ++ leavesObj rest
end

/-- A key that a path string carries as it is: not empty, without `.`, `[` or `]`,
and not one of the keys `set` refuses. -/
def simpleKey (k : String) : Bool :=
  !k.toList.isEmpty && k.toList.all (fun c => !Lodash.isSpecial c) && !Lodash.isForbiddenKey k

mutual
/-- A nested structure below the root that the round trip rebuilds: a leaf; an
array that is not empty and shorter than `2^32 - 1`; or an object that is not
empty, with distinct simple keys, none of which lodash takes for an index (so that
`Object.keys` lists them in the order they were inserted, the order of the property
list); the children being such structures again. -/
def wfNode : JSVal → Bool
  | .arr xs => !xs.isEmpty && decide (xs.length < 4294967295) && wfList xs
  | .obj kvs =>
    !kvs.isEmpty && decide (Obj.keys kvs).Nodup && (Obj.keys kvs).all simpleKey &&
      (Obj.keys kvs).all (fun k => !Lodash.isIndex k) && wfProps kvs
  | .undefined => true
  | .null => true
  | .bool _ => true
  | .num _ => true
  | .str _ => true
/-- Every element of the list is a `wfNode`. -/
def wfList : List JSVal → Bool
  | [] => true
  | x :: rest => wfNode x && wfList rest
/-- Every member of the property list is a `wfNode`. -/
def wfProps : List (String × JSVal) → Bool
  | [] => true
  | (_, x) :: rest => wfNode x && wfProps rest
end

/-- A nested structure that the round trip rebuilds: an object with distinct simple
keys, none of which lodash takes for an index, whose members are `wfNode`s. -/
def wfRoot : JSVal → Bool
  | .obj kvs =>
    decide (Obj.keys kvs).Nodup && (Obj.keys kvs).all simpleKey &&
      (Obj.keys kvs).all (fun k => !Lodash.isIndex k) && wfProps kvs
  | _ => false

/-- The container `baseSet` makes for a missing step whose next key is `next`: an
array when the key is an index, an object otherwise. -/
def Lodash.containerFor (next : String) : JSVal :=
  if Lodash.isIndex next then .arr [] else .obj []

/-- The writes of the listed leaves, each along its key path, one after the other. -/
def insertLeaves (ls : List (List String × JSVal)) (a : JSVal) : JSVal :=
  ls.foldl (fun a ql => Lodash.baseSetPath ql.1 a ql.2) a

/-- The leaves of a structure with the key paths lodash reads for them. -/
def namedLeaves (x : JSVal) : List (List String × JSVal) :=
  (leaves x).map (fun ql => (ql.1.map Seg.name, ql.2))

/-- A step that a path string carries as it is: a simple key or an index. -/
def goodSeg : Seg → Bool
  | .key k => simpleKey k
  | .idx _ => true

/-- The characters a step adds to a path string that is not empty. -/
def Seg.chars : Seg → List Char
  | .key k => '.' :: k.toList
  | .idx i => '[' :: ((toString i).toList ++ [']'])

/-- The key paths of a list of leaves. -/
def pathNames (ls : List (List Seg × JSVal)) : List (List String) :=
  ls.map (fun ql => ql.1.map Seg.name)

/-- The registered names of `t` are those of `s` and possibly some of `extra`, and
every metadata is the same. -/
def FieldsStore.Extends (s t : FieldsStore) (extra : List String) : Prop :=
  t.fields = s.fields ∧ (∀ n, t.metaOf n = s.metaOf n) ∧
    (∀ n ∈ Obj.keys s.fieldsMeta, n ∈ Obj.keys t.fieldsMeta) ∧
    (∀ n ∈ Obj.keys t.fieldsMeta, n ∈ Obj.keys s.fieldsMeta ∨ n ∈ extra)

/-- The `normalize` function of the field, if it has one, leaves the value `v` as it
is, whatever the previous value and the other values are. -/
def FieldsStore.keepsValue (s : FieldsStore) (name : String) (v : JSVal) : Prop :=
  ∀ n, (s.metaOf name).normalize = some n → ∀ prev all, n v prev all = v

/-! ## `utils.js`: the arguments of `validateFields` -/

/-- An argument of `validateFields`: a value, or a function (known by a name). -/
inductive Param where
  | val (v : JSVal) : Param
  | func (name : String) : Param
  deriving Repr, DecidableEq

/-- Truthiness of an argument: a function is truthy. -/
def Param.truthy : Param → Bool
  | .val v => v.truthy
  | .func _ => true

/-- The result `{ names, options, callback }` of `getParams`. -/
structure Params where
  names : Param
  options : Param
  callback : Param
  deriving Repr, DecidableEq

/-- `getParams(ns, opt, cb)` of `utils.js`; an argument that is not given is
`undefined`. -/
def getParams (ns opt cb : Param) : Params :=
  if cb = .val .undefined then
    match ns with
    | .func _ => { names := .val .undefined, options := .val (.obj []), callback := ns }
    | .val (.arr _) =>
      (match opt with
       | .func _ => { names := ns, options := .val (.obj []), callback := opt }
       | .val _ =>
         { names := ns, options := if opt.truthy then opt else .val (.obj []), callback := cb })
    | .val _ =>
      { names := .val .undefined, options := if ns.truthy then ns else .val (.obj []),
        callback := opt }
  else { names := ns, options := opt, callback := cb }

/-! ## `createBaseForm.js`: `resetFields` and `setFieldsValue` -/

/-- `resetFields(ns)` of the form: the map of the store's `resetFields` goes to
`setFields` when it has a key; then the entries of the given names leave
`clearedFieldMetaCache`, which is emptied when no names are given. -/
def Form.resetFields (fm : Form) (ns : Option (List String)) : Except String Form :=
  let newFields := fm.fieldsStore.resetFields ns
  let written :=
    if (Obj.keys newFields).length > 0 then
      fm.setFields (.obj (newFields.map (fun kv => (kv.1, JSVal.obj kv.2))))
    else .ok fm
  match written with
  | .error e => .error e
  | .ok fm1 =>
    .ok { fm1 with
      clearedFieldMetaCache :=
        (match ns with
         | some names => names.foldl Obj.del fm1.clearedFieldMetaCache
         | none => []) }

/-- The message of the `warning` in `setFieldsValue`. -/
def setFieldsValueWarning : String :=
  "Warning: Cannot use `setFieldsValue` until you use `getFieldDecorator` or `getFieldProps` to register it."

/-- `setFieldsValue(changedValues)` of the form: the state it leaves, and the error
it raises, if any.  The values are flattened by registered names, every flat name
with metadata becomes a record with that `value`, and the map goes to `setFields`.
The condition `nValuesChange` read after that is an identifier with no declaration,
so the evaluation raises a `ReferenceError` once the write is done. -/
def Form.setFieldsValue (fm : Form) (changedValues : JSVal) : Form × Option String :=
  match fm.fieldsStore.flattenRegisteredFields changedValues with
  | .error e => (fm, some e)
  | .ok values =>
    let warned := values.acc.filter (fun kv => !Obj.has fm.fieldsStore.fieldsMeta kv.1)
    let fm0 : Form :=
      { fm with
        console := fm.console ++ values.log ++
          (if fm.production then [] else warned.map (fun _ => setFieldsValueWarning)) }
    let newFields : Props := values.acc.foldl
      (fun acc kv =>
        if Obj.has fm.fieldsStore.fieldsMeta kv.1 then
          Obj.set acc kv.1 (.obj [("value", kv.2)])
        else acc)
      []
    match fm0.setFields (.obj newFields) with
    | .error e => (fm0, some e)
    | .ok fm1 => (fm1, some "ReferenceError: nValuesChange is not defined")

/-- A store with the fields `a.b` and `a.c`, both with a value; `a.c` has the
`normalize` function that adds one. -/
def Demo.storeReset : FieldsStore :=
  { fields := [("a.b", [("value", .num 1)]), ("a.c", [("value", .num 2)])],
    fieldsMeta := [("a.b", { initialValue := some (.num 0) }),
      ("a.c", { normalize := some Demo.bump })] }

/-- The store `Demo.storeReset` without `normalize` function. -/
def Demo.storePlain : FieldsStore :=
  { fields := [("a.b", [("value", .num 1)]), ("a.c", [("value", .num 2)])],
    fieldsMeta := [("a.b", { initialValue := some (.num 0) }), ("a.c", {})] }

/-- The names address distinct places of an object assembled with `set`: each has a
key path that is not empty, holds no refused key and starts with a key without path
syntax; and the key paths of two different names part. -/
def pathsApart (names : List String) : Bool :=
  names.all (fun n =>
    !(Lodash.keyPath n).isEmpty && Lodash.plainKeys (Lodash.keyPath n) &&
      !Lodash.reIsDeepProp ((Lodash.keyPath n).headD "").toList &&
      names.all (fun m => decide (m = n) || Lodash.apart (Lodash.keyPath n) (Lodash.keyPath m)))

/-- A store in which the name `["a.b"]`, with the single key `a.b`, and the name
`a.b` are registered, with the values 1 and 2. -/
def Demo.storeQuoted : FieldsStore :=
  { fields := [("[\"a.b\"]", [("value", .num 1)]), ("a.b", [("value", .num 2)])],
    fieldsMeta := [("[\"a.b\"]", {}), ("a.b", {})] }

/-- A store in which `a[0]` and `a.0` are registered, with the values 1 and 2. -/
def Demo.storeIndex : FieldsStore :=
  { fields := [("a[0]", [("value", .num 1)]), ("a.0", [("value", .num 2)])],
    fieldsMeta := [("a[0]", {}), ("a.0", {})] }

/-! ## `getNestedField`: the fields under a name -/

/-- The `isArrayValue` of `getNestedField(name, getter)`: does the first full name
go on with `[` after `name`. -/
def FieldsStore.isArrayValue (s : FieldsStore) (name : String) : Bool :=
  decide (((s.getValidFieldsFullName [name]).head?.bind
    (fun n => n.toList[name.length]?)) = some '[')

/-- The `suffixNameStartIndex` of `getNestedField(name, getter)`. -/
def FieldsStore.suffixNameStartIndex (s : FieldsStore) (name : String) : Nat :=
  if s.isArrayValue name then name.length else name.length + 1

/-- The path `fullName.slice(suffixNameStartIndex)` at which `getNestedField(name,
getter)` writes the value of `fullName`. -/
def FieldsStore.suffixName (s : FieldsStore) (name fullName : String) : String :=
  String.mk (fullName.toList.drop (s.suffixNameStartIndex name))

/-- The container `getNestedField(name, getter)` starts from: `[]` for an array
value, `{}` otherwise. -/
def FieldsStore.nestedRoot (s : FieldsStore) (name : String) : JSVal :=
  if s.isArrayValue name then .arr [] else .obj []

/-- The container has no key with path syntax: an array, or an object none of whose
keys is a deep path. -/
def plainTop : JSVal → Bool
  | .arr _ => true
  | .obj kvs => kvs.all (fun kv => !Lodash.reIsDeepProp kv.1.toList)
  | _ => false

/-- The remaining paths of the full names under `name` address distinct places of the
container `getNestedField` starts from: each key path is not empty, holds no refused
key, starts with a key without path syntax that the container takes, and the key
paths of two different full names part. -/
def FieldsStore.suffixesApart (s : FieldsStore) (name : String) : Bool :=
  (s.getValidFieldsFullName [name]).all (fun d =>
    !(Lodash.keyPath (s.suffixName name d)).isEmpty &&
      Lodash.plainKeys (Lodash.keyPath (s.suffixName name d)) &&
      !Lodash.reIsDeepProp ((Lodash.keyPath (s.suffixName name d)).headD "").toList &&
      Lodash.clearPath (Lodash.keyPath (s.suffixName name d)) (s.nestedRoot name) &&
      (s.getValidFieldsFullName [name]).all (fun e =>
        decide (e = d) ||
          Lodash.apart (Lodash.keyPath (s.suffixName name d))
            (Lodash.keyPath (s.suffixName name e))))

/-- The key paths of the visible names compose under `name`: the key path of `name`
is not empty and holds no refused key; no visible name is nested under another; the
key path of every visible name starts with a key without path syntax; the key path
of a full name under `name` is that of `name` followed by that of its remaining
path, and the key path of any other visible name parts from that of `name`; and
the container `set` makes at `name` for the first full name is the one
`getNestedField` starts from. -/
def FieldsStore.composesUnder (s : FieldsStore) (name : String) : Bool :=
  !(Lodash.keyPath name).isEmpty && Lodash.plainKeys (Lodash.keyPath name) &&
    s.getValidFieldsName.all (fun f =>
      !Lodash.reIsDeepProp ((Lodash.keyPath f).headD "").toList &&
        s.getValidFieldsName.all (fun n => !partOf f n) &&
        (if f ∈ s.getValidFieldsFullName [name] then
          decide (Lodash.keyPath f =
            Lodash.keyPath name ++ Lodash.keyPath (s.suffixName name f))
         else Lodash.apart (Lodash.keyPath name) (Lodash.keyPath f))) &&
    (match (s.getValidFieldsFullName [name]).head? with
     | some d =>
       decide (Lodash.containerFor ((Lodash.keyPath (s.suffixName name d)).headD "") =
         s.nestedRoot name)
     | none => true)

/-- A store with the fields `user.name`, `user.age`, `list[0]` and `list[1]`. -/
def Demo.storeUser : FieldsStore :=
  { fields := [("user.name", [("value", .str "al")]), ("list[0]", [("value", .num 3)]),
      ("list[1]", [("value", .num 4)])],
    fieldsMeta := [("user.name", {}), ("user.age", { initialValue := some (.num 7) }),
      ("list[0]", {}), ("list[1]", {})] }

/-- A store in which `a.b` is hidden and `a.c` is not. -/
def Demo.storeHidden : FieldsStore :=
  { fields := [("a.b", [("value", .num 1)]), ("a.c", [("value", .num 2)])],
    fieldsMeta := [("a.b", { hidden := some true }), ("a.c", {})] }

/-- A store with the single field `a.0`. -/
def Demo.storeDigit : FieldsStore :=
  { fields := [("a.0", [("value", .num 1)])], fieldsMeta := [("a.0", {})] }

/-- A value that `treeTraverse` reports when it is not a leaf: its `typeof` is not
`'object'` and it is not `undefined`, that is a boolean, a number or a string. -/
def JSVal.isPrimitive : JSVal → Bool
  | .bool _ => true
  | .num _ => true
  | .str _ => true
  | _ => false

/-- A form whose field `a` is registered with an `initialValue`, a `normalize`
function and `hidden`. -/
def Demo.formCustom : Form :=
  { fieldsStore :=
      { fieldsMeta :=
          [("a", { initialValue := some (.num 1), normalize := some Demo.bump,
                   hidden := some true })] } }

/-- The options of a registration with the trigger `onBlur`, the value prop `checked`
and a rule list. -/
def Demo.optionBlur : FieldOption :=
  { trigger := some "onBlur", valuePropName := some "checked",
    rules := some [.str "required"] }

/-- The members `trigger`, `valuePropName` and `validate` of the metadata of `a` after a
run of registrations. -/
def Demo.registered (run : Except String Form) :
    Option String × Option String × Option (List ValidateItem) :=
  match run with
  | .ok fm =>
    ((fm.fieldsStore.metaOf "a").trigger, (fm.fieldsStore.metaOf "a").valuePropName,
      (fm.fieldsStore.metaOf "a").validate)
  | .error _ => (none, none, none)

/-! ## `createBaseForm.js`: unmounting and mounting a field -/

/-- `recoverClearedField(name)`: when the cache has an entry for the name, its record
goes to `FieldsStore.setFields`, its metadata to `setFieldMeta`, and the entry leaves
the cache. -/
def Form.recoverClearedField (fm : Form) (name : String) : Form :=
  match Obj.get? fm.clearedFieldMetaCache name with
  | some entry =>
    { fm with
      fieldsStore := (fm.fieldsStore.setFields [(name, entry.1)]).setFieldMeta name entry.2
      clearedFieldMetaCache := Obj.del fm.clearedFieldMetaCache name }
  | none => fm

/-- `saveRef(name, _, component)`, its effect on the store and on the cache;
`mounted` tells whether a component is given.  Without a component the record
`getField(name)` and the metadata go to the cache and the field is cleared; with one
the cleared field is recovered and `getFieldMeta(name)` is read.  The component
instances and the bound handlers are not part of the state. -/
def Form.saveRef (fm : Form) (name : String) (mounted : Bool) : Form :=
  if !mounted then
    { fm with
      clearedFieldMetaCache :=
        Obj.set fm.clearedFieldMetaCache name
          (fm.fieldsStore.getField name, (fm.fieldsStore.getFieldMeta name).1)
      fieldsStore := (fm.fieldsStore.getFieldMeta name).2.clearField name }
  else
    { fm.recoverClearedField name with
      fieldsStore := ((fm.recoverClearedField name).fieldsStore.getFieldMeta name).2 }

/-- A form with the field `a`, whose record holds the value 1, and the field `b`. -/
def Demo.formMounted : Form :=
  { fieldsStore :=
      { fields := [("a", [("value", .num 1)]), ("b", [("value", .num 2)])],
        fieldsMeta := [("a", { initialValue := some (.num 0) }), ("b", {})] } }

/-- A form in which the empty name is registered next to the field `f`. -/
def Demo.formEmptyName : Form :=
  { fieldsStore := { fields := [], fieldsMeta := [("", {}), ("f", Demo.ruled)] } }

/-- The record of `f` and the rules and the value dispatched for it by a pass over
the one record `f` with the value 1. -/
def Demo.snapshotOf (fm : Form) : Option Field × Option (List JSVal) × Option JSVal :=
  match fm.validateFieldsInternal [[("name", .str "f"), ("value", .num 1)]] none none
      false true with
  | .ok res =>
    (Obj.get? res.form.fieldsStore.fields "f", Obj.get? res.dispatchedRules "f",
      Obj.get? res.dispatchedValues "f")
  | .error _ => (none, none, none)

/-! # Properties -/

/-! ## Nested field names -/

theorem partOf_iff (a b : String) :
    partOf a b = true ↔
      ∃ c : Char, (c = '.' ∨ c = '[') ∧ (a.toList ++ [c]) <+: b.toList := by
  unfold partOf
  simp only [Bool.and_eq_true, Bool.or_eq_true, decide_eq_true_eq, List.isPrefixOf_iff_prefix]
  have hlen : a.length = a.toList.length := rfl
  constructor
  · rintro ⟨⟨t, ht⟩, h⟩
    rw [← ht, hlen, List.getElem?_append_right (le_refl _)] at h
    simp only [Nat.sub_self] at h
    cases t with
    | nil => simp at h
    | cons c t' =>
      simp only [List.getElem?_cons_zero, Option.some.injEq] at h
      exact ⟨c, h, ⟨t', by rw [← ht]; simp⟩⟩
  · rintro ⟨c, hc, ⟨t, ht⟩⟩
    refine ⟨⟨c :: t, by rw [← ht]; simp⟩, ?_⟩
    rw [← ht, hlen]
    simp only [List.append_assoc, List.singleton_append]
    rw [List.getElem?_append_right (le_refl _)]
    simpa using hc

/-- C7: `isValidNestedFieldName(name)` is true exactly when no registered name `n`
has `n.` or `n[` as a prefix of `name`, nor `name.` or `name[` as a prefix of `n`;
with only `a` registered, `a.b` and `a[0]` are invalid and `ab` is valid. -/
theorem isValidNestedFieldName_spec :
    (∀ (s : FieldsStore) (name : String),
      s.isValidNestedFieldName name = true ↔
        ¬ ∃ n ∈ s.getAllFieldsName, ∃ c : Char, (c = '.' ∨ c = '[') ∧
          ((n.toList ++ [c]) <+: name.toList ∨ (name.toList ++ [c]) <+: n.toList)) ∧
    (∀ m : FieldMeta,
      FieldsStore.isValidNestedFieldName { fields := [], fieldsMeta := [("a", m)] } "a.b" = false ∧
      FieldsStore.isValidNestedFieldName { fields := [], fieldsMeta := [("a", m)] } "a[0]" = false ∧
      FieldsStore.isValidNestedFieldName { fields := [], fieldsMeta := [("a", m)] } "ab" = true) := by
  refine ⟨?_, ?_⟩
  · intro s name
    unfold FieldsStore.isValidNestedFieldName
    simp only [List.all_eq_true, Bool.and_eq_true, Bool.not_eq_true', not_exists, not_and]
    constructor
    · intro h n hn c hc hp
      have hh := h n hn
      rcases hp with hp | hp
      · have : partOf n name = true := (partOf_iff n name).2 ⟨c, hc, hp⟩
        rw [this] at hh
        exact absurd hh.1 (by simp)
      · have : partOf name n = true := (partOf_iff name n).2 ⟨c, hc, hp⟩
        rw [this] at hh
        exact absurd hh.2 (by simp)
    · intro h n hn
      constructor
      · cases hp : partOf n name with
        | false => rfl
        | true =>
          obtain ⟨c, hc, hpre⟩ := (partOf_iff n name).1 hp
          exact absurd (Or.inl hpre) (h n hn c hc)
      · cases hp : partOf name n with
        | false => rfl
        | true =>
          obtain ⟨c, hc, hpre⟩ := (partOf_iff name n).1 hp
          exact absurd (Or.inr hpre) (h n hn c hc)
  · intro m
    exact ⟨rfl, rfl, rfl⟩

/-! ## Lemmas on objects -/

theorem Obj.get?_set_same {α : Type} (o : List (String × α)) (k : String) (v : α) :
    Obj.get? (Obj.set o k v) k = some v := by
  induction o with
  | nil => simp [Obj.set, Obj.get?]
  | cons kv t ih =>
    obtain ⟨k1, w⟩ := kv
    by_cases h : k1 = k
    · simp [Obj.set, Obj.get?, h]
    · simp [Obj.set, Obj.get?, h, ih]

theorem Obj.get?_set_other {α : Type} (o : List (String × α)) (k k2 : String) (v : α)
    (h : k ≠ k2) : Obj.get? (Obj.set o k v) k2 = Obj.get? o k2 := by
  induction o with
  | nil => simp [Obj.set, Obj.get?, h]
  | cons kv t ih =>
    obtain ⟨k1, w⟩ := kv
    by_cases h1 : k1 = k
    · subst h1
      simp [Obj.set, Obj.get?, h]
    · by_cases h2 : k1 = k2
      · subst h2
        simp [Obj.set, Obj.get?, h1]
      · simp [Obj.set, Obj.get?, h1, h2, ih]

theorem Obj.get?_eq_none {α : Type} (o : List (String × α)) (k : String) :
    Obj.get? o k = none ↔ k ∉ Obj.keys o := by
  induction o with
  | nil => simp [Obj.get?, Obj.keys]
  | cons kv t ih =>
    obtain ⟨k1, w⟩ := kv
    by_cases h : k1 = k
    · simp [Obj.get?, Obj.keys, h]
    · have h2 : ¬ k = k1 := fun e => h e.symm
      simp only [Obj.get?, h, if_false, ih, Obj.keys, List.map_cons, List.mem_cons, h2,
        false_or]

theorem Obj.set_of_get? {α : Type} (o : List (String × α)) (k : String) (v : α)
    (h : Obj.get? o k = some v) : Obj.set o k v = o := by
  induction o with
  | nil => simp [Obj.get?] at h
  | cons kv t ih =>
    obtain ⟨k1, w⟩ := kv
    by_cases h1 : k1 = k
    · simp only [Obj.get?, h1, if_true, Option.some.injEq] at h
      simp [Obj.set, h1, h]
    · simp only [Obj.get?, h1, if_false] at h
      simp [Obj.set, h1, ih h]

theorem Obj.set_of_not_mem {α : Type} (o : List (String × α)) (k : String) (v : α)
    (h : k ∉ Obj.keys o) : Obj.set o k v = o ++ [(k, v)] := by
  induction o with
  | nil => simp [Obj.set]
  | cons kv t ih =>
    obtain ⟨k1, w⟩ := kv
    simp only [Obj.keys, List.map_cons, List.mem_cons, not_or] at h
    have h1 : ¬ k1 = k := fun e => h.1 e.symm
    simp only [Obj.set, h1, if_false, List.cons_append, List.cons.injEq, true_and]
    exact ih h.2

theorem Obj.get?_spread {α : Type} (b a : List (String × α)) (k : String)
    (hb : (Obj.keys b).Nodup) :
    Obj.get? (Obj.spread a b) k = (Obj.get? b k).orElse (fun _ => Obj.get? a k) := by
  induction b generalizing a with
  | nil => simp [Obj.spread, Obj.get?]
  | cons kv t ih =>
    obtain ⟨k1, w⟩ := kv
    simp only [Obj.keys, List.map_cons, List.nodup_cons] at hb
    have ht := ih (Obj.set a k1 w) hb.2
    simp only [Obj.spread, List.foldl_cons] at ht ⊢
    rw [ht]
    by_cases h : k1 = k
    · subst h
      have hn : Obj.get? t k1 = none := (Obj.get?_eq_none t k1).2 hb.1
      simp [Obj.get?, hn, Obj.get?_set_same]
    · simp [Obj.get?, h, Obj.get?_set_other _ _ _ _ h]

/-! ## The effective value of a field -/

theorem FieldsStore.getValueFromFields_fst (s : FieldsStore) (name : String)
    (fields : List (String × Field)) :
    (s.getValueFromFields name fields).1 =
      match Obj.get? fields name with
      | some field =>
        if Obj.has field "value" then Props.get field "value"
        else (s.metaOf name).initialValue.getD .undefined
      | none => (s.metaOf name).initialValue.getD .undefined := by
  unfold FieldsStore.getValueFromFields FieldsStore.getFieldMeta
  cases Obj.get? fields name with
  | none => rfl
  | some field => by_cases h : Obj.has field "value" = true <;> simp [h]

/-- C9, as the code has it: for a registered name under which no visible registered
name is nested, `getFieldValue` returns the record's `value` when the record has
that member and the metadata's `initialValue` otherwise. -/
theorem getFieldValue_effective (s : FieldsStore) (name : String)
    (hkeys : (Obj.keys s.fieldsMeta).Nodup)
    (hfull : ∀ n ∈ s.getValidFieldsName, partOf name n = false) :
    (s.getFieldValue name).1 =
      match Obj.get? s.fields name with
      | some field =>
        if Obj.has field "value" then Props.get field "value"
        else (s.metaOf name).initialValue.getD .undefined
      | none => (s.metaOf name).initialValue.getD .undefined := by
  have hfilter : s.getValidFieldsFullName [name] =
      s.getValidFieldsName.filter (fun n => decide (n = name)) := by
    unfold FieldsStore.getValidFieldsFullName
    apply List.filter_congr
    intro n hn
    have := hfull n hn
    unfold partOf at this
    simp only [List.any_cons, List.any_nil, Bool.or_false, startsWith]
    rw [this]
    simp
  have hnd : s.getValidFieldsName.Nodup := by
    unfold FieldsStore.getValidFieldsName
    exact hkeys.filter _
  have hcount : (s.getValidFieldsName.filter (fun n => decide (n = name))).length ≤ 1 := by
    have hc := List.nodup_iff_count_le_one.1 hnd name
    rw [List.count_eq_countP, List.countP_eq_length_filter] at hc
    have : (s.getValidFieldsName.filter (fun n => decide (n = name))) =
        s.getValidFieldsName.filter (fun n => n == name) := by
      apply List.filter_congr; intro n _; rfl
    rw [this]
    exact hc
  unfold FieldsStore.getFieldValue FieldsStore.getNestedField
  rw [hfilter]
  have hcond : (s.getValidFieldsName.filter (fun n => decide (n = name))).length = 0 ∨
      ((s.getValidFieldsName.filter (fun n => decide (n = name))).length = 1 ∧
        (s.getValidFieldsName.filter (fun n => decide (n = name))).head? = some name) := by
    cases hl : s.getValidFieldsName.filter (fun n => decide (n = name)) with
    | nil => left; rfl
    | cons x t =>
      right
      rw [hl] at hcount
      have hx : x ∈ s.getValidFieldsName.filter (fun n => decide (n = name)) := by
        rw [hl]; exact List.mem_cons_self _ _
      have hxe : x = name := by simpa using (List.mem_filter.1 hx).2
      cases t with
      | nil => simp [hxe]
      | cons y t2 => simp at hcount
  simp only [hcond, if_true]
  exact s.getValueFromFields_fst name s.fields

/-- The witness of `getFieldValue_effective`: the field `a` with an explicit value. -/
theorem getFieldValue_effective_witness :
    (FieldsStore.getFieldValue
      { fields := [("a", [("value", JSVal.num 1)])],
        fieldsMeta := [("a", { initialValue := some (JSVal.num 0) }), ("b", {})] } "a").1
      = JSVal.num 1 :=
  getFieldValue_effective
    { fields := [("a", [("value", JSVal.num 1)])],
      fieldsMeta := [("a", { initialValue := some (JSVal.num 0) }), ("b", {})] } "a"
    (by decide) (by decide)

/-- C9 as stated fails: with `a` and `a.b` both registered, `getFieldValue('a')` is
not the `value` of the record of `a` but an object assembled from both fields. -/
theorem getFieldValue_registered_counterexample :
    "a" ∈ FieldsStore.getAllFieldsName
      { fields := [("a", [("value", JSVal.num 1)]), ("a.b", [("value", JSVal.num 2)])],
        fieldsMeta := [("a", {}), ("a.b", {})] } ∧
    (FieldsStore.getFieldValue
      { fields := [("a", [("value", JSVal.num 1)]), ("a.b", [("value", JSVal.num 2)])],
        fieldsMeta := [("a", {}), ("a.b", {})] } "a").1
      = JSVal.obj [("", JSVal.num 1), ("b", JSVal.num 2)] := by
  decide

/-! ## `FieldsStore.setFields` -/

theorem FieldsStore.normalize_step_get? (s : FieldsStore) (values : Props) (old : String → JSVal)
    (name : String) (hnorm : (s.metaOf name).normalize = none)
    (l : List (String × JSVal)) (acc : List (String × Field)) :
    Obj.get? (l.foldl
      (fun (acc : List (String × Field)) (fv : String × JSVal) =>
        match (s.metaOf fv.1).normalize with
        | some normalize =>
          let nowValue := normalize fv.2 (old fv.1) (.obj values)
          if nowValue ≠ fv.2 then
            Obj.set acc fv.1 (Obj.set ((Obj.get? acc fv.1).getD []) "value" nowValue)
          else acc
        | none => acc) acc) name = Obj.get? acc name := by
  induction l generalizing acc with
  | nil => rfl
  | cons fv t ih =>
    rw [List.foldl_cons, ih]
    by_cases hf : fv.1 = name
    · rw [hf, hnorm]
    · cases hn : (s.metaOf fv.1).normalize with
      | none => rfl
      | some normalize =>
        simp only
        split
        · exact Obj.get?_set_other _ _ _ _ hf
        · rfl

/-- The record of a name without `normalize` function after `FieldsStore.setFields`:
the supplied record when the map names it, the previous record otherwise. -/
theorem FieldsStore.setFields_record (s : FieldsStore) (fields : List (String × Field))
    (name : String) (hkeys : (Obj.keys fields).Nodup)
    (hnorm : (s.metaOf name).normalize = none) :
    Obj.get? (s.setFields fields).fields name =
      (Obj.get? fields name).orElse (fun _ => Obj.get? s.fields name) := by
  unfold FieldsStore.setFields
  simp only
  rw [FieldsStore.normalize_step_get? s _ (fun f => (s.getValueFromFields f s.fields).1) name hnorm]
  exact Obj.get?_spread fields s.fields name hkeys

/-- C10, as the code has it: `FieldsStore.setFields` replaces records whole.  For a
name whose metadata has no `normalize` function, the record after the call is the
supplied record when the map names it (members of the previous record that the
supplied one does not mention are gone, and a name without a record gets the
supplied one), and the previous record when the map does not name it. -/
theorem setFields_replaces_record (s : FieldsStore) (fields : List (String × Field))
    (name : String) (hkeys : (Obj.keys fields).Nodup)
    (hnorm : (s.metaOf name).normalize = none) :
    Obj.get? (s.setFields fields).fields name =
      (Obj.get? fields name).orElse (fun _ => Obj.get? s.fields name) := by
  unfold FieldsStore.setFields
  simp only
  rw [FieldsStore.normalize_step_get? s _ (fun f => (s.getValueFromFields f s.fields).1) name hnorm]
  exact Obj.get?_spread fields s.fields name hkeys

/-- The witness of `setFields_replaces_record`: a record `{value: 2}` written over a
touched record. -/
theorem setFields_replaces_record_witness :
    Obj.get? (FieldsStore.setFields
      { fields := [("a", [("value", JSVal.num 1), ("touched", JSVal.bool true)])],
        fieldsMeta := [("a", {})] } [("a", [("value", JSVal.num 2)])]).fields "a"
      = some [("value", JSVal.num 2)] :=
  setFields_replaces_record
    { fields := [("a", [("value", JSVal.num 1), ("touched", JSVal.bool true)])],
      fieldsMeta := [("a", {})] } [("a", [("value", JSVal.num 2)])] "a" (by decide) rfl

/-- C10 as stated fails: after `setFields({a: {value: 2}})` the members `touched`,
`errors` and `validating` that the record of `a` had are gone. -/
theorem setFields_merge_counterexample :
    FieldsStore.getFieldMember
      { fields := [("a", [("value", JSVal.num 1), ("touched", JSVal.bool true),
          ("errors", JSVal.arr [JSVal.str "required"]), ("validating", JSVal.bool true)])],
        fieldsMeta := [("a", {})] } "a" "touched" = JSVal.bool true ∧
    (FieldsStore.setFields
      { fields := [("a", [("value", JSVal.num 1), ("touched", JSVal.bool true),
          ("errors", JSVal.arr [JSVal.str "required"]), ("validating", JSVal.bool true)])],
        fieldsMeta := [("a", {})] } [("a", [("value", JSVal.num 2)])]).fields
      = [("a", [("value", JSVal.num 2)])] := by
  decide

/-! ## Registration -/

theorem Obj.mem_keys_set {α : Type} (o : List (String × α)) (k k2 : String) (v : α) :
    k2 ∈ Obj.keys (Obj.set o k v) ↔ k2 = k ∨ k2 ∈ Obj.keys o := by
  induction o with
  | nil => simp [Obj.set, Obj.keys]
  | cons kv t ih =>
    obtain ⟨k1, w⟩ := kv
    by_cases h : k1 = k
    · subst h
      simp [Obj.set, Obj.keys]
    · simp only [Obj.keys, List.map_cons, List.mem_cons] at ih ⊢
      simp only [Obj.set, h, if_false, List.map_cons, List.mem_cons, ih]
      tauto

/-- C8, as the code has it: `getFieldProps` refuses only the empty name.  For every
other name the registration succeeds, also when the name is an ancestor or a
descendant path of a registered name: the name is then among the registered names
next to all the earlier ones, and outside production the only trace of the
conflict is the warning on the console, given exactly when
`isValidNestedFieldName(name)` is false. -/
theorem getFieldProps_registers (fm : Form) (name : String) (opt : FieldOption)
    (hname : name ≠ "") :
    ∃ fm1 : Form, fm.getFieldProps name opt = .ok fm1 ∧
      name ∈ fm1.fieldsStore.getAllFieldsName ∧
      (∀ n ∈ fm.fieldsStore.getAllFieldsName, n ∈ fm1.fieldsStore.getAllFieldsName) ∧
      (fm.production = false → opt.exclusive = false →
        fm1.console = fm.console ++
          (if fm.fieldsStore.isValidNestedFieldName name then []
           else ["One field name cannot be part of another, e.g. `a` and `a.b`."])) := by
  unfold Form.getFieldProps
  simp only [hname, if_false]
  refine ⟨_, rfl, ?_, ?_, ?_⟩
  · simp [FieldsStore.getAllFieldsName, FieldsStore.setFieldMeta, FieldsStore.getFieldMeta,
      Obj.mem_keys_set]
  · intro n hn
    simp only [FieldsStore.getAllFieldsName, FieldsStore.setFieldMeta,
      FieldsStore.getFieldMeta, Obj.mem_keys_set] at hn ⊢
    exact Or.inr (Or.inr hn)
  · intro hp he
    simp [hp, he]

/-- The witness of `getFieldProps_registers`: `a.b` registered on a form that has `a`. -/
theorem getFieldProps_registers_witness :
    ∃ fm1 : Form,
      Form.getFieldProps { fieldsStore := { fieldsMeta := [("a", {})] } } "a.b" {} = .ok fm1 ∧
      "a.b" ∈ fm1.fieldsStore.getAllFieldsName ∧
      (∀ n ∈ FieldsStore.getAllFieldsName { fieldsMeta := [("a", {})] },
        n ∈ fm1.fieldsStore.getAllFieldsName) ∧
      ((false = false) → (false = false) →
        fm1.console = [] ++
          (if FieldsStore.isValidNestedFieldName { fieldsMeta := [("a", {})] } "a.b" then []
           else ["One field name cannot be part of another, e.g. `a` and `a.b`."])) :=
  getFieldProps_registers { fieldsStore := { fieldsMeta := [("a", {})] } } "a.b" {} (by decide)

/-- C8 as stated fails: registering `a` and then `a.b` raises no error, and both
names are registered afterwards (and likewise for `a.b` and then `a`). -/
theorem getFieldProps_nested_counterexample :
    (((Form.getFieldProps {} "a" {}).bind (fun fm => fm.getFieldProps "a.b" {})).map
        (fun fm => fm.fieldsStore.getAllFieldsName) = .ok ["a", "a.b"]) ∧
    (((Form.getFieldProps {} "a.b" {}).bind (fun fm => fm.getFieldProps "a" {})).map
        (fun fm => fm.fieldsStore.getAllFieldsName) = .ok ["a.b", "a"]) :=
  ⟨rfl, rfl⟩

/-! ## Writing a flat map of registered names -/

theorem Obj.keys_set_nodup {α : Type} (o : List (String × α)) (k : String) (v : α)
    (h : (Obj.keys o).Nodup) : (Obj.keys (Obj.set o k v)).Nodup := by
  induction o with
  | nil => simp [Obj.set, Obj.keys]
  | cons kv t ih =>
    obtain ⟨k1, w⟩ := kv
    simp only [Obj.keys, List.map_cons, List.nodup_cons] at h
    by_cases h1 : k1 = k
    · subst h1
      simp only [Obj.set, if_true, Obj.keys, List.map_cons, List.nodup_cons]
      exact h
    · simp only [Obj.set, h1, if_false, Obj.keys, List.map_cons, List.nodup_cons]
      refine ⟨?_, ih h.2⟩
      intro hmem
      have := (Obj.mem_keys_set t k k1 v).1 hmem
      rcases this with e | e
      · exact h1 e
      · exact h.1 e

theorem Obj.spread_nil_of_nodup {α : Type} (b : List (String × α)) (hb : (Obj.keys b).Nodup) :
    Obj.spread [] b = b := by
  have key : ∀ (b a : List (String × α)), (Obj.keys (a ++ b)).Nodup →
      Obj.spread a b = a ++ b := by
    intro b
    induction b with
    | nil => intro a _; simp [Obj.spread]
    | cons kv t ih =>
      intro a h
      obtain ⟨k1, w⟩ := kv
      have hk : k1 ∉ Obj.keys a := by
        simp only [Obj.keys, List.map_append, List.map_cons] at h
        have := (List.nodup_append.1 h).2.2
        intro hm
        exact this hm (List.mem_cons_self _ _)
      have h2 : (Obj.keys ((a ++ [(k1, w)]) ++ t)).Nodup := by
        simpa using h
      have := ih (a ++ [(k1, w)]) h2
      simp only [Obj.spread, List.foldl_cons] at this ⊢
      rw [Obj.set_of_not_mem a k1 w hk, this]
      simp
  simpa using key b [] (by simpa using hb)

theorem treeTraverse_leaf {σ : Type} (isLeafNode : String → JSVal → Bool) (msg : String)
    (callback : String → JSVal → σ → σ) (path : String) (tree : JSVal) (st : Trav σ)
    (h : isLeafNode path tree = true) :
    treeTraverse isLeafNode msg callback path tree st =
      .ok { st with acc := callback path tree st.acc } := by
  cases tree <;> simp [treeTraverse, h]

theorem treeTraverse_obj {σ : Type} (isLeafNode : String → JSVal → Bool) (msg : String)
    (callback : String → JSVal → σ → σ) (path : String) (kvs : List (String × JSVal))
    (st : Trav σ) (h : isLeafNode path (.obj kvs) = false) :
    treeTraverse isLeafNode msg callback path (.obj kvs) st =
      treeTraverseObj isLeafNode msg callback path kvs st := by
  simp [treeTraverse, h]

theorem treeTraverse_arr {σ : Type} (isLeafNode : String → JSVal → Bool) (msg : String)
    (callback : String → JSVal → σ → σ) (path : String) (xs : List JSVal)
    (st : Trav σ) (h : isLeafNode path (.arr xs) = false) :
    treeTraverse isLeafNode msg callback path (.arr xs) st =
      treeTraverseArr isLeafNode msg callback path xs 0 st := by
  simp [treeTraverse, h]

theorem treeTraverseObj_registered {σ : Type} (names : List String) (msg : String)
    (callback : String → JSVal → σ → σ) (kvs : List (String × JSVal))
    (hreg : ∀ kv ∈ kvs, kv.1 ∈ names) (st : Trav σ) :
    treeTraverseObj (fun path _ => decide (path ∈ names)) msg callback "" kvs st =
      .ok { acc := kvs.foldl (fun a kv => callback kv.1 kv.2 a) st.acc, log := st.log } := by
  induction kvs generalizing st with
  | nil => simp [treeTraverseObj]
  | cons kv t ih =>
    obtain ⟨k, v⟩ := kv
    have hk : k ∈ names := hreg (k, v) (List.mem_cons_self _ _)
    have ht : ∀ kv ∈ t, kv.1 ∈ names := fun kv h => hreg kv (List.mem_cons_of_mem _ h)
    have hpath : ("" : String) ++ (if ("" : String) = "" then "" else ".") ++ k = k := by
      simp
    rw [treeTraverseObj, hpath, treeTraverse_leaf _ _ _ _ _ _ (by simpa using hk)]
    simp only
    rw [ih ht]
    rfl

theorem FieldsStore.flattenRegisteredFields_flat (s : FieldsStore) (kvs : List (String × JSVal))
    (hempty : "" ∉ s.getAllFieldsName) (hreg : ∀ kv ∈ kvs, kv.1 ∈ s.getAllFieldsName)
    (hkeys : (Obj.keys kvs).Nodup) :
    s.flattenRegisteredFields (.obj kvs) = .ok { acc := kvs, log := [] } := by
  unfold FieldsStore.flattenRegisteredFields flattenFields
  rw [treeTraverse_obj _ _ _ _ _ _ (by simpa using hempty)]
  rw [treeTraverseObj_registered s.getAllFieldsName _ _ kvs hreg]
  have := Obj.spread_nil_of_nodup kvs hkeys
  unfold Obj.spread at this
  simp only [this]

theorem Form.setFields_flat (fm : Form) (fields : List (String × Field))
    (hempty : "" ∉ fm.fieldsStore.getAllFieldsName)
    (hreg : ∀ kv ∈ fields, kv.1 ∈ fm.fieldsStore.getAllFieldsName)
    (hkeys : (Obj.keys fields).Nodup) :
    fm.setFields (.obj (fields.map (fun kv => (kv.1, JSVal.obj kv.2)))) =
      .ok { fm with fieldsStore := fm.fieldsStore.setFields fields } := by
  unfold Form.setFields
  rw [FieldsStore.flattenRegisteredFields_flat fm.fieldsStore _ hempty]
  · have hany : (fields.map (fun kv : String × Field => (kv.1, JSVal.obj kv.2))).any
        (fun kv => raisesOnIn kv.2) = false := by
      rw [List.any_eq_false]
      intro kv hkv
      obtain ⟨kv0, _, rfl⟩ := List.mem_map.1 hkv
      simp [raisesOnIn, JSVal.isObject]
    simp only [hany, Bool.false_eq_true, if_false, List.map_map, List.append_nil]
    have : (fields.map ((fun kv : String × JSVal => (kv.1, asField kv.2)) ∘
        (fun kv : String × Field => (kv.1, JSVal.obj kv.2)))) = fields := by
      conv_rhs => rw [← List.map_id fields]
      apply List.map_congr_left
      intro kv _
      rfl
    rw [this]
  · intro kv hkv
    obtain ⟨kv0, h0, rfl⟩ := List.mem_map.1 hkv
    exact hreg kv0 h0
  · simpa [Obj.keys, List.map_map, Function.comp] using hkeys

/-! ## Reads leave the records alone -/

theorem FieldsStore.getValueFromFields_fields (s : FieldsStore) (name : String)
    (fields : List (String × Field)) : (s.getValueFromFields name fields).2.fields = s.fields := by
  unfold FieldsStore.getValueFromFields FieldsStore.getFieldMeta
  cases Obj.get? fields name with
  | none => rfl
  | some field => by_cases h : Obj.has field "value" = true <;> simp [h]

theorem FieldsStore.reduceSet_fields (getter : FieldsStore → String → JSVal × FieldsStore)
    (key : String → String) (hg : ∀ st n, (getter st n).2.fields = st.fields)
    (names : List String) (acc : JSVal) (s : FieldsStore) :
    (FieldsStore.reduceSet getter key names acc s).2.fields = s.fields := by
  induction names generalizing acc s with
  | nil => rfl
  | cons f rest ih =>
    rw [FieldsStore.reduceSet, ih, hg]

theorem FieldsStore.getFieldValue_fields (s : FieldsStore) (name : String) :
    (s.getFieldValue name).2.fields = s.fields := by
  unfold FieldsStore.getFieldValue FieldsStore.getNestedField
  simp only
  split
  · exact FieldsStore.getValueFromFields_fields _ _ _
  · exact FieldsStore.reduceSet_fields _ _
      (fun st n => FieldsStore.getValueFromFields_fields st n s.fields) _ _ _

theorem FieldsStore.getFieldsValue_fields (s : FieldsStore) (names : Option (List String)) :
    (s.getFieldsValue names).2.fields = s.fields := by
  unfold FieldsStore.getFieldsValue FieldsStore.getNestedFields
  exact FieldsStore.reduceSet_fields _ _ (fun st n => FieldsStore.getFieldValue_fields st n) _ _ _

theorem refreshValues_fields (names : List String) (allValues : Props) (s : FieldsStore) :
    (refreshValues names allValues s).2.fields = s.fields := by
  induction names generalizing allValues s with
  | nil => rfl
  | cons f rest ih => rw [refreshValues, ih, FieldsStore.getFieldValue_fields]

theorem refreshValues_keys (names : List String) (allValues : Props) (s : FieldsStore)
    (h : ∀ n ∈ names, n ∈ Obj.keys allValues) (n : String) :
    n ∈ Obj.keys (refreshValues names allValues s).1 ↔ n ∈ Obj.keys allValues := by
  induction names generalizing allValues s with
  | nil => rfl
  | cons f rest ih =>
    rw [refreshValues, ih]
    · rw [Obj.mem_keys_set]
      constructor
      · rintro (e | e)
        · exact e ▸ h f (List.mem_cons_self _ _)
        · exact e
      · exact Or.inr
    · intro m hm
      exact (Obj.mem_keys_set _ _ _ _).2 (Or.inr (h m (List.mem_cons_of_mem _ hm)))

/-! ## The selection loop of a validation pass -/

theorem FieldsStore.metaOf_getFieldMeta (s : FieldsStore) (name n : String) :
    (s.getFieldMeta name).2.metaOf n = s.metaOf n := by
  unfold FieldsStore.getFieldMeta FieldsStore.metaOf
  simp only
  by_cases h : name = n
  · subst h
    rw [Obj.get?_set_same]
    rfl
  · rw [Obj.get?_set_other _ _ _ _ h]

theorem FieldsStore.keys_getFieldMeta (s : FieldsStore) (name n : String) :
    n ∈ Obj.keys (s.getFieldMeta name).2.fieldsMeta ↔ n = name ∨ n ∈ Obj.keys s.fieldsMeta := by
  unfold FieldsStore.getFieldMeta
  exact Obj.mem_keys_set _ _ _ _

theorem getRules_of_validate (fieldMeta : FieldMeta) (action : Option String)
    (h : fieldMeta.validate ≠ none) : getRules fieldMeta action = .ok (rulesFor fieldMeta action) := by
  unfold rulesFor getRules
  cases hv : fieldMeta.validate with
  | none => exact absurd hv h
  | some v => rfl

theorem Props.get_set_other (o : Props) (k k2 : String) (v : JSVal) (h : k ≠ k2) :
    Props.get (Obj.set o k v) k2 = Props.get o k2 := by
  unfold Props.get
  rw [Obj.get?_set_other _ _ _ _ h]

theorem Props.get_set_same (o : Props) (k : String) (v : JSVal) :
    Props.get (Obj.set o k v) k = v := by
  unfold Props.get
  rw [Obj.get?_set_same]
  rfl

theorem markValidating_value (field : Field) :
    Props.get (markValidating field) "value" = Props.get field "value" := by
  unfold markValidating
  rw [Props.get_set_other _ _ _ _ (by decide), Props.get_set_other _ _ _ _ (by decide),
    Props.get_set_other _ _ _ _ (by decide)]

theorem selectField_skip (force : Bool) (action : Option String) (sel : Selection)
    (field : Field) (h : isSelected force field = false) :
    selectField force action sel field =
      .ok (if (Props.get field "errors").truthy then
        { sel with
          alreadyErrors :=
            Lodash.set sel.alreadyErrors (fieldName field)
              (.obj [("errors", Props.get field "errors")]) }
        else sel) := by
  unfold isSelected at h
  simp only [Bool.or_eq_false_iff, Bool.not_eq_false', decide_eq_true_eq] at h
  unfold selectField
  simp only [h.1, h.2, Bool.not_false, decide_True, Bool.and_self, if_true]
  split <;> rfl

theorem selectField_take (force : Bool) (action : Option String) (sel : Selection)
    (field : Field) (h : isSelected force field = true)
    (hv : (sel.store.metaOf (fieldName field)).validate ≠ none) :
    selectField force action sel field =
      .ok { store := (sel.store.getFieldMeta (fieldName field)).2
            allRules := Obj.set sel.allRules (fieldName field)
              (rulesFor (sel.store.metaOf (fieldName field)) action)
            allValues := Obj.set sel.allValues (fieldName field) (Props.get field "value")
            allFields := Obj.set sel.allFields (fieldName field) (markValidating field)
            alreadyErrors := sel.alreadyErrors } := by
  unfold isSelected at h
  have hc : (!force && decide (Props.get field "dirty" = JSVal.bool false)) = false := by
    cases force <;> simp_all
  unfold selectField
  simp only [hc, Bool.false_eq_true, if_false]
  have hm : (sel.store.getFieldMeta (fieldName field)).1 = sel.store.metaOf (fieldName field) := rfl
  rw [hm, getRules_of_validate _ _ hv]
  simp only [← markValidating_value field]
  rfl

/-- The closed form of the selection loop when every selected record names a
field whose metadata has a `validate` list. -/
theorem selectFields_ok (force : Bool) (action : Option String) (fields : List Field)
    (sel : Selection)
    (hv : ∀ f ∈ fields, isSelected force f = true →
      (sel.store.metaOf (fieldName f)).validate ≠ none) :
    ∃ sel1 : Selection, selectFields force action sel fields = .ok sel1 ∧
      sel1.store.fields = sel.store.fields ∧
      (∀ n, sel1.store.metaOf n = sel.store.metaOf n) ∧
      (∀ n, n ∈ Obj.keys sel1.store.fieldsMeta ↔
        (n ∈ Obj.keys sel.store.fieldsMeta ∨
          ∃ f ∈ fields, isSelected force f = true ∧ fieldName f = n)) ∧
      sel1.allFields = (fields.filter (isSelected force)).foldl
        (fun acc f => Obj.set acc (fieldName f) (markValidating f)) sel.allFields ∧
      sel1.allRules = (fields.filter (isSelected force)).foldl
        (fun acc f => Obj.set acc (fieldName f) (rulesFor (sel.store.metaOf (fieldName f)) action))
        sel.allRules ∧
      sel1.allValues = (fields.filter (isSelected force)).foldl
        (fun acc f => Obj.set acc (fieldName f) (Props.get f "value")) sel.allValues ∧
      sel1.alreadyErrors =
        (fields.filter (fun f => !isSelected force f && (Props.get f "errors").truthy)).foldl
          (fun acc f => Lodash.set acc (fieldName f) (.obj [("errors", Props.get f "errors")]))
          sel.alreadyErrors := by
  induction fields generalizing sel with
  | nil => exact ⟨sel, rfl, rfl, fun _ => rfl, by simp, rfl, rfl, rfl, rfl⟩
  | cons f rest ih =>
    by_cases hs : isSelected force f = true
    · have hvf := hv f (List.mem_cons_self _ _) hs
      have hstep := selectField_take force action sel f hs hvf
      obtain ⟨sel1, h1, h2, h3, h4, h5, h6, h7, h8⟩ := ih
        { store := (sel.store.getFieldMeta (fieldName f)).2
          allRules := Obj.set sel.allRules (fieldName f)
            (rulesFor (sel.store.metaOf (fieldName f)) action)
          allValues := Obj.set sel.allValues (fieldName f) (Props.get f "value")
          allFields := Obj.set sel.allFields (fieldName f) (markValidating f)
          alreadyErrors := sel.alreadyErrors }
        (by
          intro g hg hgs
          simp only [FieldsStore.metaOf_getFieldMeta]
          exact hv g (List.mem_cons_of_mem _ hg) hgs)
      refine ⟨sel1, ?_, ?_, ?_, ?_, ?_, ?_, ?_, ?_⟩
      · rw [selectFields, hstep]; exact h1
      · rw [h2]; rfl
      · intro n; rw [h3, FieldsStore.metaOf_getFieldMeta]
      · intro n
        rw [h4]
        simp only [FieldsStore.keys_getFieldMeta, List.mem_cons, exists_eq_or_imp, hs, true_and]
        constructor
        · rintro ((e | e) | e)
          · exact Or.inr (Or.inl e.symm)
          · exact Or.inl e
          · exact Or.inr (Or.inr e)
        · rintro (e | e | e)
          · exact Or.inl (Or.inr e)
          · exact Or.inl (Or.inl e.symm)
          · exact Or.inr e
      · rw [h5]; simp [List.filter_cons, hs]
      · rw [h6]; simp [List.filter_cons, hs, FieldsStore.metaOf_getFieldMeta]
      · rw [h7]; simp [List.filter_cons, hs]
      · rw [h8]; simp [List.filter_cons, hs]
    · have hs2 : isSelected force f = false := by simpa using hs
      have hstep := selectField_skip force action sel f hs2
      by_cases he : (Props.get f "errors").truthy = true
      · simp only [he, if_true] at hstep
        obtain ⟨sel1, h1, h2, h3, h4, h5, h6, h7, h8⟩ := ih
          { sel with
            alreadyErrors :=
              Lodash.set sel.alreadyErrors (fieldName f)
                (.obj [("errors", Props.get f "errors")]) }
          (fun g hg hgs => hv g (List.mem_cons_of_mem _ hg) hgs)
        refine ⟨sel1, ?_, h2, h3, ?_, ?_, ?_, ?_, ?_⟩
        · rw [selectFields, hstep]; exact h1
        · intro n
          rw [h4]
          simp [hs2]
        · rw [h5]; simp [List.filter_cons, hs2]
        · rw [h6]; simp [List.filter_cons, hs2]
        · rw [h7]; simp [List.filter_cons, hs2]
        · rw [h8]; simp [List.filter_cons, hs2, he]
      · simp only [he, Bool.false_eq_true, if_false] at hstep
        obtain ⟨sel1, h1, h2, h3, h4, h5, h6, h7, h8⟩ := ih sel
          (fun g hg hgs => hv g (List.mem_cons_of_mem _ hg) hgs)
        refine ⟨sel1, ?_, h2, h3, ?_, ?_, ?_, ?_, ?_⟩
        · rw [selectFields, hstep]; exact h1
        · intro n
          rw [h4]
          simp [hs2]
        · rw [h5]; simp [List.filter_cons, hs2]
        · rw [h6]; simp [List.filter_cons, hs2]
        · rw [h7]; simp [List.filter_cons, hs2]
        · rw [h8]; simp [List.filter_cons, hs2, he]

theorem Obj.foldl_set_keys {α β : Type} (key : β → String) (val : β → α) (l : List β)
    (init : List (String × α)) (n : String) :
    n ∈ Obj.keys (l.foldl (fun acc f => Obj.set acc (key f) (val f)) init) ↔
      (n ∈ Obj.keys init ∨ ∃ f ∈ l, key f = n) := by
  induction l generalizing init with
  | nil => simp
  | cons f rest ih =>
    rw [List.foldl_cons, ih, Obj.mem_keys_set]
    simp only [List.mem_cons, exists_eq_or_imp]
    constructor
    · rintro ((e | e) | e)
      · exact Or.inr (Or.inl e.symm)
      · exact Or.inl e
      · exact Or.inr (Or.inr e)
    · rintro (e | e | e)
      · exact Or.inl (Or.inr e)
      · exact Or.inl (Or.inl e.symm)
      · exact Or.inr e

theorem Obj.foldl_set_nodup {α β : Type} (key : β → String) (val : β → α) (l : List β)
    (init : List (String × α)) (h : (Obj.keys init).Nodup) :
    (Obj.keys (l.foldl (fun acc f => Obj.set acc (key f) (val f)) init)).Nodup := by
  induction l generalizing init with
  | nil => exact h
  | cons f rest ih =>
    rw [List.foldl_cons]
    exact ih _ (Obj.keys_set_nodup _ _ _ h)

theorem Obj.foldl_set_get?_other {α β : Type} (key : β → String) (val : β → α) (l : List β)
    (init : List (String × α)) (n : String) (h : ∀ f ∈ l, key f ≠ n) :
    Obj.get? (l.foldl (fun acc f => Obj.set acc (key f) (val f)) init) n = Obj.get? init n := by
  induction l generalizing init with
  | nil => rfl
  | cons f rest ih =>
    rw [List.foldl_cons, ih _ (fun g hg => h g (List.mem_cons_of_mem _ hg)),
      Obj.get?_set_other _ _ _ _ (h f (List.mem_cons_self _ _))]

theorem FieldsStore.normalize_step_member (s : FieldsStore) (values : Props) (old : String → JSVal)
    (name member : String) (hm : member ≠ "value")
    (l : List (String × JSVal)) (acc : List (String × Field)) :
    Props.get ((Obj.get? (l.foldl
      (fun (acc : List (String × Field)) (fv : String × JSVal) =>
        match (s.metaOf fv.1).normalize with
        | some normalize =>
          let nowValue := normalize fv.2 (old fv.1) (.obj values)
          if nowValue ≠ fv.2 then
            Obj.set acc fv.1 (Obj.set ((Obj.get? acc fv.1).getD []) "value" nowValue)
          else acc
        | none => acc) acc) name).getD []) member =
      Props.get ((Obj.get? acc name).getD []) member := by
  induction l generalizing acc with
  | nil => rfl
  | cons fv t ih =>
    rw [List.foldl_cons, ih]
    cases hn : (s.metaOf fv.1).normalize with
    | none => rfl
    | some normalize =>
      simp only
      split
      · by_cases hf : fv.1 = name
        · rw [hf, Obj.get?_set_same]
          simp only [Option.getD_some]
          exact Props.get_set_other _ _ _ _ (fun e => hm e.symm)
        · rw [Obj.get?_set_other _ _ _ _ hf]
      · rfl

/-- After `FieldsStore.setFields`, a member other than `value` of a field that the
map does not name is what it was. -/
theorem FieldsStore.setFields_member_frame (s : FieldsStore) (fields : List (String × Field))
    (name member : String) (hm : member ≠ "value") (hkeys : (Obj.keys fields).Nodup)
    (hnot : name ∉ Obj.keys fields) :
    (s.setFields fields).getFieldMember name member = s.getFieldMember name member := by
  unfold FieldsStore.getFieldMember FieldsStore.getField
  by_cases hn : member = "name"
  · subst hn
    rw [Props.get_set_same, Props.get_set_same]
  · rw [Props.get_set_other _ _ _ _ (fun e => hn e.symm),
      Props.get_set_other _ _ _ _ (fun e => hn e.symm)]
    unfold FieldsStore.setFields
    simp only
    rw [FieldsStore.normalize_step_member s _ (fun f => (s.getValueFromFields f s.fields).1)
      name member hm, Obj.get?_spread fields s.fields name hkeys,
      (Obj.get?_eq_none fields name).2 hnot]
    rfl

/-- The synchronous part of a validation pass succeeds when the selected records
have non-empty names whose metadata has a `validate` list and the empty name is
not registered: the selection `sel1` is written with `FieldsStore.setFields`. -/
theorem validateFieldsInternal_ok (fm : Form) (fields : List Field)
    (fieldNames : Option (List String)) (action : Option String) (force hasCallback : Bool)
    (hempty : "" ∉ fm.fieldsStore.getAllFieldsName)
    (hname : ∀ f ∈ fields, isSelected force f = true → fieldName f ≠ "")
    (hv : ∀ f ∈ fields, isSelected force f = true →
      (fm.fieldsStore.metaOf (fieldName f)).validate ≠ none) :
    ∃ sel1 : Selection,
      selectFields force action { store := fm.fieldsStore } fields = .ok sel1 ∧
      fm.validateFieldsInternal fields fieldNames action force hasCallback =
        .ok (if hasCallback && sel1.allFields.isEmpty then
          .finished
            { fm with
              fieldsStore :=
                ((refreshValues (Obj.keys sel1.allValues) sel1.allValues
                  (sel1.store.setFields sel1.allFields)).2.getFieldsValue fieldNames).2 }
            { errors := if isEmptyObject sel1.alreadyErrors then .null else sel1.alreadyErrors
              values :=
                ((refreshValues (Obj.keys sel1.allValues) sel1.allValues
                  (sel1.store.setFields sel1.allFields)).2.getFieldsValue fieldNames).1 }
        else
          .dispatched
            { fm with
              fieldsStore :=
                (refreshValues (Obj.keys sel1.allValues) sel1.allValues
                  (sel1.store.setFields sel1.allFields)).2 }
            { allRules := sel1.allRules
              allValues :=
                (refreshValues (Obj.keys sel1.allValues) sel1.allValues
                  (sel1.store.setFields sel1.allFields)).1
              alreadyErrors := sel1.alreadyErrors
              fieldNames := fieldNames
              hasCallback := hasCallback }) := by
  obtain ⟨sel1, h1, _, _, h4, h5, _, _, _⟩ :=
    selectFields_ok force action fields { store := fm.fieldsStore } hv
  refine ⟨sel1, h1, ?_⟩
  have hkeys : (Obj.keys sel1.allFields).Nodup := by
    rw [h5]
    exact Obj.foldl_set_nodup _ _ _ _ (by simp [Obj.keys])
  have hreg : ∀ kv ∈ sel1.allFields, kv.1 ∈ Obj.keys sel1.store.fieldsMeta := by
    intro kv hkv
    have hk : kv.1 ∈ Obj.keys sel1.allFields := List.mem_map_of_mem _ hkv
    rw [h5, Obj.foldl_set_keys] at hk
    rw [h4]
    rcases hk with hk | ⟨f, hf, hfn⟩
    · simp [Obj.keys] at hk
    · exact Or.inr ⟨f, (List.mem_filter.1 hf).1, (List.mem_filter.1 hf).2, hfn⟩
  have hempty1 : "" ∉ Obj.keys sel1.store.fieldsMeta := by
    rw [h4]
    rintro (h | ⟨f, hf, hfs, hfn⟩)
    · exact hempty h
    · exact hname f hf hfs hfn
  have hset := Form.setFields_flat ({ fm with fieldsStore := sel1.store } : Form) sel1.allFields
    hempty1 hreg hkeys
  unfold Form.validateFieldsInternal
  rw [h1]
  simp only
  rw [hset]
  simp only
  split <;> rfl

/-- C3, as the code has it: in a pass that is not forced, a record `x` of the batch
with `dirty = false` is not given to the validator: rules and values are
dispatched exactly for the names of the records whose `dirty` is not `false`.
Of the stored record of `x` every member other than `value` (its `errors` among
them) is left as it was, and the whole record when `x` has no `normalize`
function. -/
theorem validateFieldsInternal_selection (fm : Form) (fields : List Field)
    (fieldNames : Option (List String)) (action : Option String) (hasCallback : Bool)
    (x : Field)
    (hempty : "" ∉ fm.fieldsStore.getAllFieldsName)
    (hname : ∀ f ∈ fields, fieldName f ≠ "")
    (hv : ∀ f ∈ fields, Props.get f "dirty" ≠ .bool false →
      (fm.fieldsStore.metaOf (fieldName f)).validate ≠ none)
    (hdirty : Props.get x "dirty" = .bool false)
    (hunique : ∀ f ∈ fields, fieldName f = fieldName x → f = x) :
    ∃ res : PassResult,
      fm.validateFieldsInternal fields fieldNames action false hasCallback = .ok res ∧
      (∀ n, n ∈ Obj.keys res.dispatchedRules ↔
        ∃ f ∈ fields, Props.get f "dirty" ≠ .bool false ∧ fieldName f = n) ∧
      (∀ n, n ∈ Obj.keys res.dispatchedValues ↔
        ∃ f ∈ fields, Props.get f "dirty" ≠ .bool false ∧ fieldName f = n) ∧
      fieldName x ∉ Obj.keys res.dispatchedRules ∧
      fieldName x ∉ Obj.keys res.dispatchedValues ∧
      (∀ member, member ≠ "value" →
        res.form.fieldsStore.getFieldMember (fieldName x) member =
          fm.fieldsStore.getFieldMember (fieldName x) member) ∧
      ((fm.fieldsStore.metaOf (fieldName x)).normalize = none →
        Obj.get? res.form.fieldsStore.fields (fieldName x) =
          Obj.get? fm.fieldsStore.fields (fieldName x)) := by
  have honly : ∀ f ∈ fields, fieldName f = fieldName x → Props.get f "dirty" = .bool false := by
    intro f hf hn
    rw [hunique f hf hn]
    exact hdirty
  have hsel : ∀ f : Field, isSelected false f = true ↔ Props.get f "dirty" ≠ .bool false := by
    intro f
    simp [isSelected]
  obtain ⟨sel1, h1, hres⟩ := validateFieldsInternal_ok fm fields fieldNames action false
    hasCallback hempty (fun f hf _ => hname f hf) (fun f hf hs => hv f hf ((hsel f).1 hs))
  obtain ⟨sel2, h1b, hfields, hmeta, _, h5, h6, h7, _⟩ :=
    selectFields_ok false action fields { store := fm.fieldsStore }
      (fun f hf hs => hv f hf ((hsel f).1 hs))
  have hsame : sel2 = sel1 := by
    rw [h1] at h1b
    exact (Except.ok.inj h1b).symm
  subst hsame
  have hk5 : ∀ n, n ∈ Obj.keys sel2.allFields ↔
      ∃ f ∈ fields, Props.get f "dirty" ≠ .bool false ∧ fieldName f = n := by
    intro n
    rw [h5, Obj.foldl_set_keys]
    simp only [Obj.keys, List.map_nil, List.not_mem_nil, false_or, List.mem_filter, hsel]
    constructor
    · rintro ⟨f, ⟨hf, hd⟩, hn⟩; exact ⟨f, hf, hd, hn⟩
    · rintro ⟨f, hf, hd, hn⟩; exact ⟨f, ⟨hf, hd⟩, hn⟩
  have hk6 : ∀ n, n ∈ Obj.keys sel2.allRules ↔
      ∃ f ∈ fields, Props.get f "dirty" ≠ .bool false ∧ fieldName f = n := by
    intro n
    rw [h6, Obj.foldl_set_keys]
    simp only [Obj.keys, List.map_nil, List.not_mem_nil, false_or, List.mem_filter, hsel]
    constructor
    · rintro ⟨f, ⟨hf, hd⟩, hn⟩; exact ⟨f, hf, hd, hn⟩
    · rintro ⟨f, hf, hd, hn⟩; exact ⟨f, ⟨hf, hd⟩, hn⟩
  have hk7 : ∀ n, n ∈ Obj.keys sel2.allValues ↔
      ∃ f ∈ fields, Props.get f "dirty" ≠ .bool false ∧ fieldName f = n := by
    intro n
    rw [h7, Obj.foldl_set_keys]
    simp only [Obj.keys, List.map_nil, List.not_mem_nil, false_or, List.mem_filter, hsel]
    constructor
    · rintro ⟨f, ⟨hf, hd⟩, hn⟩; exact ⟨f, hf, hd, hn⟩
    · rintro ⟨f, hf, hd, hn⟩; exact ⟨f, ⟨hf, hd⟩, hn⟩
  have hxnot : ∀ keys : String → Prop,
      (∀ n, keys n ↔ ∃ f ∈ fields, Props.get f "dirty" ≠ .bool false ∧ fieldName f = n) →
      ¬ keys (fieldName x) := by
    intro keys hkeys hx
    obtain ⟨f, hf, hd, hn⟩ := (hkeys _).1 hx
    exact hd (honly f hf hn)
  have hnodup : (Obj.keys sel2.allFields).Nodup := by
    rw [h5]
    exact Obj.foldl_set_nodup _ _ _ _ (by simp [Obj.keys])
  have hxf : fieldName x ∉ Obj.keys sel2.allFields := hxnot _ hk5
  have hstore : ∀ res : PassResult,
      res.form.fieldsStore.fields = (sel2.store.setFields sel2.allFields).fields →
      (∀ member, member ≠ "value" →
        res.form.fieldsStore.getFieldMember (fieldName x) member =
          fm.fieldsStore.getFieldMember (fieldName x) member) ∧
      ((fm.fieldsStore.metaOf (fieldName x)).normalize = none →
        Obj.get? res.form.fieldsStore.fields (fieldName x) =
          Obj.get? fm.fieldsStore.fields (fieldName x)) := by
    intro res hr
    constructor
    · intro member hm
      have := FieldsStore.setFields_member_frame sel2.store sel2.allFields (fieldName x) member
        hm hnodup hxf
      unfold FieldsStore.getFieldMember FieldsStore.getField at this ⊢
      rw [hr, this, hfields]
    · intro hnorm
      rw [hr, FieldsStore.setFields_record sel2.store sel2.allFields (fieldName x) hnodup
        (by rw [hmeta]; exact hnorm), (Obj.get?_eq_none _ _).2 hxf, hfields]
      rfl
  by_cases hc : (hasCallback && sel2.allFields.isEmpty) = true
  · rw [if_pos hc] at hres
    have hnone : ∀ n, ¬ ∃ f ∈ fields, Props.get f "dirty" ≠ .bool false ∧ fieldName f = n := by
      intro n hn
      have := (hk5 n).2 hn
      simp only [Bool.and_eq_true, List.isEmpty_iff] at hc
      rw [hc.2] at this
      simp [Obj.keys] at this
    refine ⟨_, hres, ?_, ?_, ?_, ?_, ?_⟩
    · intro n; simp [PassResult.dispatchedRules, Obj.keys, hnone n]
    · intro n; simp [PassResult.dispatchedValues, Obj.keys, hnone n]
    · simp [PassResult.dispatchedRules, Obj.keys]
    · simp [PassResult.dispatchedValues, Obj.keys]
    · apply hstore
      simp only [PassResult.form]
      rw [FieldsStore.getFieldsValue_fields, refreshValues_fields]
  · rw [if_neg hc] at hres
    have hkv : ∀ n, n ∈ Obj.keys (refreshValues (Obj.keys sel2.allValues) sel2.allValues
        (sel2.store.setFields sel2.allFields)).1 ↔ n ∈ Obj.keys sel2.allValues :=
      refreshValues_keys _ _ _ (fun n hn => hn)
    refine ⟨_, hres, ?_, ?_, ?_, ?_, ?_⟩
    · intro n; simp only [PassResult.dispatchedRules]; exact hk6 n
    · intro n; simp only [PassResult.dispatchedValues]; rw [hkv]; exact hk7 n
    · simp only [PassResult.dispatchedRules]; exact hxnot _ hk6
    · simp only [PassResult.dispatchedValues]; rw [hkv]; exact hxnot _ hk7
    · apply hstore
      simp only [PassResult.form]
      rw [refreshValues_fields]

/-- The witness of `validateFieldsInternal_selection`: the batch of `x` (clean, with
an error) and `y` (dirty) on `Demo.store`; `x` is not dispatched and keeps its error. -/
theorem validateFieldsInternal_selection_witness :
    ∃ res : PassResult,
      Form.validateFieldsInternal { fieldsStore := Demo.store } Demo.batch (some ["x", "y"]) none
        false true = .ok res ∧
      fieldName Demo.x ∉ Obj.keys res.dispatchedRules ∧
      res.form.fieldsStore.getFieldMember (fieldName Demo.x) "errors" =
        Demo.store.getFieldMember (fieldName Demo.x) "errors" :=
  let ⟨res, h1, _, _, h4, _, h6, _⟩ :=
    validateFieldsInternal_selection { fieldsStore := Demo.store } Demo.batch (some ["x", "y"])
      none true Demo.x (by decide) (by decide) (by decide) (by decide) (by decide)
  ⟨res, h1, h4, h6 "errors" (by decide)⟩

/-- C3 as stated fails: `x` is clean and is skipped, but its `normalize` function is
run again when the pass stores the selected records, and the stored record of `x`
changes (its value goes from 1 to 2). -/
theorem validateFieldsInternal_record_counterexample :
    Obj.get? Demo.storeBump.fields "x" =
      some [("value", .num 1), ("errors", .arr [Demo.errorE]), ("dirty", .bool false)] ∧
    (match Form.validateFieldsInternal { fieldsStore := Demo.storeBump } Demo.batch
        (some ["x", "y"]) none false true with
      | .ok res => Obj.get? res.form.fieldsStore.fields "x"
      | .error _ => none) =
      some [("value", .num 2), ("errors", .arr [Demo.errorE]), ("dirty", .bool false)] := by
  decide

/-! ## The completion of a validation pass -/

theorem Obj.foldl_set_get?_mem {α β : Type} (key : β → String) (val : β → α) (l : List β)
    (init : List (String × α)) (k : String) (v : α)
    (hmem : ∃ f ∈ l, key f = k) (hval : ∀ f ∈ l, key f = k → val f = v) :
    Obj.get? (l.foldl (fun acc f => Obj.set acc (key f) (val f)) init) k = some v := by
  induction l generalizing init with
  | nil => obtain ⟨f, hf, _⟩ := hmem; simp at hf
  | cons f rest ih =>
    rw [List.foldl_cons]
    by_cases hr : ∃ g ∈ rest, key g = k
    · exact ih _ hr (fun g hg => hval g (List.mem_cons_of_mem _ hg))
    · have hfk : key f = k := by
        obtain ⟨g, hg, hgk⟩ := hmem
        rcases List.mem_cons.1 hg with e | e
        · exact e ▸ hgk
        · exact absurd ⟨g, e, hgk⟩ hr
      rw [Obj.foldl_set_get?_other _ _ _ _ _ (fun g hg e => hr ⟨g, hg, e⟩), hfk,
        Obj.get?_set_same, ← hval f (List.mem_cons_self _ _) hfk]

theorem isExpired_of_ne (same : String → Bool) (store : FieldsStore) (allValues : Props)
    (name : String)
    (h : Props.get (store.getField name) "value" ≠ Props.get allValues name) :
    isExpired same store allValues name = true := by
  simp [isExpired, strictNe, h]

theorem isExpired_of_copy (same : String → Bool) (store : FieldsStore) (allValues : Props)
    (name : String) (hobj : (Props.get (store.getField name) "value").isObject = true)
    (h : same name = false) : isExpired same store allValues name = true := by
  simp [isExpired, strictNe, hobj, h]

theorem isExpired_of_same (same : String → Bool) (store : FieldsStore) (allValues : Props)
    (name : String)
    (hval : Props.get (store.getField name) "value" = Props.get allValues name)
    (hid : (Props.get allValues name).isObject = true → same name = true) :
    isExpired same store allValues name = false := by
  unfold isExpired strictNe
  rw [hval]
  cases ho : (Props.get allValues name).isObject with
  | false => simp
  | true => simp [hid ho]

theorem reconcile_fold (same : String → Bool) (store : FieldsStore) (allValues : Props)
    (errorsGroup : JSVal) (names : List String) (acc : Reconciled) :
    names.foldl (reconcileField same store allValues errorsGroup) acc =
      { expired := acc.expired ++ names.filter (isExpired same store allValues)
        nowAllFields :=
          (names.filter (fun n => !isExpired same store allValues n)).foldl
            (fun a n => Obj.set a n (committedField store allValues errorsGroup n))
            acc.nowAllFields } := by
  induction names generalizing acc with
  | nil => simp
  | cons n rest ih =>
    rw [List.foldl_cons, ih]
    by_cases hx : isExpired same store allValues n = true
    · have hv : strictNe (same n) (Props.get (store.getField n) "value")
          (Props.get allValues n) = true := hx
      simp [reconcileField, hv, List.filter_cons, hx]
    · have hx2 : isExpired same store allValues n = false := by simpa using hx
      have hv : strictNe (same n) (Props.get (store.getField n) "value")
          (Props.get allValues n) = false := hx2
      simp [reconcileField, hv, List.filter_cons, hx2, committedField]

/-- After `FieldsStore.setFields`, a member other than `value` of any field is the
member of the supplied record when the map names the field, and of the previous
record otherwise. -/
theorem FieldsStore.setFields_member (s : FieldsStore) (fields : List (String × Field))
    (name member : String) (hm : member ≠ "value") (hkeys : (Obj.keys fields).Nodup) :
    (s.setFields fields).getFieldMember name member =
      Props.get (Obj.set
        (((Obj.get? fields name).orElse (fun _ => Obj.get? s.fields name)).getD [])
        "name" (.str name)) member := by
  unfold FieldsStore.getFieldMember FieldsStore.getField
  by_cases hn : member = "name"
  · subst hn
    rw [Props.get_set_same, Props.get_set_same]
  · rw [Props.get_set_other _ _ _ _ (fun e => hn e.symm),
      Props.get_set_other _ _ _ _ (fun e => hn e.symm)]
    unfold FieldsStore.setFields
    simp only
    rw [FieldsStore.normalize_step_member s _ (fun f => (s.getValueFromFields f s.fields).1)
      name member hm, Obj.get?_spread fields s.fields name hkeys]

/-- The validator callback runs to completion when the reported errors can be
grouped, the empty name is not registered and the names of the pass are
registered; it writes the committed records with `FieldsStore.setFields`. -/
theorem validateCallback_ok (same : String → Bool) (fm : Form) (pass : PendingPass)
    (errors : Option (List ValidateError)) (g : JSVal)
    (hgroup : groupErrors pass.alreadyErrors (errors.getD []) = .ok g)
    (hempty : "" ∉ fm.fieldsStore.getAllFieldsName)
    (hreg : ∀ n ∈ Obj.keys pass.allRules, n ∈ fm.fieldsStore.getAllFieldsName) :
    ∃ (fm1 : Form) (args : Option CallbackArgs),
      fm.validateCallback pass errors same = .ok (fm1, args) ∧
      fm1.fieldsStore.fields =
        (fm.fieldsStore.setFields
          (((Obj.keys pass.allRules).filter
            (fun n => !isExpired same fm.fieldsStore pass.allValues n)).foldl
            (fun a n => Obj.set a n (committedField fm.fieldsStore pass.allValues g n))
            [])).fields ∧
      args.map CallbackArgs.errors = (if pass.hasCallback then
        some
          (if isEmptyObject
              (((Obj.keys pass.allRules).filter (isExpired same fm.fieldsStore pass.allValues)).foldl
                (fun g name => Lodash.set g name (expiredEntry name)) g) then .null
            else
              ((Obj.keys pass.allRules).filter (isExpired same fm.fieldsStore pass.allValues)).foldl
                (fun g name => Lodash.set g name (expiredEntry name)) g)
        else none) := by
  have hkeys : (Obj.keys (((Obj.keys pass.allRules).filter
      (fun n => !isExpired same fm.fieldsStore pass.allValues n)).foldl
      (fun a n => Obj.set a n (committedField fm.fieldsStore pass.allValues g n))
      ([] : List (String × Field)))).Nodup :=
    Obj.foldl_set_nodup _ _ _ _ (by simp [Obj.keys])
  have hregs : ∀ kv ∈ (((Obj.keys pass.allRules).filter
      (fun n => !isExpired same fm.fieldsStore pass.allValues n)).foldl
      (fun a n => Obj.set a n (committedField fm.fieldsStore pass.allValues g n))
      ([] : List (String × Field))), kv.1 ∈ fm.fieldsStore.getAllFieldsName := by
    intro kv hkv
    have hk : kv.1 ∈ Obj.keys (((Obj.keys pass.allRules).filter
        (fun n => !isExpired same fm.fieldsStore pass.allValues n)).foldl
        (fun a n => Obj.set a n (committedField fm.fieldsStore pass.allValues g n))
        ([] : List (String × Field))) := List.mem_map_of_mem _ hkv
    rw [Obj.foldl_set_keys] at hk
    rcases hk with hk | ⟨n, hn, hnk⟩
    · simp [Obj.keys] at hk
    · exact hnk ▸ hreg n (List.mem_filter.1 hn).1
  have hset := Form.setFields_flat fm _ hempty hregs hkeys
  unfold Form.validateCallback
  rw [hgroup]
  simp only
  rw [reconcile_fold]
  simp only [List.nil_append]
  rw [hset]
  simp only
  by_cases hc : pass.hasCallback = true
  · simp only [hc, if_true]
    refine ⟨_, _, rfl, ?_, ?_⟩
    · simp only [FieldsStore.getFieldsValue_fields]
    · rfl
  · simp only [hc, Bool.false_eq_true, if_false]
    exact ⟨_, _, rfl, rfl, rfl⟩

theorem FieldsStore.getFieldMember_congr (s t : FieldsStore) (h : s.fields = t.fields)
    (name member : String) : s.getFieldMember name member = t.getFieldMember name member := by
  unfold FieldsStore.getFieldMember FieldsStore.getField
  rw [h]

theorem committedField_validating (store : FieldsStore) (allValues : Props) (g : JSVal)
    (name : String) :
    Props.get (committedField store allValues g name) "validating" = .bool false := by
  unfold committedField
  rw [Props.get_set_other _ _ _ _ (by decide), Props.get_set_same]

theorem committedField_dirty (store : FieldsStore) (allValues : Props) (g : JSVal)
    (name : String) :
    Props.get (committedField store allValues g name) "dirty" = .bool false := by
  unfold committedField
  rw [Props.get_set_same]

theorem committedField_errors (store : FieldsStore) (allValues : Props) (g : JSVal)
    (name : String) :
    Props.get (committedField store allValues g name) "errors" =
      (if (Lodash.get g name).truthy then Lodash.getProp (Lodash.get g name) "errors"
       else Lodash.get g name) := by
  unfold committedField
  rw [Props.get_set_other _ _ _ _ (by decide), Props.get_set_other _ _ _ _ (by decide),
    Props.get_set_other _ _ _ _ (by decide), Props.get_set_same]

/-- The members other than `value` of a field that the callback commits are those
of the committed record. -/
theorem validateCallback_committed_member (same : String → Bool) (fm fm1 : Form) (pass : PendingPass)
    (g : JSVal)
    (hfields : fm1.fieldsStore.fields =
      (fm.fieldsStore.setFields
        (((Obj.keys pass.allRules).filter
          (fun n => !isExpired same fm.fieldsStore pass.allValues n)).foldl
          (fun a n => Obj.set a n (committedField fm.fieldsStore pass.allValues g n))
          [])).fields)
    (name member : String) (hname : name ∈ Obj.keys pass.allRules)
    (hfresh : isExpired same fm.fieldsStore pass.allValues name = false)
    (hm : member ≠ "value") (hn : member ≠ "name") :
    fm1.fieldsStore.getFieldMember name member =
      Props.get (committedField fm.fieldsStore pass.allValues g name) member := by
  rw [FieldsStore.getFieldMember_congr _ _ hfields,
    FieldsStore.setFields_member _ _ _ _ hm (Obj.foldl_set_nodup _ _ _ _ (by simp [Obj.keys])),
    Obj.foldl_set_get?_mem (fun n => n) _ _ _ name
      (committedField fm.fieldsStore pass.allValues g name)
      ⟨name, List.mem_filter.2 ⟨hname, by simp [hfresh]⟩, rfl⟩
      (fun f _ hf => by subst hf; rfl)]
  simp only [Option.orElse, Option.getD_some]
  exact Props.get_set_other _ _ _ _ (fun e => hn e.symm)

/-- A field that the callback finds expired keeps its record: every member other
than `value`, and the whole record when it has no `normalize` function. -/
theorem validateCallback_expired_frame (same : String → Bool) (fm fm1 : Form) (pass : PendingPass)
    (g : JSVal)
    (hfields : fm1.fieldsStore.fields =
      (fm.fieldsStore.setFields
        (((Obj.keys pass.allRules).filter
          (fun n => !isExpired same fm.fieldsStore pass.allValues n)).foldl
          (fun a n => Obj.set a n (committedField fm.fieldsStore pass.allValues g n))
          [])).fields)
    (name : String) (hstale : isExpired same fm.fieldsStore pass.allValues name = true) :
    (∀ member, member ≠ "value" →
      fm1.fieldsStore.getFieldMember name member = fm.fieldsStore.getFieldMember name member) ∧
    ((fm.fieldsStore.metaOf name).normalize = none →
      Obj.get? fm1.fieldsStore.fields name = Obj.get? fm.fieldsStore.fields name) := by
  have hnot : name ∉ Obj.keys (((Obj.keys pass.allRules).filter
      (fun n => !isExpired same fm.fieldsStore pass.allValues n)).foldl
      (fun a n => Obj.set a n (committedField fm.fieldsStore pass.allValues g n))
      ([] : List (String × Field))) := by
    rw [Obj.foldl_set_keys]
    rintro (h | ⟨n, hn, rfl⟩)
    · simp [Obj.keys] at h
    · have := (List.mem_filter.1 hn).2
      simp [hstale] at this
  have hnodup : (Obj.keys (((Obj.keys pass.allRules).filter
      (fun n => !isExpired same fm.fieldsStore pass.allValues n)).foldl
      (fun a n => Obj.set a n (committedField fm.fieldsStore pass.allValues g n))
      ([] : List (String × Field)))).Nodup :=
    Obj.foldl_set_nodup _ _ _ _ (by simp [Obj.keys])
  constructor
  · intro member hm
    rw [FieldsStore.getFieldMember_congr _ _ hfields,
      FieldsStore.setFields_member_frame _ _ _ _ hm hnodup hnot]
  · intro hnorm
    rw [hfields, FieldsStore.setFields_record _ _ _ hnodup hnorm, (Obj.get?_eq_none _ _).2 hnot]
    rfl

/-- C5, as the code has it: when the errors the validator reports can be grouped
(the errors loop raises no `TypeError`), the empty name is not registered and the
names of the pass are still registered when the validator completes, the callback
of the validator runs to completion, and afterwards a field of the pass whose
stored value is strictly equal (`===`) to the value snapshotted at dispatch (equal
and, for an array or object, the very same one) has `validating = false`; a field
whose value is not (it differs, or it is an equal copy of the snapshotted array or
object: a stale result) is not written at all, so its `validating` flag, like every
member other than `value`, is what it was before the callback ran. -/
theorem validateCallback_validating (fm : Form) (pass : PendingPass)
    (errors : Option (List ValidateError)) (g : JSVal) (same : String → Bool)
    (hgroup : groupErrors pass.alreadyErrors (errors.getD []) = .ok g)
    (hempty : "" ∉ fm.fieldsStore.getAllFieldsName)
    (hreg : ∀ n ∈ Obj.keys pass.allRules, n ∈ fm.fieldsStore.getAllFieldsName) :
    ∃ (fm1 : Form) (args : Option CallbackArgs),
      fm.validateCallback pass errors same = .ok (fm1, args) ∧
      ∀ name ∈ Obj.keys pass.allRules,
        (Props.get (fm.fieldsStore.getField name) "value" = Props.get pass.allValues name →
          ((Props.get pass.allValues name).isObject = true → same name = true) →
          fm1.fieldsStore.getFieldMember name "validating" = .bool false) ∧
        (Props.get (fm.fieldsStore.getField name) "value" ≠ Props.get pass.allValues name ∨
            ((Props.get (fm.fieldsStore.getField name) "value").isObject = true ∧
              same name = false) →
          (∀ member, member ≠ "value" →
            fm1.fieldsStore.getFieldMember name member =
              fm.fieldsStore.getFieldMember name member) ∧
          ((fm.fieldsStore.metaOf name).normalize = none →
            Obj.get? fm1.fieldsStore.fields name = Obj.get? fm.fieldsStore.fields name)) := by
  obtain ⟨fm1, args, hrun, hfields, _⟩ :=
    validateCallback_ok same fm pass errors g hgroup hempty hreg
  refine ⟨fm1, args, hrun, ?_⟩
  intro name hname
  constructor
  · intro hval hid
    rw [validateCallback_committed_member same fm fm1 pass g hfields name "validating" hname
      (isExpired_of_same same _ _ name hval hid) (by decide) (by decide)]
    exact committedField_validating _ _ _ _
  · intro hstale
    apply validateCallback_expired_frame same fm fm1 pass g hfields name
    rcases hstale with hne | ⟨hobj, hs⟩
    · exact isExpired_of_ne same _ _ name hne
    · exact isExpired_of_copy same _ _ name hobj hs

/-- The witness of `validateCallback_validating`: a pass over `x` and `y` of
`Demo.store` whose snapshot of `y` is 2 and of `x` is 7 (so `x` is stale), completed
with one error for `y`. -/
theorem validateCallback_validating_witness :
    ∃ (fm1 : Form) (args : Option CallbackArgs),
      Form.validateCallback { fieldsStore := Demo.store }
        { allRules := [("x", []), ("y", [])], allValues := [("x", .num 7), ("y", .num 2)],
          alreadyErrors := .obj [], fieldNames := none, hasCallback := true }
        (some [{ field := "y", message := "y is bad" }]) (fun _ => true) = .ok (fm1, args) ∧
      fm1.fieldsStore.getFieldMember "y" "validating" = .bool false ∧
      fm1.fieldsStore.getFieldMember "x" "validating" =
        Demo.store.getFieldMember "x" "validating" :=
  let ⟨fm1, args, h1, h2⟩ :=
    validateCallback_validating { fieldsStore := Demo.store }
      { allRules := [("x", []), ("y", [])], allValues := [("x", .num 7), ("y", .num 2)],
        alreadyErrors := .obj [], fieldNames := none, hasCallback := true }
      (some [{ field := "y", message := "y is bad" }])
      (.obj [("y", .obj [("errors", .arr [.obj [("message", .str "y is bad"),
        ("field", .str "y")]])])]) (fun _ => true)
      (by rfl) (by decide) (by decide)
  ⟨fm1, args, h1, (h2 "y" (by decide)).1 (by decide) (fun _ => rfl),
    ((h2 "x" (by decide)).2 (Or.inl (by decide))).1 "validating" (by decide)⟩

/-- C5 as stated fails: in the staleness scenario the pass marks `f` as validating,
`f` is edited, and after the callback of the validator has run the record of `f`
still has `validating = true`.  The same holds when the value of `f` is an array
that has been replaced by an equal copy, and when the empty name has been registered
since the dispatch (the records to commit are then taken for the record of the
empty name). -/
theorem validateCallback_validating_counterexample :
    ((match Demo.staleRun Demo.storeF with
      | .ok r => r.1.fieldsStore.getFieldMember "f" "validating"
      | .error _ => .undefined) = .bool true) ∧
    ((match Form.validateCallback { fieldsStore := Demo.storeList } Demo.passList none
        (fun _ => false) with
      | .ok r => r.1.fieldsStore.getFieldMember "f" "validating"
      | .error _ => .undefined) = .bool true) ∧
    ((match Form.validateCallback { fieldsStore := Demo.storeEmptyName } Demo.passOne none
        (fun _ => true) with
      | .ok r => r.1.fieldsStore.getFieldMember "f" "validating"
      | .error _ => .undefined) = .bool true) := by
  decide

/-! ## Laws of `set` and `get` on key paths -/

namespace Lodash

theorem getD_setAt_same (xs : List JSVal) (i : Nat) (v : JSVal) :
    (setAt xs i v).getD i .undefined = v := by
  unfold setAt
  by_cases h : i < xs.length
  · simp [h, List.getD_eq_getElem?_getD, List.getElem?_set]
  · simp only [h, if_false, List.getD_eq_getElem?_getD]
    have hlen : (xs ++ List.replicate (i - xs.length) JSVal.undefined).length = i := by
      simp; omega
    rw [List.getElem?_append_right (by omega)]
    simp [hlen]

theorem getD_setAt_other (xs : List JSVal) (i j : Nat) (v : JSVal) (h : i ≠ j) :
    (setAt xs i v).getD j .undefined = xs.getD j .undefined := by
  unfold setAt
  by_cases hi : i < xs.length
  · simp [hi, List.getD_eq_getElem?_getD, List.getElem?_set, h]
  · simp only [hi, if_false, List.getD_eq_getElem?_getD]
    by_cases hj : j < xs.length
    · rw [List.append_assoc, List.getElem?_append_left hj]
    · have hnone : xs[j]? = none := List.getElem?_eq_none (by omega)
      rw [hnone]
      by_cases hj2 : j < i
      · rw [List.getElem?_append_left (by simp; omega),
          List.getElem?_append_right (by omega)]
        simp only [List.getElem?_replicate, Option.getD_none]
        split <;> rfl
      · rw [List.getElem?_eq_none (by simp; omega)]

end Lodash

/-! ## Decimal numerals: `parseUint` and `toString` on naturals -/

namespace Lodash

theorem digitChar_isDigit (k : Nat) (h : k < 10) : (Nat.digitChar k).isDigit = true := by
  interval_cases k <;> decide

theorem digitChar_value (k : Nat) (h : k < 10) : (Nat.digitChar k).toNat - '0'.toNat = k := by
  interval_cases k <;> decide

theorem digitChar_ne_zero (k : Nat) (h : k < 10) (h0 : k ≠ 0) : Nat.digitChar k ≠ '0' := by
  interval_cases k <;> first | exact absurd rfl h0 | decide

theorem digitChar_of_isDigit (c : Char) (h : c.isDigit = true) :
    Nat.digitChar (c.toNat - '0'.toNat) = c ∧ c.toNat - '0'.toNat < 10 := by
  have h1 : 48 ≤ c.toNat ∧ c.toNat ≤ 57 := by
    simp only [Char.isDigit, Bool.and_eq_true, decide_eq_true_eq] at h
    exact ⟨h.1, h.2⟩
  have h0 : ('0' : Char).toNat = 48 := rfl
  have key : ∀ n : Nat, 48 ≤ n → n ≤ 57 → Nat.digitChar (n - 48) = Char.ofNat n := by
    intro n hlo hhi
    interval_cases n <;> rfl
  constructor
  · rw [h0, key c.toNat h1.1 h1.2, Char.ofNat_toNat]
  · rw [h0]
    omega

theorem digitsValue_cons (c : Char) (cs : List Char) (acc : Nat) :
    digitsValue (c :: cs) acc = digitsValue cs (10 * acc + (c.toNat - '0'.toNat)) := rfl

theorem digitsValue_append (cs : List Char) (d : Char) (acc : Nat) :
    digitsValue (cs ++ [d]) acc = 10 * digitsValue cs acc + (d.toNat - '0'.toNat) := by
  simp [digitsValue, List.foldl_append]

theorem le_digitsValue (cs : List Char) (acc : Nat) : acc ≤ digitsValue cs acc := by
  induction cs generalizing acc with
  | nil => exact le_refl _
  | cons c cs ih =>
    rw [digitsValue_cons]
    exact le_trans (by omega) (ih _)

theorem toDigitsCore_value (fuel n : Nat) (ds : List Char) (h : n < fuel) :
    digitsValue (Nat.toDigitsCore 10 fuel n ds) 0 = digitsValue ds n := by
  induction fuel generalizing n ds with
  | zero => omega
  | succ f ih =>
    simp only [Nat.toDigitsCore]
    split
    · rename_i h0
      rw [digitsValue_cons, digitChar_value _ (Nat.mod_lt _ (by decide))]
      congr 1
      omega
    · rename_i h0
      rw [ih _ _ (by omega), digitsValue_cons, digitChar_value _ (Nat.mod_lt _ (by decide))]
      congr 1
      omega

theorem toDigitsCore_all (fuel n : Nat) (ds : List Char) (h : ds.all Char.isDigit = true) :
    (Nat.toDigitsCore 10 fuel n ds).all Char.isDigit = true := by
  induction fuel generalizing n ds with
  | zero => simpa [Nat.toDigitsCore] using h
  | succ f ih =>
    simp only [Nat.toDigitsCore]
    have hd : ((Nat.digitChar (n % 10)) :: ds).all Char.isDigit = true := by
      simp only [List.all_cons, Bool.and_eq_true]
      exact ⟨digitChar_isDigit _ (Nat.mod_lt _ (by decide)), h⟩
    split
    · exact hd
    · exact ih _ _ hd

theorem toDigitsCore_head (fuel n : Nat) (ds : List Char) (h : n < fuel) (hn : n ≠ 0) :
    ∃ c rest, Nat.toDigitsCore 10 fuel n ds = c :: rest ∧ c ≠ '0' := by
  induction fuel generalizing n ds with
  | zero => omega
  | succ f ih =>
    simp only [Nat.toDigitsCore]
    split
    · rename_i h0
      refine ⟨_, _, rfl, digitChar_ne_zero _ (Nat.mod_lt _ (by decide)) ?_⟩
      omega
    · rename_i h0
      exact ih _ _ (by omega) h0

theorem toDigitsCore_of_digits (cs : List Char) (hall : cs.all Char.isDigit = true)
    (hne : cs ≠ []) (hhead : cs.head? ≠ some '0') (fuel : Nat) (ds : List Char)
    (hfuel : digitsValue cs 0 < fuel) :
    Nat.toDigitsCore 10 fuel (digitsValue cs 0) ds = cs ++ ds := by
  induction cs using List.reverseRecOn generalizing fuel ds with
  | nil => exact absurd rfl hne
  | append_singleton init d ih =>
    have hd : d.isDigit = true := by
      simp only [List.all_append, Bool.and_eq_true, List.all_cons, List.all_nil,
        Bool.and_true] at hall
      exact hall.2
    obtain ⟨hdc, hdv⟩ := digitChar_of_isDigit d hd
    rw [digitsValue_append] at hfuel ⊢
    cases fuel with
    | zero => omega
    | succ f =>
      simp only [Nat.toDigitsCore]
      have hmod : (10 * digitsValue init 0 + (d.toNat - '0'.toNat)) % 10 = d.toNat - '0'.toNat := by
        omega
      have hdiv : (10 * digitsValue init 0 + (d.toNat - '0'.toNat)) / 10 = digitsValue init 0 := by
        omega
      rw [hmod, hdiv, hdc]
      by_cases hinit : init = []
      · subst hinit
        simp [digitsValue]
      · have hall2 : init.all Char.isDigit = true := by
          simp only [List.all_append, Bool.and_eq_true] at hall
          exact hall.1
        have hhead2 : init.head? ≠ some '0' := by
          cases init with
          | nil => exact absurd rfl hinit
          | cons c t => simpa using hhead
        have hpos : 0 < digitsValue init 0 := by
          cases init with
          | nil => exact absurd rfl hinit
          | cons c t =>
            have hc : c.isDigit = true := by
              simp only [List.all_cons, Bool.and_eq_true] at hall2
              exact hall2.1
            obtain ⟨hcc, hcv⟩ := digitChar_of_isDigit c hc
            have hc0 : c.toNat - '0'.toNat ≠ 0 := by
              intro h0
              rw [h0] at hcc
              apply hhead2
              rw [← hcc]
              rfl
            rw [digitsValue_cons]
            exact lt_of_lt_of_le (by omega) (le_digitsValue _ _)
        have hne0 : digitsValue init 0 ≠ 0 := by omega
        simp only [hne0, if_false]
        rw [ih hall2 hinit hhead2 f (d :: ds) (by omega)]
        simp

theorem parseUint_eq_some (cs : List Char) (n : Nat) :
    parseUint cs = some n ↔
      (cs ≠ [] ∧ cs.all Char.isDigit = true ∧ (cs.head? ≠ some '0' ∨ cs = ['0']) ∧
        digitsValue cs 0 = n) := by
  cases cs with
  | nil => simp [parseUint]
  | cons c rest =>
    simp only [parseUint, digitsValue]
    by_cases hall : (c :: rest).all Char.isDigit = true
    · by_cases hc : c = '0'
      · subst hc
        by_cases hr : rest = []
        · subst hr
          simp
        · simp [hall, hr]
      · simp [hall, hc]
    · simp [hall]

theorem parseUint_repr (n : Nat) : parseUint (toString n).toList = some n := by
  have hs : (toString n).toList = Nat.toDigitsCore 10 (n + 1) n [] := rfl
  rw [hs, parseUint_eq_some]
  refine ⟨?_, toDigitsCore_all _ _ _ rfl, ?_, ?_⟩
  · cases hz : n with
    | zero => decide
    | succ m =>
      obtain ⟨c, rest, h, _⟩ := toDigitsCore_head (m + 1 + 1) (m + 1) [] (by omega) (by omega)
      rw [h]
      exact List.cons_ne_nil _ _
  · by_cases hz : n = 0
    · subst hz
      right
      rfl
    · left
      obtain ⟨c, rest, h, hc⟩ := toDigitsCore_head (n + 1) n [] (by omega) hz
      rw [h]
      simpa using hc
  · rw [toDigitsCore_value _ _ _ (by omega)]
    rfl

theorem repr_of_parseUint (cs : List Char) (n : Nat) (h : parseUint cs = some n) :
    (toString n).toList = cs := by
  have hs : (toString n).toList = Nat.toDigitsCore 10 (n + 1) n [] := rfl
  obtain ⟨hne, hall, hhead, hv⟩ := (parseUint_eq_some cs n).1 h
  rcases hhead with hhead | hzero
  · rw [hs, ← hv, toDigitsCore_of_digits cs hall hne hhead _ [] (by omega)]
    simp
  · subst hzero
    rw [hs, ← hv]
    rfl

theorem arrayIndex?_toString (i : Nat) (h : i < 4294967295) :
    arrayIndex? (toString i) = some i := by
  unfold arrayIndex?
  rw [parseUint_repr]
  simp [h]

theorem arrayIndex?_eq_some (a : String) (i : Nat) :
    arrayIndex? a = some i ↔ (parseUint a.toList = some i ∧ i < 4294967295) := by
  unfold arrayIndex?
  cases hpa : parseUint a.toList with
  | none => simp
  | some n =>
    simp only [Option.some.injEq]
    by_cases hn : n < 4294967295
    · simp only [hn, if_true, Option.some.injEq]
      constructor
      · intro e; subst e; exact ⟨rfl, hn⟩
      · intro e; exact e.1
    · simp only [hn, if_false]
      constructor
      · intro e; cases e
      · intro e; exact absurd (e.1 ▸ e.2) hn

theorem arrayIndex?_inj (a b : String) (i : Nat) (ha : arrayIndex? a = some i)
    (hb : arrayIndex? b = some i) : a = b := by
  have e1 := repr_of_parseUint _ _ ((arrayIndex?_eq_some a i).1 ha).1
  have e2 := repr_of_parseUint _ _ ((arrayIndex?_eq_some b i).1 hb).1
  have h : a.toList = b.toList := by rw [← e1, e2]
  exact String.ext h

end Lodash

namespace Lodash

theorem accepts_isObject (o : JSVal) (k : String) (h : accepts o k = true) : o.isObject = true := by
  cases o <;> simp_all [accepts, JSVal.isObject]

theorem arrayIndex?_ne_length (k : String) (h : (arrayIndex? k).isSome = true) : k ≠ "length" := by
  intro e
  subst e
  revert h
  decide

theorem getProp_assign_same (o : JSVal) (k : String) (v : JSVal) (h : accepts o k = true) :
    getProp (assignValue o k v) k = v := by
  cases o with
  | obj kvs => simp only [assignValue, getProp]; exact Props.get_set_same _ _ _
  | arr xs =>
    simp only [accepts] at h
    have hl := arrayIndex?_ne_length k h
    obtain ⟨i, hi⟩ := Option.isSome_iff_exists.1 h
    simp only [assignValue, hi, getProp, hl, if_false]
    exact getD_setAt_same _ _ _
  | _ => simp [accepts] at h

theorem getProp_assign_other (o : JSVal) (k k2 : String) (v : JSVal) (h : accepts o k = true)
    (hne : k ≠ k2) : getProp (assignValue o k2 v) k = getProp o k := by
  cases o with
  | obj kvs =>
    simp only [assignValue, getProp]
    exact Props.get_set_other _ _ _ _ (fun e => hne e.symm)
  | arr xs =>
    simp only [accepts] at h
    have hl := arrayIndex?_ne_length k h
    obtain ⟨i, hi⟩ := Option.isSome_iff_exists.1 h
    cases hi2 : arrayIndex? k2 with
    | none => simp [assignValue, hi2]
    | some j =>
      simp only [assignValue, hi2, getProp, hl, if_false, hi]
      apply getD_setAt_other
      intro e
      subst e
      exact hne (arrayIndex?_inj _ _ _ hi hi2)
  | _ => simp [accepts] at h

theorem accepts_assign (o : JSVal) (k k2 : String) (v : JSVal) :
    accepts (assignValue o k2 v) k = accepts o k := by
  cases o with
  | arr xs =>
    simp only [assignValue]
    cases arrayIndex? k2 <;> rfl
  | _ => rfl

theorem baseGetPath_undefined (p : List String) : baseGetPath p .undefined = .undefined := by
  cases p <;> rfl

theorem baseGetPath_cons (k : String) (p : List String) (o : JSVal) (h : o.isObject = true) :
    baseGetPath (k :: p) o = baseGetPath p (getProp o k) := by
  cases o <;> simp_all [baseGetPath, JSVal.isObject]

theorem baseGetPath_append (p : List String) (k : String) (o : JSVal) :
    baseGetPath (p ++ [k]) o = getProp (baseGetPath p o) k := by
  induction p generalizing o with
  | nil => cases o <;> rfl
  | cons k1 p ih =>
    cases o <;> simp only [List.cons_append, baseGetPath] <;> first | rfl | exact ih _

theorem baseSetPath_single (k : String) (o v : JSVal) (h : isForbiddenKey k = false) :
    baseSetPath [k] o v = assignValue o k v := by
  simp [baseSetPath, h]

theorem baseSetPath_cons (k k2 : String) (rest : List String) (o v : JSVal)
    (h : isForbiddenKey k = false) :
    baseSetPath (k :: k2 :: rest) o v =
      assignValue o k (baseSetPath (k2 :: rest)
        (if (getProp o k).isObject then getProp o k
         else if isIndex k2 then JSVal.arr [] else JSVal.obj []) v) := by
  simp [baseSetPath, h]

theorem clearPath_cons (k k2 : String) (rest : List String) (o : JSVal) :
    clearPath (k :: k2 :: rest) o =
      (accepts o k &&
        (decide (getProp o k = .undefined) || clearPath (k2 :: rest) (getProp o k))) := rfl

theorem clearPath_head (k : String) (p : List String) (o : JSVal)
    (h : clearPath (k :: p) o = true) : accepts o k = true := by
  cases p with
  | nil => exact h
  | cons k2 rest =>
    rw [clearPath_cons] at h
    simp only [Bool.and_eq_true] at h
    exact h.1

theorem clearPath_fresh (k2 : String) (rest : List String) (viaIndex : Bool)
    (h : viaIndex = true → (arrayIndex? k2).isSome = true) :
    clearPath (k2 :: rest) (if viaIndex then JSVal.arr [] else JSVal.obj []) = true := by
  have hacc : accepts (if viaIndex then JSVal.arr [] else JSVal.obj []) k2 = true := by
    cases viaIndex with
    | true => simpa [accepts] using h rfl
    | false => rfl
  have hget : getProp (if viaIndex then JSVal.arr [] else JSVal.obj []) k2 = .undefined := by
    cases viaIndex with
    | true =>
      have hs := h rfl
      have hl := arrayIndex?_ne_length k2 hs
      obtain ⟨i, hi⟩ := Option.isSome_iff_exists.1 hs
      simp [getProp, hl, hi]
    | false => rfl
  cases rest with
  | nil => exact hacc
  | cons k3 r =>
    rw [clearPath_cons, hacc, hget]
    simp

theorem plainKeys_cons (k : String) (p : List String) :
    plainKeys (k :: p) = true ↔
      (isForbiddenKey k = false ∧ (isIndex k = true → (arrayIndex? k).isSome = true) ∧
        plainKeys p = true) := by
  simp only [plainKeys, List.all_cons, Bool.and_eq_true, Bool.not_eq_true', Bool.or_eq_true]
  constructor
  · rintro ⟨⟨h1, h2⟩, h3⟩
    refine ⟨h1, ?_, h3⟩
    intro hi
    rcases h2 with h2 | h2
    · rw [hi] at h2; cases h2
    · exact h2
  · rintro ⟨h1, h2, h3⟩
    refine ⟨⟨h1, ?_⟩, h3⟩
    by_cases hi : isIndex k = true
    · exact Or.inr (h2 hi)
    · exact Or.inl (by simpa using hi)

/-- Reading a path right after writing it gives the value written, when the path
is clear in the object. -/
theorem baseGet_baseSet_same (p : List String) (o v : JSVal) (hp : p ≠ [])
    (hk : plainKeys p = true) (hc : clearPath p o = true) :
    baseGetPath p (baseSetPath p o v) = v ∧ clearPath p (baseSetPath p o v) = true := by
  induction p generalizing o with
  | nil => exact absurd rfl hp
  | cons k p ih =>
    obtain ⟨hf, hidx, hkp⟩ := (plainKeys_cons k p).1 hk
    have hacc := clearPath_head k p o hc
    cases p with
    | nil =>
      rw [baseSetPath_single k o v hf]
      have hobj : (assignValue o k v).isObject = true :=
        accepts_isObject _ k (by rw [accepts_assign]; exact hacc)
      rw [baseGetPath_cons _ _ _ hobj, getProp_assign_same _ _ _ hacc]
      refine ⟨rfl, ?_⟩
      show accepts (assignValue o k v) k = true
      rw [accepts_assign]; exact hacc
    | cons k2 rest =>
      rw [baseSetPath_cons k k2 rest o v hf]
      obtain ⟨hf2, hidx2, _⟩ := (plainKeys_cons k2 rest).1 hkp
      have hchild : clearPath (k2 :: rest)
          (if (getProp o k).isObject then getProp o k
           else if isIndex k2 then JSVal.arr [] else JSVal.obj []) = true := by
        rw [clearPath_cons] at hc
        simp only [Bool.and_eq_true, Bool.or_eq_true, decide_eq_true_eq] at hc
        rcases hc.2 with hu | hcl
        · rw [hu]
          simp only [JSVal.isObject, Bool.false_eq_true, if_false]
          exact clearPath_fresh k2 rest (isIndex k2) hidx2
        · have := accepts_isObject _ _ (clearPath_head k2 rest _ hcl)
          rw [this]
          simpa using hcl
      obtain ⟨h1, h2⟩ := ih _ (List.cons_ne_nil _ _) hkp hchild
      have hobj : (assignValue o k (baseSetPath (k2 :: rest)
          (if (getProp o k).isObject then getProp o k
           else if isIndex k2 then JSVal.arr [] else JSVal.obj []) v)).isObject = true :=
        accepts_isObject _ k (by rw [accepts_assign]; exact hacc)
      rw [baseGetPath_cons _ _ _ hobj, getProp_assign_same _ _ _ hacc]
      refine ⟨h1, ?_⟩
      rw [clearPath_cons, accepts_assign, hacc, getProp_assign_same _ _ _ hacc, h2]
      simp

end Lodash

namespace Lodash

theorem apart_of_apartBelow (p q : List String) (h : apartBelow p q = true) :
    apart p q = true := by
  cases p with
  | nil => simp [apartBelow] at h
  | cons k p =>
    cases q with
    | nil => simp [apartBelow] at h
    | cons k2 q =>
      simp only [apartBelow, apart] at h ⊢
      split
      · rename_i e; simpa [e] using h
      · rfl

theorem baseSetPath_head (k : String) (q : List String) (o v : JSVal) :
    ∃ x, baseSetPath (k :: q) o v = o ∨ baseSetPath (k :: q) o v = assignValue o k x := by
  cases q with
  | nil =>
    refine ⟨v, ?_⟩
    by_cases hf : isForbiddenKey k = true
    · left; simp [baseSetPath, hf]
    · right; simp [baseSetPath, hf]
  | cons k2 rest =>
    by_cases hf : isForbiddenKey k = true
    · exact ⟨v, Or.inl (by simp [baseSetPath, hf])⟩
    · exact ⟨_, Or.inr (baseSetPath_cons k k2 rest o v (by simpa using hf))⟩

theorem clearPath_congr (k : String) (p : List String) (o o2 : JSVal)
    (hacc : accepts o2 k = accepts o k) (hget : getProp o2 k = getProp o k)
    (h : clearPath (k :: p) o = true) : clearPath (k :: p) o2 = true := by
  cases p with
  | nil => show accepts o2 k = true; rw [hacc]; exact h
  | cons k2 rest =>
    rw [clearPath_cons] at h ⊢
    rw [hacc, hget]
    exact h

/-- A write along a path leaves what is read along a path that parts from it. -/
theorem baseGet_baseSet_apart (p q : List String) (o v : JSVal)
    (hk : plainKeys p = true) (hc : clearPath p o = true) (ha : apart p q = true) :
    baseGetPath p (baseSetPath q o v) = baseGetPath p o ∧
      clearPath p (baseSetPath q o v) = true := by
  induction p generalizing q o with
  | nil => simp [apart] at ha
  | cons k p ih =>
    cases q with
    | nil => simp [apart] at ha
    | cons k2 q =>
      have hacc := clearPath_head k p o hc
      have hobj := accepts_isObject o k hacc
      by_cases hkk : k = k2
      · subst hkk
        simp only [apart, if_true] at ha
        cases p with
        | nil => simp [apartBelow] at ha
        | cons k3 p2 =>
          cases q with
          | nil => simp [apartBelow] at ha
          | cons k4 q2 =>
            by_cases hf : isForbiddenKey k = true
            · have : baseSetPath (k :: k4 :: q2) o v = o := by simp [baseSetPath, hf]
              rw [this]
              exact ⟨rfl, hc⟩
            · have hf2 : isForbiddenKey k = false := by simpa using hf
              rw [baseSetPath_cons k k4 q2 o v hf2]
              obtain ⟨_, _, hkp⟩ := (plainKeys_cons k (k3 :: p2)).1 hk
              obtain ⟨_, hidx3, _⟩ := (plainKeys_cons k3 p2).1 hkp
              have hc2 := hc
              rw [clearPath_cons] at hc2
              simp only [Bool.and_eq_true, Bool.or_eq_true, decide_eq_true_eq] at hc2
              have hchild : clearPath (k3 :: p2)
                  (if (getProp o k).isObject then getProp o k
                   else if isIndex k4 then JSVal.arr [] else JSVal.obj []) = true ∧
                  baseGetPath (k3 :: p2)
                    (if (getProp o k).isObject then getProp o k
                     else if isIndex k4 then JSVal.arr [] else JSVal.obj []) =
                    baseGetPath (k3 :: p2) (getProp o k) := by
                rcases hc2.2 with hu | hcl
                · rw [hu]
                  simp only [JSVal.isObject, Bool.false_eq_true, if_false]
                  have hfresh : clearPath (k3 :: p2)
                      (if isIndex k4 then JSVal.arr [] else JSVal.obj []) = true := by
                    apply clearPath_fresh
                    intro hi4
                    by_cases e : k3 = k4
                    · subst e; exact hidx3 hi4
                    · simp only [apartBelow, e, if_false, Bool.or_eq_true,
                        Bool.not_eq_true'] at ha
                      rcases ha with h | h
                      · rw [hi4] at h; cases h
                      · exact h
                  refine ⟨hfresh, ?_⟩
                  rw [baseGetPath_undefined]
                  have hobj2 := accepts_isObject _ _ (clearPath_head _ _ _ hfresh)
                  rw [baseGetPath_cons _ _ _ hobj2]
                  have : getProp (if isIndex k4 then JSVal.arr [] else JSVal.obj []) k3 =
                      .undefined := by
                    by_cases hi : isIndex k4 = true
                    · have hs : (arrayIndex? k3).isSome = true := by
                        simpa [hi, accepts] using clearPath_head _ _ _ hfresh
                      have hl := arrayIndex?_ne_length k3 hs
                      obtain ⟨i, hi3⟩ := Option.isSome_iff_exists.1 hs
                      simp [hi, getProp, hl, hi3]
                    · simp [hi, getProp, Props.get, Obj.get?]
                  rw [this, baseGetPath_undefined]
                · have := accepts_isObject _ _ (clearPath_head k3 p2 _ hcl)
                  rw [this]
                  simp only [if_true]
                  exact ⟨hcl, trivial⟩
              obtain ⟨h1, h2⟩ := ih (k4 :: q2) _ hkp hchild.1 (apart_of_apartBelow _ _ ha)
              have hobj2 : (assignValue o k (baseSetPath (k4 :: q2)
                  (if (getProp o k).isObject then getProp o k
                   else if isIndex k4 then JSVal.arr [] else JSVal.obj []) v)).isObject = true :=
                accepts_isObject _ k (by rw [accepts_assign]; exact hacc)
              rw [baseGetPath_cons _ _ _ hobj2, getProp_assign_same _ _ _ hacc, h1, hchild.2,
                baseGetPath_cons _ _ _ hobj]
              refine ⟨rfl, ?_⟩
              rw [clearPath_cons, accepts_assign, hacc, getProp_assign_same _ _ _ hacc, h2]
              simp
      · obtain ⟨x, hx | hx⟩ := baseSetPath_head k2 q o v
        · rw [hx]; exact ⟨rfl, hc⟩
        · rw [hx]
          have hobj2 : (assignValue o k2 x).isObject = true :=
            accepts_isObject _ k (by rw [accepts_assign]; exact hacc)
          rw [baseGetPath_cons _ _ _ hobj2, getProp_assign_other _ _ _ _ hacc hkk,
            baseGetPath_cons _ _ _ hobj]
          exact ⟨rfl, clearPath_congr k p o _ (accepts_assign _ _ _ _)
            (getProp_assign_other _ _ _ _ hacc hkk) hc⟩

end Lodash

namespace Lodash

theorem mutateAt_undefined (q : List String) (new : JSVal) (hq : q ≠ []) :
    mutateAt q .undefined new = .undefined := by
  cases q with
  | nil => exact absurd rfl hq
  | cons k q => rfl

/-- An in-place change along a path leaves what is read along a path that parts
from it. -/
theorem baseGet_mutateAt_apart (p q : List String) (o new : JSVal)
    (hc : clearPath p o = true) (ha : apart p q = true) :
    baseGetPath p (mutateAt q o new) = baseGetPath p o ∧
      clearPath p (mutateAt q o new) = true := by
  induction p generalizing q o with
  | nil => simp [apart] at ha
  | cons k p ih =>
    cases q with
    | nil => simp [apart] at ha
    | cons k2 q =>
      have hacc := clearPath_head k p o hc
      have hobj := accepts_isObject o k hacc
      have hobj2 : ∀ x, (assignValue o k2 x).isObject = true := fun x =>
        accepts_isObject _ k (by rw [accepts_assign]; exact hacc)
      simp only [mutateAt]
      by_cases hkk : k = k2
      · subst hkk
        simp only [apart, if_true] at ha
        cases p with
        | nil => simp [apartBelow] at ha
        | cons k3 p2 =>
          have hq : q ≠ [] := by
            intro e; subst e; simp [apartBelow] at ha
          have hc2 := hc
          rw [clearPath_cons] at hc2
          simp only [Bool.and_eq_true, Bool.or_eq_true, decide_eq_true_eq] at hc2
          rw [baseGetPath_cons _ _ _ (hobj2 _), getProp_assign_same _ _ _ hacc,
            baseGetPath_cons _ _ _ hobj, clearPath_cons, accepts_assign, hacc,
            getProp_assign_same _ _ _ hacc]
          rcases hc2.2 with hu | hcl
          · rw [hu, mutateAt_undefined q new hq]
            exact ⟨rfl, by simp⟩
          · obtain ⟨h1, h2⟩ := ih q _ hcl (apart_of_apartBelow _ _ ha)
            rw [h1, h2]
            exact ⟨rfl, by simp⟩
      · rw [baseGetPath_cons _ _ _ (hobj2 _), getProp_assign_other _ _ _ _ hacc hkk,
          baseGetPath_cons _ _ _ hobj]
        exact ⟨rfl, clearPath_congr k p o _ (accepts_assign _ _ _ _)
          (getProp_assign_other _ _ _ _ hacc hkk) hc⟩

/-- An in-place change of a member of the object found along a path. -/
theorem baseGet_mutateAt_member (p : List String) (k : String) (o new : JSVal)
    (entry : Props) (hp : p ≠ []) (hc : clearPath p o = true)
    (hget : baseGetPath p o = .obj entry) :
    baseGetPath p (mutateAt (p ++ [k]) o new) = .obj (Obj.set entry k new) ∧
      clearPath p (mutateAt (p ++ [k]) o new) = true := by
  induction p generalizing o with
  | nil => exact absurd rfl hp
  | cons k1 p ih =>
    have hacc := clearPath_head k1 p o hc
    have hobj := accepts_isObject o k1 hacc
    have hobj2 : ∀ x, (assignValue o k1 x).isObject = true := fun x =>
      accepts_isObject _ k1 (by rw [accepts_assign]; exact hacc)
    simp only [List.cons_append, mutateAt]
    rw [baseGetPath_cons _ _ _ hobj] at hget
    rw [baseGetPath_cons _ _ _ (hobj2 _), getProp_assign_same _ _ _ hacc]
    cases p with
    | nil =>
      simp only [baseGetPath] at hget
      simp only [List.nil_append, mutateAt, baseGetPath, hget, assignValue]
      refine ⟨trivial, ?_⟩
      show accepts (assignValue o k1 _) k1 = true
      rw [accepts_assign]; exact hacc
    | cons k2 rest =>
      have hc2 := hc
      rw [clearPath_cons] at hc2
      simp only [Bool.and_eq_true, Bool.or_eq_true, decide_eq_true_eq] at hc2
      have hcl : clearPath (k2 :: rest) (getProp o k1) = true := by
        rcases hc2.2 with hu | hcl
        · rw [hu, baseGetPath_undefined] at hget
          cases hget
        · exact hcl
      obtain ⟨h1, h2⟩ := ih _ (List.cons_ne_nil _ _) hcl hget
      refine ⟨h1, ?_⟩
      rw [clearPath_cons, accepts_assign, hacc, getProp_assign_same _ _ _ hacc]
      have h3 : clearPath (k2 :: rest)
          (mutateAt ((k2 :: rest).append [k]) (getProp o k1) new) = true := h2
      rw [h3]
      simp

end Lodash

/-! ## Grouping the errors of the validator -/

namespace Lodash

theorem castPath_eq (name : String) (kvs : Props)
    (h : reIsDeepProp name.toList = true → name ∉ Obj.keys kvs) :
    castPath name (.obj kvs) = keyPath name := by
  unfold keyPath castPath isKey
  cases hp : reIsPlainProp name.toList with
  | true => rfl
  | false =>
    cases hd : reIsDeepProp name.toList with
    | false => rfl
    | true =>
      have hn : Obj.has kvs name = false := by
        unfold Obj.has
        rw [(Obj.get?_eq_none kvs name).2 (h hd)]
        rfl
      simp only [hn]
      rfl

theorem reIsDeepProp_append_dot (a b : List Char) : reIsDeepProp (a ++ '.' :: b) = true := by
  induction a with
  | nil => simp [reIsDeepProp]
  | cons c a ih =>
    simp only [List.cons_append, reIsDeepProp]
    split
    · rfl
    · split
      · have ih2 : reIsDeepProp (a.append ('.' :: b)) = true := ih
        rw [ih2]; simp
      · exact ih

theorem get_obj (kvs : Props) (name : String) (p : List String)
    (hp : castPath name (.obj kvs) = p) (hne : p ≠ []) :
    get (.obj kvs) name = baseGetPath p (.obj kvs) := by
  cases p with
  | nil => exact absurd rfl hne
  | cons k r =>
    unfold get
    simp only [hp]

theorem baseSetPath_obj (k : String) (q : List String) (kvs : Props) (v : JSVal) :
    ∃ kvs2, baseSetPath (k :: q) (.obj kvs) v = .obj kvs2 ∧
      (∀ t ∈ Obj.keys kvs2, t = k ∨ t ∈ Obj.keys kvs) ∧
      (isForbiddenKey k = false → kvs2 ≠ []) := by
  obtain ⟨x, hx | hx⟩ := baseSetPath_head k q (.obj kvs) v
  · by_cases hf : isForbiddenKey k = true
    · exact ⟨kvs, hx, fun t ht => Or.inr ht, fun h => by rw [hf] at h; cases h⟩
    · have hf2 : isForbiddenKey k = false := by simpa using hf
      cases q with
      | nil =>
        rw [baseSetPath_single k _ v hf2] at hx ⊢
        refine ⟨Obj.set kvs k v, rfl, fun t ht => (Obj.mem_keys_set _ _ _ _).1 ht, fun _ => ?_⟩
        intro e
        have := (Obj.mem_keys_set kvs k k v).2 (Or.inl rfl)
        rw [e] at this
        simp [Obj.keys] at this
      | cons k2 r =>
        rw [baseSetPath_cons k k2 r _ v hf2]
        refine ⟨Obj.set kvs k _, rfl, fun t ht => (Obj.mem_keys_set _ _ _ _).1 ht, fun _ => ?_⟩
        intro e
        have := (Obj.mem_keys_set kvs k k
          (baseSetPath (k2 :: r)
            (if (getProp (JSVal.obj kvs) k).isObject then getProp (JSVal.obj kvs) k
             else if isIndex k2 then JSVal.arr [] else JSVal.obj []) v)).2 (Or.inl rfl)
        rw [e] at this
        simp [Obj.keys] at this
  · refine ⟨Obj.set kvs k x, hx, fun t ht => (Obj.mem_keys_set _ _ _ _).1 ht, fun _ => ?_⟩
    intro e
    have := (Obj.mem_keys_set kvs k k x).2 (Or.inl rfl)
    rw [e] at this
    simp [Obj.keys] at this

theorem apart_append (p q : List String) (k : String) (h : apart p q = true) :
    apart p (q ++ [k]) = true := by
  have hb : ∀ p q : List String, apartBelow p q = true → apartBelow p (q ++ [k]) = true := by
    intro p
    induction p with
    | nil => intro q h; simp [apartBelow] at h
    | cons a p ih =>
      intro q h
      cases q with
      | nil => simp [apartBelow] at h
      | cons b q =>
        simp only [List.cons_append, apartBelow] at h ⊢
        split
        · rename_i e; rw [if_pos e] at h; exact ih q h
        · rename_i e; rw [if_neg e] at h; exact h
  cases p with
  | nil => simp [apart] at h
  | cons a p =>
    cases q with
    | nil => simp [apart] at h
    | cons b q =>
      simp only [List.cons_append, apart] at h ⊢
      split
      · rename_i e; rw [if_pos e] at h; exact hb p q h
      · rfl

end Lodash

theorem namesApart_mem (names : List String) (h : namesApart names = true) (n : String)
    (hn : n ∈ names) :
    Lodash.keyPath n ≠ [] ∧ Lodash.plainKeys (Lodash.keyPath n) = true ∧
      Lodash.reIsDeepProp ((Lodash.keyPath n).headD "").toList = false ∧
      Lodash.keyPath (n ++ ".errors") = Lodash.keyPath n ++ ["errors"] ∧
      ∀ m ∈ names, m ≠ n → Lodash.apart (Lodash.keyPath n) (Lodash.keyPath m) = true := by
  unfold namesApart at h
  have h1 := List.all_eq_true.1 h n hn
  simp only [Bool.and_eq_true, Bool.not_eq_true', decide_eq_true_eq, List.all_eq_true,
    Bool.or_eq_true, List.isEmpty_eq_false] at h1
  obtain ⟨⟨⟨⟨a, b⟩, c⟩, d⟩, e⟩ := h1
  refine ⟨a, b, c, d, ?_⟩
  intro m hm hne
  rcases e m hm with e1 | e1
  · exact absurd e1 hne
  · exact e1

theorem pathsApart_mem (names : List String) (h : pathsApart names = true) (n : String)
    (hn : n ∈ names) :
    Lodash.keyPath n ≠ [] ∧ Lodash.plainKeys (Lodash.keyPath n) = true ∧
      Lodash.reIsDeepProp ((Lodash.keyPath n).headD "").toList = false ∧
      ∀ m ∈ names, m ≠ n → Lodash.apart (Lodash.keyPath n) (Lodash.keyPath m) = true := by
  unfold pathsApart at h
  have h1 := List.all_eq_true.1 h n hn
  simp only [Bool.and_eq_true, Bool.not_eq_true', decide_eq_true_eq, List.all_eq_true,
    Bool.or_eq_true, List.isEmpty_eq_false] at h1
  obtain ⟨⟨⟨a, b⟩, c⟩, e⟩ := h1
  refine ⟨a, b, c, ?_⟩
  intro m hm hne
  rcases e m hm with e1 | e1
  · exact absurd e1 hne
  · exact e1

theorem pathsApart_of_namesApart (names : List String) (h : namesApart names = true) :
    pathsApart names = true := by
  unfold pathsApart
  rw [List.all_eq_true]
  intro n hn
  obtain ⟨a, b, c, _, e⟩ := namesApart_mem names h n hn
  simp only [Bool.and_eq_true, Bool.not_eq_true', decide_eq_true_eq, List.all_eq_true,
    Bool.or_eq_true, List.isEmpty_eq_false]
  refine ⟨⟨⟨a, b⟩, c⟩, ?_⟩
  intro m hm
  by_cases hmn : m = n
  · exact Or.inl hmn
  · exact Or.inr (e m hm hmn)

theorem Obj.set_ne_nil {α : Type} (o : List (String × α)) (k : String) (v : α) :
    Obj.set o k v ≠ [] := by
  cases o with
  | nil => simp [Obj.set]
  | cons kv t =>
    obtain ⟨k1, w⟩ := kv
    simp only [Obj.set]
    split <;> simp

theorem entryOf_errors (l : List JSVal) :
    Lodash.getProp (.obj [("errors", .arr l)]) "errors" = .arr l := by
  simp [Lodash.getProp, Props.get, Obj.get?]

theorem String.toList_append_errors (m : String) :
    (m ++ ".errors").toList = m.toList ++ '.' :: "errors".toList := by
  show (m ++ ".errors").data = m.data ++ _
  rw [String.data_append]
  rfl

/-- One turn of the grouping loop for an error that names a field of the pass. -/
theorem groupError_step (names : List String) (acc : String → List JSVal) (o : JSVal)
    (e : ValidateError) (hN : namesApart names = true) (hI : Grouped names acc o)
    (hm : e.field ∈ names) :
    ∃ o2, groupError o e = .ok o2 ∧
      Grouped names (fun n => if n = e.field then acc n ++ [e.toJS] else acc n) o2 ∧
      isEmptyObject o2 = false ∧
      (∀ p, Lodash.plainKeys p = true → Lodash.clearPath p o = true →
        (∀ n ∈ names, Lodash.apart p (Lodash.keyPath n) = true) →
        Lodash.clearPath p o2 = true ∧ Lodash.baseGetPath p o2 = Lodash.baseGetPath p o) := by
  obtain ⟨⟨kvs, hkvs⟩, htop, hall⟩ := hI
  subst hkvs
  obtain ⟨hq, hplain, hhead, herr, hapart⟩ := namesApart_mem names hN e.field hm
  obtain ⟨hclear, hgetq⟩ := hall e.field hm
  -- the key path of the name in the object
  have hcast : Lodash.castPath e.field (.obj kvs) = Lodash.keyPath e.field := by
    apply Lodash.castPath_eq
    intro hd hin
    have := htop e.field hin
    rw [hd] at this
    cases this
  have hget : Lodash.get (.obj kvs) e.field = entryOf (acc e.field) := by
    rw [Lodash.get_obj kvs e.field _ hcast hq, hgetq]
  -- the object after room has been made for the entry
  obtain ⟨k, qrest, hkq⟩ : ∃ k qrest, Lodash.keyPath e.field = k :: qrest := by
    cases hp : Lodash.keyPath e.field with
    | nil => exact absurd hp hq
    | cons k r => exact ⟨k, r, rfl⟩
  have hkdeep : Lodash.reIsDeepProp k.toList = false := by
    rw [hkq] at hhead
    exact hhead
  have hkforb : Lodash.isForbiddenKey k = false := by
    rw [hkq] at hplain
    exact ((Lodash.plainKeys_cons k qrest).1 hplain).1
  have hgrouped : ∃ kvs2,
      (match Lodash.get (.obj kvs) e.field with
        | .obj _ => JSVal.obj kvs
        | .null => JSVal.obj kvs
        | _ => Lodash.set (.obj kvs) e.field (.obj [("errors", .arr [])])) = .obj kvs2 ∧
      (∀ t ∈ Obj.keys kvs2, t = k ∨ t ∈ Obj.keys kvs) ∧
      Lodash.clearPath (Lodash.keyPath e.field) (.obj kvs2) = true ∧
      Lodash.baseGetPath (Lodash.keyPath e.field) (.obj kvs2) =
        .obj [("errors", .arr (acc e.field))] ∧
      (∀ p, Lodash.plainKeys p = true → Lodash.clearPath p (.obj kvs) = true →
        Lodash.apart p (Lodash.keyPath e.field) = true →
        Lodash.clearPath p (.obj kvs2) = true ∧
          Lodash.baseGetPath p (.obj kvs2) = Lodash.baseGetPath p (.obj kvs)) := by
    rw [hget]
    by_cases hl : (acc e.field).isEmpty = true
    · have hnil : acc e.field = [] := List.isEmpty_iff.1 hl
      simp only [entryOf, hl, if_true]
      have hset : Lodash.set (.obj kvs) e.field (.obj [("errors", .arr [])]) =
          Lodash.baseSetPath (Lodash.keyPath e.field) (.obj kvs) (.obj [("errors", .arr [])]) := by
        unfold Lodash.set
        simp only [JSVal.isObject, if_true, hcast]
      rw [hset]
      obtain ⟨kvs2, h2, hk2, _⟩ := Lodash.baseSetPath_obj k qrest kvs (.obj [("errors", .arr [])])
      rw [← hkq] at h2
      refine ⟨kvs2, h2, hk2, ?_, ?_, ?_⟩
      · rw [← h2]
        exact (Lodash.baseGet_baseSet_same _ _ _ hq hplain hclear).2
      · rw [← h2, hnil]
        exact (Lodash.baseGet_baseSet_same _ _ _ hq hplain hclear).1
      · intro p hp hc ha
        rw [← h2]
        have := Lodash.baseGet_baseSet_apart p (Lodash.keyPath e.field) (.obj kvs)
          (.obj [("errors", .arr [])]) hp hc ha
        exact ⟨this.2, this.1⟩
    · have hne : (acc e.field).isEmpty = false := by simpa using hl
      simp only [entryOf, hne, Bool.false_eq_true, if_false]
      refine ⟨kvs, rfl, fun t ht => Or.inr ht, hclear, ?_, fun p _ hc _ => ⟨hc, rfl⟩⟩
      rw [hgetq]
      simp [entryOf, hne]
  obtain ⟨kvs2, hg, hkeys2, hclear2, hget2, hframe2⟩ := hgrouped
  have htop2 : ∀ t ∈ Obj.keys kvs2, Lodash.reIsDeepProp t.toList = false := by
    intro t ht
    rcases hkeys2 t ht with e1 | e1
    · rw [e1]; exact hkdeep
    · exact htop t e1
  have hdeepE : Lodash.reIsDeepProp (e.field ++ ".errors").toList = true := by
    rw [String.toList_append_errors]
    exact Lodash.reIsDeepProp_append_dot _ _
  have hcastE : Lodash.castPath (e.field ++ ".errors") (.obj kvs2) =
      Lodash.keyPath e.field ++ ["errors"] := by
    rw [Lodash.castPath_eq _ kvs2, herr]
    intro _ hin
    have := htop2 _ hin
    rw [hdeepE] at this
    cases this
  have hgetE : Lodash.get (.obj kvs2) (e.field ++ ".errors") = .arr (acc e.field) := by
    rw [Lodash.get_obj kvs2 _ _ hcastE (by simp), Lodash.baseGetPath_append, hget2]
    exact entryOf_errors _
  have hmut := Lodash.baseGet_mutateAt_member (Lodash.keyPath e.field) "errors" (.obj kvs2)
    (.arr (acc e.field ++ [e.toJS])) [("errors", .arr (acc e.field))] hq hclear2 hget2
  have hres : groupError (.obj kvs) e =
      .ok (mutateAt (Lodash.keyPath e.field ++ ["errors"]) (.obj kvs2)
        (.arr (acc e.field ++ [e.toJS]))) := by
    unfold groupError
    simp only
    rw [hg, hgetE, hcastE]
  have hobj3 : ∃ kvs3, mutateAt (Lodash.keyPath e.field ++ ["errors"]) (.obj kvs2)
      (.arr (acc e.field ++ [e.toJS])) = .obj kvs3 ∧
      (∀ t ∈ Obj.keys kvs3, t = k ∨ t ∈ Obj.keys kvs2) ∧ kvs3 ≠ [] := by
    rw [hkq]
    simp only [List.cons_append, mutateAt, Lodash.assignValue]
    exact ⟨_, rfl, fun t ht => (Obj.mem_keys_set _ _ _ _).1 ht, Obj.set_ne_nil _ _ _⟩
  obtain ⟨kvs3, h3, hkeys3, hne3⟩ := hobj3
  refine ⟨_, hres, ⟨⟨kvs3, h3⟩, ?_, ?_⟩, ?_, ?_⟩
  · rw [h3]
    intro t ht
    rcases hkeys3 t ht with e1 | e1
    · rw [e1]; exact hkdeep
    · exact htop2 t e1
  · intro n hn
    by_cases hne : n = e.field
    · subst hne
      simp only [if_true]
      refine ⟨hmut.2, ?_⟩
      rw [hmut.1]
      simp [entryOf, Obj.set]
    · simp only [hne, if_false]
      obtain ⟨hcn, hgn⟩ := hall n hn
      obtain ⟨_, hpn, _, _, hapn⟩ := namesApart_mem names hN n hn
      have ha : Lodash.apart (Lodash.keyPath n) (Lodash.keyPath e.field) = true :=
        hapn e.field hm (fun e1 => hne e1.symm)
      obtain ⟨hc2, hg2⟩ := hframe2 _ hpn hcn ha
      have := Lodash.baseGet_mutateAt_apart (Lodash.keyPath n) (Lodash.keyPath e.field ++ ["errors"])
        (.obj kvs2) (.arr (acc e.field ++ [e.toJS])) hc2 (Lodash.apart_append _ _ _ ha)
      exact ⟨this.2, by rw [this.1, hg2, hgn]⟩
  · rw [h3]
    cases kvs3 with
    | nil => exact absurd rfl hne3
    | cons _ _ => rfl
  · intro p hp hc ha
    obtain ⟨hc2, hg2⟩ := hframe2 p hp hc (ha e.field hm)
    have := Lodash.baseGet_mutateAt_apart p (Lodash.keyPath e.field ++ ["errors"])
      (.obj kvs2) (.arr (acc e.field ++ [e.toJS])) hc2 (Lodash.apart_append _ _ _ (ha e.field hm))
    exact ⟨this.2, by rw [this.1, hg2]⟩

theorem errorsFor_cons (e : ValidateError) (rest : List ValidateError) (n : String) :
    errorsFor (e :: rest) n =
      (if e.field = n then [e.toJS] else []) ++ errorsFor rest n := by
  unfold errorsFor
  by_cases h : e.field = n <;> simp [List.filter_cons, h]

/-- The grouping loop over errors that name fields of the pass: it succeeds, and
the object it builds holds for every name the entry of that name's errors. -/
theorem groupErrors_spec (names : List String) (hN : namesApart names = true)
    (errors : List ValidateError) (acc : String → List JSVal) (o : JSVal)
    (hI : Grouped names acc o) (hE : ∀ e ∈ errors, e.field ∈ names) :
    ∃ g, groupErrors o errors = .ok g ∧
      Grouped names (fun n => acc n ++ errorsFor errors n) g ∧
      isEmptyObject g = (isEmptyObject o && errors.isEmpty) ∧
      (∀ p, Lodash.plainKeys p = true → Lodash.clearPath p o = true →
        (∀ n ∈ names, Lodash.apart p (Lodash.keyPath n) = true) →
        Lodash.clearPath p g = true ∧ Lodash.baseGetPath p g = Lodash.baseGetPath p o) := by
  induction errors generalizing acc o with
  | nil =>
    refine ⟨o, rfl, ?_, by simp, fun p _ hc _ => ⟨hc, rfl⟩⟩
    have : (fun n => acc n ++ errorsFor [] n) = acc := by
      funext n; simp [errorsFor]
    rw [this]
    exact hI
  | cons e rest ih =>
    obtain ⟨o2, h1, h2, h3, h4⟩ :=
      groupError_step names acc o e hN hI (hE e (List.mem_cons_self _ _))
    obtain ⟨g, g1, g2, g3, g4⟩ := ih _ o2 h2 (fun x hx => hE x (List.mem_cons_of_mem _ hx))
    refine ⟨g, ?_, ?_, ?_, ?_⟩
    · rw [groupErrors, h1]; exact g1
    · have : (fun n => acc n ++ errorsFor (e :: rest) n) =
          (fun n => (if n = e.field then acc n ++ [e.toJS] else acc n) ++ errorsFor rest n) := by
        funext n
        rw [errorsFor_cons]
        by_cases h : n = e.field
        · subst h; simp
        · have h' : ¬ e.field = n := fun e1 => h e1.symm
          simp [h, h']
      rw [this]
      exact g2
    · rw [g3, h3]; simp
    · intro p hp hc ha
      obtain ⟨c2, b2⟩ := h4 p hp hc ha
      obtain ⟨c3, b3⟩ := g4 p hp c2 ha
      exact ⟨c3, by rw [b3, b2]⟩

theorem Grouped_of_vacantAt (names : List String) (o : JSVal) (h : vacantAt o names = true) :
    Grouped names (fun _ => []) o := by
  unfold vacantAt at h
  simp only [Bool.and_eq_true, List.all_eq_true, Bool.not_eq_true', decide_eq_true_eq] at h
  obtain ⟨⟨h1, h2⟩, h3⟩ := h
  refine ⟨?_, h2, ?_⟩
  · cases o <;> simp_all
  · intro n hn
    obtain ⟨a, b⟩ := h3 n hn
    exact ⟨a, by rw [b]; rfl⟩

/-- The grouped entry of a field is read back as its list of errors, `undefined`
when the list is empty. -/
theorem committed_errors_of_entry (g : JSVal) (name : String) (l : List JSVal)
    (h : Lodash.get g name = entryOf l) :
    (if (Lodash.get g name).truthy then Lodash.getProp (Lodash.get g name) "errors"
      else Lodash.get g name) = (if l.isEmpty then JSVal.undefined else .arr l) := by
  rw [h]
  unfold entryOf
  by_cases hl : l.isEmpty = true
  · simp [hl, JSVal.truthy]
  · simp [hl, JSVal.truthy, entryOf_errors]

theorem get_of_Grouped (names : List String) (hN : namesApart names = true)
    (acc : String → List JSVal) (g : JSVal) (hG : Grouped names acc g) (n : String)
    (hn : n ∈ names) : Lodash.get g n = entryOf (acc n) := by
  obtain ⟨⟨kvs, hk⟩, htop, hall⟩ := hG
  subst hk
  obtain ⟨hq, _, _, _, _⟩ := namesApart_mem names hN n hn
  have hcast : Lodash.castPath n (.obj kvs) = Lodash.keyPath n := by
    apply Lodash.castPath_eq
    intro hd hin
    have := htop n hin
    rw [hd] at this
    cases this
  rw [Lodash.get_obj kvs n _ hcast hq]
  exact (hall n hn).2

/-- C4, as the code has it: when the empty name is not registered, the names of the
pass are still registered when the validator completes and address distinct places
of the errors object, the errors kept from skipped fields hold nothing at them, and
the validator reports errors only for fields of the pass, then a field of the pass
whose stored `value` is strictly equal (`===`) to the snapshotted value (equal and,
for an array or object, the very same one) has, after the callback, `errors` equal
to the list of the errors reported for it (`undefined` when there is none),
`validating = false` and `dirty = false`. -/
theorem validateCallback_commits (fm : Form) (pass : PendingPass)
    (errors : Option (List ValidateError)) (name : String) (same : String → Bool)
    (hN : namesApart (Obj.keys pass.allRules) = true)
    (hV : vacantAt pass.alreadyErrors (Obj.keys pass.allRules) = true)
    (hE : ∀ e ∈ errors.getD [], e.field ∈ Obj.keys pass.allRules)
    (hempty : "" ∉ fm.fieldsStore.getAllFieldsName)
    (hreg : ∀ n ∈ Obj.keys pass.allRules, n ∈ fm.fieldsStore.getAllFieldsName)
    (hname : name ∈ Obj.keys pass.allRules)
    (hval : Props.get (fm.fieldsStore.getField name) "value" = Props.get pass.allValues name)
    (hid : (Props.get pass.allValues name).isObject = true → same name = true) :
    ∃ (fm1 : Form) (args : Option CallbackArgs),
      fm.validateCallback pass errors same = .ok (fm1, args) ∧
      fm1.fieldsStore.getFieldMember name "errors" =
        (if (errorsFor (errors.getD []) name).isEmpty then .undefined
         else .arr (errorsFor (errors.getD []) name)) ∧
      fm1.fieldsStore.getFieldMember name "validating" = .bool false ∧
      fm1.fieldsStore.getFieldMember name "dirty" = .bool false := by
  obtain ⟨g, hg, hG, _, _⟩ := groupErrors_spec (Obj.keys pass.allRules) hN (errors.getD [])
    (fun _ => []) pass.alreadyErrors (Grouped_of_vacantAt _ _ hV) hE
  obtain ⟨fm1, args, hrun, hfields, _⟩ :=
    validateCallback_ok same fm pass errors g hg hempty hreg
  have hfresh : isExpired same fm.fieldsStore pass.allValues name = false :=
    isExpired_of_same same _ _ name hval hid
  refine ⟨fm1, args, hrun, ?_, ?_, ?_⟩
  · rw [validateCallback_committed_member same fm fm1 pass g hfields name "errors" hname
      hfresh (by decide) (by decide), committedField_errors]
    have := get_of_Grouped _ hN _ g hG name hname
    simp only [List.nil_append] at this
    exact committed_errors_of_entry g name _ this
  · rw [validateCallback_committed_member same fm fm1 pass g hfields name "validating" hname
      hfresh (by decide) (by decide)]
    exact committedField_validating _ _ _ _
  · rw [validateCallback_committed_member same fm fm1 pass g hfields name "dirty" hname
      hfresh (by decide) (by decide)]
    exact committedField_dirty _ _ _ _

/-- The witness of `validateCallback_commits`: the pass over `user.name` and
`list[0]`, completed with two errors for `user.name`. -/
theorem validateCallback_commits_witness :
    ∃ (fm1 : Form) (args : Option CallbackArgs),
      Form.validateCallback { fieldsStore := Demo.storeNested } Demo.passNested
        (some [{ field := "user.name", message := "too short" },
          { field := "user.name", message := "not a name" }]) (fun _ => true) =
        .ok (fm1, args) ∧
      fm1.fieldsStore.getFieldMember "user.name" "errors" =
        .arr [.obj [("message", .str "too short"), ("field", .str "user.name")],
          .obj [("message", .str "not a name"), ("field", .str "user.name")]] ∧
      fm1.fieldsStore.getFieldMember "user.name" "validating" = .bool false ∧
      fm1.fieldsStore.getFieldMember "user.name" "dirty" = .bool false :=
  validateCallback_commits { fieldsStore := Demo.storeNested } Demo.passNested
    (some [{ field := "user.name", message := "too short" },
      { field := "user.name", message := "not a name" }]) "user.name" (fun _ => true)
    (by decide) (by decide) (by decide) (by decide) (by decide) (by decide) (by decide)
    (fun _ => rfl)

/-- C4 as stated fails.  First, a field that is unregistered while the validator
runs is not written by the callback although its value (`undefined`) equals the
snapshot: its record gets no `validating = false`.  Second, a field whose array
value `[1]` has been replaced by an equal copy is taken for changed (`!==` compares
arrays by identity) and is not written either: `validating` stays `true`.  Third,
when the empty name has been registered since the dispatch, the records to commit
are taken for the record of the empty name and the field is not written. -/
theorem validateCallback_commits_counterexample :
    ((match Form.validateCallback { fieldsStore := Demo.storeF.clearField "f" }
        Demo.passUndefined none (fun _ => true) with
      | .ok r => r.1.fieldsStore.getFieldMember "f" "validating"
      | .error _ => .null) = .undefined) ∧
    (Props.get (Demo.storeCopy.getField "f") "value" = Props.get Demo.passCopy.allValues "f" ∧
      (match Form.validateCallback { fieldsStore := Demo.storeCopy } Demo.passCopy none
          (fun _ => false) with
        | .ok r => r.1.fieldsStore.getFieldMember "f" "validating"
        | .error _ => .null) = .bool true) ∧
    ((match Form.validateCallback { fieldsStore := Demo.storeBlank } Demo.passBlank none
        (fun _ => true) with
      | .ok r => r.1.fieldsStore.getFieldMember "f" "dirty"
      | .error _ => .null) = .bool true) := by
  decide

/-! ## Reads register at most the names they are asked for -/

theorem FieldsStore.Extends.refl (s : FieldsStore) (extra : List String) :
    FieldsStore.Extends s s extra :=
  ⟨rfl, fun _ => rfl, fun _ h => h, fun _ h => Or.inl h⟩

theorem FieldsStore.Extends.trans {s t u : FieldsStore} {e1 e2 e3 : List String}
    (h1 : FieldsStore.Extends s t e1) (h2 : FieldsStore.Extends t u e2)
    (he1 : ∀ n ∈ e1, n ∈ e3) (he2 : ∀ n ∈ e2, n ∈ e3) : FieldsStore.Extends s u e3 := by
  obtain ⟨a1, b1, c1, d1⟩ := h1
  obtain ⟨a2, b2, c2, d2⟩ := h2
  refine ⟨by rw [a2, a1], fun n => by rw [b2, b1], fun n h => c2 n (c1 n h), ?_⟩
  intro n hn
  rcases d2 n hn with h | h
  · rcases d1 n h with h | h
    · exact Or.inl h
    · exact Or.inr (he1 n h)
  · exact Or.inr (he2 n h)

theorem FieldsStore.getFieldMeta_extends (s : FieldsStore) (name : String) :
    FieldsStore.Extends s (s.getFieldMeta name).2 [name] := by
  refine ⟨rfl, fun n => FieldsStore.metaOf_getFieldMeta s name n, ?_, ?_⟩
  · intro n hn
    exact (FieldsStore.keys_getFieldMeta s name n).2 (Or.inr hn)
  · intro n hn
    rcases (FieldsStore.keys_getFieldMeta s name n).1 hn with h | h
    · exact Or.inr (by simp [h])
    · exact Or.inl h

theorem FieldsStore.getValueFromFields_extends (s : FieldsStore) (name : String)
    (fields : List (String × Field)) :
    FieldsStore.Extends s (s.getValueFromFields name fields).2 [name] := by
  unfold FieldsStore.getValueFromFields
  cases Obj.get? fields name with
  | none => exact FieldsStore.getFieldMeta_extends s name
  | some field =>
    by_cases h : Obj.has field "value" = true
    · simp only [h, if_true]
      exact FieldsStore.Extends.refl s _
    · simp only [h, if_false]
      exact FieldsStore.getFieldMeta_extends s name

theorem FieldsStore.reduceSet_extends (getter : FieldsStore → String → JSVal × FieldsStore)
    (key : String → String)
    (hg : ∀ st n, FieldsStore.Extends st (getter st n).2 [n])
    (names : List String) (acc : JSVal) (s : FieldsStore) :
    FieldsStore.Extends s (FieldsStore.reduceSet getter key names acc s).2 names := by
  induction names generalizing acc s with
  | nil => exact FieldsStore.Extends.refl s _
  | cons f rest ih =>
    rw [FieldsStore.reduceSet]
    exact FieldsStore.Extends.trans (hg s f) (ih _ _)
      (fun n hn => by simp at hn; simp [hn]) (fun n hn => List.mem_cons_of_mem _ hn)

theorem FieldsStore.mem_getValidFieldsFullName (s : FieldsStore) (names : List String)
    (n : String) (h : n ∈ s.getValidFieldsFullName names) : n ∈ Obj.keys s.fieldsMeta := by
  unfold FieldsStore.getValidFieldsFullName FieldsStore.getValidFieldsName at h
  exact (List.mem_filter.1 (List.mem_filter.1 h).1).1

theorem FieldsStore.Extends.shrink {s t : FieldsStore} {extra : List String}
    (h : FieldsStore.Extends s t extra) (hreg : ∀ n ∈ extra, n ∈ Obj.keys s.fieldsMeta) :
    FieldsStore.Extends s t [] := by
  obtain ⟨a, b, c, d⟩ := h
  refine ⟨a, b, c, ?_⟩
  intro n hn
  rcases d n hn with h | h
  · exact Or.inl h
  · exact Or.inl (hreg n h)

theorem FieldsStore.getFieldValue_extends (s : FieldsStore) (name : String) :
    FieldsStore.Extends s (s.getFieldValue name).2 [name] := by
  unfold FieldsStore.getFieldValue FieldsStore.getNestedField
  simp only
  split
  · exact FieldsStore.getValueFromFields_extends s name s.fields
  · have := FieldsStore.reduceSet_extends
      (fun st fullName => st.getValueFromFields fullName s.fields)
      (fun fullName => String.mk (fullName.toList.drop
        (if (((s.getValidFieldsFullName [name]).head?.bind (fun n => n.toList[name.length]?)) =
          some '[') then name.length else name.length + 1)))
      (fun st n => FieldsStore.getValueFromFields_extends st n s.fields)
      (s.getValidFieldsFullName [name])
      (if (((s.getValidFieldsFullName [name]).head?.bind (fun n => n.toList[name.length]?)) =
          some '[') then JSVal.arr [] else JSVal.obj []) s
    have h2 := FieldsStore.Extends.shrink this
      (fun n hn => FieldsStore.mem_getValidFieldsFullName s [name] n hn)
    obtain ⟨a, b, c, d⟩ := h2
    refine ⟨?_, ?_, ?_, ?_⟩
    · simpa using a
    · simpa using b
    · simpa using c
    · intro n hn
      rcases d n (by simpa using hn) with h | h
      · exact Or.inl h
      · simp at h

theorem refreshValues_extends (names : List String) (allValues : Props) (s : FieldsStore) :
    FieldsStore.Extends s (refreshValues names allValues s).2 names := by
  induction names generalizing allValues s with
  | nil => exact FieldsStore.Extends.refl s _
  | cons f rest ih =>
    rw [refreshValues]
    exact FieldsStore.Extends.trans (FieldsStore.getFieldValue_extends s f) (ih _ _)
      (fun n hn => by simp at hn; simp [hn]) (fun n hn => List.mem_cons_of_mem _ hn)

/-! ## Fields whose `normalize` function leaves the value alone -/

theorem Obj.mem_set {α : Type} (o : List (String × α)) (k : String) (v : α)
    (kv : String × α) (h : kv ∈ Obj.set o k v) : kv ∈ o ∨ kv = (k, v) := by
  induction o with
  | nil =>
    simp only [Obj.set, List.mem_singleton] at h
    exact Or.inr h
  | cons a t ih =>
    obtain ⟨k1, w⟩ := a
    simp only [Obj.set] at h
    split at h
    · rename_i e
      rcases List.mem_cons.1 h with h | h
      · exact Or.inr (by rw [h, e])
      · exact Or.inl (List.mem_cons_of_mem _ h)
    · rcases List.mem_cons.1 h with h | h
      · exact Or.inl (by rw [h]; exact List.mem_cons_self _ _)
      · rcases ih h with h | h
        · exact Or.inl (List.mem_cons_of_mem _ h)
        · exact Or.inr h

theorem Obj.foldl_set_mem {α β : Type} (key : β → String) (val : β → α) (l : List β)
    (init : List (String × α)) (kv : String × α)
    (h : kv ∈ l.foldl (fun acc f => Obj.set acc (key f) (val f)) init) :
    kv ∈ init ∨ ∃ f ∈ l, kv = (key f, val f) := by
  induction l generalizing init with
  | nil => exact Or.inl h
  | cons f rest ih =>
    rw [List.foldl_cons] at h
    rcases ih _ h with h | ⟨g, hg, e⟩
    · rcases Obj.mem_set _ _ _ _ h with h | h
      · exact Or.inl h
      · exact Or.inr ⟨f, List.mem_cons_self _ _, h⟩
    · exact Or.inr ⟨g, List.mem_cons_of_mem _ hg, e⟩

theorem FieldsStore.nowValues_mem (s : FieldsStore) (nowFields : List (String × Field))
    (fv : String × JSVal) (h : fv ∈ s.nowValues nowFields) :
    fv.2 = (s.getValueFromFields fv.1 nowFields).1 := by
  unfold FieldsStore.nowValues at h
  rcases Obj.foldl_set_mem (fun f => f) (fun f => (s.getValueFromFields f nowFields).1) _ _ _ h
    with h | ⟨f, _, e⟩
  · simp at h
  · rw [e]

theorem FieldsStore.normalize_step_keeps (s : FieldsStore) (values : Props)
    (old : String → JSVal) (name : String)
    (l : List (String × JSVal))
    (hst : ∀ fv ∈ l, fv.1 = name → s.keepsValue name fv.2)
    (acc : List (String × Field)) :
    Obj.get? (l.foldl
      (fun (acc : List (String × Field)) (fv : String × JSVal) =>
        match (s.metaOf fv.1).normalize with
        | some normalize =>
          let nowValue := normalize fv.2 (old fv.1) (.obj values)
          if nowValue ≠ fv.2 then
            Obj.set acc fv.1 (Obj.set ((Obj.get? acc fv.1).getD []) "value" nowValue)
          else acc
        | none => acc) acc) name = Obj.get? acc name := by
  induction l generalizing acc with
  | nil => rfl
  | cons fv t ih =>
    rw [List.foldl_cons, ih (fun x hx => hst x (List.mem_cons_of_mem _ hx))]
    cases hn : (s.metaOf fv.1).normalize with
    | none => rfl
    | some normalize =>
      simp only
      by_cases hf : fv.1 = name
      · have hkeep := hst fv (List.mem_cons_self _ _) hf normalize (by rw [← hf]; exact hn)
          (old fv.1) (.obj values)
        rw [hkeep]
        simp
      · split
        · exact Obj.get?_set_other _ _ _ _ hf
        · rfl

/-- The record after `FieldsStore.setFields` of a name whose `normalize` function, if
any, leaves its new value as it is: the supplied record when the map names it, the
previous record otherwise. -/
theorem FieldsStore.setFields_record_keeps (s : FieldsStore) (fields : List (String × Field))
    (name : String) (hkeys : (Obj.keys fields).Nodup)
    (hkeep : s.keepsValue name (s.getValueFromFields name (Obj.spread s.fields fields)).1) :
    Obj.get? (s.setFields fields).fields name =
      (Obj.get? fields name).orElse (fun _ => Obj.get? s.fields name) := by
  unfold FieldsStore.setFields
  simp only
  rw [FieldsStore.normalize_step_keeps s _ (fun f => (s.getValueFromFields f s.fields).1) name]
  · exact Obj.get?_spread fields s.fields name hkeys
  · intro fv hfv hname
    rw [FieldsStore.nowValues_mem s _ fv hfv, hname]
    exact hkeep

/-! ## The staleness scenario -/

theorem Obj.foldl_set_get?_cases {α β : Type} (key : β → String) (val : β → α) (l : List β)
    (init : List (String × α)) (n : String) :
    (∃ f ∈ l, key f = n ∧
        Obj.get? (l.foldl (fun acc f => Obj.set acc (key f) (val f)) init) n = some (val f)) ∨
      ((∀ f ∈ l, key f ≠ n) ∧
        Obj.get? (l.foldl (fun acc f => Obj.set acc (key f) (val f)) init) n =
          Obj.get? init n) := by
  induction l generalizing init with
  | nil => exact Or.inr ⟨by simp, rfl⟩
  | cons f rest ih =>
    rw [List.foldl_cons]
    rcases ih (Obj.set init (key f) (val f)) with ⟨g, hg, hk, hget⟩ | ⟨hne, hget⟩
    · exact Or.inl ⟨g, List.mem_cons_of_mem _ hg, hk, hget⟩
    · by_cases hf : key f = n
      · refine Or.inl ⟨f, List.mem_cons_self _ _, hf, ?_⟩
        rw [hget, hf, Obj.get?_set_same]
      · refine Or.inr ⟨?_, ?_⟩
        · intro g hg
          rcases List.mem_cons.1 hg with e | e
          · exact e ▸ hf
          · exact hne g e
        · rw [hget, Obj.get?_set_other _ _ _ _ hf]

/-- What a dispatched validation pass leaves: the empty name stays unregistered,
every metadata is as before, and every name of the pass is a non-empty registered
name whose record is, in every member other than `value`, the record `newField` of
a selected record of the batch with that name. -/
theorem validateFieldsInternal_dispatched (fm : Form) (fields : List Field)
    (fieldNames : Option (List String)) (action : Option String) (force hasCallback : Bool)
    (fm1 : Form) (pass : PendingPass)
    (hempty : "" ∉ fm.fieldsStore.getAllFieldsName)
    (hname : ∀ f ∈ fields, isSelected force f = true → fieldName f ≠ "")
    (hv : ∀ f ∈ fields, isSelected force f = true →
      (fm.fieldsStore.metaOf (fieldName f)).validate ≠ none)
    (hdisp : fm.validateFieldsInternal fields fieldNames action force hasCallback =
      .ok (.dispatched fm1 pass)) :
    "" ∉ fm1.fieldsStore.getAllFieldsName ∧
    (∀ n, fm1.fieldsStore.metaOf n = fm.fieldsStore.metaOf n) ∧
    pass.hasCallback = hasCallback ∧
    ∀ n ∈ Obj.keys pass.allRules, n ≠ "" ∧ n ∈ fm1.fieldsStore.getAllFieldsName ∧
      ∃ f ∈ fields, isSelected force f = true ∧ fieldName f = n ∧
        ∀ member, member ≠ "value" →
          fm1.fieldsStore.getFieldMember n member =
            Props.get (Obj.set (markValidating f) "name" (.str n)) member := by
  obtain ⟨sel1, h1, h2⟩ :=
    validateFieldsInternal_ok fm fields fieldNames action force hasCallback hempty hname hv
  obtain ⟨sel2, g1, _, g3, g4, g5, g6, g7, _⟩ :=
    selectFields_ok force action fields { store := fm.fieldsStore } hv
  rw [g1] at h1
  have hs : sel2 = sel1 := by injection h1
  subst hs
  rw [h2] at hdisp
  have hd : PassResult.dispatched
      { fm with
        fieldsStore :=
          (refreshValues (Obj.keys sel2.allValues) sel2.allValues
            (sel2.store.setFields sel2.allFields)).2 }
      { allRules := sel2.allRules
        allValues :=
          (refreshValues (Obj.keys sel2.allValues) sel2.allValues
            (sel2.store.setFields sel2.allFields)).1
        alreadyErrors := sel2.alreadyErrors
        fieldNames := fieldNames
        hasCallback := hasCallback } = .dispatched fm1 pass := by
    split at hdisp
    · injection hdisp with h; cases h
    · injection hdisp
  injection hd with hfm hpass
  subst hfm
  subst hpass
  have hext := refreshValues_extends (Obj.keys sel2.allValues) sel2.allValues
    (sel2.store.setFields sel2.allFields)
  obtain ⟨e1, e2, e3, e4⟩ := hext
  have hselnames : ∀ n, n ∈ Obj.keys sel2.allValues →
      ∃ f ∈ fields, isSelected force f = true ∧ fieldName f = n := by
    intro n hn
    rw [g7, Obj.foldl_set_keys] at hn
    rcases hn with hn | ⟨f, hf, hfn⟩
    · simp [Obj.keys] at hn
    · exact ⟨f, (List.mem_filter.1 hf).1, (List.mem_filter.1 hf).2, hfn⟩
  have hkeysS : Obj.keys (sel2.store.setFields sel2.allFields).fieldsMeta =
      Obj.keys sel2.store.fieldsMeta := rfl
  refine ⟨?_, ?_, rfl, ?_⟩
  · intro hmem
    rcases e4 "" hmem with h | h
    · rw [hkeysS] at h
      rcases (g4 "").1 h with h | ⟨f, hf, hfs, hfn⟩
      · exact hempty h
      · exact hname f hf hfs hfn
    · obtain ⟨f, hf, hfs, hfn⟩ := hselnames "" h
      exact hname f hf hfs hfn
  · intro n
    show (refreshValues (Obj.keys sel2.allValues) sel2.allValues
      (sel2.store.setFields sel2.allFields)).2.metaOf n = _
    rw [e2 n]
    exact g3 n
  · intro n hn
    have hn2 : n ∈ Obj.keys sel2.allRules := hn
    rw [g6, Obj.foldl_set_keys] at hn2
    have hsel : ∃ f ∈ fields.filter (isSelected force), fieldName f = n := by
      rcases hn2 with h | h
      · simp [Obj.keys] at h
      · exact h
    obtain ⟨f0, hf0, hf0n⟩ := hsel
    refine ⟨?_, ?_, ?_⟩
    · intro e
      exact hname f0 (List.mem_filter.1 hf0).1 (List.mem_filter.1 hf0).2 (hf0n.trans e)
    · apply e3
      rw [hkeysS]
      exact (g4 n).2 (Or.inr ⟨f0, (List.mem_filter.1 hf0).1, (List.mem_filter.1 hf0).2, hf0n⟩)
    · have hcases := Obj.foldl_set_get?_cases fieldName markValidating
        (fields.filter (isSelected force)) ([] : List (String × Field)) n
      rcases hcases with ⟨f, hf, hfn, hget⟩ | ⟨hne, _⟩
      · refine ⟨f, (List.mem_filter.1 hf).1, (List.mem_filter.1 hf).2, hfn, ?_⟩
        intro member hm
        have hkeys : (Obj.keys sel2.allFields).Nodup := by
          rw [g5]
          exact Obj.foldl_set_nodup _ _ _ _ (by simp [Obj.keys])
        show (refreshValues (Obj.keys sel2.allValues) sel2.allValues
          (sel2.store.setFields sel2.allFields)).2.getFieldMember n member = _
        rw [FieldsStore.getFieldMember_congr _ _ e1,
          FieldsStore.setFields_member _ _ _ _ hm hkeys, g5, hget]
        rfl
      · exact absurd hf0n (hne f0 hf0)

/-! ## Writing entries at the names of a pass -/

theorem Placed_of_Grouped (names : List String) (acc : String → List JSVal) (o : JSVal)
    (h : Grouped names acc o) : Placed names (fun n => entryOf (acc n)) o := h

theorem get_of_Placed (names : List String) (hN : pathsApart names = true)
    (val : String → JSVal) (g : JSVal) (hG : Placed names val g) (n : String)
    (hn : n ∈ names) : Lodash.get g n = val n := by
  obtain ⟨⟨kvs, hk⟩, htop, hall⟩ := hG
  subst hk
  obtain ⟨hq, _, _, _⟩ := pathsApart_mem names hN n hn
  have hcast : Lodash.castPath n (.obj kvs) = Lodash.keyPath n := by
    apply Lodash.castPath_eq
    intro hd hin
    have := htop n hin
    rw [hd] at this
    cases this
  rw [Lodash.get_obj kvs n _ hcast hq]
  exact (hall n hn).2

/-- One `set` of a value at a name of the list: the value is placed there, the
other names keep what they held, and so does every path that parts from the name. -/
theorem set_placed (names : List String) (hN : pathsApart names = true)
    (val : String → JSVal) (o : JSVal) (m : String) (v : JSVal)
    (hI : Placed names val o) (hm : m ∈ names) :
    Placed names (fun n => if n = m then v else val n) (Lodash.set o m v) ∧
      isEmptyObject (Lodash.set o m v) = false ∧
      (∀ p, Lodash.plainKeys p = true → Lodash.clearPath p o = true →
        Lodash.apart p (Lodash.keyPath m) = true →
        Lodash.clearPath p (Lodash.set o m v) = true ∧
          Lodash.baseGetPath p (Lodash.set o m v) = Lodash.baseGetPath p o) := by
  obtain ⟨⟨kvs, hkvs⟩, htop, hall⟩ := hI
  subst hkvs
  obtain ⟨hq, hplain, hhead, hapart⟩ := pathsApart_mem names hN m hm
  obtain ⟨hclear, _⟩ := hall m hm
  have hcast : Lodash.castPath m (.obj kvs) = Lodash.keyPath m := by
    apply Lodash.castPath_eq
    intro hd hin
    have := htop m hin
    rw [hd] at this
    cases this
  obtain ⟨k, qrest, hkq⟩ : ∃ k qrest, Lodash.keyPath m = k :: qrest := by
    cases hp : Lodash.keyPath m with
    | nil => exact absurd hp hq
    | cons k r => exact ⟨k, r, rfl⟩
  have hkdeep : Lodash.reIsDeepProp k.toList = false := by
    rw [hkq] at hhead
    exact hhead
  have hkforb : Lodash.isForbiddenKey k = false := by
    rw [hkq] at hplain
    exact ((Lodash.plainKeys_cons k qrest).1 hplain).1
  have hset : Lodash.set (.obj kvs) m v = Lodash.baseSetPath (Lodash.keyPath m) (.obj kvs) v := by
    unfold Lodash.set
    simp only [JSVal.isObject, if_true, hcast]
  obtain ⟨kvs2, h2, hk2, hne2⟩ := Lodash.baseSetPath_obj k qrest kvs v
  rw [← hkq] at h2
  rw [hset]
  refine ⟨⟨⟨kvs2, h2⟩, ?_, ?_⟩, ?_, ?_⟩
  · intro t ht
    rw [h2] at ht
    rcases hk2 t ht with e1 | e1
    · rw [e1]; exact hkdeep
    · exact htop t e1
  · intro n hn
    by_cases hnm : n = m
    · subst hnm
      simp only [if_true]
      have := Lodash.baseGet_baseSet_same (Lodash.keyPath n) (.obj kvs) v hq hplain hclear
      exact ⟨this.2, this.1⟩
    · simp only [hnm, if_false]
      obtain ⟨_, hplainn, _, hapartn⟩ := pathsApart_mem names hN n hn
      have := Lodash.baseGet_baseSet_apart (Lodash.keyPath n) (Lodash.keyPath m) (.obj kvs) v
        hplainn (hall n hn).1 (hapartn m hm (fun e => hnm e.symm))
      exact ⟨this.2, by rw [this.1]; exact (hall n hn).2⟩
  · rw [h2]
    have := hne2 hkforb
    cases kvs2 with
    | nil => exact absurd rfl this
    | cons kv t => rfl
  · intro p hp hc ha
    have := Lodash.baseGet_baseSet_apart p (Lodash.keyPath m) (.obj kvs) v hp hc ha
    exact ⟨this.2, this.1⟩

/-- A run of `set` calls at names of the list: every name holds the value of the
last call made for it, or what it held before; the object is empty only when it was
and no call was made; and a path that parts from every name keeps what it held. -/
theorem foldl_set_placed (names : List String) (hN : pathsApart names = true)
    (l : List (String × JSVal)) (hl : ∀ kv ∈ l, kv.1 ∈ names)
    (val : String → JSVal) (o : JSVal) (hI : Placed names val o) :
    Placed names (fun n => lastOf l n (val n))
        (l.foldl (fun g kv => Lodash.set g kv.1 kv.2) o) ∧
      isEmptyObject (l.foldl (fun g kv => Lodash.set g kv.1 kv.2) o) =
        (isEmptyObject o && l.isEmpty) ∧
      (∀ p, Lodash.plainKeys p = true → Lodash.clearPath p o = true →
        (∀ n ∈ names, Lodash.apart p (Lodash.keyPath n) = true) →
        Lodash.clearPath p (l.foldl (fun g kv => Lodash.set g kv.1 kv.2) o) = true ∧
          Lodash.baseGetPath p (l.foldl (fun g kv => Lodash.set g kv.1 kv.2) o) =
            Lodash.baseGetPath p o) := by
  induction l generalizing val o with
  | nil =>
    refine ⟨hI, by simp, fun p _ hc _ => ⟨hc, rfl⟩⟩
  | cons kv rest ih =>
    have hm := hl kv (List.mem_cons_self _ _)
    obtain ⟨s1, s2, s3⟩ := set_placed names hN val o kv.1 kv.2 hI hm
    obtain ⟨i1, i2, i3⟩ := ih (fun x hx => hl x (List.mem_cons_of_mem _ hx)) _ _ s1
    rw [List.foldl_cons]
    refine ⟨?_, ?_, ?_⟩
    · have : (fun n => lastOf (kv :: rest) n (val n)) =
          (fun n => lastOf rest n (if n = kv.1 then kv.2 else val n)) := by
        funext n
        unfold lastOf
        rw [List.foldl_cons]
        by_cases h : kv.1 = n
        · subst h; simp
        · have h' : ¬ n = kv.1 := fun e => h e.symm
          simp [h, h']
      rw [this]
      exact i1
    · rw [i2, s2]; simp
    · intro p hp hc ha
      obtain ⟨c2, b2⟩ := s3 p hp hc (ha kv.1 hm)
      obtain ⟨c3, b3⟩ := i3 p hp c2 ha
      exact ⟨c3, by rw [b3, b2]⟩

theorem lastOf_not_mem (l : List (String × JSVal)) (n : String) (dflt : JSVal)
    (h : ∀ kv ∈ l, kv.1 ≠ n) : lastOf l n dflt = dflt := by
  induction l generalizing dflt with
  | nil => rfl
  | cons kv rest ih =>
    unfold lastOf
    rw [List.foldl_cons]
    have h1 : kv.1 ≠ n := h kv (List.mem_cons_self _ _)
    simp only [h1, if_false]
    exact ih dflt (fun x hx => h x (List.mem_cons_of_mem _ hx))

theorem lastOf_map (l : List String) (entry : String → JSVal) (n : String) (dflt : JSVal) :
    lastOf (l.map (fun m => (m, entry m))) n dflt = if n ∈ l then entry n else dflt := by
  induction l generalizing dflt with
  | nil => rfl
  | cons m rest ih =>
    unfold lastOf at ih ⊢
    rw [List.map_cons, List.foldl_cons, ih]
    by_cases hr : n ∈ rest
    · simp [hr]
    · by_cases hm : m = n
      · subst hm; simp
      · have hm' : ¬ n = m := fun e => hm e.symm
        simp [hr, hm, hm']

theorem FieldsStore.getField_getFieldMeta (s : FieldsStore) (name n : String) :
    (s.getFieldMeta name).2.getField n = s.getField n := rfl

theorem collectedField_value (store : FieldsStore) (name : String) (args : List JSVal) :
    Props.get (collectedField store name args) "value" =
      collectedValue (store.metaOf name) args := by
  unfold collectedField
  rw [Props.get_set_other _ _ _ _ (by decide), Props.get_set_other _ _ _ _ (by decide),
    Props.get_set_same]

theorem collectedField_has_value (store : FieldsStore) (name : String) (args : List JSVal) :
    Obj.has (collectedField store name args) "value" = true := by
  unfold collectedField Obj.has
  rw [Obj.get?_set_other _ _ _ _ (by decide), Obj.get?_set_other _ _ _ _ (by decide),
    Obj.get?_set_same]
  rfl

/-- The `onCollect` of a non-empty name on a form in which the empty name is not
registered succeeds: the name is registered, every metadata is as before, and the
record of the name is the collected record in every member other than `value`, and
in `value` too when the `normalize` function of the field, if any, leaves the
collected value as it is. -/
theorem onCollect_ok (fm : Form) (name action : String) (args : List JSVal)
    (hempty : "" ∉ fm.fieldsStore.getAllFieldsName) (hne : name ≠ "") :
    ∃ fm2 : Form, fm.onCollect name action args = .ok fm2 ∧
      (∀ n, n ∈ fm2.fieldsStore.getAllFieldsName ↔
        (n = name ∨ n ∈ fm.fieldsStore.getAllFieldsName)) ∧
      (∀ n, fm2.fieldsStore.metaOf n = fm.fieldsStore.metaOf n) ∧
      (∀ member, member ≠ "value" →
        fm2.fieldsStore.getFieldMember name member =
          Props.get (Obj.set (collectedField fm.fieldsStore name args) "name" (.str name))
            member) ∧
      (fm.fieldsStore.keepsValue name (collectedValue (fm.fieldsStore.metaOf name) args) →
        Obj.get? fm2.fieldsStore.fields name =
          some (collectedField fm.fieldsStore name args)) := by
  have hkeys1 : ∀ n, n ∈ Obj.keys (fm.fieldsStore.getFieldMeta name).2.fieldsMeta ↔
      (n = name ∨ n ∈ Obj.keys fm.fieldsStore.fieldsMeta) :=
    fun n => FieldsStore.keys_getFieldMeta fm.fieldsStore name n
  have hset := Form.setFields_flat
    ({ fm with fieldsStore := (fm.fieldsStore.getFieldMeta name).2 } : Form)
    [(name, collectedField fm.fieldsStore name args)]
    (by
      intro h
      rcases (hkeys1 "").1 h with e | e
      · exact hne e.symm
      · exact hempty e)
    (by
      intro kv hkv
      simp only [List.mem_singleton] at hkv
      subst hkv
      exact (hkeys1 name).2 (Or.inl rfl))
    (by simp [Obj.keys])
  refine ⟨_, hset, ?_, ?_, ?_, ?_⟩
  · intro n
    exact hkeys1 n
  · intro n
    exact FieldsStore.metaOf_getFieldMeta fm.fieldsStore name n
  · intro member hm
    show ((fm.fieldsStore.getFieldMeta name).2.setFields
      [(name, collectedField fm.fieldsStore name args)]).getFieldMember name member = _
    rw [FieldsStore.setFields_member _ _ _ _ hm (by simp [Obj.keys])]
    simp [Obj.get?, Option.orElse]
  · intro hkeep
    show Obj.get? ((fm.fieldsStore.getFieldMeta name).2.setFields
      [(name, collectedField fm.fieldsStore name args)]).fields name = _
    have hval : ((fm.fieldsStore.getFieldMeta name).2.getValueFromFields name
        (Obj.spread (fm.fieldsStore.getFieldMeta name).2.fields
          [(name, collectedField fm.fieldsStore name args)])).1 =
        collectedValue (fm.fieldsStore.metaOf name) args := by
      rw [FieldsStore.getValueFromFields_fst, Obj.get?_spread _ _ _ (by simp [Obj.keys])]
      simp [Obj.get?, Option.orElse, collectedField_has_value, collectedField_value]
    rw [FieldsStore.setFields_record_keeps _ _ _ (by simp [Obj.keys])]
    · simp [Obj.get?, Option.orElse]
    · rw [hval]
      intro n hn
      exact hkeep n (by rw [← FieldsStore.metaOf_getFieldMeta fm.fieldsStore name name]; exact hn)

theorem collectedField_member (store : FieldsStore) (name : String) (args : List JSVal)
    (member : String) (h1 : member ≠ "value") (h2 : member ≠ "touched")
    (h3 : member ≠ "dirty") :
    Props.get (collectedField store name args) member = store.getFieldMember name member := by
  unfold collectedField FieldsStore.getFieldMember
  rw [Props.get_set_other _ _ _ _ (fun e => h3 e.symm),
    Props.get_set_other _ _ _ _ (fun e => h2 e.symm),
    Props.get_set_other _ _ _ _ (fun e => h1 e.symm)]

theorem markValidating_errors (field : Field) (n : String) :
    Props.get (Obj.set (markValidating field) "name" (.str n)) "errors" = .undefined := by
  unfold markValidating
  rw [Props.get_set_other _ _ _ _ (by decide), Props.get_set_other _ _ _ _ (by decide),
    Props.get_set_other _ _ _ _ (by decide), Props.get_set_same]

theorem expiredEntry_expired (name : String) :
    Lodash.getProp (expiredEntry name) "expired" = .bool true := by
  simp [expiredEntry, Lodash.getProp, Props.get, Obj.get?]

/-- The object the callback reports when the errors have been grouped into `g` and
the names `l` are expired: every expired name holds its expired entry, every other
name what it held in `g`, and the object is empty only when `g` is and no name is
expired. -/
theorem reported_spec (names : List String) (hN : namesApart names = true)
    (l : List String) (hl : ∀ n ∈ l, n ∈ names)
    (val : String → JSVal) (g : JSVal) (hG : Placed names val g) :
    Placed names (fun n => if n ∈ l then expiredEntry n else val n)
        (l.foldl (fun g name => Lodash.set g name (expiredEntry name)) g) ∧
      isEmptyObject (l.foldl (fun g name => Lodash.set g name (expiredEntry name)) g) =
        (isEmptyObject g && l.isEmpty) ∧
      (∀ p, Lodash.plainKeys p = true → Lodash.clearPath p g = true →
        (∀ n ∈ names, Lodash.apart p (Lodash.keyPath n) = true) →
        Lodash.clearPath p
            (l.foldl (fun g name => Lodash.set g name (expiredEntry name)) g) = true ∧
          Lodash.baseGetPath p
              (l.foldl (fun g name => Lodash.set g name (expiredEntry name)) g) =
            Lodash.baseGetPath p g) := by
  have hfold : ∀ (l : List String) (o : JSVal),
      l.foldl (fun g name => Lodash.set g name (expiredEntry name)) o =
        (l.map (fun m => (m, expiredEntry m))).foldl (fun g kv => Lodash.set g kv.1 kv.2) o := by
    intro l o
    rw [List.foldl_map]
  obtain ⟨a, b, c⟩ := foldl_set_placed names (pathsApart_of_namesApart _ hN) (l.map (fun m => (m, expiredEntry m)))
    (by
      intro kv hkv
      obtain ⟨m, hm, rfl⟩ := List.mem_map.1 hkv
      exact hl m hm)
    val g hG
  rw [hfold]
  refine ⟨?_, ?_, c⟩
  · have : (fun n => if n ∈ l then expiredEntry n else val n) =
        (fun n => lastOf (l.map (fun m => (m, expiredEntry m))) n (val n)) := by
      funext n
      rw [lastOf_map]
    rw [this]
    exact a
  · rw [b]
    cases l <;> rfl

/-- A field that the callback finds expired keeps its whole record when its
`normalize` function, if any, leaves its value as it is. -/
theorem validateCallback_expired_record (same : String → Bool) (fm fm1 : Form) (pass : PendingPass)
    (g : JSVal)
    (hfields : fm1.fieldsStore.fields =
      (fm.fieldsStore.setFields
        (((Obj.keys pass.allRules).filter
          (fun n => !isExpired same fm.fieldsStore pass.allValues n)).foldl
          (fun a n => Obj.set a n (committedField fm.fieldsStore pass.allValues g n))
          [])).fields)
    (name : String) (hstale : isExpired same fm.fieldsStore pass.allValues name = true)
    (hkeep : fm.fieldsStore.keepsValue name
      (fm.fieldsStore.getValueFromFields name fm.fieldsStore.fields).1) :
    Obj.get? fm1.fieldsStore.fields name = Obj.get? fm.fieldsStore.fields name := by
  have hnot : name ∉ Obj.keys (((Obj.keys pass.allRules).filter
      (fun n => !isExpired same fm.fieldsStore pass.allValues n)).foldl
      (fun a n => Obj.set a n (committedField fm.fieldsStore pass.allValues g n))
      ([] : List (String × Field))) := by
    rw [Obj.foldl_set_keys]
    rintro (h | ⟨n, hn, rfl⟩)
    · simp [Obj.keys] at h
    · have := (List.mem_filter.1 hn).2
      simp [hstale] at this
  have hnodup : (Obj.keys (((Obj.keys pass.allRules).filter
      (fun n => !isExpired same fm.fieldsStore pass.allValues n)).foldl
      (fun a n => Obj.set a n (committedField fm.fieldsStore pass.allValues g n))
      ([] : List (String × Field)))).Nodup :=
    Obj.foldl_set_nodup _ _ _ _ (by simp [Obj.keys])
  rw [hfields, FieldsStore.setFields_record_keeps _ _ _ hnodup, (Obj.get?_eq_none _ _).2 hnot]
  · rfl
  · rw [FieldsStore.getValueFromFields_fst, Obj.get?_spread _ _ _ hnodup,
      (Obj.get?_eq_none _ _).2 hnot]
    rw [FieldsStore.getValueFromFields_fst] at hkeep
    exact hkeep

/-- C2, as the code has it: the empty name is not registered, the records the batch
selects have names that are not empty and a `validate` list, and a pass with a
callback is dispatched over the batch, which selects `f`; the names of the pass
address distinct places of the errors object, at which the errors kept from skipped
fields hold nothing; `f` is then set through `onCollect` to a value that differs
from the value the pass snapshotted for it and that the `normalize` function of
`f`, if it has one, leaves as it is; the validator completes with errors for fields
of the pass only.  Then both steps succeed, and after the callback the record of
`f` has no `errors`, its `value` is the collected value, and the errors given to
the caller's callback hold for `f` an entry with `expired = true`. -/
theorem validateCallback_stale (fm : Form) (fields : List Field)
    (fieldNames : Option (List String)) (action : Option String) (force : Bool)
    (fm1 : Form) (pass : PendingPass) (f action2 : String) (args : List JSVal)
    (errors : Option (List ValidateError)) (same : String → Bool)
    (hempty : "" ∉ fm.fieldsStore.getAllFieldsName)
    (hname : ∀ x ∈ fields, isSelected force x = true → fieldName x ≠ "")
    (hv : ∀ x ∈ fields, isSelected force x = true →
      (fm.fieldsStore.metaOf (fieldName x)).validate ≠ none)
    (hdisp : fm.validateFieldsInternal fields fieldNames action force true =
      .ok (.dispatched fm1 pass))
    (hf : f ∈ Obj.keys pass.allRules)
    (hkeep : fm.fieldsStore.keepsValue f (collectedValue (fm.fieldsStore.metaOf f) args))
    (hchange : collectedValue (fm.fieldsStore.metaOf f) args ≠ Props.get pass.allValues f)
    (hN : namesApart (Obj.keys pass.allRules) = true)
    (hV : vacantAt pass.alreadyErrors (Obj.keys pass.allRules) = true)
    (hE : ∀ e ∈ errors.getD [], e.field ∈ Obj.keys pass.allRules) :
    ∃ (fm2 fm3 : Form) (cb : CallbackArgs),
      fm1.onCollect f action2 args = .ok fm2 ∧
      fm2.validateCallback pass errors same = .ok (fm3, some cb) ∧
      fm3.fieldsStore.getFieldMember f "errors" = .undefined ∧
      fm3.fieldsStore.getFieldMember f "value" = collectedValue (fm.fieldsStore.metaOf f) args ∧
      Lodash.getProp (Lodash.get cb.errors f) "expired" = .bool true := by
  obtain ⟨hempty1, hmeta1, hcb, hnames⟩ :=
    validateFieldsInternal_dispatched fm fields fieldNames action force true fm1 pass
      hempty hname hv hdisp
  obtain ⟨hfne, _, x, _, _, _, hmember1⟩ := hnames f hf
  obtain ⟨fm2, hrun2, hkeys2, hmeta2, hmember2, hrec2⟩ :=
    onCollect_ok fm1 f action2 args hempty1 hfne
  have hkeep1 : fm1.fieldsStore.keepsValue f
      (collectedValue (fm1.fieldsStore.metaOf f) args) := by
    unfold FieldsStore.keepsValue
    rw [hmeta1]
    exact hkeep
  have hrec := hrec2 hkeep1
  have hvalue2 : Props.get (fm2.fieldsStore.getField f) "value" =
      collectedValue (fm.fieldsStore.metaOf f) args := by
    unfold FieldsStore.getField
    rw [hrec, Option.getD_some, Props.get_set_other _ _ _ _ (by decide), collectedField_value,
      hmeta1]
  have hstale : isExpired same fm2.fieldsStore pass.allValues f = true :=
    isExpired_of_ne same _ _ f (by rw [hvalue2]; exact hchange)
  obtain ⟨g, hg, hG, _, _⟩ := groupErrors_spec (Obj.keys pass.allRules) hN (errors.getD [])
    (fun _ => []) pass.alreadyErrors (Grouped_of_vacantAt _ _ hV) hE
  have hempty2 : "" ∉ fm2.fieldsStore.getAllFieldsName := by
    intro h
    rcases (hkeys2 "").1 h with e | e
    · exact hfne e.symm
    · exact hempty1 e
  have hreg2 : ∀ n ∈ Obj.keys pass.allRules, n ∈ fm2.fieldsStore.getAllFieldsName :=
    fun n hn => (hkeys2 n).2 (Or.inr (hnames n hn).2.1)
  obtain ⟨fm3, args3, hrun3, hfields3, hargs3⟩ :=
    validateCallback_ok same fm2 pass errors g hg hempty2 hreg2
  obtain ⟨hframe, _⟩ := validateCallback_expired_frame same fm2 fm3 pass g hfields3 f hstale
  have hwhole := validateCallback_expired_record same fm2 fm3 pass g hfields3 f hstale (by
    rw [FieldsStore.getValueFromFields_fst, hrec]
    simp only [collectedField_has_value, if_true, collectedField_value]
    unfold FieldsStore.keepsValue
    rw [hmeta2]
    exact hkeep1)
  have hmemf :
      f ∈ (Obj.keys pass.allRules).filter (isExpired same fm2.fieldsStore pass.allValues) :=
    List.mem_filter.2 ⟨hf, hstale⟩
  obtain ⟨r1, r2, _⟩ := reported_spec (Obj.keys pass.allRules) hN
    ((Obj.keys pass.allRules).filter (isExpired same fm2.fieldsStore pass.allValues))
    (fun n hn => (List.mem_filter.1 hn).1) _ g (Placed_of_Grouped _ _ _ hG)
  have hnotempty : isEmptyObject
      (((Obj.keys pass.allRules).filter (isExpired same fm2.fieldsStore pass.allValues)).foldl
        (fun g name => Lodash.set g name (expiredEntry name)) g) = false := by
    rw [r2]
    cases hl :
        (Obj.keys pass.allRules).filter (isExpired same fm2.fieldsStore pass.allValues) with
    | nil => rw [hl] at hmemf; simp at hmemf
    | cons a t => simp
  rw [hcb, if_pos rfl, hnotempty] at hargs3
  simp only [Bool.false_eq_true, if_false] at hargs3
  cases args3 with
  | none => simp at hargs3
  | some cb =>
    simp only [Option.map_some', Option.some.injEq] at hargs3
    refine ⟨fm2, fm3, cb, hrun2, hrun3, ?_, ?_, ?_⟩
    · rw [hframe "errors" (by decide), hmember2 "errors" (by decide),
        Props.get_set_other _ _ _ _ (by decide),
        collectedField_member _ _ _ _ (by decide) (by decide) (by decide),
        hmember1 "errors" (by decide)]
      exact markValidating_errors x f
    · unfold FieldsStore.getFieldMember FieldsStore.getField
      rw [hwhole]
      exact hvalue2
    · rw [hargs3, get_of_Placed _ (pathsApart_of_namesApart _ hN) _ _ r1 f hf]
      simp only [hmemf, if_true]
      exact expiredEntry_expired f

/-- The witness of `validateCallback_stale`: the pass over `f` of `Demo.storeF` is
dispatched while `f` holds 1, `f` is set to 2, and the validator reports an error
for `f`. -/
theorem validateCallback_stale_witness :
    ∃ (fm2 fm3 : Form) (cb : CallbackArgs),
      Demo.dispatchedF.1.onCollect "f" "onChange" [Demo.event (.num 2)] = .ok fm2 ∧
      fm2.validateCallback Demo.dispatchedF.2
        (some [{ field := "f", message := "f is required" }]) (fun _ => true) =
        .ok (fm3, some cb) ∧
      fm3.fieldsStore.getFieldMember "f" "errors" = .undefined ∧
      fm3.fieldsStore.getFieldMember "f" "value" = .num 2 ∧
      Lodash.getProp (Lodash.get cb.errors "f") "expired" = .bool true :=
  validateCallback_stale { fieldsStore := Demo.storeF } Demo.batchF (some ["f"]) none false
    Demo.dispatchedF.1 Demo.dispatchedF.2 "f" "onChange" [Demo.event (.num 2)]
    (some [{ field := "f", message := "f is required" }]) (fun _ => true)
    (by decide) (by decide) (by decide) rfl (by decide) (fun _ h => nomatch h) (by decide)
    (by decide) (by decide) (by decide)

/-- C2 as stated fails: when `f` has a `normalize` function that is not idempotent
(`Demo.bump` adds 1), the staleness scenario that sets `f` to 2 ends with the value
4 in the record of `f`, because `onCollect` and the callback both store through
`setFields`, which normalizes the value again each time.  And when `a.b` and `a` are
both in the pass and `a.b` is set to 5, the expired entry written at `a` replaces
what the errors held below `a`, so that they hold nothing at `a.b`. -/
theorem validateCallback_stale_counterexample :
    ((match Demo.staleRun Demo.storeFBump with
      | .ok r => r.1.fieldsStore.getFieldMember "f" "value"
      | .error _ => .null) = .num 4) ∧
    ((match Demo.staleRunAB with
      | .ok (_, some cb) => Lodash.get cb.errors "a.b"
      | _ => .null) = .undefined) := by
  decide

/-! ## The errors given to the callback of a pass -/

theorem namesApart_subset (small big : List String) (h : namesApart big = true)
    (hsub : ∀ n ∈ small, n ∈ big) : namesApart small = true := by
  unfold namesApart at h ⊢
  rw [List.all_eq_true] at h ⊢
  intro n hn
  have h1 := h n (hsub n hn)
  simp only [Bool.and_eq_true, List.all_eq_true] at h1 ⊢
  obtain ⟨h2, h3⟩ := h1
  exact ⟨h2, fun m hm => h3 m (hsub m hm)⟩

theorem Placed_empty (names : List String) (hN : pathsApart names = true) :
    Placed names (fun _ => .undefined) (.obj []) := by
  refine ⟨⟨[], rfl⟩, ?_, ?_⟩
  · intro t ht
    simp [topKeys, Obj.keys] at ht
  · intro n hn
    obtain ⟨hq, _, _, _⟩ := pathsApart_mem names hN n hn
    cases hp : Lodash.keyPath n with
    | nil => exact absurd hp hq
    | cons k rest =>
      have hget : Lodash.getProp (.obj []) k = .undefined := rfl
      constructor
      · cases rest with
        | nil => rfl
        | cons k2 r =>
          rw [Lodash.clearPath_cons, hget]
          simp [Lodash.accepts]
      · rw [Lodash.baseGetPath_cons k rest (.obj []) rfl, hget, Lodash.baseGetPath_undefined]

theorem lastOf_mem_nodup (l : List (String × JSVal)) (hnd : (l.map Prod.fst).Nodup)
    (kv : String × JSVal) (hkv : kv ∈ l) (dflt : JSVal) : lastOf l kv.1 dflt = kv.2 := by
  induction l generalizing dflt with
  | nil => simp at hkv
  | cons a rest ih =>
    rw [List.map_cons, List.nodup_cons] at hnd
    unfold lastOf
    rw [List.foldl_cons]
    rcases List.mem_cons.1 hkv with e | e
    · subst e
      simp only [if_true]
      exact lastOf_not_mem rest kv.1 kv.2 (fun x hx e2 => hnd.1 (e2 ▸ List.mem_map_of_mem _ hx))
    · exact ih hnd.2 e _

/-- The errors retained from the skipped records of a batch whose names are
distinct and address distinct places: each record of the batch finds there its
retained `errors` when it is skipped with a truthy `errors` member, and nothing
otherwise; the object is empty exactly when there is no such record. -/
theorem retained_spec (force : Bool) (fields : List Field)
    (hA : namesApart (fields.map fieldName) = true) (hD : (fields.map fieldName).Nodup) :
    ∃ val : String → JSVal,
      Placed (fields.map fieldName) val
        ((retainedEntries force fields).foldl (fun g kv => Lodash.set g kv.1 kv.2) (.obj [])) ∧
      isEmptyObject
          ((retainedEntries force fields).foldl (fun g kv => Lodash.set g kv.1 kv.2) (.obj [])) =
        (retainedEntries force fields).isEmpty ∧
      ∀ f ∈ fields, val (fieldName f) =
        if (!isSelected force f && (Props.get f "errors").truthy) = true then
          .obj [("errors", Props.get f "errors")]
        else .undefined := by
  have hsub : ∀ kv ∈ retainedEntries force fields, kv.1 ∈ fields.map fieldName := by
    intro kv hkv
    obtain ⟨f, hf, rfl⟩ := List.mem_map.1 hkv
    exact List.mem_map_of_mem _ (List.mem_filter.1 hf).1
  obtain ⟨a, b, _⟩ := foldl_set_placed (fields.map fieldName) (pathsApart_of_namesApart _ hA)
    (retainedEntries force fields)
    hsub (fun _ => .undefined) (.obj []) (Placed_empty _ (pathsApart_of_namesApart _ hA))
  refine ⟨_, a, ?_, ?_⟩
  · rw [b]; rfl
  · intro f hf
    have hnd : ((retainedEntries force fields).map Prod.fst).Nodup := by
      unfold retainedEntries
      rw [List.map_map]
      exact List.Nodup.sublist (List.Sublist.map _ (List.filter_sublist _)) hD
    by_cases hs : (!isSelected force f && (Props.get f "errors").truthy) = true
    · rw [if_pos hs]
      exact lastOf_mem_nodup _ hnd (fieldName f, .obj [("errors", Props.get f "errors")])
        (List.mem_map.2 ⟨f, List.mem_filter.2 ⟨hf, hs⟩, rfl⟩) _
    · rw [if_neg hs]
      apply lastOf_not_mem
      intro kv hkv e
      obtain ⟨x, hx, rfl⟩ := List.mem_map.1 hkv
      have hxf : x = f :=
        List.inj_on_of_nodup_map hD (List.mem_filter.1 hx).1 hf e
      rw [hxf] at hx
      exact hs (List.mem_filter.1 hx).2

/-- The completion of a pass with a callback, when the retained errors hold the
values `val` at the names of a list that parts and holds nothing at the names of the
pass: the callback gets `null` for an empty object `r` and `r` otherwise, where `r`
holds the expired entry at every expired name of the pass, the entry of the
validator's errors at every other name of the pass, and `val` at the other names. -/
theorem validateCallback_reports (same : String → Bool) (fm : Form) (pass : PendingPass)
    (errors : Option (List ValidateError)) (names : List String) (val : String → JSVal)
    (hA : namesApart names = true) (hP : Placed names val pass.alreadyErrors)
    (hsel : ∀ n ∈ Obj.keys pass.allRules, n ∈ names ∧ val n = .undefined)
    (hcb : pass.hasCallback = true)
    (hE : ∀ e ∈ errors.getD [], e.field ∈ Obj.keys pass.allRules)
    (hempty : "" ∉ fm.fieldsStore.getAllFieldsName)
    (hreg : ∀ n ∈ Obj.keys pass.allRules, n ∈ fm.fieldsStore.getAllFieldsName) :
    ∃ (fm1 : Form) (cb : CallbackArgs) (r : JSVal),
      fm.validateCallback pass errors same = .ok (fm1, some cb) ∧
      cb.errors = (if isEmptyObject r then .null else r) ∧
      Placed names
        (fun n =>
          if n ∈ (Obj.keys pass.allRules).filter (isExpired same fm.fieldsStore pass.allValues) then
            expiredEntry n
          else if n ∈ Obj.keys pass.allRules then entryOf (errorsFor (errors.getD []) n)
          else val n) r ∧
      isEmptyObject r =
        (isEmptyObject pass.alreadyErrors && (errors.getD []).isEmpty &&
          ((Obj.keys pass.allRules).filter (isExpired same fm.fieldsStore pass.allValues)).isEmpty) := by
  have hNs : namesApart (Obj.keys pass.allRules) = true :=
    namesApart_subset _ _ hA (fun n hn => (hsel n hn).1)
  obtain ⟨hobj, htop, hall⟩ := hP
  have hG0 : Grouped (Obj.keys pass.allRules) (fun _ => []) pass.alreadyErrors := by
    refine ⟨hobj, htop, ?_⟩
    intro n hn
    obtain ⟨hc, hg⟩ := hall n (hsel n hn).1
    exact ⟨hc, by rw [hg, (hsel n hn).2]; rfl⟩
  obtain ⟨g, hg, hG, hemp, hframe⟩ := groupErrors_spec (Obj.keys pass.allRules) hNs
    (errors.getD []) (fun _ => []) pass.alreadyErrors hG0 hE
  have hPg : Placed names
      (fun n => if n ∈ Obj.keys pass.allRules then entryOf (errorsFor (errors.getD []) n)
        else val n) g := by
    refine ⟨hG.1, hG.2.1, ?_⟩
    intro n hn
    by_cases hin : n ∈ Obj.keys pass.allRules
    · simp only [hin, if_true]
      have := hG.2.2 n hin
      simpa using this
    · simp only [hin, if_false]
      obtain ⟨_, hplain, _, _, hapart⟩ := namesApart_mem names hA n hn
      obtain ⟨c1, c2⟩ := hframe (Lodash.keyPath n) hplain (hall n hn).1
        (fun m hm => hapart m (hsel m hm).1 (fun e => hin (e ▸ hm)))
      exact ⟨c1, by rw [c2]; exact (hall n hn).2⟩
  obtain ⟨r1, r2, _⟩ := reported_spec names hA
    ((Obj.keys pass.allRules).filter (isExpired same fm.fieldsStore pass.allValues))
    (fun n hn => (hsel n (List.mem_filter.1 hn).1).1) _ g hPg
  obtain ⟨fm1, args, hrun, _, hargs⟩ := validateCallback_ok same fm pass errors g hg hempty hreg
  rw [hcb, if_pos rfl] at hargs
  cases args with
  | none => simp at hargs
  | some cb =>
    simp only [Option.map_some', Option.some.injEq] at hargs
    refine ⟨fm1, cb, _, hrun, hargs, r1, ?_⟩
    rw [r2, hemp]

/-- What the callback gets when the object `r` of the pass holds, at the name of
every record of the batch, the entry `entry` of that record, and is empty exactly
when no record has an entry. -/
theorem reports_of_placed (fields : List Field) (entry : Field → JSVal)
    (hA : namesApart (fields.map fieldName) = true) (valR : String → JSVal) (r : JSVal)
    (hP : Placed (fields.map fieldName) valR r)
    (hval : ∀ f ∈ fields, valR (fieldName f) = entry f)
    (hemp : isEmptyObject r = true ↔ ∀ f ∈ fields, entry f = .undefined) :
    ((if isEmptyObject r then JSVal.null else r) = .null ↔
        ∀ f ∈ fields, entry f = .undefined) ∧
      ((if isEmptyObject r then JSVal.null else r) ≠ .null →
        ∀ f ∈ fields, Lodash.get (if isEmptyObject r then JSVal.null else r) (fieldName f) =
          entry f) := by
  obtain ⟨kvs, hk⟩ := hP.1
  by_cases he : isEmptyObject r = true
  · rw [if_pos he]
    exact ⟨⟨fun _ => hemp.1 he, fun _ => rfl⟩, fun h => absurd rfl h⟩
  · rw [if_neg he]
    constructor
    · constructor
      · intro h
        rw [hk] at h
        cases h
      · intro h
        exact absurd (hemp.2 h) he
    · intro _ f hf
      rw [get_of_Placed _ (pathsApart_of_namesApart _ hA) _ _ hP (fieldName f) (List.mem_map_of_mem _ hf)]
      exact hval f hf

theorem retainedEntries_isEmpty (force : Bool) (fields : List Field) :
    (retainedEntries force fields).isEmpty = true ↔
      ∀ f ∈ fields, (!isSelected force f && (Props.get f "errors").truthy) = false := by
  unfold retainedEntries
  rw [List.isEmpty_iff, List.map_eq_nil_iff, List.filter_eq_nil_iff]
  constructor
  · intro h f hf
    simpa using h f hf
  · intro h f hf
    simpa using h f hf

theorem entryOf_ne_undefined (l : List JSVal) (h : l ≠ []) : entryOf l ≠ .undefined := by
  unfold entryOf
  cases l with
  | nil => exact absurd rfl h
  | cons a t => simp

theorem reportedEntry_selected (force : Bool) (stale : String → Bool)
    (errors : List ValidateError) (f : Field) (h : isSelected force f = true) :
    reportedEntry force stale errors f =
      if stale (fieldName f) = true then expiredEntry (fieldName f)
      else entryOf (errorsFor errors (fieldName f)) := by
  unfold reportedEntry
  rw [if_pos h]

theorem reportedEntry_skipped (force : Bool) (stale : String → Bool)
    (errors : List ValidateError) (f : Field) (h : isSelected force f = false) :
    reportedEntry force stale errors f =
      if (!isSelected force f && (Props.get f "errors").truthy) = true then
        .obj [("errors", Props.get f "errors")]
      else .undefined := by
  unfold reportedEntry
  simp [h]

/-- The object of a completed pass is empty exactly when no record of the batch has
an entry. -/
theorem reported_isEmpty (force : Bool) (fields : List Field) (stale : String → Bool)
    (errors : List ValidateError) (keys : List String)
    (hkeys : ∀ n, n ∈ keys ↔ ∃ f ∈ fields, isSelected force f = true ∧ fieldName f = n)
    (hE : ∀ e ∈ errors, e.field ∈ keys) :
    ((retainedEntries force fields).isEmpty && errors.isEmpty &&
        (keys.filter stale).isEmpty) = true ↔
      ∀ f ∈ fields, reportedEntry force stale errors f = .undefined := by
  simp only [Bool.and_eq_true, retainedEntries_isEmpty]
  constructor
  · rintro ⟨⟨h1, h2⟩, h3⟩ f hf
    have herr : errors = [] := List.isEmpty_iff.1 h2
    by_cases hs : isSelected force f = true
    · rw [reportedEntry_selected _ _ _ _ hs]
      have hst : ¬ stale (fieldName f) = true := by
        intro e
        have hmem : fieldName f ∈ keys.filter stale :=
          List.mem_filter.2 ⟨(hkeys _).2 ⟨f, hf, hs, rfl⟩, e⟩
        rw [List.isEmpty_iff.1 h3] at hmem
        simp at hmem
      rw [if_neg hst, herr]
      rfl
    · have hs2 : isSelected force f = false := by simpa using hs
      rw [reportedEntry_skipped _ _ _ _ hs2, h1 f hf]
      rfl
  · intro h
    refine ⟨⟨?_, ?_⟩, ?_⟩
    · intro f hf
      by_contra hne
      have hne2 : (!isSelected force f && (Props.get f "errors").truthy) = true := by
        simpa using hne
      have hs2 : isSelected force f = false := by
        simp only [Bool.and_eq_true, Bool.not_eq_true'] at hne2
        exact hne2.1
      have := h f hf
      rw [reportedEntry_skipped _ _ _ _ hs2, if_pos hne2] at this
      cases this
    · cases herr : errors with
      | nil => rfl
      | cons e rest =>
        exfalso
        have he : e ∈ errors := by rw [herr]; exact List.mem_cons_self _ _
        obtain ⟨f, hf, hs, hfn⟩ := (hkeys _).1 (hE e he)
        have := h f hf
        rw [reportedEntry_selected _ _ _ _ hs] at this
        by_cases hst : stale (fieldName f) = true
        · rw [if_pos hst] at this
          cases this
        · rw [if_neg hst] at this
          refine entryOf_ne_undefined _ ?_ this
          rw [hfn, herr, errorsFor_cons]
          simp
    · cases hl : keys.filter stale with
      | nil => rfl
      | cons n rest =>
        exfalso
        have hn : n ∈ keys.filter stale := by rw [hl]; exact List.mem_cons_self _ _
        obtain ⟨hn1, hn2⟩ := List.mem_filter.1 hn
        obtain ⟨f, hf, hs, hfn⟩ := (hkeys _).1 hn1
        have := h f hf
        rw [reportedEntry_selected _ _ _ _ hs, hfn, if_pos hn2] at this
        cases this

/-- The values an object of a completed pass holds at the names of the records of
the batch are the entries of the records. -/
theorem reported_entries (force : Bool) (fields : List Field) (stale : String → Bool)
    (errors : List ValidateError) (keys : List String) (val : String → JSVal)
    (hD : (fields.map fieldName).Nodup)
    (hkeys : ∀ n, n ∈ keys ↔ ∃ f ∈ fields, isSelected force f = true ∧ fieldName f = n)
    (hval : ∀ f ∈ fields, val (fieldName f) =
      if (!isSelected force f && (Props.get f "errors").truthy) = true then
        .obj [("errors", Props.get f "errors")]
      else .undefined)
    (f : Field) (hf : f ∈ fields) :
    (if fieldName f ∈ keys.filter stale then expiredEntry (fieldName f)
      else if fieldName f ∈ keys then entryOf (errorsFor errors (fieldName f))
      else val (fieldName f)) = reportedEntry force stale errors f := by
  by_cases hs : isSelected force f = true
  · have hk : fieldName f ∈ keys := (hkeys _).2 ⟨f, hf, hs, rfl⟩
    rw [reportedEntry_selected _ _ _ _ hs]
    by_cases hst : stale (fieldName f) = true
    · rw [if_pos (List.mem_filter.2 ⟨hk, hst⟩), if_pos hst]
    · rw [if_neg (fun e => hst (List.mem_filter.1 e).2), if_pos hk, if_neg hst]
  · have hs2 : isSelected force f = false := by simpa using hs
    have hk : fieldName f ∉ keys := by
      intro e
      obtain ⟨x, hx, hxs, hxn⟩ := (hkeys _).1 e
      have hxf : x = f := List.inj_on_of_nodup_map hD hx hf hxn
      rw [hxf] at hxs
      exact hs hxs
    rw [if_neg (fun e => hk (List.mem_filter.1 e).1), if_neg hk, hval f hf,
      reportedEntry_skipped _ _ _ _ hs2]

/-- C6, as the code has it: the empty name is not registered, and the pass has a
callback and goes over a batch whose records have distinct names that address
distinct places of the errors object, the selected ones with a name that is not
empty and a `validate` list.  Then the first argument of the callback is `null`
exactly when no record of the batch has an entry, and otherwise an object that
holds at the name of every record its entry: `{expired: true, errors}` for a
selected field that is expired (its value is not strictly equal, `===`, to the
snapshotted one: it differs or is an equal copy of the array or object), `{errors}`
with the validator's errors for another selected field that has some, `{errors}`
with the retained `errors` member for a skipped field whose `errors` member is
truthy, and nothing for the others.  When no record is selected the callback is
called at once; otherwise it is called when the validator completes, on the form as
it is then, provided the empty name is still not registered, the names of the pass
are still registered and the validator reports errors only for fields of the pass. -/
theorem validateFieldsInternal_reports (fm : Form) (fields : List Field)
    (fieldNames : Option (List String)) (action : Option String) (force : Bool)
    (hempty : "" ∉ fm.fieldsStore.getAllFieldsName)
    (hname : ∀ f ∈ fields, isSelected force f = true → fieldName f ≠ "")
    (hv : ∀ f ∈ fields, isSelected force f = true →
      (fm.fieldsStore.metaOf (fieldName f)).validate ≠ none)
    (hA : namesApart (fields.map fieldName) = true)
    (hD : (fields.map fieldName).Nodup) :
    ∃ res : PassResult,
      fm.validateFieldsInternal fields fieldNames action force true = .ok res ∧
      match res with
      | .finished _ cb =>
        (cb.errors = .null ↔
          ∀ f ∈ fields, reportedEntry force (fun _ => false) [] f = .undefined) ∧
        (cb.errors ≠ .null →
          ∀ f ∈ fields, Lodash.get cb.errors (fieldName f) =
            reportedEntry force (fun _ => false) [] f)
      | .dispatched _ pass =>
        ∀ (fm2 : Form) (errors : Option (List ValidateError)) (same : String → Bool),
          "" ∉ fm2.fieldsStore.getAllFieldsName →
          (∀ n ∈ Obj.keys pass.allRules, n ∈ fm2.fieldsStore.getAllFieldsName) →
          (∀ e ∈ errors.getD [], e.field ∈ Obj.keys pass.allRules) →
          ∃ (fm3 : Form) (cb : CallbackArgs),
            fm2.validateCallback pass errors same = .ok (fm3, some cb) ∧
            (cb.errors = .null ↔
              ∀ f ∈ fields,
                reportedEntry force (isExpired same fm2.fieldsStore pass.allValues)
                  (errors.getD []) f = .undefined) ∧
            (cb.errors ≠ .null →
              ∀ f ∈ fields, Lodash.get cb.errors (fieldName f) =
                reportedEntry force (isExpired same fm2.fieldsStore pass.allValues)
                  (errors.getD []) f) := by
  obtain ⟨sel1, h1, h2⟩ :=
    validateFieldsInternal_ok fm fields fieldNames action force true hempty hname hv
  obtain ⟨sel2, g1, _, _, _, g5, g6, _, g8⟩ :=
    selectFields_ok force action fields { store := fm.fieldsStore } hv
  rw [g1] at h1
  have hs : sel2 = sel1 := by injection h1
  subst hs
  have hAE : sel2.alreadyErrors =
      (retainedEntries force fields).foldl (fun g kv => Lodash.set g kv.1 kv.2) (.obj []) := by
    rw [g8]
    unfold retainedEntries
    rw [List.foldl_map]
  obtain ⟨val, hP, hempAE, hval⟩ := retained_spec force fields hA hD
  rw [← hAE] at hP hempAE
  have hkeysR : ∀ n, n ∈ Obj.keys sel2.allRules ↔
      ∃ f ∈ fields, isSelected force f = true ∧ fieldName f = n := by
    intro n
    rw [g6, Obj.foldl_set_keys]
    constructor
    · rintro (h | ⟨f, hf, hfn⟩)
      · simp [Obj.keys] at h
      · exact ⟨f, (List.mem_filter.1 hf).1, (List.mem_filter.1 hf).2, hfn⟩
    · rintro ⟨f, hf, hfs, hfn⟩
      exact Or.inr ⟨f, List.mem_filter.2 ⟨hf, hfs⟩, hfn⟩
  refine ⟨_, h2, ?_⟩
  by_cases hc : sel2.allFields.isEmpty = true
  · simp only [hc, Bool.and_self, if_true]
    have hnone : ∀ n, n ∈ ([] : List String) ↔
        ∃ f ∈ fields, isSelected force f = true ∧ fieldName f = n := by
      intro n
      constructor
      · intro h; simp at h
      · rintro ⟨f, hf, hfs, hfn⟩
        have : fieldName f ∈ Obj.keys sel2.allFields := by
          rw [g5, Obj.foldl_set_keys]
          exact Or.inr ⟨f, List.mem_filter.2 ⟨hf, hfs⟩, rfl⟩
        rw [List.isEmpty_iff.1 hc] at this
        simp [Obj.keys] at this
    have hentry : ∀ f ∈ fields,
        val (fieldName f) = reportedEntry force (fun _ => false) [] f := by
      intro f hf
      have := reported_entries force fields (fun _ => false) [] [] val hD hnone hval f hf
      simpa using this
    refine reports_of_placed fields _ hA val _ hP hentry ?_
    rw [hempAE]
    have := reported_isEmpty force fields (fun _ => false) [] [] hnone (by simp)
    simpa using this
  · simp only [hc, Bool.and_false, Bool.false_eq_true, if_false]
    intro fm2 errors same hempty2 hreg2 hE
    obtain ⟨fm3, cb, r, hrun, hcbe, hPr, hempr⟩ := validateCallback_reports same fm2
      { allRules := sel2.allRules
        allValues :=
          (refreshValues (Obj.keys sel2.allValues) sel2.allValues
            (sel2.store.setFields sel2.allFields)).1
        alreadyErrors := sel2.alreadyErrors
        fieldNames := fieldNames
        hasCallback := true }
      errors (fields.map fieldName) val hA hP
      (by
        intro n hn
        obtain ⟨f, hf, hfs, hfn⟩ := (hkeysR n).1 hn
        refine ⟨hfn ▸ List.mem_map_of_mem _ hf, ?_⟩
        rw [← hfn, hval f hf]
        simp [hfs])
      rfl hE hempty2 hreg2
    refine ⟨fm3, cb, hrun, ?_⟩
    rw [hcbe]
    refine reports_of_placed fields _ hA _ r hPr
      (fun f hf => reported_entries force fields _ _ _ val hD hkeysR hval f hf) ?_
    rw [hempr, hempAE]
    exact reported_isEmpty force fields _ _ _ hkeysR hE

/-- The witness of `validateFieldsInternal_reports`: the pass over `x` (clean, with
the last error `Demo.errorE`) and `y` (dirty) of `Demo.store`, completed with one
error for `y`: the callback gets an object with the retained entry of `x` and the
entry of `y`. -/
theorem validateFieldsInternal_reports_witness :
    ∃ (fm3 : Form) (cb : CallbackArgs),
      Form.validateCallback Demo.dispatchedXY.1 Demo.dispatchedXY.2
        (some [{ field := "y", message := "y is bad" }]) (fun _ => true) =
        .ok (fm3, some cb) ∧
      cb.errors ≠ .null ∧
      Lodash.get cb.errors "x" = .obj [("errors", .arr [Demo.errorE])] ∧
      Lodash.get cb.errors "y" =
        .obj [("errors", .arr [.obj [("message", .str "y is bad"), ("field", .str "y")]])] := by
  obtain ⟨res, hres, hm⟩ := validateFieldsInternal_reports { fieldsStore := Demo.store }
    Demo.batch (some ["x", "y"]) none false (by decide) (by decide) (by decide) (by decide)
    (by decide)
  have hd : Form.validateFieldsInternal { fieldsStore := Demo.store } Demo.batch
      (some ["x", "y"]) none false true =
      .ok (.dispatched Demo.dispatchedXY.1 Demo.dispatchedXY.2) := rfl
  rw [hd] at hres
  injection hres with hres
  subst hres
  obtain ⟨fm3, cb, hrun, hnull, hget⟩ := hm Demo.dispatchedXY.1
    (some [{ field := "y", message := "y is bad" }]) (fun _ => true)
    (by decide) (by decide) (by decide)
  have hne : cb.errors ≠ .null := fun e => absurd (hnull.1 e Demo.x (by decide)) (by decide)
  exact ⟨fm3, cb, hrun, hne, (hget hne Demo.x (by decide)).trans (by decide),
    (hget hne [("value", .num 2), ("dirty", .bool true), ("name", .str "y")]
      (by decide)).trans (by decide)⟩

/-- C6 as stated fails.  First, with `a.b` and `a` both registered and in the pass,
the validator reports an error for `a.b`, the field `a` is found expired (its
snapshot is the nested value of `a`), and the object given to the callback holds
only the entry of `a`: nothing is found at the path of `a.b`, although the error is
committed to the record of `a.b`.  Second, a pass over the one clean record `x`
whose `errors` member is the empty list calls the callback with an object, not
with `null`, although no field has an error. -/
theorem validateFieldsInternal_reports_counterexample :
    ((match Demo.runAB with
      | .ok r =>
        ((r.2.map (fun cb => Lodash.get cb.errors "a.b")),
          r.1.fieldsStore.getFieldMember "a.b" "errors")
      | .error _ => (none, .null)) =
      (some .undefined,
        .arr [.obj [("message", .str "bad"), ("field", .str "a.b")]])) ∧
    ((match Demo.runEmptyErrors with
      | .ok e => e
      | .error _ => .null) = .obj [("x", .obj [("errors", .arr [])])]) := by
  decide

/-! ## Flattening: the leaves of a structure -/

mutual
theorem treeTraverse_leaves {σ : Type} (msg : String) (cb : String → JSVal → σ → σ) :
    ∀ (v : JSVal) (path : String) (st : Trav σ),
      treeTraverse isLeafValue msg cb path v st =
        .ok { st with
          acc := ((leaves v).foldl (fun a ql => cb (renderPath path ql.1) ql.2 a) st.acc) }
  | .arr xs, path, st => by
    rw [treeTraverse_arr _ _ _ _ _ _ (by rfl), leaves]
    exact treeTraverseArr_leaves msg cb xs path 0 st
  | .obj kvs, path, st => by
    rw [treeTraverse_obj _ _ _ _ _ _ (by rfl), leaves]
    exact treeTraverseObj_leaves msg cb kvs path st
  | .undefined, path, st => by rw [treeTraverse_leaf _ _ _ _ _ _ (by rfl)]; rfl
  | .null, path, st => by rw [treeTraverse_leaf _ _ _ _ _ _ (by rfl)]; rfl
  | .bool _, path, st => by rw [treeTraverse_leaf _ _ _ _ _ _ (by rfl)]; rfl
  | .num _, path, st => by rw [treeTraverse_leaf _ _ _ _ _ _ (by rfl)]; rfl
  | .str _, path, st => by rw [treeTraverse_leaf _ _ _ _ _ _ (by rfl)]; rfl
theorem treeTraverseArr_leaves {σ : Type} (msg : String) (cb : String → JSVal → σ → σ) :
    ∀ (xs : List JSVal) (path : String) (i : Nat) (st : Trav σ),
      treeTraverseArr isLeafValue msg cb path xs i st =
        .ok { st with
          acc := ((leavesArr xs i).foldl (fun a ql => cb (renderPath path ql.1) ql.2 a) st.acc) }
  | [], path, i, st => by rw [treeTraverseArr, leavesArr]; rfl
  | x :: rest, path, i, st => by
    rw [treeTraverseArr, treeTraverse_leaves msg cb x _ st]
    simp only
    rw [treeTraverseArr_leaves msg cb rest path (i + 1) _, leavesArr, List.foldl_append,
      List.foldl_map]
    rfl
theorem treeTraverseObj_leaves {σ : Type} (msg : String) (cb : String → JSVal → σ → σ) :
    ∀ (kvs : List (String × JSVal)) (path : String) (st : Trav σ),
      treeTraverseObj isLeafValue msg cb path kvs st =
        .ok { st with
          acc := ((leavesObj kvs).foldl (fun a ql => cb (renderPath path ql.1) ql.2 a) st.acc) }
  | [], path, st => by rw [treeTraverseObj, leavesObj]; rfl
  | (k, x) :: rest, path, st => by
    rw [treeTraverseObj, treeTraverse_leaves msg cb x _ st]
    simp only
    rw [treeTraverseObj_leaves msg cb rest path _, leavesObj, List.foldl_append,
      List.foldl_map]
    rfl
end

/-! ## Rebuilding: writes below a slot of a container -/

theorem Lodash.assignValue_isObject (o : JSVal) (k : String) (v : JSVal)
    (h : o.isObject = true) : (Lodash.assignValue o k v).isObject = true := by
  cases o with
  | arr xs =>
    simp only [Lodash.assignValue]
    cases Lodash.arrayIndex? k <;> rfl
  | obj kvs => rfl
  | _ => simp [JSVal.isObject] at h

theorem Lodash.baseSetPath_isObject (p : List String) (o v : JSVal)
    (h : o.isObject = true) : (Lodash.baseSetPath p o v).isObject = true := by
  cases p with
  | nil => exact h
  | cons k rest =>
    cases rest with
    | nil =>
      simp only [Lodash.baseSetPath]
      split
      · exact h
      · exact Lodash.assignValue_isObject _ _ _ h
    | cons k2 r =>
      simp only [Lodash.baseSetPath]
      split
      · exact h
      · exact Lodash.assignValue_isObject _ _ _ h

theorem Lodash.containerFor_isObject (k : String) : (Lodash.containerFor k).isObject = true := by
  unfold Lodash.containerFor
  split <;> rfl

theorem insertLeaves_isObject (ls : List (List String × JSVal)) (a : JSVal)
    (h : a.isObject = true) : (insertLeaves ls a).isObject = true := by
  induction ls generalizing a with
  | nil => exact h
  | cons ql rest ih =>
    unfold insertLeaves at ih ⊢
    rw [List.foldl_cons]
    exact ih _ (Lodash.baseSetPath_isObject _ _ _ h)

/-- Writes below the key `k` of a parent that already holds a container there act
on that container. -/
theorem insertLeaves_below (k : String) (par : JSVal → JSVal)
    (hk : Lodash.isForbiddenKey k = false)
    (hget : ∀ V, Lodash.getProp (par V) k = V)
    (hset : ∀ V W, Lodash.assignValue (par V) k W = par W)
    (ls : List (List String × JSVal)) (hne : ∀ ql ∈ ls, ql.1 ≠ []) (V : JSVal)
    (hV : V.isObject = true) :
    insertLeaves (ls.map (fun ql => (k :: ql.1, ql.2))) (par V) = par (insertLeaves ls V) := by
  induction ls generalizing V with
  | nil => rfl
  | cons ql rest ih =>
    obtain ⟨q, l⟩ := ql
    have hq : q ≠ [] := hne (q, l) (List.mem_cons_self _ _)
    unfold insertLeaves at ih ⊢
    rw [List.map_cons, List.foldl_cons, List.foldl_cons]
    have hstep : Lodash.baseSetPath (k :: q) (par V) l = par (Lodash.baseSetPath q V l) := by
      cases q with
      | nil => exact absurd rfl hq
      | cons k2 r =>
        simp only [Lodash.baseSetPath, hk, Bool.false_eq_true, if_false, hget, hV, if_true, hset]
    simp only
    rw [hstep]
    exact ih (fun x hx => hne x (List.mem_cons_of_mem _ hx)) _
      (Lodash.baseSetPath_isObject _ _ _ hV)

/-- The writes of the leaves of a child below the key `k` of a parent that holds
nothing there put the child there: a leaf is assigned, and a container is made for
its first leaf and filled by the others. -/
theorem insertLeaves_child (k : String) (par : JSVal → JSVal) (par0 : JSVal)
    (hk : Lodash.isForbiddenKey k = false)
    (h0get : (Lodash.getProp par0 k).isObject = false)
    (h0set : ∀ W, Lodash.assignValue par0 k W = par W)
    (hget : ∀ V, Lodash.getProp (par V) k = V)
    (hset : ∀ V W, Lodash.assignValue (par V) k W = par W)
    (ls : List (List String × JSVal)) (x : JSVal)
    (hls : ls = [([], x)] ∨
      ∃ k2 r l rest, ls = (k2 :: r, l) :: rest ∧ (∀ ql ∈ rest, ql.1 ≠ []) ∧
        insertLeaves ls (Lodash.containerFor k2) = x) :
    insertLeaves (ls.map (fun ql => (k :: ql.1, ql.2))) par0 = par x := by
  rcases hls with h | ⟨k2, r, l, rest, h, hne, hx⟩
  · subst h
    simp only [insertLeaves, List.map_cons, List.map_nil, List.foldl_cons, List.foldl_nil,
      Lodash.baseSetPath, hk, Bool.false_eq_true, if_false, h0set]
  · subst h
    have hfirst : Lodash.baseSetPath (k :: k2 :: r) par0 l =
        par (Lodash.baseSetPath (k2 :: r) (Lodash.containerFor k2) l) := by
      simp only [Lodash.baseSetPath, hk, Bool.false_eq_true, if_false, h0get, h0set]
      rfl
    have hrest := insertLeaves_below k par hk hget hset rest hne
      (Lodash.baseSetPath (k2 :: r) (Lodash.containerFor k2) l)
      (Lodash.baseSetPath_isObject _ _ _ (Lodash.containerFor_isObject k2))
    unfold insertLeaves at hrest hx ⊢
    rw [List.map_cons, List.foldl_cons]
    simp only
    rw [hfirst, hrest]
    rw [List.foldl_cons] at hx
    rw [hx]

theorem Obj.get?_append_new {α : Type} (pre : List (String × α)) (k : String) (v : α)
    (h : k ∉ Obj.keys pre) : Obj.get? (pre ++ [(k, v)]) k = some v := by
  rw [← Obj.set_of_not_mem pre k v h]
  exact Obj.get?_set_same pre k v

theorem Obj.set_append_same {α : Type} (pre : List (String × α)) (k : String) (v w : α)
    (h : k ∉ Obj.keys pre) : Obj.set (pre ++ [(k, v)]) k w = pre ++ [(k, w)] := by
  induction pre with
  | nil => simp [Obj.set]
  | cons kv t ih =>
    obtain ⟨k1, u⟩ := kv
    simp only [Obj.keys, List.map_cons, List.mem_cons, not_or] at h
    have h1 : ¬ k1 = k := fun e => h.1 e.symm
    simp only [List.cons_append, Obj.set, h1, if_false, List.cons.injEq, true_and]
    exact ih h.2

theorem Lodash.setAt_length (pre : List JSVal) (v : JSVal) :
    Lodash.setAt pre pre.length v = pre ++ [v] := by
  simp [Lodash.setAt]

theorem Lodash.setAt_append_last (pre : List JSVal) (v w : JSVal) :
    Lodash.setAt (pre ++ [v]) pre.length w = pre ++ [w] := by
  simp [Lodash.setAt]

theorem Lodash.isForbiddenKey_toString (i : Nat) : Lodash.isForbiddenKey (toString i) = false := by
  have h := Lodash.parseUint_repr i
  unfold Lodash.isForbiddenKey
  simp only [Bool.or_eq_false_iff, decide_eq_false_iff_not]
  have h1 : Lodash.parseUint "__proto__".toList = none := by decide
  have h2 : Lodash.parseUint "constructor".toList = none := by decide
  have h3 : Lodash.parseUint "prototype".toList = none := by decide
  refine ⟨⟨?_, ?_⟩, ?_⟩
  · intro e
    rw [e, h1] at h
    cases h
  · intro e
    rw [e, h2] at h
    cases h
  · intro e
    rw [e, h3] at h
    cases h

/-- The next free index of an array is a slot for the writes below it. -/
theorem slot_arr (pre : List JSVal) (h : pre.length < 4294967295) :
    Lodash.isForbiddenKey (toString pre.length) = false ∧
      (Lodash.getProp (.arr pre) (toString pre.length)).isObject = false ∧
      (∀ W, Lodash.assignValue (.arr pre) (toString pre.length) W = .arr (pre ++ [W])) ∧
      (∀ V, Lodash.getProp (.arr (pre ++ [V])) (toString pre.length) = V) ∧
      (∀ V W, Lodash.assignValue (.arr (pre ++ [V])) (toString pre.length) W =
        .arr (pre ++ [W])) := by
  have hidx := Lodash.arrayIndex?_toString pre.length h
  have hlen : toString pre.length ≠ "length" :=
    Lodash.arrayIndex?_ne_length _ (by rw [hidx]; rfl)
  refine ⟨Lodash.isForbiddenKey_toString _, ?_, ?_, ?_, ?_⟩
  · simp [Lodash.getProp, hlen, hidx, JSVal.isObject]
  · intro W
    simp [Lodash.assignValue, hidx, Lodash.setAt_length]
  · intro V
    simp [Lodash.getProp, hlen, hidx]
  · intro V W
    simp [Lodash.assignValue, hidx, Lodash.setAt_append_last]

/-- A key that an object does not have is a slot for the writes below it. -/
theorem slot_obj (pre : Props) (k : String) (h : k ∉ Obj.keys pre) :
    (Lodash.getProp (.obj pre) k).isObject = false ∧
      (∀ W, Lodash.assignValue (.obj pre) k W = .obj (pre ++ [(k, W)])) ∧
      (∀ V, Lodash.getProp (.obj (pre ++ [(k, V)])) k = V) ∧
      (∀ V W, Lodash.assignValue (.obj (pre ++ [(k, V)])) k W = .obj (pre ++ [(k, W)])) := by
  refine ⟨?_, ?_, ?_, ?_⟩
  · simp [Lodash.getProp, Props.get, (Obj.get?_eq_none pre k).2 h, JSVal.isObject]
  · intro W
    simp [Lodash.assignValue, Obj.set_of_not_mem pre k W h]
  · intro V
    simp [Lodash.getProp, Props.get, Obj.get?_append_new pre k V h]
  · intro V W
    simp [Lodash.assignValue, Obj.set_append_same pre k V W h]

/-! ## Rebuilding a structure from its leaves -/

mutual
theorem leaves_ne_nil : ∀ x : JSVal, wfNode x = true → leaves x ≠ []
  | .arr xs, h => by
    simp only [wfNode, Bool.and_eq_true, Bool.not_eq_true', List.isEmpty_eq_false] at h
    rw [leaves]
    exact leavesArr_ne_nil xs 0 h.2 h.1.1
  | .obj kvs, h => by
    simp only [wfNode, Bool.and_eq_true, Bool.not_eq_true', List.isEmpty_eq_false] at h
    rw [leaves]
    exact leavesObj_ne_nil kvs h.2 h.1.1.1.1
  | .undefined, _ => by simp [leaves]
  | .null, _ => by simp [leaves]
  | .bool _, _ => by simp [leaves]
  | .num _, _ => by simp [leaves]
  | .str _, _ => by simp [leaves]
theorem leavesArr_ne_nil : ∀ (xs : List JSVal) (i : Nat), wfList xs = true → xs ≠ [] →
    leavesArr xs i ≠ []
  | [], _, _, h => absurd rfl h
  | x :: rest, i, h, _ => by
    simp only [wfList, Bool.and_eq_true] at h
    rw [leavesArr]
    have := leaves_ne_nil x h.1
    cases hl : leaves x with
    | nil => exact absurd hl this
    | cons a t => simp
theorem leavesObj_ne_nil : ∀ (kvs : List (String × JSVal)), wfProps kvs = true → kvs ≠ [] →
    leavesObj kvs ≠ []
  | [], _, h => absurd rfl h
  | (k, x) :: rest, h, _ => by
    simp only [wfProps, Bool.and_eq_true] at h
    rw [leavesObj]
    have := leaves_ne_nil x h.1
    cases hl : leaves x with
    | nil => exact absurd hl this
    | cons a t => simp
end

theorem leavesArr_paths (xs : List JSVal) (i : Nat) :
    ∀ ql ∈ leavesArr xs i, ql.1 ≠ [] := by
  induction xs generalizing i with
  | nil => intro ql h; simp [leavesArr] at h
  | cons x rest ih =>
    intro ql h
    rw [leavesArr, List.mem_append] at h
    rcases h with h | h
    · obtain ⟨a, _, rfl⟩ := List.mem_map.1 h
      simp
    · exact ih (i + 1) ql h

theorem leavesObj_paths (kvs : List (String × JSVal)) :
    ∀ ql ∈ leavesObj kvs, ql.1 ≠ [] := by
  induction kvs with
  | nil => intro ql h; simp [leavesObj] at h
  | cons kv rest ih =>
    obtain ⟨k, x⟩ := kv
    intro ql h
    rw [leavesObj, List.mem_append] at h
    rcases h with h | h
    · obtain ⟨a, _, rfl⟩ := List.mem_map.1 h
      simp
    · exact ih ql h

theorem insertLeaves_append (a b : List (List String × JSVal)) (o : JSVal) :
    insertLeaves (a ++ b) o = insertLeaves b (insertLeaves a o) := by
  unfold insertLeaves
  rw [List.foldl_append]

theorem namedLeaves_child (seg : Seg) (x : JSVal) :
    ((leaves x).map (fun ql => (seg :: ql.1, ql.2))).map
        (fun ql => (ql.1.map Seg.name, ql.2)) =
      (namedLeaves x).map (fun ql => (seg.name :: ql.1, ql.2)) := by
  unfold namedLeaves
  rw [List.map_map, List.map_map]
  rfl

theorem leavesArr_head (x : JSVal) (rest : List JSVal) (i : Nat) (h : leaves x ≠ []) :
    ∃ q l tl, leavesArr (x :: rest) i = (Seg.idx i :: q, l) :: tl := by
  rw [leavesArr]
  cases hl : leaves x with
  | nil => exact absurd hl h
  | cons a t => exact ⟨a.1, a.2, _, rfl⟩

theorem leavesObj_head (k : String) (x : JSVal) (rest : List (String × JSVal))
    (h : leaves x ≠ []) :
    ∃ q l tl, leavesObj ((k, x) :: rest) = (Seg.key k :: q, l) :: tl := by
  rw [leavesObj]
  cases hl : leaves x with
  | nil => exact absurd hl h
  | cons a t => exact ⟨a.1, a.2, _, rfl⟩

theorem containerFor_zero : Lodash.containerFor (toString 0) = .arr [] := by decide

mutual
/-- The leaves of a well-formed node, written one after the other into the
container `baseSet` makes for the first of them, rebuild the node. -/
theorem rebuild_node : ∀ x : JSVal, wfNode x = true →
    (namedLeaves x = [([], x)] ∨
      ∃ k2 r l rest, namedLeaves x = (k2 :: r, l) :: rest ∧ (∀ ql ∈ rest, ql.1 ≠ []) ∧
        insertLeaves (namedLeaves x) (Lodash.containerFor k2) = x)
  | .arr xs, h => by
    simp only [wfNode, Bool.and_eq_true, Bool.not_eq_true', List.isEmpty_eq_false,
      decide_eq_true_eq] at h
    obtain ⟨⟨hne, hlen⟩, hwf⟩ := h
    have hre := rebuild_list xs [] hwf (by simp; omega)
    right
    cases xs with
    | nil => exact absurd rfl hne
    | cons x0 rest =>
      have hwf0 : wfNode x0 = true := by
        simp only [wfList, Bool.and_eq_true] at hwf
        exact hwf.1
      obtain ⟨q, l, tl, htl⟩ := leavesArr_head x0 rest 0 (leaves_ne_nil x0 hwf0)
      have hnamed : namedLeaves (.arr (x0 :: rest)) =
          (toString 0 :: q.map Seg.name, l) :: tl.map (fun ql => (ql.1.map Seg.name, ql.2)) := by
        unfold namedLeaves
        rw [leaves, htl]
        rfl
      refine ⟨toString 0, q.map Seg.name, l, _, hnamed, ?_, ?_⟩
      · intro ql hql
        obtain ⟨a, ha, rfl⟩ := List.mem_map.1 hql
        have := leavesArr_paths (x0 :: rest) 0 a (by rw [htl]; exact List.mem_cons_of_mem _ ha)
        simpa using this
      · rw [containerFor_zero]
        unfold namedLeaves
        rw [leaves]
        simpa using hre
  | .obj kvs, h => by
    simp only [wfNode, Bool.and_eq_true, Bool.not_eq_true', List.isEmpty_eq_false,
      decide_eq_true_eq, List.all_eq_true] at h
    obtain ⟨⟨⟨⟨hne, hnd⟩, hkeys⟩, hidx⟩, hwf⟩ := h
    have hforb : ∀ k ∈ Obj.keys kvs, Lodash.isForbiddenKey k = false := by
      intro k hk
      have := hkeys k hk
      simp only [simpleKey, Bool.and_eq_true, Bool.not_eq_true'] at this
      exact this.2
    have hre := rebuild_props kvs [] hwf (by simpa using hnd) hforb
    right
    cases kvs with
    | nil => exact absurd rfl hne
    | cons kv rest =>
      obtain ⟨k0, x0⟩ := kv
      have hwf0 : wfNode x0 = true := by
        simp only [wfProps, Bool.and_eq_true] at hwf
        exact hwf.1
      obtain ⟨q, l, tl, htl⟩ := leavesObj_head k0 x0 rest (leaves_ne_nil x0 hwf0)
      have hnamed : namedLeaves (.obj ((k0, x0) :: rest)) =
          (k0 :: q.map Seg.name, l) :: tl.map (fun ql => (ql.1.map Seg.name, ql.2)) := by
        unfold namedLeaves
        rw [leaves, htl]
        rfl
      refine ⟨k0, q.map Seg.name, l, _, hnamed, ?_, ?_⟩
      · intro ql hql
        obtain ⟨a, ha, rfl⟩ := List.mem_map.1 hql
        have := leavesObj_paths ((k0, x0) :: rest) a (by rw [htl]; exact List.mem_cons_of_mem _ ha)
        simpa using this
      · have hc : Lodash.containerFor k0 = .obj [] := by
          unfold Lodash.containerFor
          have : Lodash.isIndex k0 = false := by
            simpa using hidx k0 (by simp [Obj.keys])
          rw [this]
          rfl
        rw [hc]
        unfold namedLeaves
        rw [leaves]
        simpa using hre
  | .undefined, _ => Or.inl rfl
  | .null, _ => Or.inl rfl
  | .bool _, _ => Or.inl rfl
  | .num _, _ => Or.inl rfl
  | .str _, _ => Or.inl rfl
/-- The leaves of the elements of an array, written into the array of the elements
before them, complete the array. -/
theorem rebuild_list : ∀ (xs pre : List JSVal), wfList xs = true →
    pre.length + xs.length ≤ 4294967295 →
    insertLeaves ((leavesArr xs pre.length).map (fun ql => (ql.1.map Seg.name, ql.2)))
      (.arr pre) = .arr (pre ++ xs)
  | [], pre, _, _ => by simp [leavesArr, insertLeaves]
  | x :: rest, pre, h, hlen => by
    simp only [wfList, Bool.and_eq_true] at h
    simp only [List.length_cons] at hlen
    obtain ⟨s1, s2, s3, s4, s5⟩ := slot_arr pre (by omega)
    have hchild := insertLeaves_child (toString pre.length) (fun V => .arr (pre ++ [V]))
      (.arr pre) s1 s2 s3 s4 s5 (namedLeaves x) x (rebuild_node x h.1)
    have hrest := rebuild_list rest (pre ++ [x]) h.2 (by simp; omega)
    rw [leavesArr, List.map_append, insertLeaves_append, namedLeaves_child]
    simp only [Seg.name]
    rw [hchild]
    simp only [List.length_append, List.length_singleton] at hrest
    rw [hrest]
    simp
/-- The leaves of the members of an object, written into the object of the members
before them, complete the object. -/
theorem rebuild_props : ∀ (kvs pre : List (String × JSVal)), wfProps kvs = true →
    (Obj.keys (pre ++ kvs)).Nodup →
    (∀ k ∈ Obj.keys kvs, Lodash.isForbiddenKey k = false) →
    insertLeaves ((leavesObj kvs).map (fun ql => (ql.1.map Seg.name, ql.2)))
      (.obj pre) = .obj (pre ++ kvs)
  | [], pre, _, _, _ => by simp [leavesObj, insertLeaves]
  | (k, x) :: rest, pre, h, hnd, hforb => by
    simp only [wfProps, Bool.and_eq_true] at h
    have hk : k ∉ Obj.keys pre := by
      intro hmem
      simp only [Obj.keys, List.map_append, List.map_cons] at hnd
      have := (List.nodup_append.1 hnd).2.2
      exact this hmem (List.mem_cons_self _ _)
    obtain ⟨s2, s3, s4, s5⟩ := slot_obj pre k hk
    have hchild := insertLeaves_child k (fun V => .obj (pre ++ [(k, V)]))
      (.obj pre) (hforb k (by simp [Obj.keys])) s2 s3 s4 s5 (namedLeaves x) x
      (rebuild_node x h.1)
    have hrest := rebuild_props rest (pre ++ [(k, x)]) h.2 (by simpa using hnd)
      (fun k2 hk2 => hforb k2 (by
        simp only [Obj.keys, List.map_cons, List.mem_cons]
        exact Or.inr hk2))
    rw [leavesObj, List.map_append, insertLeaves_append, namedLeaves_child]
    simp only [Seg.name]
    rw [hchild, hrest]
    simp
end

/-! ## Path strings: what `stringToPath` reads back -/

namespace Lodash

theorem scanPath_skip (a b : List Char) : scanPath (a ++ b) a.length = scanPath b 0 := by
  induction a with
  | nil => rfl
  | cons c cs ih =>
    rw [List.cons_append, List.length_cons, scanPath]
    exact ih

theorem takeWhile_run (run tail : List Char) (hrun : run.all (fun c => !isSpecial c) = true)
    (htail : ∀ c, tail.head? = some c → isSpecial c = true) :
    (run ++ tail).takeWhile (fun d => !isSpecial d) = run := by
  induction run with
  | nil =>
    cases tail with
    | nil => rfl
    | cons c t =>
      have := htail c rfl
      simp [List.takeWhile, this]
  | cons c cs ih =>
    simp only [List.all_cons, Bool.and_eq_true] at hrun
    rw [List.cons_append, List.takeWhile_cons, if_pos hrun.1, ih hrun.2]

/-- A run of plain characters that ends the string or is followed by `.`, `[` or
`]` is read as one key. -/
theorem scanPath_key (c : Char) (cs tail : List Char)
    (hc : isSpecial c = false) (hcs : cs.all (fun d => !isSpecial d) = true)
    (htail : ∀ d, tail.head? = some d → isSpecial d = true) :
    scanPath (c :: cs ++ tail) 0 = String.mk (c :: cs) :: scanPath tail 0 := by
  rw [List.cons_append, scanPath]
  simp only [hc, Bool.not_false, if_true]
  rw [takeWhile_run cs tail hcs htail, scanPath_skip]

theorem emptyKeyAhead_dot (c : Char) (rest : List Char) (hc : isSpecial c = false) :
    emptyKeyAhead ('.' :: c :: rest) = false := by
  have hne1 : c ≠ '.' := by
    intro e; rw [e] at hc; revert hc; decide
  have hne2 : c ≠ '[' := by
    intro e; rw [e] at hc; revert hc; decide
  unfold emptyKeyAhead
  simp only
  split
  · rename_i h; cases h
  · rename_i h; injection h with h1 _; exact absurd h1 hne1
  · rename_i h; injection h with h1 _; exact absurd h1 hne2
  · rfl

/-- A `.` before a key is passed over. -/
theorem scanPath_dot (c : Char) (cs tail : List Char)
    (hc : isSpecial c = false) (hcs : cs.all (fun d => !isSpecial d) = true)
    (htail : ∀ d, tail.head? = some d → isSpecial d = true) :
    scanPath ('.' :: (c :: cs ++ tail)) 0 = String.mk (c :: cs) :: scanPath tail 0 := by
  rw [scanPath]
  simp only [show isSpecial '.' = true by decide, Bool.not_true, Bool.false_eq_true, if_false,
    show ('.' = '[') = False by decide]
  rw [List.cons_append, emptyKeyAhead_dot c _ hc]
  simp only [Bool.false_eq_true, if_false]
  exact scanPath_key c cs tail hc hcs htail

end Lodash

namespace Lodash

theorem isDigit_ne (c d : Char) (h : c.isDigit = true) (hd : d.isDigit = false) : c ≠ d := by
  intro e
  rw [e, hd] at h
  cases h

theorem digitsLen_digits (ds rest : List Char) (hds : ds.all Char.isDigit = true)
    (hrest : ∀ c, rest.head? = some c → c.isDigit = false) :
    digitsLen (ds ++ rest) = ds.length := by
  induction ds with
  | nil =>
    cases rest with
    | nil => rfl
    | cons c t =>
      have := hrest c rfl
      simp [digitsLen, this]
  | cons d ds ih =>
    simp only [List.all_cons, Bool.and_eq_true] at hds
    rw [List.cons_append, digitsLen, if_pos hds.1, ih hds.2, List.length_cons]

theorem bracketNumber_digits (d : Char) (ds tail : List Char)
    (hd : d.isDigit = true) (hds : ds.all Char.isDigit = true) :
    bracketNumber (d :: ds ++ ']' :: tail) = some (d :: ds, (d :: ds).length + 1) := by
  have hlen : digitsLen (d :: ds ++ ']' :: tail) = (d :: ds).length :=
    digitsLen_digits (d :: ds) (']' :: tail) (by simp [hd, hds])
      (by intro c hc; simp at hc; subst hc; decide)
  have hsign : ((d :: ds ++ ']' :: tail).head? = some '-') = False := by
    simp only [List.cons_append, List.head?_cons, Option.some.injEq, eq_iff_iff, iff_false]
    exact isDigit_ne d '-' hd (by decide)
  unfold bracketNumber
  simp only [hsign, if_false, List.drop_zero, hlen, Nat.zero_add]
  rw [if_neg (by simp)]
  have hdrop : (d :: ds ++ ']' :: tail).drop (d :: ds).length = ']' :: tail :=
    List.drop_left' rfl
  have htake : (d :: ds ++ ']' :: tail).take (d :: ds).length = d :: ds :=
    List.take_left' rfl
  rw [hdrop, htake]
  rfl

/-- A bracketed numeral is read as the key of its digits. -/
theorem scanPath_index (d : Char) (ds tail : List Char)
    (hd : d.isDigit = true) (hds : ds.all Char.isDigit = true) :
    scanPath ('[' :: (d :: ds ++ ']' :: tail)) 0 = String.mk (d :: ds) :: scanPath tail 0 := by
  rw [scanPath]
  simp only [show isSpecial '[' = true by decide, Bool.not_true, Bool.false_eq_true, if_false,
    if_true, bracketNumber_digits d ds tail hd hds]
  have : d :: ds ++ ']' :: tail = (d :: ds ++ [']']) ++ tail := by simp
  rw [this]
  have hl : (d :: ds).length + 1 = (d :: ds ++ [']']).length := by simp
  rw [hl, scanPath_skip]

end Lodash

theorem String.toList_append2 (a b : String) : (a ++ b).toList = a.toList ++ b.toList := by
  show (a ++ b).data = a.data ++ b.data
  exact String.data_append a b

theorem String.ne_empty_of_toList (s : String) (h : s.toList ≠ []) : s ≠ "" := by
  intro e
  rw [e] at h
  exact h rfl

theorem Seg.extend_toList (p : String) (seg : Seg) (hp : p ≠ "") :
    (seg.extend p).toList = p.toList ++ seg.chars := by
  cases seg with
  | key k =>
    simp only [Seg.extend, hp, if_false, String.toList_append2, Seg.chars]
    simp
  | idx i =>
    simp only [Seg.extend, String.toList_append2, Seg.chars]
    simp

theorem renderPath_toList (segs : List Seg) (p : String) (hp : p.toList ≠ []) :
    (renderPath p segs).toList = p.toList ++ segs.flatMap Seg.chars := by
  induction segs generalizing p with
  | nil => simp [renderPath]
  | cons seg rest ih =>
    have hp2 : p ≠ "" := String.ne_empty_of_toList p hp
    have hext := Seg.extend_toList p seg hp2
    have hne : (seg.extend p).toList ≠ [] := by
      rw [hext]
      intro e
      exact hp (List.append_eq_nil.1 e).1
    unfold renderPath at ih ⊢
    rw [List.foldl_cons, ih _ hne, hext, List.flatMap_cons, List.append_assoc]

theorem renderPath_root (k : String) (segs : List Seg) :
    renderPath "" (Seg.key k :: segs) = renderPath k segs := by
  unfold renderPath
  rw [List.foldl_cons]
  have : Seg.extend "" (Seg.key k) = k := by
    simp only [Seg.extend, if_true]
    apply String.ext
    simp [String.toList_append2]
  rw [this]

theorem toString_digits (i : Nat) :
    ∃ d ds, (toString i).toList = d :: ds ∧ d.isDigit = true ∧ ds.all Char.isDigit = true := by
  obtain ⟨hne, hall, _, _⟩ := (Lodash.parseUint_eq_some _ _).1 (Lodash.parseUint_repr i)
  cases hcs : (toString i).toList with
  | nil => exact absurd hcs hne
  | cons d ds =>
    rw [hcs] at hall
    simp only [List.all_cons, Bool.and_eq_true] at hall
    exact ⟨d, ds, rfl, hall.1, hall.2⟩

theorem simpleKey_chars (k : String) (h : simpleKey k = true) :
    ∃ c cs, k.toList = c :: cs ∧ Lodash.isSpecial c = false ∧
      cs.all (fun d => !Lodash.isSpecial d) = true ∧ Lodash.isForbiddenKey k = false := by
  simp only [simpleKey, Bool.and_eq_true, Bool.not_eq_true', List.isEmpty_eq_false] at h
  obtain ⟨⟨hne, hall⟩, hf⟩ := h
  cases hcs : k.toList with
  | nil => exact absurd hcs hne
  | cons c cs =>
    rw [hcs] at hall
    simp only [List.all_cons, Bool.and_eq_true, Bool.not_eq_true'] at hall
    exact ⟨c, cs, rfl, hall.1, hall.2, hf⟩

theorem Seg.chars_head (segs : List Seg) (d : Char)
    (h : (segs.flatMap Seg.chars).head? = some d) : Lodash.isSpecial d = true := by
  cases segs with
  | nil => simp at h
  | cons seg rest =>
    cases seg with
    | key k =>
      simp only [List.flatMap_cons, Seg.chars, List.cons_append, List.head?_cons,
        Option.some.injEq] at h
      rw [← h]; decide
    | idx i =>
      simp only [List.flatMap_cons, Seg.chars, List.cons_append, List.head?_cons,
        Option.some.injEq] at h
      rw [← h]; decide

theorem String.mk_toList (s : String) : String.mk s.toList = s := rfl

/-- The characters of good steps are read back as the keys of the steps. -/
theorem scanPath_segs (segs : List Seg) (h : ∀ seg ∈ segs, goodSeg seg = true) :
    Lodash.scanPath (segs.flatMap Seg.chars) 0 = segs.map Seg.name := by
  induction segs with
  | nil => rfl
  | cons seg rest ih =>
    have ihr := ih (fun s hs => h s (List.mem_cons_of_mem _ hs))
    have htail := Seg.chars_head rest
    rw [List.flatMap_cons, List.map_cons]
    cases seg with
    | key k =>
      obtain ⟨c, cs, hk, hc, hcs, _⟩ := simpleKey_chars k (h _ (List.mem_cons_self _ _))
      simp only [Seg.chars, Seg.name, List.cons_append]
      rw [hk, Lodash.scanPath_dot c cs _ hc hcs htail, ihr, ← hk, String.mk_toList]
    | idx i =>
      obtain ⟨d, ds, hi, hd, hds⟩ := toString_digits i
      simp only [Seg.chars, Seg.name, List.cons_append, List.append_assoc, List.singleton_append]
      rw [hi, Lodash.scanPath_index d ds _ hd hds, List.nil_append, ihr, ← hi, String.mk_toList]

namespace Lodash

theorem reIsDeepProp_plain (cs : List Char) (h : cs.all (fun d => !isSpecial d) = true) :
    reIsDeepProp cs = false := by
  induction cs with
  | nil => rfl
  | cons c cs ih =>
    simp only [List.all_cons, Bool.and_eq_true, Bool.not_eq_true'] at h
    have hne1 : c ≠ '.' := by
      intro e; rw [e] at h; exact absurd h.1 (by decide)
    have hne2 : c ≠ '[' := by
      intro e; rw [e] at h; exact absurd h.1 (by decide)
    simp only [reIsDeepProp, hne1, hne2, if_false]
    exact ih (by simpa using h.2)

theorem closesBracket_digits (ds b : List Char) (h : ds.all Char.isDigit = true) :
    closesBracket (ds ++ ']' :: b) = true := by
  induction ds with
  | nil => simp [closesBracket]
  | cons d ds ih =>
    simp only [List.all_cons, Bool.and_eq_true] at h
    rw [List.cons_append, closesBracket, if_neg (isDigit_ne d ']' h.1 (by decide)),
      if_neg (isDigit_ne d '[' h.1 (by decide))]
    exact ih h.2

theorem reIsDeepProp_append (a cs : List Char) (h : reIsDeepProp cs = true) :
    reIsDeepProp (a ++ cs) = true := by
  induction a with
  | nil => exact h
  | cons c a ih =>
    simp only [List.cons_append, reIsDeepProp]
    split
    · rfl
    · split
      · have ih2 : reIsDeepProp (a.append cs) = true := ih
        rw [ih2]; simp
      · exact ih

theorem reIsDeepProp_append_bracket (a ds b : List Char) (h : ds.all Char.isDigit = true) :
    reIsDeepProp (a ++ '[' :: (ds ++ ']' :: b)) = true := by
  apply reIsDeepProp_append
  simp [reIsDeepProp, closesBracket_digits ds b h]

end Lodash

theorem Seg.chars_deep (a : List Char) (seg : Seg) (b : List Char) :
    Lodash.reIsDeepProp (a ++ (seg.chars ++ b)) = true := by
  cases seg with
  | key k => exact Lodash.reIsDeepProp_append_dot a _
  | idx i =>
    obtain ⟨d, ds, hi, hd, hds⟩ := toString_digits i
    simp only [Seg.chars, List.cons_append, List.append_assoc, List.singleton_append]
    exact Lodash.reIsDeepProp_append_bracket a _ b (by rw [hi]; simp [hd, hds])

theorem Seg.chars_not_plain (a : List Char) (seg : Seg) (b : List Char) :
    Lodash.reIsPlainProp (a ++ (seg.chars ++ b)) = false := by
  have hmem : ∃ c, c ∈ a ++ (seg.chars ++ b) ∧ Lodash.isWordChar c = false := by
    cases seg with
    | key k => exact ⟨'.', by simp [Seg.chars], by decide⟩
    | idx i => exact ⟨'[', by simp [Seg.chars], by decide⟩
  obtain ⟨c, hc, hw⟩ := hmem
  unfold Lodash.reIsPlainProp
  cases hall : (a ++ (seg.chars ++ b)).all Lodash.isWordChar with
  | false => rfl
  | true =>
    have := List.all_eq_true.1 hall c hc
    rw [hw] at this
    cases this

/-- The path string of a leaf below the root is read back as the keys of its steps. -/
theorem keyPath_render (k0 : String) (segs : List Seg) (hk : simpleKey k0 = true)
    (hs : ∀ seg ∈ segs, goodSeg seg = true) :
    Lodash.keyPath (renderPath "" (Seg.key k0 :: segs)) = k0 :: segs.map Seg.name := by
  obtain ⟨c, cs, hk0, hc, hcs, _⟩ := simpleKey_chars k0 hk
  have hne : k0.toList ≠ [] := by rw [hk0]; simp
  have hchars := renderPath_toList segs k0 hne
  rw [renderPath_root]
  unfold Lodash.keyPath Lodash.castPath Lodash.isKey
  cases segs with
  | nil =>
    have hd : Lodash.reIsDeepProp (renderPath k0 []).toList = false := by
      rw [hchars, List.flatMap_nil, List.append_nil, hk0]
      exact Lodash.reIsDeepProp_plain _ (by simp [hc, hcs])
    rw [hd]
    simp [renderPath]
  | cons seg rest =>
    have hd : Lodash.reIsDeepProp (renderPath k0 (seg :: rest)).toList = true := by
      rw [hchars, List.flatMap_cons]
      exact Seg.chars_deep _ _ _
    have hp : Lodash.reIsPlainProp (renderPath k0 (seg :: rest)).toList = false := by
      rw [hchars, List.flatMap_cons]
      exact Seg.chars_not_plain _ _ _
    rw [hd, hp]
    simp only [Obj.has, Obj.get?, Option.isSome_none, Bool.not_true, Bool.or_self,
      Bool.false_eq_true, if_false]
    unfold Lodash.stringToPath
    rw [hchars, hk0]
    have hne1 : c ≠ '.' := by
      intro e; rw [e] at hc; revert hc; decide
    simp only [List.cons_append, List.head?_cons, Option.some.injEq, hne1, if_false,
      List.nil_append]
    have := Lodash.scanPath_key c cs ((seg :: rest).flatMap Seg.chars) hc hcs
      (Seg.chars_head (seg :: rest))
    rw [List.cons_append] at this
    rw [this, scanPath_segs _ hs, ← hk0, String.mk_toList]

/-! ## The leaves of a well-formed structure have good, distinct paths -/

mutual
theorem leaves_good : ∀ x : JSVal, wfNode x = true →
    ∀ ql ∈ leaves x, ∀ seg ∈ ql.1, goodSeg seg = true
  | .arr xs, h => by
    simp only [wfNode, Bool.and_eq_true] at h
    rw [leaves]
    exact leavesArr_good xs 0 h.2
  | .obj kvs, h => by
    simp only [wfNode, Bool.and_eq_true, List.all_eq_true] at h
    rw [leaves]
    exact leavesObj_good kvs h.2 h.1.1.2
  | .undefined, _ => by simp [leaves]
  | .null, _ => by simp [leaves]
  | .bool _, _ => by simp [leaves]
  | .num _, _ => by simp [leaves]
  | .str _, _ => by simp [leaves]
theorem leavesArr_good : ∀ (xs : List JSVal) (i : Nat), wfList xs = true →
    ∀ ql ∈ leavesArr xs i, ∀ seg ∈ ql.1, goodSeg seg = true
  | [], _, _ => by simp [leavesArr]
  | x :: rest, i, h => by
    simp only [wfList, Bool.and_eq_true] at h
    intro ql hql seg hseg
    rw [leavesArr, List.mem_append] at hql
    rcases hql with hql | hql
    · obtain ⟨a, ha, rfl⟩ := List.mem_map.1 hql
      rcases List.mem_cons.1 hseg with e | e
      · rw [e]; rfl
      · exact leaves_good x h.1 a ha seg e
    · exact leavesArr_good rest (i + 1) h.2 ql hql seg hseg
theorem leavesObj_good : ∀ (kvs : List (String × JSVal)), wfProps kvs = true →
    (∀ k ∈ Obj.keys kvs, simpleKey k = true) →
    ∀ ql ∈ leavesObj kvs, ∀ seg ∈ ql.1, goodSeg seg = true
  | [], _, _ => by simp [leavesObj]
  | (k, x) :: rest, h, hk => by
    simp only [wfProps, Bool.and_eq_true] at h
    intro ql hql seg hseg
    rw [leavesObj, List.mem_append] at hql
    rcases hql with hql | hql
    · obtain ⟨a, ha, rfl⟩ := List.mem_map.1 hql
      rcases List.mem_cons.1 hseg with e | e
      · rw [e]
        exact hk k (by simp [Obj.keys])
      · exact leaves_good x h.1 a ha seg e
    · exact leavesObj_good rest h.2
        (fun k2 hk2 => hk k2 (by
          simp only [Obj.keys, List.map_cons, List.mem_cons]
          exact Or.inr hk2)) ql hql seg hseg
end

theorem toString_inj (i j : Nat) (h : toString i = toString j) : i = j := by
  have hi := Lodash.parseUint_repr i
  rw [h, Lodash.parseUint_repr j] at hi
  injection hi with hi
  exact hi.symm

theorem pathNames_child (seg : Seg) (ls : List (List Seg × JSVal)) :
    pathNames (ls.map (fun ql => (seg :: ql.1, ql.2))) =
      (pathNames ls).map (fun p => seg.name :: p) := by
  unfold pathNames
  rw [List.map_map, List.map_map]
  rfl

theorem nodup_child (name : String) (ps : List (List String)) (h : ps.Nodup) :
    (ps.map (fun p => name :: p)).Nodup :=
  List.Nodup.map (fun a b e => by injection e) h

mutual
theorem leaves_nodup : ∀ x : JSVal, wfNode x = true → (pathNames (leaves x)).Nodup
  | .arr xs, h => by
    simp only [wfNode, Bool.and_eq_true] at h
    rw [leaves]
    exact (leavesArr_nodup xs 0 h.2).1
  | .obj kvs, h => by
    simp only [wfNode, Bool.and_eq_true, decide_eq_true_eq] at h
    rw [leaves]
    exact (leavesObj_nodup kvs h.2 h.1.1.1.2).1
  | .undefined, _ => by simp [leaves, pathNames]
  | .null, _ => by simp [leaves, pathNames]
  | .bool _, _ => by simp [leaves, pathNames]
  | .num _, _ => by simp [leaves, pathNames]
  | .str _, _ => by simp [leaves, pathNames]
theorem leavesArr_nodup : ∀ (xs : List JSVal) (i : Nat), wfList xs = true →
    (pathNames (leavesArr xs i)).Nodup ∧
      ∀ p ∈ pathNames (leavesArr xs i), ∃ j, i ≤ j ∧ p.head? = some (toString j)
  | [], _, _ => by simp [leavesArr, pathNames]
  | x :: rest, i, h => by
    simp only [wfList, Bool.and_eq_true] at h
    obtain ⟨r1, r2⟩ := leavesArr_nodup rest (i + 1) h.2
    have hx := leaves_nodup x h.1
    have hsplit : pathNames (leavesArr (x :: rest) i) =
        (pathNames (leaves x)).map (fun p => toString i :: p) ++
          pathNames (leavesArr rest (i + 1)) := by
      rw [leavesArr]
      unfold pathNames
      rw [List.map_append]
      congr 1
      exact pathNames_child (Seg.idx i) (leaves x)
    rw [hsplit]
    constructor
    · rw [List.nodup_append]
      refine ⟨nodup_child _ _ hx, r1, ?_⟩
      intro p hp1 hp2
      obtain ⟨q, _, rfl⟩ := List.mem_map.1 hp1
      obtain ⟨j, hj, hhead⟩ := r2 _ hp2
      simp only [List.head?_cons, Option.some.injEq] at hhead
      have := toString_inj _ _ hhead
      omega
    · intro p hp
      rcases List.mem_append.1 hp with hp | hp
      · obtain ⟨q, _, rfl⟩ := List.mem_map.1 hp
        exact ⟨i, le_refl _, rfl⟩
      · obtain ⟨j, hj, hhead⟩ := r2 p hp
        exact ⟨j, by omega, hhead⟩
theorem leavesObj_nodup : ∀ (kvs : List (String × JSVal)), wfProps kvs = true →
    (Obj.keys kvs).Nodup →
    (pathNames (leavesObj kvs)).Nodup ∧
      ∀ p ∈ pathNames (leavesObj kvs), ∃ k ∈ Obj.keys kvs, p.head? = some k
  | [], _, _ => by simp [leavesObj, pathNames]
  | (k, x) :: rest, h, hnd => by
    simp only [wfProps, Bool.and_eq_true] at h
    simp only [Obj.keys, List.map_cons, List.nodup_cons] at hnd
    obtain ⟨r1, r2⟩ := leavesObj_nodup rest h.2 hnd.2
    have hx := leaves_nodup x h.1
    have hsplit : pathNames (leavesObj ((k, x) :: rest)) =
        (pathNames (leaves x)).map (fun p => k :: p) ++ pathNames (leavesObj rest) := by
      rw [leavesObj]
      unfold pathNames
      rw [List.map_append]
      congr 1
      exact pathNames_child (Seg.key k) (leaves x)
    rw [hsplit]
    constructor
    · rw [List.nodup_append]
      refine ⟨nodup_child _ _ hx, r1, ?_⟩
      intro p hp1 hp2
      obtain ⟨q, _, rfl⟩ := List.mem_map.1 hp1
      obtain ⟨k2, hk2, hhead⟩ := r2 _ hp2
      simp only [List.head?_cons, Option.some.injEq] at hhead
      rw [← hhead] at hk2
      exact hnd.1 hk2
    · intro p hp
      rcases List.mem_append.1 hp with hp | hp
      · obtain ⟨q, _, rfl⟩ := List.mem_map.1 hp
        exact ⟨k, by simp [Obj.keys], rfl⟩
      · obtain ⟨k2, hk2, hhead⟩ := r2 p hp
        exact ⟨k2, by
          simp only [Obj.keys, List.map_cons, List.mem_cons]
          exact Or.inr hk2, hhead⟩
end

/-! ## The round trip -/

theorem Obj.foldl_set_append {α : Type} (l init : List (String × α))
    (h : (Obj.keys (init ++ l)).Nodup) :
    l.foldl (fun a kv => Obj.set a kv.1 kv.2) init = init ++ l := by
  induction l generalizing init with
  | nil => simp
  | cons kv rest ih =>
    have hk : kv.1 ∉ Obj.keys init := by
      intro hmem
      simp only [Obj.keys, List.map_append, List.map_cons] at h
      exact (List.nodup_append.1 h).2.2 hmem (List.mem_cons_self _ _)
    rw [List.foldl_cons, Obj.set_of_not_mem init kv.1 kv.2 hk, ih _ (by simpa using h)]
    simp

theorem leavesObj_headkey (kvs : List (String × JSVal)) :
    ∀ ql ∈ leavesObj kvs, ∃ k segs, ql.1 = Seg.key k :: segs := by
  induction kvs with
  | nil => intro ql h; simp [leavesObj] at h
  | cons kv rest ih =>
    obtain ⟨k, x⟩ := kv
    intro ql h
    rw [leavesObj, List.mem_append] at h
    rcases h with h | h
    · obtain ⟨a, _, rfl⟩ := List.mem_map.1 h
      exact ⟨k, a.1, rfl⟩
    · exact ih ql h

/-- Writing leaves by their path strings into an object whose keys have no path
syntax is writing them along the keys of their steps. -/
theorem set_fold_paths (ls : List (List Seg × JSVal))
    (hls : ∀ ql ∈ ls, ∃ k segs, ql.1 = Seg.key k :: segs ∧ simpleKey k = true ∧
      ∀ seg ∈ segs, goodSeg seg = true)
    (kvs : Props) (htop : ∀ t ∈ Obj.keys kvs, Lodash.reIsDeepProp t.toList = false) :
    (ls.map (fun ql => (renderPath "" ql.1, ql.2))).foldl
        (fun a kv => Lodash.set a kv.1 kv.2) (.obj kvs) =
      insertLeaves (ls.map (fun ql => (ql.1.map Seg.name, ql.2))) (.obj kvs) := by
  induction ls generalizing kvs with
  | nil => rfl
  | cons ql rest ih =>
    obtain ⟨k, segs, hq, hk, hsegs⟩ := hls ql (List.mem_cons_self _ _)
    have hcast : Lodash.castPath (renderPath "" ql.1) (.obj kvs) = ql.1.map Seg.name := by
      rw [Lodash.castPath_eq _ kvs, hq, keyPath_render k segs hk hsegs]
      · rfl
      · intro hd hin
        have := htop _ hin
        rw [hd] at this
        cases this
    have hset : Lodash.set (.obj kvs) (renderPath "" ql.1) ql.2 =
        Lodash.baseSetPath (ql.1.map Seg.name) (.obj kvs) ql.2 := by
      unfold Lodash.set
      simp only [JSVal.isObject, if_true, hcast]
    obtain ⟨kvs2, h2, hk2, _⟩ := Lodash.baseSetPath_obj k (segs.map Seg.name) kvs ql.2
    have hnames : ql.1.map Seg.name = k :: segs.map Seg.name := by rw [hq]; rfl
    obtain ⟨c, cs, hkc, hc, hcs, _⟩ := simpleKey_chars k hk
    have htop2 : ∀ t ∈ Obj.keys kvs2, Lodash.reIsDeepProp t.toList = false := by
      intro t ht
      rcases hk2 t ht with e | e
      · rw [e, hkc]
        exact Lodash.reIsDeepProp_plain _ (by simp [hc, hcs])
      · exact htop t e
    unfold insertLeaves at ih ⊢
    rw [List.map_cons, List.foldl_cons, List.map_cons, List.foldl_cons]
    simp only
    rw [hset, hnames, h2]
    exact ih (fun x hx => hls x (List.mem_cons_of_mem _ hx)) kvs2 htop2

theorem leavesObj_headed (kvs : List (String × JSVal)) (hwf : wfProps kvs = true)
    (hkeys : ∀ k ∈ Obj.keys kvs, simpleKey k = true) :
    ∀ ql ∈ leavesObj kvs, ∃ k segs, ql.1 = Seg.key k :: segs ∧
      simpleKey k = true ∧ ∀ seg ∈ segs, goodSeg seg = true := by
  have hgood := leavesObj_good kvs hwf hkeys
  intro ql hql
  obtain ⟨k, segs, hq⟩ := leavesObj_headkey kvs ql hql
  have hall := hgood ql hql
  rw [hq] at hall
  exact ⟨k, segs, hq, hall _ (List.mem_cons_self _ _),
    fun seg hseg => hall seg (List.mem_cons_of_mem _ hseg)⟩

/-- The flat object of a well-formed root object: one pair for each leaf, in the
order of the traversal, under the path string of the leaf; nothing is logged. -/
theorem flattenFields_wf (kvs : List (String × JSVal)) (msg : String)
    (hnd : (Obj.keys kvs).Nodup) (hkeys : ∀ k ∈ Obj.keys kvs, simpleKey k = true)
    (hwf : wfProps kvs = true) :
    flattenFields (.obj kvs) isLeafValue msg =
      .ok { acc := (leavesObj kvs).map (fun ql => (renderPath "" ql.1, ql.2)), log := [] } := by
  have hls := leavesObj_headed kvs hwf hkeys
  have hparse : ∀ ql ∈ leavesObj kvs,
      Lodash.keyPath (renderPath "" ql.1) = ql.1.map Seg.name := by
    intro ql hql
    obtain ⟨k, segs, hq, hk, hsegs⟩ := hls ql hql
    rw [hq, keyPath_render k segs hk hsegs]
    rfl
  have hnodup : (Obj.keys ((leavesObj kvs).map
      (fun ql => (renderPath "" ql.1, ql.2)))).Nodup := by
    apply List.Nodup.of_map Lodash.keyPath
    have : (Obj.keys ((leavesObj kvs).map (fun ql => (renderPath "" ql.1, ql.2)))).map
        Lodash.keyPath = pathNames (leavesObj kvs) := by
      unfold Obj.keys pathNames
      rw [List.map_map, List.map_map]
      apply List.map_congr_left
      intro ql hql
      exact hparse ql hql
    rw [this]
    exact (leavesObj_nodup kvs hwf hnd).1
  unfold flattenFields
  rw [treeTraverse_leaves, leaves]
  have := Obj.foldl_set_append
    ((leavesObj kvs).map (fun ql => (renderPath "" ql.1, ql.2))) [] (by simpa using hnodup)
  rw [List.foldl_map] at this
  simp only [List.nil_append] at this
  rw [this]

/-- Setting the pairs of the flat object of a well-formed root object into a fresh
`{}` rebuilds the object. -/
theorem unflatten_leaves_wf (kvs : List (String × JSVal))
    (hnd : (Obj.keys kvs).Nodup) (hkeys : ∀ k ∈ Obj.keys kvs, simpleKey k = true)
    (hwf : wfProps kvs = true) :
    unflatten ((leavesObj kvs).map (fun ql => (renderPath "" ql.1, ql.2))) = .obj kvs := by
  have hls := leavesObj_headed kvs hwf hkeys
  have hforb : ∀ k ∈ Obj.keys kvs, Lodash.isForbiddenKey k = false := by
    intro k hk
    obtain ⟨_, _, _, _, _, hf⟩ := simpleKey_chars k (hkeys k hk)
    exact hf
  unfold unflatten
  rw [set_fold_paths (leavesObj kvs) hls [] (by simp [Obj.keys])]
  have := rebuild_props kvs [] hwf (by simpa using hnd) hforb
  simpa using this

/-- C1, as the code has it: for a nested structure whose root is an object, in
which every object (the root included) has distinct simple keys (not empty, without
`.`, `[` or `]`, none of the keys `set` refuses) none of which is an index for
lodash (`0`, `1`, ...), every array or object below the root is not empty, and every
array is shorter than `2^32 - 1`: `flattenFields` with the leaf predicate "neither
array nor object" succeeds without logging, and setting each pair of the flat
object into a fresh `{}` rebuilds the structure. -/
theorem flattenFields_unflatten (x : JSVal) (msg : String) (h : wfRoot x = true) :
    ∃ t : Trav Props, flattenFields x isLeafValue msg = .ok t ∧ t.log = [] ∧
      unflatten t.acc = x := by
  cases x with
  | obj kvs =>
    simp only [wfRoot, Bool.and_eq_true, decide_eq_true_eq, List.all_eq_true] at h
    obtain ⟨⟨⟨hnd, hkeys⟩, _⟩, hwf⟩ := h
    exact ⟨_, flattenFields_wf kvs msg hnd hkeys hwf, rfl,
      unflatten_leaves_wf kvs hnd hkeys hwf⟩
  | _ => simp [wfRoot] at h

/-- The witness of `flattenFields_unflatten`: an object with a nested object, an
array of strings and an array of objects. -/
theorem flattenFields_unflatten_witness :
    ∃ t : Trav Props,
      flattenFields
        (.obj [("user", .obj [("name", .str "al"), ("tags", .arr [.str "a", .str "b"])]),
          ("rows", .arr [.obj [("id", .num 1)], .obj [("id", .num 2)]]),
          ("n", .num 1)]) isLeafValue "" = .ok t ∧ t.log = [] ∧
      unflatten t.acc =
        .obj [("user", .obj [("name", .str "al"), ("tags", .arr [.str "a", .str "b"])]),
          ("rows", .arr [.obj [("id", .num 1)], .obj [("id", .num 2)]]),
          ("n", .num 1)] :=
  flattenFields_unflatten _ "" (by decide)

/-- C1 as stated fails: an empty object below the root has no leaf and is lost; a
root that is a leaf or an array comes back as an object; an object below the root
whose key is an index comes back as an array; a key with a `.` comes back as two
keys; and the members of an object under the empty key come back at the root. -/
theorem flattenFields_unflatten_counterexample :
    ((match flattenFields (.obj [("a", .obj [])]) isLeafValue "" with
      | .ok t => unflatten t.acc
      | .error _ => .null) = .obj []) ∧
    ((match flattenFields (.num 1) isLeafValue "" with
      | .ok t => unflatten t.acc
      | .error _ => .null) = .obj [("", .num 1)]) ∧
    ((match flattenFields (.arr [.num 1]) isLeafValue "" with
      | .ok t => unflatten t.acc
      | .error _ => .null) = .obj [("0", .num 1)]) ∧
    ((match flattenFields (.obj [("a", .obj [("0", .num 1)])]) isLeafValue "" with
      | .ok t => unflatten t.acc
      | .error _ => .null) = .obj [("a", .arr [.num 1])]) ∧
    ((match flattenFields (.obj [("a.b", .num 1)]) isLeafValue "" with
      | .ok t => unflatten t.acc
      | .error _ => .null) = .obj [("a", .obj [("b", .num 1)])]) ∧
    ((match flattenFields (.obj [("", .obj [("b", .num 1)])]) isLeafValue "" with
      | .ok t => unflatten t.acc
      | .error _ => .null) = .obj [("b", .num 1)]) := by
  decide

/-! ## Rules and triggers -/

theorem foldl_append_flatten {α : Type} (ls : List (List α)) (init : List α) :
    ls.foldl (fun pre curr => pre ++ curr) init = init ++ ls.flatten := by
  induction ls generalizing init with
  | nil => simp
  | cons l rest ih => rw [List.foldl_cons, ih, List.flatten_cons, List.append_assoc]

/-- The triggers `getValidateTriggers` returns are the trigger lists of the entries
with a rule list that is not empty, one after the other. -/
theorem getValidateTriggers_eq (validateRules : List ValidateItem) :
    getValidateTriggers validateRules =
      ((validateRules.filter (fun item => item.hasRules)).map (fun item => item.trigger)).flatten := by
  unfold getValidateTriggers
  rw [foldl_append_flatten, List.nil_append]

theorem ValidateItem.hasRules_iff (item : ValidateItem) :
    item.hasRules = true ↔ ∃ rs, item.rules = some rs ∧ rs ≠ [] := by
  unfold ValidateItem.hasRules
  cases item.rules with
  | none => simp
  | some rs => cases rs <;> simp

/-- C17: an action occurs in `getValidateTriggers(validateRules)` exactly when some
entry of the list with a rule list that is not empty has the action in its trigger
list. -/
theorem getValidateTriggers_mem (validateRules : List ValidateItem) (action : String) :
    action ∈ getValidateTriggers validateRules ↔
      ∃ item ∈ validateRules, (∃ rs, item.rules = some rs ∧ rs ≠ []) ∧
        action ∈ item.trigger := by
  rw [getValidateTriggers_eq]
  simp only [List.mem_flatten, List.mem_map, List.mem_filter]
  constructor
  · rintro ⟨l, ⟨item, ⟨hin, hr⟩, rfl⟩, ha⟩
    exact ⟨item, hin, (ValidateItem.hasRules_iff item).1 hr, ha⟩
  · rintro ⟨item, hin, hr, ha⟩
    exact ⟨item.trigger, ⟨item, ⟨hin, (ValidateItem.hasRules_iff item).2 hr⟩, rfl⟩, ha⟩

/-- C18, as the code has it: `getValidateTriggers` removes no duplicate.  An action
occurs in the result as many times as it occurs in the trigger lists of the entries
with a rule list that is not empty, taken together. -/
theorem getValidateTriggers_count (validateRules : List ValidateItem) (action : String) :
    (getValidateTriggers validateRules).count action =
      ((validateRules.filter (fun item => item.hasRules)).map
        (fun item => item.trigger.count action)).sum := by
  rw [getValidateTriggers_eq, List.count_flatten, List.map_map]
  rfl

/-- C18 as stated fails: two entries with rules that both fire on `onChange` give
`onChange` twice. -/
theorem getValidateTriggers_duplicate_counterexample :
    getValidateTriggers
      [{ trigger := ["onChange"], rules := some [.str "required"] },
       { trigger := ["onChange", "onBlur"], rules := some [.str "email"] }] =
      ["onChange", "onChange", "onBlur"] := by
  decide

/-- C16, as the code has it: for a metadata that has a `validate` list, `getRules`
with an action that is not empty returns, in order, the rule lists of exactly the
entries whose trigger list contains the action (an entry with an empty trigger list
is left out), and without an action, or with the empty action, the rule lists of
all entries; an entry without rule list contributes `undefined`. -/
theorem getRules_spec (fieldMeta : FieldMeta) (validate : List ValidateItem)
    (hv : fieldMeta.validate = some validate) :
    (∀ action : String, action ≠ "" →
      getRules fieldMeta (some action) =
        .ok ((validate.filter (fun item => decide (action ∈ item.trigger))).flatMap
          (fun item => item.rules.getD [JSVal.undefined]))) ∧
    getRules fieldMeta none =
      .ok (validate.flatMap (fun item => item.rules.getD [JSVal.undefined])) ∧
    getRules fieldMeta (some "") =
      .ok (validate.flatMap (fun item => item.rules.getD [JSVal.undefined])) := by
  refine ⟨?_, ?_, ?_⟩
  · intro action ha
    have hf : validate.filter (fun item => decide (action = "") || item.trigger.contains action) =
        validate.filter (fun item => decide (action ∈ item.trigger)) :=
      List.filter_congr (fun item _ => by simp [ha])
    unfold getRules
    rw [hv]
    simp only [hf, List.flatMap]
  · unfold getRules
    rw [hv]
    simp [List.flatMap]
  · unfold getRules
    rw [hv]
    simp [List.flatMap]

/-- The witness of `getRules_spec`: a metadata with an entry without trigger and an
entry that fires on `onChange`. -/
theorem getRules_spec_witness :
    getRules
        { validate := some [{ trigger := [], rules := some [.str "r1"] },
            { trigger := ["onChange"], rules := some [.str "r2"] }] }
        (some "onChange") = .ok [.str "r2"] ∧
      getRules
        { validate := some [{ trigger := [], rules := some [.str "r1"] },
            { trigger := ["onChange"], rules := some [.str "r2"] }] }
        none = .ok [.str "r1", .str "r2"] :=
  let h := getRules_spec
    { validate := some [{ trigger := [], rules := some [.str "r1"] },
        { trigger := ["onChange"], rules := some [.str "r2"] }] }
    [{ trigger := [], rules := some [.str "r1"] },
      { trigger := ["onChange"], rules := some [.str "r2"] }] rfl
  ⟨h.1 "onChange" (by decide), h.2.1⟩

/-- C16 as stated fails: with the action `onChange`, the rules of an entry whose
trigger list is empty are not returned. -/
theorem getRules_empty_trigger_counterexample :
    (match getRules
        { validate := some [{ trigger := [], rules := some [.str "r1"] },
            { trigger := ["onChange"], rules := some [.str "r2"] }] }
        (some "onChange") with
      | .ok rules => rules
      | .error _ => []) = [.str "r2"] := by
  decide

/-! ## `resetFields` of the store -/

theorem FieldsStore.getFieldMeta_registered (s : FieldsStore) (name : String)
    (h : name ∈ Obj.keys s.fieldsMeta) : (s.getFieldMeta name).2 = s := by
  unfold FieldsStore.getFieldMeta FieldsStore.metaOf
  cases hg : Obj.get? s.fieldsMeta name with
  | none => exact absurd h ((Obj.get?_eq_none _ _).1 hg)
  | some m =>
    simp only [Option.getD_some]
    rw [Obj.set_of_get? _ _ _ hg]

theorem FieldsStore.mem_getValidFieldsFullName_iff (s : FieldsStore) (names : List String)
    (n : String) :
    n ∈ s.getValidFieldsFullName names ↔
      n ∈ Obj.keys s.fieldsMeta ∧ (s.metaOf n).hidden.getD false = false ∧
        ∃ p ∈ names, n = p ∨ partOf p n = true := by
  unfold FieldsStore.getValidFieldsFullName FieldsStore.getValidFieldsName
  simp only [List.mem_filter, List.any_eq_true, Bool.or_eq_true, decide_eq_true_eq,
    Bool.not_eq_true', Bool.and_eq_true]
  constructor
  · rintro ⟨⟨h1, h2⟩, p, hp, h3⟩
    refine ⟨h1, h2, p, hp, ?_⟩
    rcases h3 with h3 | h3
    · exact Or.inl h3
    · right
      simp only [partOf, Bool.and_eq_true, Bool.or_eq_true, decide_eq_true_eq]
      exact h3
  · rintro ⟨h1, h2, p, hp, h3⟩
    refine ⟨⟨h1, h2⟩, p, hp, ?_⟩
    rcases h3 with h3 | h3
    · exact Or.inl h3
    · right
      simp only [partOf, Bool.and_eq_true, Bool.or_eq_true, decide_eq_true_eq] at h3
      exact h3

theorem Obj.foldl_set_if {α β : Type} (key : β → String) (val : β → α) (p : β → Bool)
    (l : List β) (init : List (String × α)) :
    l.foldl (fun acc f => if p f then Obj.set acc (key f) (val f) else acc) init =
      (l.filter p).foldl (fun acc f => Obj.set acc (key f) (val f)) init := by
  induction l generalizing init with
  | nil => rfl
  | cons f rest ih =>
    rw [List.foldl_cons, ih, List.filter_cons]
    by_cases h : p f = true
    · simp [h]
    · simp [h]

/-- `resetFields` assigns the empty record for each targeted name whose record carries
an explicit `value` member. -/
theorem FieldsStore.resetFields_eq (s : FieldsStore) (ns : Option (List String)) :
    s.resetFields ns =
      ((match ns with
        | some l => s.getValidFieldsFullName l
        | none => s.getAllFieldsName).filter
        (fun name => match Obj.get? s.fields name with
          | some field => Obj.has field "value"
          | none => false)).foldl (fun acc name => Obj.set acc name ([] : Field)) [] := by
  unfold FieldsStore.resetFields
  simp only
  rw [← Obj.foldl_set_if (fun name => name) (fun _ => ([] : Field))]
  congr 1
  funext acc name
  cases Obj.get? s.fields name with
  | none => rfl
  | some field => rfl

/-- C12, as the code has it: the keys of the map `resetFields(ns)` returns are the
targeted names whose record carries an explicit `value` member, each mapped to the
empty record.  Without `ns` every registered name is targeted; with `ns` the
registered names that are not hidden and that are equal to one of the given names
or start with one followed by `.` or `[`.  The `getFieldMeta` calls it makes are on
registered names and leave the store as it is. -/
theorem resetFields_spec (s : FieldsStore) (ns : Option (List String)) :
    (∀ n, n ∈ Obj.keys (s.resetFields ns) ↔
      ((match ns with
        | some l =>
          n ∈ Obj.keys s.fieldsMeta ∧ (s.metaOf n).hidden.getD false = false ∧
            ∃ p ∈ l, n = p ∨ ∃ c : Char, (c = '.' ∨ c = '[') ∧ (p.toList ++ [c]) <+: n.toList
        | none => n ∈ Obj.keys s.fieldsMeta) ∧
        ∃ field, Obj.get? s.fields n = some field ∧ Obj.has field "value" = true)) ∧
    (∀ n ∈ Obj.keys (s.resetFields ns), Obj.get? (s.resetFields ns) n = some []) ∧
    (Obj.keys (s.resetFields ns)).Nodup ∧
    (∀ n ∈ Obj.keys s.fieldsMeta, (s.getFieldMeta n).2 = s) := by
  rw [FieldsStore.resetFields_eq]
  refine ⟨?_, ?_, Obj.foldl_set_nodup _ _ _ _ (by simp [Obj.keys]),
    fun n hn => FieldsStore.getFieldMeta_registered s n hn⟩
  · intro n
    rw [Obj.foldl_set_keys]
    simp only [Obj.keys, List.map_nil, List.not_mem_nil, false_or, List.mem_filter,
      exists_eq_right]
    have hval : (match Obj.get? s.fields n with
        | some field => Obj.has field "value"
        | none => false) = true ↔
        ∃ field, Obj.get? s.fields n = some field ∧ Obj.has field "value" = true := by
      cases Obj.get? s.fields n with
      | none => simp
      | some field => simp
    rw [hval]
    apply and_congr_left
    intro _
    cases ns with
    | none => rfl
    | some l =>
      simp only
      rw [FieldsStore.mem_getValidFieldsFullName_iff]
      simp only [partOf_iff]
      rfl
  · intro n hn
    rw [Obj.foldl_set_keys] at hn
    rcases hn with hn | hn
    · simp [Obj.keys] at hn
    · exact Obj.foldl_set_get?_mem (fun name => name) (fun _ => ([] : Field)) _ _ n []
        hn (fun _ _ _ => rfl)

/-- C12 as stated fails: a registered field `a` that is hidden and carries a value
is not among the keys of `resetFields(['a'])`, although `resetFields()` has it. -/
theorem resetFields_hidden_counterexample :
    FieldsStore.resetFields
        { fields := [("a", [("value", .num 1)])],
          fieldsMeta := [("a", { hidden := some true })] } (some ["a"]) = [] ∧
      FieldsStore.resetFields
        { fields := [("a", [("value", .num 1)])],
          fieldsMeta := [("a", { hidden := some true })] } none = [("a", [])] := by
  decide

/-! ## `FieldsStore.setFields`: the `normalize` functions -/

theorem Obj.mem_of_get? {α : Type} (o : List (String × α)) (k : String) (v : α)
    (h : Obj.get? o k = some v) : (k, v) ∈ o := by
  induction o with
  | nil => simp [Obj.get?] at h
  | cons kv t ih =>
    obtain ⟨k1, w⟩ := kv
    by_cases h1 : k1 = k
    · simp only [Obj.get?, h1, if_true, Option.some.injEq] at h
      rw [h1, h]
      exact List.mem_cons_self _ _
    · simp only [Obj.get?, h1, if_false] at h
      exact List.mem_cons_of_mem _ (ih h)

/-- The record of a name after the `normalize` loop of `setFields`, when the name
has the value `v` in the list of values the loop goes through. -/
theorem FieldsStore.normalize_step_record (s : FieldsStore) (values : Props)
    (old : String → JSVal) (name : String) (v : JSVal)
    (l : List (String × JSVal)) (hnd : (Obj.keys l).Nodup) (hmem : (name, v) ∈ l)
    (acc : List (String × Field)) :
    Obj.get? (l.foldl
      (fun (acc : List (String × Field)) (fv : String × JSVal) =>
        match (s.metaOf fv.1).normalize with
        | some normalize =>
          let nowValue := normalize fv.2 (old fv.1) (.obj values)
          if nowValue ≠ fv.2 then
            Obj.set acc fv.1 (Obj.set ((Obj.get? acc fv.1).getD []) "value" nowValue)
          else acc
        | none => acc) acc) name =
      (match (s.metaOf name).normalize with
       | some normalize =>
         if normalize v (old name) (.obj values) ≠ v then
           some (Obj.set ((Obj.get? acc name).getD []) "value"
             (normalize v (old name) (.obj values)))
         else Obj.get? acc name
       | none => Obj.get? acc name) := by
  induction l generalizing acc with
  | nil => simp at hmem
  | cons fv t ih =>
    simp only [Obj.keys, List.map_cons, List.nodup_cons] at hnd
    rw [List.foldl_cons]
    by_cases hf : fv.1 = name
    · have hv : fv.2 = v := by
        rcases List.mem_cons.1 hmem with e | e
        · rw [← e]
        · exfalso
          apply hnd.1
          rw [hf]
          exact List.mem_map_of_mem Prod.fst e
      have hnot : ∀ x ∈ t, x.1 = name → s.keepsValue name x.2 := by
        intro x hx hxn
        exfalso
        apply hnd.1
        rw [hf, ← hxn]
        exact List.mem_map_of_mem Prod.fst hx
      rw [FieldsStore.normalize_step_keeps s values old name t hnot, hf, hv]
      cases hn : (s.metaOf name).normalize with
      | none => rfl
      | some normalize =>
        simp only
        split
        · exact Obj.get?_set_same _ _ _
        · rfl
    · have hmem2 : (name, v) ∈ t := by
        rcases List.mem_cons.1 hmem with e | e
        · exact absurd (by rw [← e]) hf
        · exact e
      rw [ih hnd.2 hmem2]
      have hacc : Obj.get? (match (s.metaOf fv.1).normalize with
          | some normalize =>
            let nowValue := normalize fv.2 (old fv.1) (.obj values)
            if nowValue ≠ fv.2 then
              Obj.set acc fv.1 (Obj.set ((Obj.get? acc fv.1).getD []) "value" nowValue)
            else acc
          | none => acc) name = Obj.get? acc name := by
        cases (s.metaOf fv.1).normalize with
        | none => rfl
        | some normalize =>
          simp only
          split
          · exact Obj.get?_set_other _ _ _ _ hf
          · rfl
      rw [hacc]

theorem FieldsStore.nowValues_get (s : FieldsStore) (nowFields : List (String × Field))
    (name : String) (h : name ∈ Obj.keys s.fieldsMeta) :
    Obj.get? (s.nowValues nowFields) name = some (s.getValueFromFields name nowFields).1 := by
  unfold FieldsStore.nowValues
  exact Obj.foldl_set_get?_mem (fun f => f) (fun f => (s.getValueFromFields f nowFields).1)
    _ _ name _ ⟨name, h, rfl⟩ (fun f _ hf => by
      have hf2 : f = name := hf
      rw [hf2])

theorem FieldsStore.nowValues_keys (s : FieldsStore) (nowFields : List (String × Field))
    (name : String) :
    name ∈ Obj.keys (s.nowValues nowFields) ↔ name ∈ Obj.keys s.fieldsMeta := by
  unfold FieldsStore.nowValues
  rw [Obj.foldl_set_keys]
  simp [Obj.keys]

theorem FieldsStore.setFields_meta (s : FieldsStore) (fields : List (String × Field)) :
    (s.setFields fields).fieldsMeta = s.fieldsMeta := rfl

/-- The effective value of a registered field with a `normalize` function after
`FieldsStore.setFields`. -/
theorem FieldsStore.setFields_value (s : FieldsStore) (fields : List (String × Field))
    (f : String) (hf : f ∈ Obj.keys s.fieldsMeta) (N : JSVal → JSVal → JSVal → JSVal)
    (hN : (s.metaOf f).normalize = some N) :
    ((s.setFields fields).getValueFromFields f (s.setFields fields).fields).1 =
      N (s.getValueFromFields f (Obj.spread s.fields fields)).1
        (s.getValueFromFields f s.fields).1
        (.obj (s.nowValues (Obj.spread s.fields fields))) := by
  have hrec : Obj.get? (s.setFields fields).fields f =
      (if N (s.getValueFromFields f (Obj.spread s.fields fields)).1
          (s.getValueFromFields f s.fields).1
          (.obj (s.nowValues (Obj.spread s.fields fields))) ≠
          (s.getValueFromFields f (Obj.spread s.fields fields)).1 then
        some (Obj.set ((Obj.get? (Obj.spread s.fields fields) f).getD []) "value"
          (N (s.getValueFromFields f (Obj.spread s.fields fields)).1
            (s.getValueFromFields f s.fields).1
            (.obj (s.nowValues (Obj.spread s.fields fields)))))
      else Obj.get? (Obj.spread s.fields fields) f) := by
    unfold FieldsStore.setFields
    simp only
    rw [FieldsStore.normalize_step_record s _ (fun g => (s.getValueFromFields g s.fields).1) f
      (s.getValueFromFields f (Obj.spread s.fields fields)).1 _
      (by
        unfold FieldsStore.nowValues
        exact Obj.foldl_set_nodup _ _ _ _ (by simp [Obj.keys]))
      (Obj.mem_of_get? _ _ _ (FieldsStore.nowValues_get s _ f hf)), hN]
  have hmeta : (s.setFields fields).metaOf f = s.metaOf f := rfl
  rw [FieldsStore.getValueFromFields_fst, hrec, hmeta]
  by_cases hc : N (s.getValueFromFields f (Obj.spread s.fields fields)).1
      (s.getValueFromFields f s.fields).1
      (.obj (s.nowValues (Obj.spread s.fields fields))) =
      (s.getValueFromFields f (Obj.spread s.fields fields)).1
  · rw [if_neg (by simpa using hc), hc, FieldsStore.getValueFromFields_fst]
  · rw [if_pos hc]
    have hhas : Obj.has (Obj.set ((Obj.get? (Obj.spread s.fields fields) f).getD []) "value"
        (N (s.getValueFromFields f (Obj.spread s.fields fields)).1
          (s.getValueFromFields f s.fields).1
          (.obj (s.nowValues (Obj.spread s.fields fields))))) "value" = true := by
      unfold Obj.has
      rw [Obj.get?_set_same]
      rfl
    simp only [hhas, if_true]
    exact Props.get_set_same _ _ _

/-! ## The arguments of `validateFields` -/

/-- C19, as the code has it: `getParams` resolves the call shapes `()`, `(cb)`,
`(names)`, `(options)`, `(names, cb)`, `(options, cb)`, `(names, options)` and
`(names, options, cb)` by type: the array is returned as `names` (`undefined` when
there is none), the function as `callback`, the object as `options` (`{}` when there
is none).  A call with a third argument returns the three arguments as they are. -/
theorem getParams_shapes (names : List JSVal) (options : Props) (cb : String) :
    getParams (.val .undefined) (.val .undefined) (.val .undefined) =
      { names := .val .undefined, options := .val (.obj []), callback := .val .undefined } ∧
    getParams (.func cb) (.val .undefined) (.val .undefined) =
      { names := .val .undefined, options := .val (.obj []), callback := .func cb } ∧
    getParams (.val (.arr names)) (.val .undefined) (.val .undefined) =
      { names := .val (.arr names), options := .val (.obj []), callback := .val .undefined } ∧
    getParams (.val (.obj options)) (.val .undefined) (.val .undefined) =
      { names := .val .undefined, options := .val (.obj options),
        callback := .val .undefined } ∧
    getParams (.val (.arr names)) (.func cb) (.val .undefined) =
      { names := .val (.arr names), options := .val (.obj []), callback := .func cb } ∧
    getParams (.val (.obj options)) (.func cb) (.val .undefined) =
      { names := .val .undefined, options := .val (.obj options), callback := .func cb } ∧
    getParams (.val (.arr names)) (.val (.obj options)) (.val .undefined) =
      { names := .val (.arr names), options := .val (.obj options),
        callback := .val .undefined } ∧
    getParams (.val (.arr names)) (.val (.obj options)) (.func cb) =
      { names := .val (.arr names), options := .val (.obj options), callback := .func cb } ∧
    ∀ a b c : Param, c ≠ .val .undefined →
      getParams a b c = { names := a, options := b, callback := c } := by
  refine ⟨rfl, rfl, rfl, rfl, rfl, rfl, rfl, ?_, ?_⟩
  · simp [getParams]
  · intro a b c hc
    simp [getParams, hc]

/-- C19 as stated fails for other combinations: with `(names, undefined, cb)` the
options are `undefined`, not `{}`; with `(cb, options)` the object is dropped; and
with `(options, options2, cb)` the first object is returned as the names. -/
theorem getParams_counterexample :
    (getParams (.val (.arr [.str "a"])) (.val .undefined) (.func "cb")).options =
      .val .undefined ∧
    (getParams (.func "cb") (.val (.obj [("first", .bool true)])) (.val .undefined)).options =
      .val (.obj []) ∧
    (getParams (.val (.obj [("force", .bool true)])) (.val (.obj [])) (.func "cb")).names =
      .val (.obj [("force", .bool true)]) := by
  decide

/-- C11: after `FieldsStore.setFields(fields)`, the effective value of every
registered field `f` with a `normalize` function `N` is `N(newValue, oldValue,
allNewValues)`: `newValue` is the effective value of `f` in the records with those
of `fields` put in (`nowFields`), `oldValue` its effective value before the call,
and `allNewValues` the object that maps every registered name to its effective
value in `nowFields`.  The record of a field without `normalize` function that
`fields` does not name is unchanged, and so is the metadata. -/
theorem setFields_normalizes (s : FieldsStore) (fields : List (String × Field))
    (hkeys : (Obj.keys fields).Nodup) :
    (∀ n, Obj.get? (Obj.spread s.fields fields) n =
      (Obj.get? fields n).orElse (fun _ => Obj.get? s.fields n)) ∧
    (∀ g, g ∈ Obj.keys (s.nowValues (Obj.spread s.fields fields)) ↔
      g ∈ Obj.keys s.fieldsMeta) ∧
    (∀ g ∈ Obj.keys s.fieldsMeta,
      Props.get (s.nowValues (Obj.spread s.fields fields)) g =
        (s.getValueFromFields g (Obj.spread s.fields fields)).1) ∧
    (∀ f ∈ Obj.keys s.fieldsMeta, ∀ N, (s.metaOf f).normalize = some N →
      ((s.setFields fields).getValueFromFields f (s.setFields fields).fields).1 =
        N (s.getValueFromFields f (Obj.spread s.fields fields)).1
          (s.getValueFromFields f s.fields).1
          (.obj (s.nowValues (Obj.spread s.fields fields)))) ∧
    (∀ f, (s.metaOf f).normalize = none → f ∉ Obj.keys fields →
      Obj.get? (s.setFields fields).fields f = Obj.get? s.fields f) ∧
    (s.setFields fields).fieldsMeta = s.fieldsMeta := by
  refine ⟨fun n => Obj.get?_spread fields s.fields n hkeys,
    fun g => FieldsStore.nowValues_keys s _ g, ?_,
    fun f hf N hN => FieldsStore.setFields_value s fields f hf N hN, ?_, rfl⟩
  · intro g hg
    unfold Props.get
    rw [FieldsStore.nowValues_get s _ g hg]
    rfl
  · intro f hnorm hnot
    rw [FieldsStore.setFields_record s fields f hkeys hnorm, (Obj.get?_eq_none _ _).2 hnot]
    rfl

/-- The witness of `setFields_normalizes`: on `Demo.storeBump`, where `x` has the
`normalize` function that adds one, `setFields({x: {value: 5}})` leaves `x` with the
effective value 6 and the record of `y` as it was. -/
theorem setFields_normalizes_witness :
    ((Demo.storeBump.setFields [("x", [("value", .num 5)])]).getValueFromFields "x"
        (Demo.storeBump.setFields [("x", [("value", .num 5)])]).fields).1 = .num 6 ∧
      Obj.get? (Demo.storeBump.setFields [("x", [("value", .num 5)])]).fields "y" =
        Obj.get? Demo.storeBump.fields "y" :=
  let h := setFields_normalizes Demo.storeBump [("x", [("value", .num 5)])] (by decide)
  ⟨(h.2.2.2.1 "x" (by decide) Demo.bump rfl).trans (by decide),
    h.2.2.2.2.1 "y" rfl (by decide)⟩

/-! ## `resetFields` of the form -/

theorem FieldsStore.resetFields_keys (s : FieldsStore) (ns : Option (List String))
    (n : String) :
    n ∈ Obj.keys (s.resetFields ns) ↔
      n ∈ (match ns with
        | some l => s.getValidFieldsFullName l
        | none => s.getAllFieldsName) ∧
      ∃ field, Obj.get? s.fields n = some field ∧ Obj.has field "value" = true := by
  rw [FieldsStore.resetFields_eq, Obj.foldl_set_keys]
  simp only [Obj.keys, List.map_nil, List.not_mem_nil, false_or, List.mem_filter,
    exists_eq_right]
  apply and_congr_right
  intro _
  cases Obj.get? s.fields n with
  | none => simp
  | some field => simp

theorem FieldsStore.resetFields_nodup (s : FieldsStore) (ns : Option (List String)) :
    (Obj.keys (s.resetFields ns)).Nodup := by
  rw [FieldsStore.resetFields_eq]
  exact Obj.foldl_set_nodup _ _ _ _ (by simp [Obj.keys])

theorem FieldsStore.resetFields_get? (s : FieldsStore) (ns : Option (List String))
    (n : String) (hn : n ∈ Obj.keys (s.resetFields ns)) :
    Obj.get? (s.resetFields ns) n = some [] := by
  rw [FieldsStore.resetFields_eq] at hn ⊢
  rw [Obj.foldl_set_keys] at hn
  rcases hn with hn | hn
  · simp [Obj.keys] at hn
  · exact Obj.foldl_set_get?_mem (fun name => name) (fun _ => ([] : Field)) _ _ n []
      hn (fun _ _ _ => rfl)

/-- The form's `resetFields(ns)` when the store's `resetFields` names a field: the
records are those of `FieldsStore.setFields` on the map of empty records. -/
theorem Form.resetFields_writes (fm : Form) (ns : Option (List String))
    (hempty : "" ∉ fm.fieldsStore.getAllFieldsName)
    (hsome : fm.fieldsStore.resetFields ns ≠ []) :
    ∃ fm1, fm.resetFields ns = .ok fm1 ∧
      fm1.fieldsStore = fm.fieldsStore.setFields (fm.fieldsStore.resetFields ns) := by
  have hlen : (Obj.keys (fm.fieldsStore.resetFields ns)).length > 0 := by
    cases h : fm.fieldsStore.resetFields ns with
    | nil => exact absurd h hsome
    | cons a t => simp [Obj.keys]
  have hreg : ∀ kv ∈ fm.fieldsStore.resetFields ns, kv.1 ∈ fm.fieldsStore.getAllFieldsName := by
    intro kv hkv
    have hk : kv.1 ∈ Obj.keys (fm.fieldsStore.resetFields ns) :=
      List.mem_map.2 ⟨kv, hkv, rfl⟩
    have := ((FieldsStore.resetFields_keys _ ns kv.1).1 hk).1
    cases ns with
    | none => exact this
    | some l => exact ((FieldsStore.mem_getValidFieldsFullName_iff _ l kv.1).1 this).1
  unfold Form.resetFields
  simp only [hlen, if_true]
  rw [Form.setFields_flat fm _ hempty hreg (FieldsStore.resetFields_nodup _ ns)]
  exact ⟨_, rfl, rfl⟩

/-- C13, as the code has it: in a store where the empty name is not registered, let
`b` be a registered field that is not hidden and whose record has a `value`, whose
`normalize` function, if any, leaves its `initialValue` as it is; let `c` be a name
other than `b` and not nested under `b`, whose `normalize` function, if any, leaves
its current effective value as it is.  Then the form's `resetFields([b])` completes,
leaves `b` with the empty record, so that its effective value is its `initialValue`,
and leaves the record and the effective value of `c` as they were; the metadata is
unchanged. -/
theorem resetFields_clears (fm : Form) (b c : String)
    (hempty : "" ∉ fm.fieldsStore.getAllFieldsName)
    (hb : b ∈ Obj.keys fm.fieldsStore.fieldsMeta)
    (hvis : (fm.fieldsStore.metaOf b).hidden.getD false = false)
    (hval : ∃ field, Obj.get? fm.fieldsStore.fields b = some field ∧
      Obj.has field "value" = true)
    (hcb : c ≠ b) (hnest : partOf b c = false)
    (hkb : fm.fieldsStore.keepsValue b
      ((fm.fieldsStore.metaOf b).initialValue.getD .undefined))
    (hkc : fm.fieldsStore.keepsValue c
      (fm.fieldsStore.getValueFromFields c fm.fieldsStore.fields).1) :
    ∃ fm1, fm.resetFields (some [b]) = .ok fm1 ∧
      Obj.get? fm1.fieldsStore.fields b = some [] ∧
      (fm1.fieldsStore.getValueFromFields b fm1.fieldsStore.fields).1 =
        (fm.fieldsStore.metaOf b).initialValue.getD .undefined ∧
      Obj.get? fm1.fieldsStore.fields c = Obj.get? fm.fieldsStore.fields c ∧
      (fm1.fieldsStore.getValueFromFields c fm1.fieldsStore.fields).1 =
        (fm.fieldsStore.getValueFromFields c fm.fieldsStore.fields).1 ∧
      fm1.fieldsStore.fieldsMeta = fm.fieldsStore.fieldsMeta := by
  have hbk : b ∈ Obj.keys (fm.fieldsStore.resetFields (some [b])) :=
    (FieldsStore.resetFields_keys _ _ b).2
      ⟨(FieldsStore.mem_getValidFieldsFullName_iff _ _ b).2
        ⟨hb, hvis, b, List.mem_singleton.2 rfl, Or.inl rfl⟩, hval⟩
  have hck : Obj.get? (fm.fieldsStore.resetFields (some [b])) c = none := by
    rw [Obj.get?_eq_none]
    intro hc
    have h1 := ((FieldsStore.resetFields_keys _ _ c).1 hc).1
    obtain ⟨_, _, p, hp, h2⟩ := (FieldsStore.mem_getValidFieldsFullName_iff _ _ c).1 h1
    rw [List.mem_singleton.1 hp] at h2
    rcases h2 with h2 | h2
    · exact hcb h2
    · rw [hnest] at h2
      exact Bool.noConfusion h2
  have hnodup := FieldsStore.resetFields_nodup fm.fieldsStore (some [b])
  have hsome : fm.fieldsStore.resetFields (some [b]) ≠ [] := by
    intro h
    rw [h] at hbk
    simp [Obj.keys] at hbk
  obtain ⟨fm1, hrun, hstore⟩ := Form.resetFields_writes fm (some [b]) hempty hsome
  have hnowb : Obj.get? (Obj.spread fm.fieldsStore.fields
      (fm.fieldsStore.resetFields (some [b]))) b = some [] := by
    rw [Obj.get?_spread _ _ b hnodup, FieldsStore.resetFields_get? _ _ b hbk]
    rfl
  have hnowc : Obj.get? (Obj.spread fm.fieldsStore.fields
      (fm.fieldsStore.resetFields (some [b]))) c = Obj.get? fm.fieldsStore.fields c := by
    rw [Obj.get?_spread _ _ c hnodup, hck]
    rfl
  have hrecb : Obj.get? fm1.fieldsStore.fields b = some [] := by
    rw [hstore, FieldsStore.setFields_record_keeps _ _ b hnodup,
      FieldsStore.resetFields_get? _ _ b hbk]
    · rfl
    · rw [FieldsStore.getValueFromFields_fst, hnowb]
      exact hkb
  have hrecc : Obj.get? fm1.fieldsStore.fields c = Obj.get? fm.fieldsStore.fields c := by
    rw [hstore, FieldsStore.setFields_record_keeps _ _ c hnodup, hck]
    · rfl
    · rw [FieldsStore.getValueFromFields_fst, hnowc, ← FieldsStore.getValueFromFields_fst]
      exact hkc
  have hmeta : fm1.fieldsStore.fieldsMeta = fm.fieldsStore.fieldsMeta := by
    rw [hstore]
    rfl
  have hmetaOf : ∀ n, fm1.fieldsStore.metaOf n = fm.fieldsStore.metaOf n := by
    intro n
    unfold FieldsStore.metaOf
    rw [hmeta]
  refine ⟨fm1, hrun, hrecb, ?_, hrecc, ?_, hmeta⟩
  · rw [FieldsStore.getValueFromFields_fst, hrecb, hmetaOf]
    rfl
  · rw [FieldsStore.getValueFromFields_fst, hrecc, hmetaOf,
      ← FieldsStore.getValueFromFields_fst]

/-- The witness of `resetFields_clears`: on `Demo.storePlain`, `resetFields(['a.b'])`
leaves `a.b` with the empty record and the effective value 0, its `initialValue`, and
`a.c` with the record it had. -/
theorem resetFields_clears_witness :
    ∃ fm1, Form.resetFields { fieldsStore := Demo.storePlain } (some ["a.b"]) = .ok fm1 ∧
      Obj.get? fm1.fieldsStore.fields "a.b" = some [] ∧
      (fm1.fieldsStore.getValueFromFields "a.b" fm1.fieldsStore.fields).1 = .num 0 ∧
      Obj.get? fm1.fieldsStore.fields "a.c" = some [("value", .num 2)] :=
  let ⟨fm1, h1, h2, h3, h4, _, _⟩ :=
    resetFields_clears { fieldsStore := Demo.storePlain } "a.b" "a.c" (by decide) (by decide)
      (by decide) ⟨_, rfl, by decide⟩ (by decide) (by decide)
      (fun _ h => nomatch h) (fun _ h => nomatch h)
  ⟨fm1, h1, h2, h3, h4⟩

/-- C13 as stated fails: on `Demo.storeReset`, where `a.b` and `a.c` are registered
with the values 1 and 2 and `a.c` has the `normalize` function that adds one,
`resetFields(['a.b'])` leaves `a.c` with the value 3; and a hidden `a.b` keeps its
value. -/
theorem resetFields_frame_counterexample :
    (Form.resetFields { fieldsStore := Demo.storeReset } (some ["a.b"])).map
        (fun fm1 => fm1.fieldsStore.fields) =
      .ok [("a.b", []), ("a.c", [("value", .num 3)])] ∧
    (Form.resetFields
        { fieldsStore :=
          { fields := [("a.b", [("value", .num 1)]), ("a.c", [("value", .num 2)])],
            fieldsMeta := [("a.b", { hidden := some true }), ("a.c", {})] } }
        (some ["a.b"])).map (fun fm1 => fm1.fieldsStore.fields) =
      .ok [("a.b", [("value", .num 1)]), ("a.c", [("value", .num 2)])] :=
  ⟨rfl, rfl⟩

/-! ## `setFieldsValue` with nothing registered in the values -/

theorem FieldsStore.flattenRegisteredFields_root (s : FieldsStore) (fields : JSVal)
    (t : Trav Props) (h : s.flattenRegisteredFields fields = .ok t) (hnone : t.acc = []) :
    "" ∉ s.getAllFieldsName := by
  intro hmem
  unfold FieldsStore.flattenRegisteredFields flattenFields at h
  rw [treeTraverse_leaf _ _ _ _ _ _ (by simpa using hmem)] at h
  injection h with h
  rw [← h] at hnone
  simp [Obj.set] at hnone

/-- C20, as the code has it: when the flattening of the values by registered names
completes and collects no pair (no value sits at a registered path), the store that
`setFieldsValue` leaves is the one `FieldsStore.setFields` gives on the empty map:
the metadata is unchanged, and so is the record of every field whose `normalize`
function, if any, leaves its current effective value as it is.  The console has
the messages of the traversal appended. -/
theorem setFieldsValue_unregistered (fm : Form) (changedValues : JSVal) (t : Trav Props)
    (hflat : fm.fieldsStore.flattenRegisteredFields changedValues = .ok t)
    (hnone : t.acc = []) :
    (fm.setFieldsValue changedValues).1.fieldsStore = fm.fieldsStore.setFields [] ∧
    (fm.setFieldsValue changedValues).1.fieldsStore.fieldsMeta = fm.fieldsStore.fieldsMeta ∧
    (∀ f, fm.fieldsStore.keepsValue f
        (fm.fieldsStore.getValueFromFields f fm.fieldsStore.fields).1 →
      Obj.get? (fm.setFieldsValue changedValues).1.fieldsStore.fields f =
        Obj.get? fm.fieldsStore.fields f) ∧
    (fm.setFieldsValue changedValues).1.console = fm.console ++ t.log := by
  have hempty := FieldsStore.flattenRegisteredFields_root _ _ t hflat hnone
  have hstore : (fm.setFieldsValue changedValues).1 =
      { fm with
        fieldsStore := fm.fieldsStore.setFields []
        console := fm.console ++ t.log } := by
    unfold Form.setFieldsValue
    rw [hflat]
    simp only [hnone, List.filter_nil, List.map_nil, List.foldl_nil, ite_self,
      List.append_nil]
    have h0 := Form.setFields_flat { fm with console := fm.console ++ t.log } [] hempty
      (fun kv h => absurd h (List.not_mem_nil kv)) List.nodup_nil
    simp only [List.map_nil] at h0
    rw [h0]
  rw [hstore]
  refine ⟨rfl, rfl, ?_, rfl⟩
  intro f hkeep
  simp only
  have hk : fm.fieldsStore.keepsValue f
      (fm.fieldsStore.getValueFromFields f (Obj.spread fm.fieldsStore.fields [])).1 := hkeep
  rw [FieldsStore.setFields_record_keeps fm.fieldsStore [] f List.nodup_nil hk]
  rfl

/-- The witness of `setFieldsValue_unregistered`: on `Demo.storePlain`,
`setFieldsValue({z: 1})` with `z` not registered leaves the record of `a.c`. -/
theorem setFieldsValue_unregistered_witness :
    Obj.get? (Form.setFieldsValue { fieldsStore := Demo.storePlain }
        (.obj [("z", .num 1)])).1.fieldsStore.fields "a.c" = some [("value", .num 2)] :=
  (setFieldsValue_unregistered { fieldsStore := Demo.storePlain } (.obj [("z", .num 1)])
    { acc := [], log := ["You cannot set field before registering it."] } rfl rfl).2.2.1
      "a.c" (fun _ h => nomatch h)

/-- C20 as stated fails: on `Demo.storeReset`, where `a.c` has the value 2 and the
`normalize` function that adds one, `setFieldsValue({z: 1})` with `z` not registered
leaves `a.c` with the value 3. -/
theorem setFieldsValue_unregistered_counterexample :
    (Form.setFieldsValue { fieldsStore := Demo.storeReset }
        (.obj [("z", .num 1)])).1.fieldsStore.fields =
      [("a.b", [("value", .num 1)]), ("a.c", [("value", .num 3)])] ∧
    Demo.storeReset.fields = [("a.b", [("value", .num 1)]), ("a.c", [("value", .num 2)])] ∧
    Demo.storeReset.flattenRegisteredFields (.obj [("z", .num 1)]) =
      .ok { acc := [], log := ["You cannot set field before registering it."] } :=
  ⟨by decide, rfl, rfl⟩

/-! ## `getAllValues`: the nested snapshot -/

theorem FieldsStore.getValueFromFields_snd (s : FieldsStore) (name : String)
    (fields : List (String × Field)) (h : name ∈ Obj.keys s.fieldsMeta) :
    (s.getValueFromFields name fields).2 = s := by
  unfold FieldsStore.getValueFromFields
  cases Obj.get? fields name with
  | none => exact FieldsStore.getFieldMeta_registered s name h
  | some field =>
    by_cases hv : Obj.has field "value" = true
    · simp [hv]
    · simp only [hv]
      exact FieldsStore.getFieldMeta_registered s name h

/-- The loop `reduceSet` over registered names with the getter `getValueFromFields`:
the store stays as it is, and the result is the run of `set` calls with the values
read in that store. -/
theorem FieldsStore.reduceSet_registered (s : FieldsStore) (fields : List (String × Field))
    (key : String → String) (l : List String) (hl : ∀ n ∈ l, n ∈ Obj.keys s.fieldsMeta)
    (acc : JSVal) :
    FieldsStore.reduceSet (fun st name => st.getValueFromFields name fields) key l acc s =
      ((l.map (fun n => (key n, (s.getValueFromFields n fields).1))).foldl
        (fun g kv => Lodash.set g kv.1 kv.2) acc, s) := by
  induction l generalizing acc with
  | nil => rfl
  | cons f rest ih =>
    rw [FieldsStore.reduceSet]
    rw [FieldsStore.getValueFromFields_snd s f fields (hl f (List.mem_cons_self _ _)),
      ih (fun n hn => hl n (List.mem_cons_of_mem _ hn))]
    rfl

theorem Lodash.clearPath_empty (p : List String) : Lodash.clearPath p (.obj []) = true := by
  cases p with
  | nil => rfl
  | cons k rest =>
    cases rest with
    | nil => rfl
    | cons k2 r =>
      rw [Lodash.clearPath_cons]
      rfl

theorem Lodash.baseGetPath_empty (p : List String) (hp : p ≠ []) :
    Lodash.baseGetPath p (.obj []) = .undefined := by
  cases p with
  | nil => exact absurd rfl hp
  | cons k rest =>
    cases rest with
    | nil => rfl
    | cons k2 r => rfl

/-- C15, as the code has it: when the registered names address distinct places (each
key path is not empty, holds no refused key and starts with a key without path
syntax, and the key paths of two different names part), `getAllValues()` leaves the
store as it is and returns an object in which reading the path of every registered
name, hidden or not, yields the effective value of that name, and in which every
key path that parts from the key paths of all registered names reads `undefined`. -/
theorem getAllValues_spec (s : FieldsStore)
    (hN : pathsApart (Obj.keys s.fieldsMeta) = true) :
    s.getAllValues.2 = s ∧
    (∀ n ∈ Obj.keys s.fieldsMeta,
      Lodash.get s.getAllValues.1 n = (s.getValueFromFields n s.fields).1) ∧
    (∀ p, p ≠ [] → Lodash.plainKeys p = true →
      (∀ n ∈ Obj.keys s.fieldsMeta, Lodash.apart p (Lodash.keyPath n) = true) →
      Lodash.baseGetPath p s.getAllValues.1 = .undefined) := by
  have hrun : s.getAllValues =
      (((Obj.keys s.fieldsMeta).map
          (fun n => (n, (s.getValueFromFields n s.fields).1))).foldl
        (fun g kv => Lodash.set g kv.1 kv.2) (.obj []), s) := by
    unfold FieldsStore.getAllValues
    exact FieldsStore.reduceSet_registered s s.fields id _ (fun _ h => h) _
  obtain ⟨h1, _, h3⟩ := foldl_set_placed (Obj.keys s.fieldsMeta) hN
    ((Obj.keys s.fieldsMeta).map (fun n => (n, (s.getValueFromFields n s.fields).1)))
    (by
      intro kv hkv
      obtain ⟨n, hn, rfl⟩ := List.mem_map.1 hkv
      exact hn)
    (fun _ => .undefined) (.obj []) (Placed_empty _ hN)
  rw [hrun]
  refine ⟨rfl, ?_, ?_⟩
  · intro n hn
    simp only
    rw [get_of_Placed _ hN _ _ h1 n hn, lastOf_map, if_pos hn]
  · intro p hp hplain hapart
    simp only
    rw [(h3 p hplain (Lodash.clearPath_empty p) hapart).2]
    exact Lodash.baseGetPath_empty p hp

/-- The witness of `getAllValues_spec`: on `Demo.storeNested`, where `user.name` and
`list[0]` are registered, the snapshot reads `"al"` at `user.name` and 3 at
`list[0]`, and `undefined` at `user.age`. -/
theorem getAllValues_spec_witness :
    Lodash.get Demo.storeNested.getAllValues.1 "user.name" = .str "al" ∧
      Lodash.get Demo.storeNested.getAllValues.1 "list[0]" = .num 3 ∧
      Lodash.baseGetPath ["user", "age"] Demo.storeNested.getAllValues.1 = .undefined :=
  let h := getAllValues_spec Demo.storeNested (by decide)
  ⟨h.2.1 "user.name" (by decide), h.2.1 "list[0]" (by decide),
    h.2.2 ["user", "age"] (by decide) (by decide) (by decide)⟩

/-- C15 as stated fails: in `Demo.storeQuoted` the registered names `["a.b"]` (value
1) and `a.b` (value 2) have the key paths `[a.b]` and `[a, b]`, neither a prefix of
the other, and the snapshot reads 2 at `["a.b"]`; in `Demo.storeIndex` the names
`a[0]` (value 1) and `a.0` (value 2) both address the first element of `a`, and the
snapshot reads 2 at `a[0]`. -/
theorem getAllValues_counterexample :
    Demo.storeQuoted.getAllValues.1 = .obj [("a.b", .num 2)] ∧
      Lodash.get Demo.storeQuoted.getAllValues.1 "[\"a.b\"]" = .num 2 ∧
      (Demo.storeQuoted.getValueFromFields "[\"a.b\"]" Demo.storeQuoted.fields).1 = .num 1 ∧
      Lodash.keyPath "[\"a.b\"]" = ["a.b"] ∧ Lodash.keyPath "a.b" = ["a", "b"] ∧
      Demo.storeQuoted.isValidNestedFieldName "a.b" = true ∧
      Demo.storeQuoted.isValidNestedFieldName "[\"a.b\"]" = true ∧
      Demo.storeIndex.getAllValues.1 = .obj [("a", .arr [.num 2])] ∧
      Lodash.get Demo.storeIndex.getAllValues.1 "a[0]" = .num 2 ∧
      (Demo.storeIndex.getValueFromFields "a[0]" Demo.storeIndex.fields).1 = .num 1 := by
  decide

/-! ## `set` on a container without keys of path syntax -/

theorem plainTop_isObject (g : JSVal) (h : plainTop g = true) : g.isObject = true := by
  cases g <;> first | rfl | (simp [plainTop] at h)

theorem plainTop_obj (kvs : Props) :
    plainTop (.obj kvs) = true ↔
      ∀ t ∈ Obj.keys kvs, Lodash.reIsDeepProp t.toList = false := by
  simp only [plainTop, List.all_eq_true, Bool.not_eq_true', Obj.keys, List.mem_map]
  constructor
  · rintro h t ⟨kv, hkv, rfl⟩
    exact h kv hkv
  · intro h kv hkv
    exact h kv.1 ⟨kv, hkv, rfl⟩

theorem Lodash.castPath_plainTop (m : String) (g : JSVal) (h : plainTop g = true) :
    Lodash.castPath m g = Lodash.keyPath m := by
  cases g with
  | obj kvs =>
    apply Lodash.castPath_eq
    intro hd hin
    have := (plainTop_obj kvs).1 h m hin
    rw [hd] at this
    cases this
  | arr xs =>
    unfold Lodash.keyPath Lodash.castPath Lodash.isKey
    simp [Obj.has, Obj.get?]
  | _ => simp [plainTop] at h

theorem Lodash.set_plainTop (m : String) (g v : JSVal) (h : plainTop g = true) :
    Lodash.set g m v = Lodash.baseSetPath (Lodash.keyPath m) g v := by
  unfold Lodash.set
  rw [plainTop_isObject g h, Lodash.castPath_plainTop m g h]
  rfl

theorem Lodash.get_plainTop (m : String) (g : JSVal) (h : plainTop g = true)
    (hne : Lodash.keyPath m ≠ []) :
    Lodash.get g m = Lodash.baseGetPath (Lodash.keyPath m) g := by
  have hc := Lodash.castPath_plainTop m g h
  cases hp : Lodash.keyPath m with
  | nil => exact absurd hp hne
  | cons k r =>
    rw [hp] at hc
    cases g with
    | obj kvs => unfold Lodash.get; simp only [hc]
    | arr xs => unfold Lodash.get; simp only [hc]
    | _ => simp [plainTop] at h

theorem Lodash.baseSetPath_arr (q : List String) (xs : List JSVal) (v : JSVal) :
    ∃ ys, Lodash.baseSetPath q (.arr xs) v = .arr ys := by
  cases q with
  | nil => exact ⟨xs, rfl⟩
  | cons k rest =>
    obtain ⟨x, hx | hx⟩ := Lodash.baseSetPath_head k rest (.arr xs) v
    · exact ⟨xs, hx⟩
    · rw [hx]
      unfold Lodash.assignValue
      cases Lodash.arrayIndex? k with
      | none => exact ⟨xs, rfl⟩
      | some i => exact ⟨_, rfl⟩

theorem Lodash.baseSetPath_plainTop (q : List String) (g v : JSVal) (h : plainTop g = true)
    (hq : Lodash.reIsDeepProp (q.headD "").toList = false) :
    plainTop (Lodash.baseSetPath q g v) = true := by
  cases g with
  | arr xs =>
    obtain ⟨ys, hy⟩ := Lodash.baseSetPath_arr q xs v
    rw [hy]
    rfl
  | obj kvs =>
    cases q with
    | nil => exact h
    | cons k rest =>
      obtain ⟨kvs2, h2, hk2, _⟩ := Lodash.baseSetPath_obj k rest kvs v
      rw [h2, plainTop_obj]
      intro t ht
      rcases hk2 t ht with e | e
      · rw [e]; exact hq
      · exact (plainTop_obj kvs).1 h t e
  | _ => simp [plainTop] at h

/-- A run of `set` calls on a container without keys of path syntax, at names whose
key paths start with a key without path syntax: each call writes along the key path
of its name. -/
theorem Lodash.foldl_set_plainTop (l : List (String × JSVal))
    (hl : ∀ kv ∈ l, Lodash.reIsDeepProp ((Lodash.keyPath kv.1).headD "").toList = false)
    (g : JSVal) (h : plainTop g = true) :
    l.foldl (fun g kv => Lodash.set g kv.1 kv.2) g =
        insertLeaves (l.map (fun kv => (Lodash.keyPath kv.1, kv.2))) g ∧
      plainTop (l.foldl (fun g kv => Lodash.set g kv.1 kv.2) g) = true := by
  induction l generalizing g with
  | nil => exact ⟨rfl, h⟩
  | cons kv rest ih =>
    have h1 := Lodash.set_plainTop kv.1 g kv.2 h
    have h2 := Lodash.baseSetPath_plainTop (Lodash.keyPath kv.1) g kv.2 h
      (hl kv (List.mem_cons_self _ _))
    rw [← h1] at h2
    obtain ⟨i1, i2⟩ := ih (fun x hx => hl x (List.mem_cons_of_mem _ hx)) _ h2
    rw [List.foldl_cons]
    refine ⟨?_, i2⟩
    rw [i1, h1]
    rfl

/-! ## Reading a path after a run of writes -/

theorem Lodash.apart_irrefl (p : List String) : Lodash.apart p p = false := by
  have hb : ∀ p : List String, Lodash.apartBelow p p = false := by
    intro p
    induction p with
    | nil => rfl
    | cons k t ih => simp [Lodash.apartBelow, ih]
  cases p with
  | nil => rfl
  | cons k t => simp [Lodash.apart, hb]

/-- The value at a path after a run of writes, each at that path or at a path that
parts from it: the value of the last write at the path, or what was there. -/
theorem Lodash.insertLeaves_at (l : List (List String × JSVal)) (p : List String)
    (o : JSVal) (hp : p ≠ []) (hk : Lodash.plainKeys p = true)
    (hc : Lodash.clearPath p o = true)
    (hl : ∀ pv ∈ l, pv.1 = p ∨ Lodash.apart p pv.1 = true) :
    Lodash.clearPath p (insertLeaves l o) = true ∧
      Lodash.baseGetPath p (insertLeaves l o) =
        (((l.filter (fun pv => decide (pv.1 = p))).getLast?).map Prod.snd).getD
          (Lodash.baseGetPath p o) := by
  induction l generalizing o with
  | nil => exact ⟨hc, rfl⟩
  | cons pv rest ih =>
    have hrest : ∀ x ∈ rest, x.1 = p ∨ Lodash.apart p x.1 = true :=
      fun x hx => hl x (List.mem_cons_of_mem _ hx)
    unfold insertLeaves at ih ⊢
    rw [List.foldl_cons]
    rcases hl pv (List.mem_cons_self _ _) with e | e
    · obtain ⟨s1, s2⟩ := Lodash.baseGet_baseSet_same p o pv.2 hp hk hc
      rw [e]
      obtain ⟨i1, i2⟩ := ih _ s2 hrest
      refine ⟨i1, ?_⟩
      rw [i2, s1, List.filter_cons, if_pos (by simpa using e)]
      cases hf : rest.filter (fun pv => decide (pv.1 = p)) with
      | nil => rfl
      | cons x t =>
        rw [List.getLast?_cons_cons, List.getLast?_eq_getLast _ (List.cons_ne_nil x t)]
        rfl
    · obtain ⟨s1, s2⟩ := Lodash.baseGet_baseSet_apart p pv.1 o pv.2 hk hc e
      obtain ⟨i1, i2⟩ := ih _ s2 hrest
      refine ⟨i1, ?_⟩
      have hne : ¬ pv.1 = p := by
        intro e2
        rw [e2, Lodash.apart_irrefl] at e
        cases e
      rw [i2, s1, List.filter_cons, if_neg (by simpa using hne)]

/-! ## Writing below a path: the sub-tree at the path -/

theorem Lodash.baseGetPath_fresh (k2 : String) (rest : List String)
    (h : Lodash.isIndex k2 = true → (Lodash.arrayIndex? k2).isSome = true) :
    Lodash.baseGetPath (k2 :: rest) (Lodash.containerFor k2) = .undefined := by
  have hget : Lodash.getProp (Lodash.containerFor k2) k2 = .undefined := by
    unfold Lodash.containerFor
    by_cases hi : Lodash.isIndex k2 = true
    · have hs := h hi
      have hl := Lodash.arrayIndex?_ne_length k2 hs
      obtain ⟨i, hi2⟩ := Option.isSome_iff_exists.1 hs
      simp [Lodash.getProp, hl, hi2, hi]
    · simp only [hi]
      rfl
  rw [Lodash.baseGetPath_cons _ _ _ (Lodash.containerFor_isObject k2), hget,
    Lodash.baseGetPath_undefined]

/-- A write below the path `p`, at `p ++ q`: the sub-tree at `p` afterwards is the
write at `q` into the sub-tree that was there, or into the container made for the
first key of `q` when there was none; and `p` stays clear. -/
theorem Lodash.baseGet_baseSet_under (p q : List String) (o v : JSVal) (hq : q ≠ [])
    (hk : Lodash.plainKeys p = true) (hobj : o.isObject = true)
    (hc : Lodash.clearPath p o = true) :
    Lodash.baseGetPath p (Lodash.baseSetPath (p ++ q) o v) =
        Lodash.baseSetPath q
          (if (Lodash.baseGetPath p o).isObject then Lodash.baseGetPath p o
           else Lodash.containerFor (q.headD "")) v ∧
      Lodash.clearPath p (Lodash.baseSetPath (p ++ q) o v) = true := by
  induction p generalizing o with
  | nil =>
    simp only [List.nil_append, Lodash.baseGetPath, hobj, if_true]
    exact ⟨trivial, rfl⟩
  | cons k p ih =>
    obtain ⟨hf, _, hkp⟩ := (Lodash.plainKeys_cons k p).1 hk
    have hacc := Lodash.clearPath_head k p o hc
    obtain ⟨k2, r, hr⟩ : ∃ k2 r, p ++ q = k2 :: r := by
      cases hpq : p ++ q with
      | nil =>
        have := List.append_eq_nil.1 hpq
        exact absurd this.2 hq
      | cons a b => exact ⟨a, b, rfl⟩
    have hnew : (if (Lodash.getProp o k).isObject then Lodash.getProp o k
        else if Lodash.isIndex k2 then JSVal.arr [] else JSVal.obj []).isObject = true := by
      by_cases h1 : (Lodash.getProp o k).isObject = true
      · simp only [h1, if_true]
      · have h2 : (Lodash.getProp o k).isObject = false := by simpa using h1
        simp only [h2, Bool.false_eq_true, if_false]
        by_cases h3 : Lodash.isIndex k2 = true
        · simp only [h3, if_true]; rfl
        · simp only [h3, if_false]; rfl
    have hchild : Lodash.clearPath p
        (if (Lodash.getProp o k).isObject then Lodash.getProp o k
         else if Lodash.isIndex k2 then JSVal.arr [] else JSVal.obj []) = true := by
      cases p with
      | nil => rfl
      | cons k3 r3 =>
        have hk3 : k3 = k2 := by
          simp only [List.cons_append, List.cons.injEq] at hr
          exact hr.1
        subst hk3
        obtain ⟨_, hidx2, _⟩ := (Lodash.plainKeys_cons k3 r3).1 hkp
        rw [Lodash.clearPath_cons] at hc
        simp only [Bool.and_eq_true, Bool.or_eq_true, decide_eq_true_eq] at hc
        rcases hc.2 with hu | hcl
        · rw [hu]
          simp only [JSVal.isObject, Bool.false_eq_true, if_false]
          exact Lodash.clearPath_fresh k3 r3 (Lodash.isIndex k3) hidx2
        · have := Lodash.accepts_isObject _ _ (Lodash.clearPath_head k3 r3 _ hcl)
          rw [this]
          simpa using hcl
    have hsub : (if (Lodash.baseGetPath p
          (if (Lodash.getProp o k).isObject then Lodash.getProp o k
           else if Lodash.isIndex k2 then JSVal.arr [] else JSVal.obj [])).isObject
        then Lodash.baseGetPath p
          (if (Lodash.getProp o k).isObject then Lodash.getProp o k
           else if Lodash.isIndex k2 then JSVal.arr [] else JSVal.obj [])
        else Lodash.containerFor (q.headD "")) =
        (if (Lodash.baseGetPath (k :: p) o).isObject then Lodash.baseGetPath (k :: p) o
         else Lodash.containerFor (q.headD "")) := by
      rw [Lodash.baseGetPath_cons k p o hobj]
      by_cases h1 : (Lodash.getProp o k).isObject = true
      · simp only [h1, if_true]
      · simp only [h1]
        cases p with
        | nil =>
          have hq2 : q = k2 :: r := by simpa using hr
          have hfresh : (if Lodash.isIndex k2 then JSVal.arr [] else JSVal.obj []) =
              Lodash.containerFor (q.headD "") := by
            rw [hq2]
            rfl
          simp only [Lodash.baseGetPath, Bool.false_eq_true, if_false]
          rw [hfresh, Lodash.containerFor_isObject]
          simp only [if_true]
          have h2 : (Lodash.getProp o k).isObject = false := by simpa using h1
          rw [h2]
          simp
        | cons k3 r3 =>
          have hk3 : k3 = k2 := by
            simp only [List.cons_append, List.cons.injEq] at hr
            exact hr.1
          subst hk3
          obtain ⟨_, hidx2, _⟩ := (Lodash.plainKeys_cons k3 r3).1 hkp
          have hu : Lodash.getProp o k = .undefined := by
            rw [Lodash.clearPath_cons] at hc
            simp only [Bool.and_eq_true, Bool.or_eq_true, decide_eq_true_eq] at hc
            rcases hc.2 with hu | hcl
            · exact hu
            · exact absurd (Lodash.accepts_isObject _ _ (Lodash.clearPath_head k3 r3 _ hcl)) h1
          have hfr := Lodash.baseGetPath_fresh k3 r3 hidx2
          unfold Lodash.containerFor at hfr
          simp only [Bool.false_eq_true, if_false]
          rw [hfr, hu, Lodash.baseGetPath_undefined]
    obtain ⟨i1, i2⟩ := ih _ hkp hnew hchild
    rw [hsub] at i1
    rw [List.cons_append, hr, Lodash.baseSetPath_cons k k2 r o v hf, ← hr]
    have hres : (Lodash.assignValue o k (Lodash.baseSetPath (p ++ q)
        (if (Lodash.getProp o k).isObject then Lodash.getProp o k
         else if Lodash.isIndex k2 then JSVal.arr [] else JSVal.obj []) v)).isObject = true :=
      Lodash.assignValue_isObject o k _ hobj
    rw [Lodash.baseGetPath_cons _ _ _ hres, Lodash.getProp_assign_same _ _ _ hacc]
    refine ⟨i1, ?_⟩
    cases p with
    | nil =>
      show Lodash.accepts _ k = true
      rw [Lodash.accepts_assign]
      exact hacc
    | cons k3 r3 =>
      rw [Lodash.clearPath_cons, Lodash.accepts_assign, hacc,
        Lodash.getProp_assign_same _ _ _ hacc, i2]
      simp

/-- Two runs of writes side by side: one at the paths `path f` into `o`, the other, for
the names under `p` only, at the remaining paths `q f` into `r`.  When the sub-tree of
`o` at `p` is `r`, or is no container yet while `r` is the container the first write
under `p` makes there, the same holds after the runs. -/
theorem Lodash.insertLeaves_under (p : List String) (hp : p ≠ [])
    (hk : Lodash.plainKeys p = true) (root : JSVal) (hroot : root.isObject = true)
    (isDesc : String → Bool) (path q : String → List String) (val : String → JSVal)
    (l : List String)
    (hdesc : ∀ f ∈ l, isDesc f = true → path f = p ++ q f ∧ q f ≠ [])
    (hother : ∀ f ∈ l, isDesc f = false → Lodash.apart p (path f) = true)
    (o r : JSVal) (hc : Lodash.clearPath p o = true)
    (hinv : (Lodash.baseGetPath p o = r ∧ r.isObject = true) ∨
      ((Lodash.baseGetPath p o).isObject = false ∧ r = root))
    (hfirst : (Lodash.baseGetPath p o).isObject = false →
      ∀ f, (l.filter isDesc).head? = some f →
        Lodash.containerFor ((q f).headD "") = root) :
    Lodash.clearPath p (insertLeaves (l.map (fun f => (path f, val f))) o) = true ∧
      ((Lodash.baseGetPath p o).isObject = true ∨ l.filter isDesc ≠ [] →
        Lodash.baseGetPath p (insertLeaves (l.map (fun f => (path f, val f))) o) =
          insertLeaves ((l.filter isDesc).map (fun f => (q f, val f))) r ∧
        (insertLeaves ((l.filter isDesc).map (fun f => (q f, val f))) r).isObject = true) := by
  induction l generalizing o r with
  | nil =>
    refine ⟨hc, ?_⟩
    intro h
    rcases h with h | h
    · rcases hinv with ⟨e1, e2⟩ | ⟨e1, _⟩
      · exact ⟨e1, e2⟩
      · rw [h] at e1; cases e1
    · exact absurd rfl h
  | cons f rest ih =>
    have hobj : o.isObject = true := by
      cases p with
      | nil => exact absurd rfl hp
      | cons k t => exact Lodash.accepts_isObject o k (Lodash.clearPath_head k t o hc)
    have hdesc2 : ∀ g ∈ rest, isDesc g = true → path g = p ++ q g ∧ q g ≠ [] :=
      fun g hg => hdesc g (List.mem_cons_of_mem _ hg)
    have hother2 : ∀ g ∈ rest, isDesc g = false → Lodash.apart p (path g) = true :=
      fun g hg => hother g (List.mem_cons_of_mem _ hg)
    unfold insertLeaves at ih ⊢
    rw [List.map_cons, List.foldl_cons]
    cases hd : isDesc f with
    | true =>
      obtain ⟨hpath, hqne⟩ := hdesc f (List.mem_cons_self _ _) hd
      obtain ⟨s1, s2⟩ := Lodash.baseGet_baseSet_under p (q f) o (val f) hqne hk hobj hc
      have hsub : (if (Lodash.baseGetPath p o).isObject then Lodash.baseGetPath p o
          else Lodash.containerFor ((q f).headD "")) = r := by
        rcases hinv with ⟨e1, e2⟩ | ⟨e1, e2⟩
        · rw [e1, e2]
          rfl
        · rw [e1, e2]
          simp only [Bool.false_eq_true, if_false]
          apply hfirst e1 f
          rw [List.filter_cons, if_pos hd]
          rfl
      have hr : r.isObject = true := by
        rcases hinv with ⟨_, e2⟩ | ⟨_, e2⟩
        · exact e2
        · rw [e2]; exact hroot
      rw [hsub, ← hpath] at s1
      rw [← hpath] at s2
      have hr1 := Lodash.baseSetPath_isObject (q f) r (val f) hr
      have hfil : (f :: rest).filter isDesc = f :: rest.filter isDesc := by
        rw [List.filter_cons, if_pos hd]
      rw [hfil, List.map_cons, List.foldl_cons]
      obtain ⟨i1, i2⟩ := ih hdesc2 hother2 _ _ s2 (Or.inl ⟨s1, hr1⟩)
        (by
          intro hno
          rw [s1, hr1] at hno
          cases hno)
      refine ⟨i1, fun _ => i2 (Or.inl ?_)⟩
      rw [s1]
      exact hr1
    | false =>
      have ha := hother f (List.mem_cons_self _ _) hd
      obtain ⟨s1, s2⟩ := Lodash.baseGet_baseSet_apart p (path f) o (val f) hk hc ha
      have hfil : (f :: rest).filter isDesc = rest.filter isDesc := by
        rw [List.filter_cons, if_neg (by simp [hd])]
      rw [hfil]
      obtain ⟨i1, i2⟩ := ih hdesc2 hother2 _ _ s2 (by rw [s1]; exact hinv)
        (by
          rw [s1]
          intro hno g hg
          apply hfirst hno g
          rw [hfil]
          exact hg)
      refine ⟨i1, fun h => i2 ?_⟩
      rw [s1]
      exact h

/-! ## `getFieldValue` of a name with fields under it -/

theorem FieldsStore.reduceSet_fixed (getter : FieldsStore → String → JSVal × FieldsStore)
    (key : String → String) (val : String → JSVal) (s : FieldsStore) (l : List String)
    (h : ∀ n ∈ l, getter s n = (val n, s)) (acc : JSVal) :
    FieldsStore.reduceSet getter key l acc s =
      ((l.map (fun n => (key n, val n))).foldl (fun g kv => Lodash.set g kv.1 kv.2) acc, s) := by
  induction l generalizing acc with
  | nil => rfl
  | cons f rest ih =>
    rw [FieldsStore.reduceSet, h f (List.mem_cons_self _ _),
      ih (fun n hn => h n (List.mem_cons_of_mem _ hn))]
    rfl

/-- For a name under which no visible name is nested, `getFieldValue` is the read of
`getValueFromFields`. -/
theorem FieldsStore.getFieldValue_full (s : FieldsStore) (name : String)
    (hkeys : (Obj.keys s.fieldsMeta).Nodup)
    (hfull : ∀ n ∈ s.getValidFieldsName, partOf name n = false) :
    s.getFieldValue name = s.getValueFromFields name s.fields := by
  have hfilter : s.getValidFieldsFullName [name] =
      s.getValidFieldsName.filter (fun n => decide (n = name)) := by
    unfold FieldsStore.getValidFieldsFullName
    apply List.filter_congr
    intro n hn
    have := hfull n hn
    unfold partOf at this
    simp only [List.any_cons, List.any_nil, Bool.or_false, startsWith]
    rw [this]
    simp
  have hnd : s.getValidFieldsName.Nodup := by
    unfold FieldsStore.getValidFieldsName
    exact hkeys.filter _
  have hcount : (s.getValidFieldsName.filter (fun n => decide (n = name))).length ≤ 1 := by
    have hc := List.nodup_iff_count_le_one.1 hnd name
    rw [List.count_eq_countP, List.countP_eq_length_filter] at hc
    have : (s.getValidFieldsName.filter (fun n => decide (n = name))) =
        s.getValidFieldsName.filter (fun n => n == name) := by
      apply List.filter_congr; intro n _; rfl
    rw [this]
    exact hc
  unfold FieldsStore.getFieldValue FieldsStore.getNestedField
  rw [hfilter]
  have hcond : (s.getValidFieldsName.filter (fun n => decide (n = name))).length = 0 ∨
      ((s.getValidFieldsName.filter (fun n => decide (n = name))).length = 1 ∧
        (s.getValidFieldsName.filter (fun n => decide (n = name))).head? = some name) := by
    cases hl : s.getValidFieldsName.filter (fun n => decide (n = name)) with
    | nil => left; rfl
    | cons x t =>
      right
      rw [hl] at hcount
      have hx : x ∈ s.getValidFieldsName.filter (fun n => decide (n = name)) := by
        rw [hl]; exact List.mem_cons_self _ _
      have hxe : x = name := by simpa using (List.mem_filter.1 hx).2
      cases t with
      | nil => simp [hxe]
      | cons y t2 => simp at hcount
  simp only [hcond, if_true]

theorem FieldsStore.mem_getValidFieldsName (s : FieldsStore) (n : String)
    (h : n ∈ s.getValidFieldsName) : n ∈ Obj.keys s.fieldsMeta := by
  unfold FieldsStore.getValidFieldsName at h
  exact (List.mem_filter.1 h).1

/-- When no visible name is nested under another, `getFieldsValue()` is the run of
`set` calls at the visible names with their effective values, and the store stays
as it is. -/
theorem FieldsStore.getFieldsValue_all (s : FieldsStore)
    (hkeys : (Obj.keys s.fieldsMeta).Nodup)
    (hnest : ∀ f ∈ s.getValidFieldsName, ∀ n ∈ s.getValidFieldsName, partOf f n = false) :
    s.getFieldsValue none =
      ((s.getValidFieldsName.map (fun f => (f, (s.getValueFromFields f s.fields).1))).foldl
        (fun g kv => Lodash.set g kv.1 kv.2) (.obj []), s) := by
  unfold FieldsStore.getFieldsValue FieldsStore.getNestedFields
  simp only [Option.getD_none]
  have := FieldsStore.reduceSet_fixed (fun st name => st.getFieldValue name) id
    (fun f => (s.getValueFromFields f s.fields).1) s s.getValidFieldsName
    (by
      intro n hn
      simp only
      rw [FieldsStore.getFieldValue_full s n hkeys (hnest n hn)]
      exact Prod.ext rfl
        (FieldsStore.getValueFromFields_snd s n s.fields
          (FieldsStore.mem_getValidFieldsName s n hn)))
    (.obj [])
  simpa using this

/-- For a name that has visible names under it and is not one of them,
`getFieldValue` is the run of `set` calls at the remaining paths with the effective
values, from the container `getNestedField` starts with. -/
theorem FieldsStore.getFieldValue_nested_eq (s : FieldsStore) (name : String)
    (hD : s.getValidFieldsFullName [name] ≠ [])
    (hname : name ∉ s.getValidFieldsFullName [name]) :
    s.getFieldValue name =
      (((s.getValidFieldsFullName [name]).map
          (fun d => (s.suffixName name d, (s.getValueFromFields d s.fields).1))).foldl
        (fun g kv => Lodash.set g kv.1 kv.2) (s.nestedRoot name), s) := by
  have hcond : ¬ ((s.getValidFieldsFullName [name]).length = 0 ∨
      ((s.getValidFieldsFullName [name]).length = 1 ∧
        (s.getValidFieldsFullName [name]).head? = some name)) := by
    rintro (h | ⟨_, h⟩)
    · exact hD (List.length_eq_zero.1 h)
    · exact hname (List.mem_of_mem_head? h)
  have hsub : ∀ n ∈ s.getValidFieldsFullName [name], n ∈ Obj.keys s.fieldsMeta :=
    fun n hn => ((FieldsStore.mem_getValidFieldsFullName_iff s [name] n).1 hn).1
  unfold FieldsStore.getFieldValue FieldsStore.getNestedField
  simp only [hcond, if_false]
  exact FieldsStore.reduceSet_registered s s.fields _ _ hsub _

theorem FieldsStore.suffixesApart_mem (s : FieldsStore) (name : String)
    (h : s.suffixesApart name = true) (d : String)
    (hd : d ∈ s.getValidFieldsFullName [name]) :
    Lodash.keyPath (s.suffixName name d) ≠ [] ∧
      Lodash.plainKeys (Lodash.keyPath (s.suffixName name d)) = true ∧
      Lodash.reIsDeepProp ((Lodash.keyPath (s.suffixName name d)).headD "").toList = false ∧
      Lodash.clearPath (Lodash.keyPath (s.suffixName name d)) (s.nestedRoot name) = true ∧
      ∀ e ∈ s.getValidFieldsFullName [name], e ≠ d →
        Lodash.apart (Lodash.keyPath (s.suffixName name d))
          (Lodash.keyPath (s.suffixName name e)) = true := by
  unfold FieldsStore.suffixesApart at h
  have h1 := List.all_eq_true.1 h d hd
  simp only [Bool.and_eq_true, Bool.not_eq_true', decide_eq_true_eq, List.all_eq_true,
    Bool.or_eq_true, List.isEmpty_eq_false] at h1
  obtain ⟨⟨⟨⟨a, b⟩, c⟩, e⟩, f⟩ := h1
  refine ⟨a, b, c, e, ?_⟩
  intro m hm hne
  rcases f m hm with e1 | e1
  · exact absurd e1 hne
  · exact e1

theorem FieldsStore.composesUnder_mem (s : FieldsStore) (name : String)
    (h : s.composesUnder name = true) :
    Lodash.keyPath name ≠ [] ∧ Lodash.plainKeys (Lodash.keyPath name) = true ∧
      (∀ f ∈ s.getValidFieldsName,
        Lodash.reIsDeepProp ((Lodash.keyPath f).headD "").toList = false ∧
        (∀ n ∈ s.getValidFieldsName, partOf f n = false) ∧
        (f ∈ s.getValidFieldsFullName [name] →
          Lodash.keyPath f = Lodash.keyPath name ++ Lodash.keyPath (s.suffixName name f)) ∧
        (f ∉ s.getValidFieldsFullName [name] →
          Lodash.apart (Lodash.keyPath name) (Lodash.keyPath f) = true)) ∧
      (∀ d, (s.getValidFieldsFullName [name]).head? = some d →
        Lodash.containerFor ((Lodash.keyPath (s.suffixName name d)).headD "") =
          s.nestedRoot name) := by
  unfold FieldsStore.composesUnder at h
  simp only [Bool.and_eq_true, Bool.not_eq_true', List.all_eq_true,
    List.isEmpty_eq_false] at h
  obtain ⟨⟨⟨a, b⟩, c⟩, e⟩ := h
  refine ⟨a, b, ?_, ?_⟩
  · intro f hf
    obtain ⟨⟨c1, c2⟩, c3⟩ := c f hf
    refine ⟨c1, c2, ?_, ?_⟩
    · intro hin
      rw [if_pos hin] at c3
      exact of_decide_eq_true c3
    · intro hin
      rw [if_neg hin] at c3
      exact c3
  · intro d hd
    rw [hd] at e
    exact of_decide_eq_true e

theorem Lodash.baseGetPath_nestedRoot (s : FieldsStore) (name : String) (r : List String)
    (hr : r ≠ []) (hc : Lodash.clearPath r (s.nestedRoot name) = true) :
    Lodash.baseGetPath r (s.nestedRoot name) = .undefined := by
  unfold FieldsStore.nestedRoot at hc ⊢
  by_cases ha : s.isArrayValue name = true
  · rw [if_pos ha] at hc ⊢
    cases r with
    | nil => exact absurd rfl hr
    | cons k rest =>
      have hacc : (Lodash.arrayIndex? k).isSome = true := Lodash.clearPath_head k rest _ hc
      have hl := Lodash.arrayIndex?_ne_length k hacc
      obtain ⟨i, hi⟩ := Option.isSome_iff_exists.1 hacc
      have hget : Lodash.getProp (.arr []) k = .undefined := by
        simp [Lodash.getProp, hl, hi]
      have hobj : (JSVal.arr []).isObject = true := rfl
      rw [Lodash.baseGetPath_cons _ _ _ hobj, hget, Lodash.baseGetPath_undefined]
  · rw [if_neg ha]
    exact Lodash.baseGetPath_empty r hr

theorem FieldsStore.plainTop_nestedRoot (s : FieldsStore) (name : String) :
    plainTop (s.nestedRoot name) = true := by
  unfold FieldsStore.nestedRoot
  cases s.isArrayValue name <;> rfl

theorem List.getLast?_snd_of_all {α β : Type} (l : List (α × β)) (v dflt : β)
    (hne : l ≠ []) (h : ∀ x ∈ l, x.2 = v) :
    ((l.getLast?).map Prod.snd).getD dflt = v := by
  rw [List.getLast?_eq_getLast _ hne]
  exact h _ (List.getLast_mem hne)

/-- C14, as the code has it: let `name` have visible (non-hidden) registered names
equal to or nested under it, and not be one of them.  Then `getFieldValue(name)`
leaves the store as it is and returns the structure assembled by `set` from `[]`
when the first of these full names goes on with `[` after `name`, and from `{}`
otherwise, with the effective value of each full name at its remaining path.  When
the remaining paths address distinct places, reading the remaining path of a full
name yields its effective value, and a key path that parts from all of them reads
`undefined`.  When moreover the key paths of the visible names compose under `name`
(`composesUnder`) and the registered names are distinct, the structure is the
sub-tree found at `name` in `getFieldsValue()`. -/
theorem getFieldValue_nested (s : FieldsStore) (name : String)
    (hD : s.getValidFieldsFullName [name] ≠ [])
    (hname : name ∉ s.getValidFieldsFullName [name])
    (hS : s.suffixesApart name = true) :
    s.getFieldValue name =
        (((s.getValidFieldsFullName [name]).map
            (fun d => (s.suffixName name d, (s.getValueFromFields d s.fields).1))).foldl
          (fun g kv => Lodash.set g kv.1 kv.2) (s.nestedRoot name), s) ∧
      (∀ d ∈ s.getValidFieldsFullName [name],
        Lodash.get (s.getFieldValue name).1 (s.suffixName name d) =
          (s.getValueFromFields d s.fields).1) ∧
      (∀ r, r ≠ [] → Lodash.plainKeys r = true →
        Lodash.clearPath r (s.nestedRoot name) = true →
        (∀ d ∈ s.getValidFieldsFullName [name],
          Lodash.apart r (Lodash.keyPath (s.suffixName name d)) = true) →
        Lodash.baseGetPath r (s.getFieldValue name).1 = .undefined) ∧
      ((Obj.keys s.fieldsMeta).Nodup → s.composesUnder name = true →
        Lodash.get (s.getFieldsValue none).1 name = (s.getFieldValue name).1) := by
  have hrun := FieldsStore.getFieldValue_nested_eq s name hD hname
  obtain ⟨hfold, htop⟩ := Lodash.foldl_set_plainTop
    ((s.getValidFieldsFullName [name]).map
      (fun d => (s.suffixName name d, (s.getValueFromFields d s.fields).1)))
    (by
      intro kv hkv
      obtain ⟨d, hd, rfl⟩ := List.mem_map.1 hkv
      exact (FieldsStore.suffixesApart_mem s name hS d hd).2.2.1)
    (s.nestedRoot name) (FieldsStore.plainTop_nestedRoot s name)
  rw [List.map_map] at hfold
  have hval : (s.getFieldValue name).1 =
      insertLeaves ((s.getValidFieldsFullName [name]).map
        ((fun kv : String × JSVal => (Lodash.keyPath kv.1, kv.2)) ∘
          (fun d => (s.suffixName name d, (s.getValueFromFields d s.fields).1))))
        (s.nestedRoot name) := by
    rw [hrun]
    exact hfold
  have htop2 : plainTop (s.getFieldValue name).1 = true := by
    rw [hrun]
    exact htop
  refine ⟨hrun, ?_, ?_, ?_⟩
  · intro d hd
    obtain ⟨hq, hplain, _, hclear, hap⟩ := FieldsStore.suffixesApart_mem s name hS d hd
    rw [Lodash.get_plainTop _ _ htop2 hq, hval]
    have hat := Lodash.insertLeaves_at
      ((s.getValidFieldsFullName [name]).map
        ((fun kv : String × JSVal => (Lodash.keyPath kv.1, kv.2)) ∘
          (fun d => (s.suffixName name d, (s.getValueFromFields d s.fields).1))))
      (Lodash.keyPath (s.suffixName name d)) (s.nestedRoot name) hq hplain hclear
      (by
        intro pv hpv
        obtain ⟨e, he, rfl⟩ := List.mem_map.1 hpv
        by_cases hed : e = d
        · left; rw [hed]; rfl
        · right; exact hap e he hed)
    rw [hat.2]
    apply List.getLast?_snd_of_all
    · intro hnil
      have hmem : (Lodash.keyPath (s.suffixName name d), (s.getValueFromFields d s.fields).1) ∈
          ((s.getValidFieldsFullName [name]).map
            ((fun kv : String × JSVal => (Lodash.keyPath kv.1, kv.2)) ∘
              (fun d => (s.suffixName name d, (s.getValueFromFields d s.fields).1)))).filter
            (fun pv => decide (pv.1 = Lodash.keyPath (s.suffixName name d))) := by
        rw [List.mem_filter]
        exact ⟨List.mem_map.2 ⟨d, hd, rfl⟩, by simp⟩
      rw [hnil] at hmem
      exact absurd hmem (List.not_mem_nil _)
    · intro x hx
      obtain ⟨hx1, hx2⟩ := List.mem_filter.1 hx
      obtain ⟨e, he, rfl⟩ := List.mem_map.1 hx1
      have hpe : Lodash.keyPath (s.suffixName name e) = Lodash.keyPath (s.suffixName name d) := by
        simpa using hx2
      by_cases hed : e = d
      · rw [hed]; rfl
      · have := hap e he hed
        rw [hpe, Lodash.apart_irrefl] at this
        cases this
  · intro r hr hplain hclear hap
    rw [hval]
    have hat := Lodash.insertLeaves_at
      ((s.getValidFieldsFullName [name]).map
        ((fun kv : String × JSVal => (Lodash.keyPath kv.1, kv.2)) ∘
          (fun d => (s.suffixName name d, (s.getValueFromFields d s.fields).1))))
      r (s.nestedRoot name) hr hplain hclear
      (by
        intro pv hpv
        obtain ⟨e, he, rfl⟩ := List.mem_map.1 hpv
        right
        exact hap e he)
    rw [hat.2]
    have hnil : ((s.getValidFieldsFullName [name]).map
        ((fun kv : String × JSVal => (Lodash.keyPath kv.1, kv.2)) ∘
          (fun d => (s.suffixName name d, (s.getValueFromFields d s.fields).1)))).filter
        (fun pv => decide (pv.1 = r)) = [] := by
      rw [List.filter_eq_nil_iff]
      intro pv hpv
      obtain ⟨e, he, rfl⟩ := List.mem_map.1 hpv
      have := hap e he
      intro heq
      have heq2 : Lodash.keyPath (s.suffixName name e) = r := by simpa using heq
      rw [heq2, Lodash.apart_irrefl] at this
      cases this
    rw [hnil]
    exact Lodash.baseGetPath_nestedRoot s name r hr hclear
  · intro hkeys hC
    obtain ⟨hp, hpk, hall, hfirst⟩ := FieldsStore.composesUnder_mem s name hC
    have hbig := FieldsStore.getFieldsValue_all s hkeys (fun f hf => (hall f hf).2.1)
    obtain ⟨bfold, btop⟩ := Lodash.foldl_set_plainTop
      (s.getValidFieldsName.map (fun f => (f, (s.getValueFromFields f s.fields).1)))
      (by
        intro kv hkv
        obtain ⟨f, hf, rfl⟩ := List.mem_map.1 hkv
        exact (hall f hf).1)
      (.obj []) rfl
    rw [List.map_map] at bfold
    have hfil : s.getValidFieldsName.filter
        (fun f => decide (f ∈ s.getValidFieldsFullName [name])) =
        s.getValidFieldsFullName [name] := by
      unfold FieldsStore.getValidFieldsFullName
      apply List.filter_congr
      intro f hf
      simp only [List.mem_filter, hf, true_and]
      cases h : ([name].any fun partialName =>
          f == partialName ||
            startsWith f partialName &&
              (f.toList[partialName.length]? == some '.' ||
                f.toList[partialName.length]? == some '[')) <;> simp_all
    obtain ⟨_, hunder⟩ := Lodash.insertLeaves_under (Lodash.keyPath name) hp hpk
      (s.nestedRoot name) (plainTop_isObject _ (FieldsStore.plainTop_nestedRoot s name))
      (fun f => decide (f ∈ s.getValidFieldsFullName [name]))
      Lodash.keyPath (fun f => Lodash.keyPath (s.suffixName name f))
      (fun f => (s.getValueFromFields f s.fields).1) s.getValidFieldsName
      (by
        intro f hf hd
        have hin : f ∈ s.getValidFieldsFullName [name] := of_decide_eq_true hd
        exact ⟨(hall f hf).2.2.1 hin, (FieldsStore.suffixesApart_mem s name hS f hin).1⟩)
      (by
        intro f hf hd
        have hin : f ∉ s.getValidFieldsFullName [name] := of_decide_eq_false hd
        exact (hall f hf).2.2.2 hin)
      (.obj []) (s.nestedRoot name) (Lodash.clearPath_empty _)
      (Or.inr ⟨by rw [Lodash.baseGetPath_empty _ hp]; rfl, rfl⟩)
      (by
        intro _ f hf
        rw [hfil] at hf
        exact hfirst f hf)
    rw [hfil] at hunder
    have hsub := (hunder (Or.inr hD)).1
    rw [hbig]
    simp only
    rw [Lodash.get_plainTop _ _ btop hp, bfold, hval]
    exact hsub

/-- The witness of `getFieldValue_nested`: on `Demo.storeUser`, `getFieldValue('user')`
reads `"al"` at `name` and 7, the `initialValue`, at `age`, and is the sub-tree at
`user` of `getFieldsValue()`; `getFieldValue('list')` is the array of the values of
`list[0]` and `list[1]`, the sub-tree at `list`. -/
theorem getFieldValue_nested_witness :
    Lodash.get (Demo.storeUser.getFieldValue "user").1 "name" = .str "al" ∧
      Lodash.get (Demo.storeUser.getFieldValue "user").1 "age" = .num 7 ∧
      Lodash.get (Demo.storeUser.getFieldsValue none).1 "user" =
        (Demo.storeUser.getFieldValue "user").1 ∧
      Lodash.get (Demo.storeUser.getFieldValue "list").1 "[1]" = .num 4 ∧
      Lodash.get (Demo.storeUser.getFieldsValue none).1 "list" =
        (Demo.storeUser.getFieldValue "list").1 :=
  let h := getFieldValue_nested Demo.storeUser "user" (by decide) (by decide) (by decide)
  let g := getFieldValue_nested Demo.storeUser "list" (by decide) (by decide) (by decide)
  ⟨(h.2.1 "user.name" (by decide)).trans (by decide),
    (h.2.1 "user.age" (by decide)).trans (by decide),
    h.2.2.2 (by decide) (by decide),
    (g.2.1 "list[1]" (by decide)).trans (by decide),
    g.2.2.2 (by decide) (by decide)⟩

/-- C14 as stated fails: in `Demo.storeHidden` the registered field `a.b` is hidden,
and `getFieldValue('a')` holds the value of `a.c` only; in `Demo.storeDigit`, with the
single field `a.0`, `getFieldValue('a')` is the object with the key `0` while the
sub-tree at `a` in `getFieldsValue()` is an array. -/
theorem getFieldValue_nested_counterexample :
    (Demo.storeHidden.getFieldValue "a").1 = .obj [("c", .num 2)] ∧
      Demo.storeHidden.getAllFieldsName = ["a.b", "a.c"] ∧
      (Demo.storeHidden.getValueFromFields "a.b" Demo.storeHidden.fields).1 = .num 1 ∧
      (Demo.storeDigit.getFieldValue "a").1 = .obj [("0", .num 1)] ∧
      Lodash.get (Demo.storeDigit.getFieldsValue none).1 "a" = .arr [.num 1] := by
  decide

/-! ## `setFields` of the form with values at names that are not registered -/

theorem treeTraverse_primitive {σ : Type} (isLeafNode : String → JSVal → Bool) (msg : String)
    (callback : String → JSVal → σ → σ) (path : String) (tree : JSVal) (st : Trav σ)
    (h : isLeafNode path tree = false) (hp : tree.isPrimitive = true) :
    treeTraverse isLeafNode msg callback path tree st =
      .ok { st with log := st.log ++ [msg] } := by
  cases tree <;> first | (simp [JSVal.isPrimitive] at hp; done) | simp [treeTraverse, h]

/-- The traversal of the members of the root object when every key is a registered
name or carries a boolean, number or string: the registered members go to the
callback, each of the others leaves the message on the console. -/
theorem treeTraverseObj_mixed {σ : Type} (names : List String) (msg : String)
    (callback : String → JSVal → σ → σ) (kvs : List (String × JSVal))
    (hprim : ∀ kv ∈ kvs, kv.1 ∉ names → kv.2.isPrimitive = true) (st : Trav σ) :
    treeTraverseObj (fun path _ => decide (path ∈ names)) msg callback "" kvs st =
      .ok { acc := (kvs.filter (fun kv => decide (kv.1 ∈ names))).foldl
              (fun a kv => callback kv.1 kv.2 a) st.acc,
            log := st.log ++ (kvs.filter (fun kv => !decide (kv.1 ∈ names))).map
              (fun _ => msg) } := by
  induction kvs generalizing st with
  | nil => simp [treeTraverseObj]
  | cons kv t ih =>
    obtain ⟨k, v⟩ := kv
    have ht : ∀ kv ∈ t, kv.1 ∉ names → kv.2.isPrimitive = true :=
      fun kv h => hprim kv (List.mem_cons_of_mem _ h)
    have hpath : ("" : String) ++ (if ("" : String) = "" then "" else ".") ++ k = k := by
      simp
    rw [treeTraverseObj, hpath]
    by_cases hk : k ∈ names
    · rw [treeTraverse_leaf _ _ _ _ _ _ (by simpa using hk)]
      simp only
      rw [ih ht]
      simp [List.filter_cons, hk]
    · have hv := hprim (k, v) (List.mem_cons_self _ _) hk
      rw [treeTraverse_primitive _ _ _ _ _ _ (by simpa using hk) hv]
      simp only
      rw [ih ht]
      simp [List.filter_cons, hk]

/-- C21, as the code has it: when the empty name is not registered, every key of the
object given to the form's `setFields` that is not a registered name carries a
boolean, a number or a string, and every key that is a registered name carries an
object, an array or a falsy value (not `true`, a number other than 0 or a string
other than the empty one), the call raises no error.  Each key that is not
registered leaves the fixed message on the console and its value is dropped; the
values at the registered names are written with `FieldsStore.setFields`; the
metadata is unchanged. -/
theorem setFields_unregistered (fm : Form) (kvs : Props)
    (hempty : "" ∉ fm.fieldsStore.getAllFieldsName)
    (hprim : ∀ kv ∈ kvs, kv.1 ∉ fm.fieldsStore.getAllFieldsName → kv.2.isPrimitive = true)
    (hrec : ∀ kv ∈ kvs, kv.1 ∈ fm.fieldsStore.getAllFieldsName → raisesOnIn kv.2 = false) :
    ∃ fm1, fm.setFields (.obj kvs) = .ok fm1 ∧
      fm1.fieldsStore = fm.fieldsStore.setFields
        (((kvs.filter (fun kv => decide (kv.1 ∈ fm.fieldsStore.getAllFieldsName))).foldl
          (fun a kv => Obj.set a kv.1 kv.2) []).map (fun kv => (kv.1, asField kv.2))) ∧
      fm1.console = fm.console ++
        (kvs.filter (fun kv => !decide (kv.1 ∈ fm.fieldsStore.getAllFieldsName))).map
          (fun _ => "You cannot set field before registering it.") ∧
      fm1.fieldsStore.fieldsMeta = fm.fieldsStore.fieldsMeta := by
  have hflat : fm.fieldsStore.flattenRegisteredFields (.obj kvs) =
      .ok { acc := (kvs.filter (fun kv => decide (kv.1 ∈ fm.fieldsStore.getAllFieldsName))).foldl
              (fun a kv => Obj.set a kv.1 kv.2) [],
            log := (kvs.filter (fun kv => !decide (kv.1 ∈ fm.fieldsStore.getAllFieldsName))).map
              (fun _ => "You cannot set field before registering it.") } := by
    unfold FieldsStore.flattenRegisteredFields flattenFields
    rw [treeTraverse_obj _ _ _ _ _ _ (by simpa using hempty),
      treeTraverseObj_mixed fm.fieldsStore.getAllFieldsName _ _ kvs hprim]
    simp
  have hany : ((kvs.filter (fun kv => decide (kv.1 ∈ fm.fieldsStore.getAllFieldsName))).foldl
      (fun a kv => Obj.set a kv.1 kv.2) []).any (fun kv => raisesOnIn kv.2) = false := by
    rw [List.any_eq_false]
    intro kv hkv
    rcases Obj.foldl_set_mem (fun f : String × JSVal => f.1) (fun f => f.2) _ [] kv hkv with h | h
    · cases h
    · obtain ⟨f, hf, rfl⟩ := h
      obtain ⟨hf1, hf2⟩ := List.mem_filter.1 hf
      simpa using hrec f hf1 (by simpa using hf2)
  unfold Form.setFields
  rw [hflat]
  simp only [hany, Bool.false_eq_true, if_false]
  exact ⟨_, rfl, rfl, rfl, rfl⟩

/-- The witness of `setFields_unregistered`: on `Demo.storePlain`, `setFields` with
the value 1 at `z`, which is not registered, and a record at `a.c` raises no error,
writes the record of `a.c` and leaves one message on the console. -/
theorem setFields_unregistered_witness :
    ∃ fm1, Form.setFields { fieldsStore := Demo.storePlain }
        (.obj [("z", .num 1), ("a.c", .obj [("value", .num 5)])]) = .ok fm1 ∧
      fm1.fieldsStore.fields = [("a.b", [("value", .num 1)]), ("a.c", [("value", .num 5)])] ∧
      fm1.console = ["You cannot set field before registering it."] :=
  let ⟨fm1, h1, h2, h3, _⟩ := setFields_unregistered { fieldsStore := Demo.storePlain }
    [("z", .num 1), ("a.c", .obj [("value", .num 5)])] (by decide)
    (by
      intro kv hkv hno
      simp only [List.mem_cons, List.mem_singleton, List.not_mem_nil, or_false] at hkv
      rcases hkv with e | e
      · rw [e]; rfl
      · rw [e] at hno
        exact absurd (by decide) hno)
    (by
      intro kv hkv hin
      simp only [List.mem_cons, List.mem_singleton, List.not_mem_nil, or_false] at hkv
      rcases hkv with e | e
      · rw [e] at hin
        exact absurd hin (by decide)
      · rw [e]; rfl)
  ⟨fm1, h1, by rw [h2]; decide, by rw [h3]; decide⟩

/-- C21 as stated fails: `setFields({z: 1})` with `z` not registered returns without an
error; the console gets the message, in which the path `z` does not occur, and
with a `normalize` function that adds one the record of `a.c` goes from 2 to 3.
An error is raised all the same when a registered name carries a truthy primitive:
`setFields({'a.c': 1, z: 1})` raises the `TypeError` of `'value' in 1`. -/
theorem setFields_unregistered_counterexample :
    (Form.setFields { fieldsStore := Demo.storeReset } (.obj [("z", .num 1)])).map
        (fun fm1 => (fm1.fieldsStore.fields, fm1.console)) =
      .ok ([("a.b", [("value", .num 1)]), ("a.c", [("value", .num 3)])],
        ["You cannot set field before registering it."]) ∧
    Demo.storeReset.fields = [("a.b", [("value", .num 1)]), ("a.c", [("value", .num 2)])] ∧
    (Form.setFields { fieldsStore := Demo.storeReset }
        (.obj [("a.c", .num 1), ("z", .num 1)])).map (fun fm1 => fm1.console) =
      .error "TypeError: Cannot use 'in' operator to search for 'value'" :=
  ⟨rfl, rfl, rfl⟩

/-! ## Flattening twice -/

/-- C22, as the code has it: when the flat object of `x` is also the flat object of a
well-formed structure `y` (a root object; every object in it, the root included, has
distinct simple keys none of which is an index for lodash; no array or object below
the root is empty; every array is shorter than `2^32 - 1`), then flattening `x`,
setting the pairs into a fresh `{}` and flattening again gives the flat object of
`x`.  This holds for `x = y`, and for an `x` that has empty objects
next to the members of `y` or keys that are simple keys joined with `.`. -/
theorem flattenFields_idempotent (x y : JSVal) (msg : String) (hy : wfRoot y = true)
    (hxy : flattenFields x isLeafValue msg = flattenFields y isLeafValue msg) :
    ∃ t : Trav Props, flattenFields x isLeafValue msg = .ok t ∧
      flattenFields (unflatten t.acc) isLeafValue msg = .ok t := by
  cases y with
  | obj kvs =>
    simp only [wfRoot, Bool.and_eq_true, decide_eq_true_eq, List.all_eq_true] at hy
    obtain ⟨⟨⟨hnd, hkeys⟩, _⟩, hwf⟩ := hy
    have hflat := flattenFields_wf kvs msg hnd hkeys hwf
    refine ⟨_, hxy.trans hflat, ?_⟩
    rw [unflatten_leaves_wf kvs hnd hkeys hwf]
    exact hflat
  | _ => simp [wfRoot] at hy

/-- The witness of `flattenFields_idempotent`: an object with the key `user.name`
and an empty object has the flat object of `{user: {name: 'al'}, n: 1}`, and
flattening its rebuilt structure gives that flat object again. -/
theorem flattenFields_idempotent_witness :
    ∃ t : Trav Props,
      flattenFields (.obj [("user.name", .str "al"), ("e", .obj []), ("n", .num 1)])
        isLeafValue "" = .ok t ∧
      flattenFields (unflatten t.acc) isLeafValue "" = .ok t :=
  flattenFields_idempotent
    (.obj [("user.name", .str "al"), ("e", .obj []), ("n", .num 1)])
    (.obj [("user", .obj [("name", .str "al")]), ("n", .num 1)]) "" (by decide) rfl

/-- C22 as stated fails: the flat object of `{a: {'0': 1}}` is `{'a.0': 1}`, which
rebuilds as `{a: [1]}`, whose flat object is `{'a[0]': 1}`; and the flat object of the
array `[1]` is `{'[0]': 1}`, which rebuilds as `{'0': 1}`, whose flat object is
`{'0': 1}`. -/
theorem flattenFields_idempotent_counterexample :
    flattenFields (.obj [("a", .obj [("0", .num 1)])]) isLeafValue "" =
        .ok { acc := [("a.0", .num 1)], log := [] } ∧
      flattenFields (unflatten [("a.0", .num 1)]) isLeafValue "" =
        .ok { acc := [("a[0]", .num 1)], log := [] } ∧
      flattenFields (.arr [.num 1]) isLeafValue "" =
        .ok { acc := [("[0]", .num 1)], log := [] } ∧
      flattenFields (unflatten [("[0]", .num 1)]) isLeafValue "" =
        .ok { acc := [("0", .num 1)], log := [] } :=
  ⟨rfl, rfl, rfl, rfl⟩

/-! ## The record `onCollect` stores -/

theorem hasRules_some_iff (validate : Option (List ValidateItem)) :
    hasRules validate = true ↔
      ∃ items, validate = some items ∧
        ∃ item ∈ items, ∃ rs, item.rules = some rs ∧ rs ≠ [] := by
  unfold hasRules
  cases validate with
  | none => simp
  | some items =>
    simp only [List.any_eq_true, Option.some.injEq, exists_eq_left']
    constructor
    · rintro ⟨item, hi, h⟩
      exact ⟨item, hi, (ValidateItem.hasRules_iff item).1 h⟩
    · rintro ⟨item, hi, h⟩
      exact ⟨item, hi, (ValidateItem.hasRules_iff item).2 h⟩

/-- C23, as the code has it: on a form in which the empty name is not registered,
`onCollect` of a non-empty name whose `normalize` function, if any, leaves the
extracted value as it is stores a record with `value` the extracted value (what the
`getValueFromEvent` of the metadata gives for the arguments, else the default
extraction from the first argument: `checked` of a checkbox target, `value` of any
other target, the argument itself when it has no target), `touched = true`, and
`dirty = true` exactly when the `validate` list of the metadata has an entry with a
rule list that is not empty; every member of the previous record other than `value`,
`touched`, `dirty` and `name` is kept. -/
theorem onCollect_record (fm : Form) (name action : String) (args : List JSVal)
    (hempty : "" ∉ fm.fieldsStore.getAllFieldsName) (hne : name ≠ "")
    (hkeep : fm.fieldsStore.keepsValue name
      (match (fm.fieldsStore.metaOf name).getValueFromEvent with
       | some extract => extract args
       | none => getValueFromEvent (args.headD .undefined))) :
    (∃ fm2 record, fm.onCollect name action args = .ok fm2 ∧
      Obj.get? fm2.fieldsStore.fields name = some record ∧
      Props.get record "value" =
        (match (fm.fieldsStore.metaOf name).getValueFromEvent with
         | some extract => extract args
         | none => getValueFromEvent (args.headD .undefined)) ∧
      Props.get record "touched" = .bool true ∧
      Props.get record "dirty" = .bool (hasRules (fm.fieldsStore.metaOf name).validate) ∧
      (Props.get record "dirty" = .bool true ↔
        ∃ items, (fm.fieldsStore.metaOf name).validate = some items ∧
          ∃ item ∈ items, ∃ rs, item.rules = some rs ∧ rs ≠ []) ∧
      (∀ member, member ≠ "value" → member ≠ "touched" → member ≠ "dirty" →
        member ≠ "name" →
        Props.get record member =
          Props.get ((Obj.get? fm.fieldsStore.fields name).getD []) member)) ∧
    (∀ kvs t, Props.get kvs "target" = .obj t →
      getValueFromEvent (.obj kvs) =
        if Props.get t "type" = .str "checkbox" then Props.get t "checked"
        else Props.get t "value") ∧
    (∀ kvs, (Props.get kvs "target").truthy = false →
      getValueFromEvent (.obj kvs) = .obj kvs) := by
  refine ⟨?_, ?_, ?_⟩
  · obtain ⟨fm2, hrun, _, _, _, hrec⟩ := onCollect_ok fm name action args hempty hne
    have hrec2 := hrec hkeep
    have hdirty : Props.get (collectedField fm.fieldsStore name args) "dirty" =
        .bool (hasRules (fm.fieldsStore.metaOf name).validate) := by
      unfold collectedField
      rw [Props.get_set_same]
    refine ⟨fm2, _, hrun, hrec2, collectedField_value _ _ _, ?_, hdirty, ?_, ?_⟩
    · unfold collectedField
      rw [Props.get_set_other _ _ _ _ (by decide), Props.get_set_same]
    · rw [hdirty, ← hasRules_some_iff]
      cases hasRules (fm.fieldsStore.metaOf name).validate <;> simp
    · intro member h1 h2 h3 h4
      unfold collectedField FieldsStore.getField
      rw [Props.get_set_other _ _ _ _ (fun e => h3 e.symm),
        Props.get_set_other _ _ _ _ (fun e => h2 e.symm),
        Props.get_set_other _ _ _ _ (fun e => h1 e.symm),
        Props.get_set_other _ _ _ _ (fun e => h4 e.symm)]
  · intro kvs t ht
    simp [getValueFromEvent, ht, JSVal.truthy]
  · intro kvs ht
    unfold getValueFromEvent
    simp only [ht]
    rfl

/-- The witness of `onCollect_record`: on `Demo.storeF`, a change event with the value
2 leaves `f` with the value 2, touched and dirty. -/
theorem onCollect_record_witness :
    ∃ fm2 record, Form.onCollect { fieldsStore := Demo.storeF } "f" "onChange"
        [Demo.event (.num 2)] = .ok fm2 ∧
      Obj.get? fm2.fieldsStore.fields "f" = some record ∧
      Props.get record "value" = .num 2 ∧ Props.get record "touched" = .bool true ∧
      Props.get record "dirty" = .bool true :=
  let ⟨fm2, record, h1, h2, h3, h4, h5, _⟩ :=
    (onCollect_record { fieldsStore := Demo.storeF } "f" "onChange" [Demo.event (.num 2)]
      (by decide) (by decide) (fun _ h => nomatch h)).1
  ⟨fm2, record, h1, h2, h3.trans (by decide), h4, h5.trans (by decide)⟩

/-- C23 as stated fails: on `Demo.storeFBump`, where `f` has the `normalize` function
that adds one, a change event with the value 2 leaves `f` with the value 3. -/
theorem onCollect_record_counterexample :
    (Form.onCollect { fieldsStore := Demo.storeFBump } "f" "onChange"
        [Demo.event (.num 2)]).map (fun fm2 => fm2.fieldsStore.getFieldMember "f" "value") =
      .ok (.num 3) ∧
    getValueFromEvent (Demo.event (.num 2)) = .num 2 :=
  ⟨rfl, rfl⟩

/-! ## Registering a field again -/

theorem FieldsStore.metaOf_setFieldMeta (s : FieldsStore) (name n : String) (m : FieldMeta) :
    (s.setFieldMeta name m).metaOf n = if n = name then m else s.metaOf n := by
  unfold FieldsStore.setFieldMeta FieldsStore.metaOf
  by_cases h : n = name
  · subst h
    simp only [if_true]
    rw [Obj.get?_set_same]
    rfl
  · simp only [h, if_false]
    rw [Obj.get?_set_other _ _ _ _ (fun e => h e.symm)]

/-- C24, as the code has it: `getFieldProps` with a non-empty name stores the metadata
`{...fieldMeta, ...fieldOption, validate}`.  The members `rules`, `validateTrigger`,
`initialValue`, `normalize`, `hidden`, `validateFirst`, `getValueFromEvent` and
`getValueProps` are those of the options when supplied and the earlier ones
otherwise; `name`, `trigger`, `valuePropName` and `validate` are set anew from the
options and their defaults, whatever the earlier registration recorded.  The
metadata of the other names and the records are unchanged. -/
theorem getFieldProps_upserts (fm : Form) (name : String) (opt : FieldOption)
    (hname : name ≠ "") :
    ∃ fm1 : Form, fm.getFieldProps name opt = .ok fm1 ∧
      (fm1.fieldsStore.metaOf name).initialValue =
        (opt.initialValue <|> (fm.fieldsStore.metaOf name).initialValue) ∧
      (fm1.fieldsStore.metaOf name).normalize =
        (opt.normalize <|> (fm.fieldsStore.metaOf name).normalize) ∧
      (fm1.fieldsStore.metaOf name).hidden =
        (opt.hidden <|> (fm.fieldsStore.metaOf name).hidden) ∧
      (fm1.fieldsStore.metaOf name).rules =
        (opt.rules <|> (fm.fieldsStore.metaOf name).rules) ∧
      (fm1.fieldsStore.metaOf name).validateTrigger =
        (opt.validateTrigger <|> (fm.fieldsStore.metaOf name).validateTrigger) ∧
      (fm1.fieldsStore.metaOf name).validateFirst =
        (opt.validateFirst <|> (fm.fieldsStore.metaOf name).validateFirst) ∧
      (fm1.fieldsStore.metaOf name).getValueFromEvent =
        (opt.getValueFromEvent <|> (fm.fieldsStore.metaOf name).getValueFromEvent) ∧
      (fm1.fieldsStore.metaOf name).getValueProps =
        (opt.getValueProps <|> (fm.fieldsStore.metaOf name).getValueProps) ∧
      (fm1.fieldsStore.metaOf name).name = some name ∧
      (fm1.fieldsStore.metaOf name).trigger = some (opt.trigger.getD "onChange") ∧
      (fm1.fieldsStore.metaOf name).valuePropName = some (opt.valuePropName.getD "value") ∧
      (fm1.fieldsStore.metaOf name).validate =
        some (normalizeValidateRules (opt.validate.getD []) opt.rules
          (some (opt.validateTrigger.getD (.one (opt.trigger.getD "onChange"))))) ∧
      ((fm1.fieldsStore.metaOf name).initialValue ≠ (fm.fieldsStore.metaOf name).initialValue →
        opt.initialValue ≠ none) ∧
      (∀ n, n ≠ name → fm1.fieldsStore.metaOf n = fm.fieldsStore.metaOf n) ∧
      fm1.fieldsStore.fields = fm.fieldsStore.fields := by
  unfold Form.getFieldProps
  simp only [hname, if_false]
  refine ⟨_, rfl, ?_⟩
  simp only [FieldsStore.metaOf_setFieldMeta, if_true, FieldsStore.metaOf_getFieldMeta]
  refine ⟨?_, ?_, ?_, ?_, ?_, ?_, ?_, ?_, ?_, ?_, ?_, ?_, ?_, ?_, ?_⟩
  all_goals first | rfl | trivial | skip
  · intro hne hnone
    apply hne
    rw [hnone]
    rfl
  · intro n hn
    simp only [hn, if_false]

/-- The witness of `getFieldProps_upserts`: a field registered with an `initialValue`,
a `normalize` function and `hidden` keeps them when it is registered again with no
options. -/
theorem getFieldProps_upserts_witness :
    ∃ fm1 : Form, Form.getFieldProps Demo.formCustom "a" {} = .ok fm1 ∧
      (fm1.fieldsStore.metaOf "a").initialValue = some (.num 1) ∧
      (fm1.fieldsStore.metaOf "a").normalize = some Demo.bump ∧
      (fm1.fieldsStore.metaOf "a").hidden = some true :=
  let ⟨fm1, h0, h1, h2, h3, _⟩ := getFieldProps_upserts Demo.formCustom "a" {} (by decide)
  ⟨fm1, h0, h1, h2, h3⟩

/-- C24 as stated fails: a field registered with the trigger `onBlur`, the value prop
`checked` and a rule list, and then registered again with no options, has the
trigger `onChange`, the value prop `value` and an empty `validate` list. -/
theorem getFieldProps_upserts_counterexample :
    Demo.registered (Form.getFieldProps {} "a" Demo.optionBlur) =
      (some "onBlur", some "checked",
        some [{ trigger := ["onBlur"], rules := some [.str "required"] }]) ∧
    Demo.registered ((Form.getFieldProps {} "a" Demo.optionBlur).bind
        (fun fm => fm.getFieldProps "a" {})) =
      (some "onChange", some "value", some []) := by
  decide

/-! ## Unmounting a field and mounting it again -/

theorem Obj.get?_del_other {α : Type} (o : List (String × α)) (k k2 : String) (h : k ≠ k2) :
    Obj.get? (Obj.del o k) k2 = Obj.get? o k2 := by
  induction o with
  | nil => rfl
  | cons kv t ih =>
    obtain ⟨k1, w⟩ := kv
    by_cases h1 : k1 = k
    · subst h1
      simp [Obj.del, Obj.get?, h]
    · by_cases h2 : k1 = k2
      · subst h2
        simp [Obj.del, Obj.get?, h1]
      · simp [Obj.del, Obj.get?, h1, h2, ih]

theorem Obj.not_mem_keys_del {α : Type} (o : List (String × α)) (k : String)
    (h : (Obj.keys o).Nodup) : k ∉ Obj.keys (Obj.del o k) := by
  induction o with
  | nil => simp [Obj.del, Obj.keys]
  | cons kv t ih =>
    obtain ⟨k1, w⟩ := kv
    simp only [Obj.keys, List.map_cons, List.nodup_cons] at h
    by_cases h1 : k1 = k
    · subst h1
      simp only [Obj.del, if_true]
      exact h.1
    · simp only [Obj.del, h1, if_false, Obj.keys, List.map_cons, List.mem_cons, not_or]
      exact ⟨fun e => h1 e.symm, ih h.2⟩

theorem Obj.mem_keys_del_other {α : Type} (o : List (String × α)) (k k2 : String)
    (h : k ≠ k2) : k2 ∈ Obj.keys (Obj.del o k) ↔ k2 ∈ Obj.keys o := by
  induction o with
  | nil => simp [Obj.del, Obj.keys]
  | cons kv t ih =>
    obtain ⟨k1, w⟩ := kv
    by_cases h1 : k1 = k
    · subst h1
      simp only [Obj.del, if_true, Obj.keys, List.map_cons, List.mem_cons]
      constructor
      · exact fun hm => Or.inr hm
      · rintro (e | hm)
        · exact absurd e.symm h
        · exact hm
    · simp only [Obj.keys, List.map_cons, List.mem_cons] at ih ⊢
      simp only [Obj.del, h1, if_false, List.map_cons, List.mem_cons, ih]

theorem Form.saveRef_mounted (g : Form) (name : String) :
    g.saveRef name true =
      { g.recoverClearedField name with
        fieldsStore := ((g.recoverClearedField name).fieldsStore.getFieldMeta name).2 } := rfl

/-- C25, as the code has it: `saveRef` without a component removes the record and the
metadata of the name and leaves the records and the metadata of the other names as
they are.  A `saveRef` with a component right after it stores the record
`getField(name)` that was cached, which is the earlier record with the member `name`
set, registers the name again with the earlier metadata, and removes the cache
entry; one more `saveRef` with a component leaves the store as it is.  The keys of
the records, of the metadata and of the cache are distinct, as in every object. -/
theorem saveRef_restores (fm : Form) (name : String)
    (hF : (Obj.keys fm.fieldsStore.fields).Nodup)
    (hM : (Obj.keys fm.fieldsStore.fieldsMeta).Nodup)
    (hC : (Obj.keys fm.clearedFieldMetaCache).Nodup) :
    Obj.get? (fm.saveRef name false).fieldsStore.fields name = none ∧
    name ∉ Obj.keys (fm.saveRef name false).fieldsStore.fieldsMeta ∧
    (∀ n, n ≠ name →
      Obj.get? (fm.saveRef name false).fieldsStore.fields n = Obj.get? fm.fieldsStore.fields n ∧
      (n ∈ Obj.keys (fm.saveRef name false).fieldsStore.fieldsMeta ↔
        n ∈ Obj.keys fm.fieldsStore.fieldsMeta) ∧
      (fm.saveRef name false).fieldsStore.metaOf n = fm.fieldsStore.metaOf n) ∧
    Obj.get? ((fm.saveRef name false).saveRef name true).fieldsStore.fields name =
      some (Obj.set ((Obj.get? fm.fieldsStore.fields name).getD []) "name" (.str name)) ∧
    name ∈ Obj.keys ((fm.saveRef name false).saveRef name true).fieldsStore.fieldsMeta ∧
    ((fm.saveRef name false).saveRef name true).fieldsStore.metaOf name =
      fm.fieldsStore.metaOf name ∧
    Obj.get? ((fm.saveRef name false).saveRef name true).clearedFieldMetaCache name = none ∧
    (((fm.saveRef name false).saveRef name true).saveRef name true).fieldsStore =
      ((fm.saveRef name false).saveRef name true).fieldsStore := by
  have hM1 : (Obj.keys (fm.fieldsStore.getFieldMeta name).2.fieldsMeta).Nodup :=
    Obj.keys_set_nodup _ _ _ hM
  have hC1 : (Obj.keys (Obj.set fm.clearedFieldMetaCache name
      (fm.fieldsStore.getField name, (fm.fieldsStore.getFieldMeta name).1))).Nodup :=
    Obj.keys_set_nodup _ _ _ hC
  have hun : fm.saveRef name false =
      { fm with
        clearedFieldMetaCache :=
          Obj.set fm.clearedFieldMetaCache name
            (fm.fieldsStore.getField name, (fm.fieldsStore.getFieldMeta name).1)
        fieldsStore := (fm.fieldsStore.getFieldMeta name).2.clearField name } := rfl
  have hnoF : Obj.get? (fm.saveRef name false).fieldsStore.fields name = none := by
    rw [hun, Obj.get?_eq_none]
    exact Obj.not_mem_keys_del _ _ hF
  have hnoM : name ∉ Obj.keys (fm.saveRef name false).fieldsStore.fieldsMeta := by
    rw [hun]
    exact Obj.not_mem_keys_del _ _ hM1
  have hmeta0 : (fm.saveRef name false).fieldsStore.metaOf name = {} := by
    unfold FieldsStore.metaOf
    rw [(Obj.get?_eq_none _ _).2 hnoM]
    rfl
  have hrec : (fm.saveRef name false).recoverClearedField name =
      { fm.saveRef name false with
        fieldsStore := ((fm.saveRef name false).fieldsStore.setFields
          [(name, fm.fieldsStore.getField name)]).setFieldMeta name
            (fm.fieldsStore.getFieldMeta name).1
        clearedFieldMetaCache := Obj.del (fm.saveRef name false).clearedFieldMetaCache name } := by
    unfold Form.recoverClearedField
    have hget : Obj.get? (fm.saveRef name false).clearedFieldMetaCache name =
        some (fm.fieldsStore.getField name, (fm.fieldsStore.getFieldMeta name).1) := by
      rw [hun]
      exact Obj.get?_set_same _ _ _
    rw [hget]
  have hregd : name ∈ Obj.keys ((fm.saveRef name false).recoverClearedField name).fieldsStore.fieldsMeta := by
    rw [hrec]
    exact (Obj.mem_keys_set _ _ _ _).2 (Or.inl rfl)
  have hmount : (fm.saveRef name false).saveRef name true =
      (fm.saveRef name false).recoverClearedField name := by
    rw [Form.saveRef_mounted, FieldsStore.getFieldMeta_registered _ name hregd]
  have hcache : Obj.get? ((fm.saveRef name false).saveRef name true).clearedFieldMetaCache name =
      none := by
    rw [hmount, hrec, Obj.get?_eq_none]
    simp only
    rw [hun]
    exact Obj.not_mem_keys_del _ _ hC1
  refine ⟨hnoF, hnoM, ?_, ?_, ?_, ?_, hcache, ?_⟩
  · intro n hn
    rw [hun]
    refine ⟨Obj.get?_del_other _ _ _ (fun e => hn e.symm), ?_, ?_⟩
    · simp only [FieldsStore.clearField]
      rw [Obj.mem_keys_del_other _ _ _ (fun e => hn e.symm), FieldsStore.keys_getFieldMeta]
      constructor
      · rintro (e | h)
        · exact absurd e hn
        · exact h
      · exact fun h => Or.inr h
    · unfold FieldsStore.metaOf
      simp only [FieldsStore.clearField]
      rw [Obj.get?_del_other _ _ _ (fun e => hn e.symm)]
      exact FieldsStore.metaOf_getFieldMeta fm.fieldsStore name n
  · rw [hmount, hrec]
    simp only [FieldsStore.setFieldMeta]
    rw [FieldsStore.setFields_record _ _ name (by simp [Obj.keys]) (by rw [hmeta0])]
    simp only [Obj.get?, if_true]
    rfl
  · rw [hmount]
    exact hregd
  · rw [hmount, hrec]
    simp only
    rw [FieldsStore.metaOf_setFieldMeta, if_pos rfl]
    rfl
  · have hnone := hcache
    have hreg2 : name ∈ Obj.keys ((fm.saveRef name false).saveRef name true).fieldsStore.fieldsMeta := by
      rw [hmount]
      exact hregd
    generalize (fm.saveRef name false).saveRef name true = g at hnone hreg2 ⊢
    have hr : g.recoverClearedField name = g := by
      unfold Form.recoverClearedField
      rw [hnone]
    rw [Form.saveRef_mounted, hr]
    exact FieldsStore.getFieldMeta_registered _ name hreg2

/-- The witness of `saveRef_restores`: on `Demo.formMounted`, unmounting `a` removes its
record, and mounting it again stores the record with the value 1 and the member
`name`, under the metadata it had. -/
theorem saveRef_restores_witness :
    Obj.get? (Demo.formMounted.saveRef "a" false).fieldsStore.fields "a" = none ∧
      Obj.get? ((Demo.formMounted.saveRef "a" false).saveRef "a" true).fieldsStore.fields "a" =
        some [("value", .num 1), ("name", .str "a")] ∧
      (((Demo.formMounted.saveRef "a" false).saveRef "a" true).fieldsStore.metaOf "a").initialValue =
        some (.num 0) :=
  let h := saveRef_restores Demo.formMounted "a" (by decide) (by decide) (by decide)
  ⟨h.1, h.2.2.2.1.trans (by decide),
    (congrArg FieldMeta.initialValue h.2.2.2.2.2.1).trans (by decide)⟩

/-- C25 as stated fails: the record of `a` is `{value: 1}` before it is unmounted and
`{value: 1, name: 'a'}` after it is mounted again. -/
theorem saveRef_restores_counterexample :
    Obj.get? Demo.formMounted.fieldsStore.fields "a" = some [("value", .num 1)] ∧
      Obj.get? ((Demo.formMounted.saveRef "a" false).saveRef "a" true).fieldsStore.fields "a" =
        some [("value", .num 1), ("name", .str "a")] := by
  decide

/-! ## The snapshot of a validation pass -/

theorem FieldsStore.getFieldValue_snd (s : FieldsStore) (name : String)
    (h : name ∈ Obj.keys s.fieldsMeta) : (s.getFieldValue name).2 = s := by
  unfold FieldsStore.getFieldValue FieldsStore.getNestedField
  simp only
  split
  · exact FieldsStore.getValueFromFields_snd s name s.fields h
  · rw [FieldsStore.reduceSet_registered s s.fields _ _
      (fun n hn => ((FieldsStore.mem_getValidFieldsFullName_iff s [name] n).1 hn).1)]

theorem refreshValues_registered (names : List String) (allValues : Props) (s : FieldsStore)
    (h : ∀ n ∈ names, n ∈ Obj.keys s.fieldsMeta) :
    refreshValues names allValues s =
      (names.foldl (fun acc f => Obj.set acc f (s.getFieldValue f).1) allValues, s) := by
  induction names generalizing allValues with
  | nil => rfl
  | cons f rest ih =>
    rw [refreshValues, FieldsStore.getFieldValue_snd s f (h f (List.mem_cons_self _ _)),
      ih _ (fun n hn => h n (List.mem_cons_of_mem _ hn))]
    rfl

/-- C26, as the code has it: on a form in which the empty name is not registered, in a
pass whose selected records have names that are not empty and metadata with a
`validate` list, every selected record `x` is dispatched: once the synchronous part
of the pass is over, the stored record of its name has `validating = true`,
`dirty = true` and `errors` undefined, the rules dispatched for the name are
`getRules(meta, action)`, and the value dispatched for it is `getFieldValue(name)` of
the store at that instant. -/
theorem validateFieldsInternal_snapshot (fm : Form) (fields : List Field)
    (fieldNames : Option (List String)) (action : Option String) (force hasCallback : Bool)
    (x : Field)
    (hempty : "" ∉ fm.fieldsStore.getAllFieldsName)
    (hname : ∀ f ∈ fields, isSelected force f = true → fieldName f ≠ "")
    (hv : ∀ f ∈ fields, isSelected force f = true →
      (fm.fieldsStore.metaOf (fieldName f)).validate ≠ none)
    (hx : x ∈ fields) (hsel : isSelected force x = true) :
    ∃ res : PassResult,
      fm.validateFieldsInternal fields fieldNames action force hasCallback = .ok res ∧
      res.form.fieldsStore.getFieldMember (fieldName x) "validating" = .bool true ∧
      res.form.fieldsStore.getFieldMember (fieldName x) "dirty" = .bool true ∧
      res.form.fieldsStore.getFieldMember (fieldName x) "errors" = .undefined ∧
      getRules (fm.fieldsStore.metaOf (fieldName x)) action =
        .ok (rulesFor (fm.fieldsStore.metaOf (fieldName x)) action) ∧
      Obj.get? res.dispatchedRules (fieldName x) =
        some (rulesFor (fm.fieldsStore.metaOf (fieldName x)) action) ∧
      Obj.get? res.dispatchedValues (fieldName x) =
        some (res.form.fieldsStore.getFieldValue (fieldName x)).1 := by
  obtain ⟨sel1, h1, hres⟩ := validateFieldsInternal_ok fm fields fieldNames action force
    hasCallback hempty hname hv
  obtain ⟨sel2, h1b, _, _, hkeys, h5, h6, h7, _⟩ :=
    selectFields_ok force action fields { store := fm.fieldsStore } hv
  have hsame : sel2 = sel1 := by
    rw [h1] at h1b
    exact (Except.ok.inj h1b).symm
  subst hsame
  have hxsel : x ∈ fields.filter (isSelected force) := List.mem_filter.2 ⟨hx, hsel⟩
  have hmemF : fieldName x ∈ Obj.keys sel2.allFields := by
    rw [h5, Obj.foldl_set_keys]
    exact Or.inr ⟨x, hxsel, rfl⟩
  have hne : (hasCallback && sel2.allFields.isEmpty) = false := by
    cases hl : sel2.allFields with
    | nil => rw [hl] at hmemF; simp [Obj.keys] at hmemF
    | cons a t => simp
  rw [hne] at hres
  simp only [Bool.false_eq_true, if_false] at hres
  have hreg : ∀ n ∈ Obj.keys sel2.allValues,
      n ∈ Obj.keys (sel2.store.setFields sel2.allFields).fieldsMeta := by
    intro n hn
    rw [h7, Obj.foldl_set_keys] at hn
    rcases hn with hn | ⟨f, hf, hfn⟩
    · simp [Obj.keys] at hn
    · have hf2 := List.mem_filter.1 hf
      exact (hkeys n).2 (Or.inr ⟨f, hf2.1, hf2.2, hfn⟩)
  have hrefresh := refreshValues_registered (Obj.keys sel2.allValues) sel2.allValues
    (sel2.store.setFields sel2.allFields) hreg
  have hmemV : fieldName x ∈ Obj.keys sel2.allValues := by
    rw [h7, Obj.foldl_set_keys]
    exact Or.inr ⟨x, hxsel, rfl⟩
  obtain ⟨_, _, _, hmembers⟩ := validateFieldsInternal_dispatched fm fields fieldNames action
    force hasCallback _ _ hempty hname hv hres
  have hmemR : fieldName x ∈ Obj.keys sel2.allRules := by
    rw [h6, Obj.foldl_set_keys]
    exact Or.inr ⟨x, hxsel, rfl⟩
  obtain ⟨_, _, f, _, _, _, hmem⟩ := hmembers (fieldName x) hmemR
  refine ⟨_, hres, ?_, ?_, ?_, getRules_of_validate _ _ (hv x hx hsel), ?_, ?_⟩
  · simp only [PassResult.form]
    rw [hmem "validating" (by decide), Props.get_set_other _ _ _ _ (by decide)]
    unfold markValidating
    rw [Props.get_set_other _ _ _ _ (by decide), Props.get_set_same]
  · simp only [PassResult.form]
    rw [hmem "dirty" (by decide), Props.get_set_other _ _ _ _ (by decide)]
    unfold markValidating
    rw [Props.get_set_same]
  · simp only [PassResult.form]
    rw [hmem "errors" (by decide), Props.get_set_other _ _ _ _ (by decide)]
    unfold markValidating
    rw [Props.get_set_other _ _ _ _ (by decide), Props.get_set_other _ _ _ _ (by decide),
      Props.get_set_same]
  · simp only [PassResult.dispatchedRules]
    rw [h6]
    exact Obj.foldl_set_get?_mem fieldName
      (fun f => rulesFor (fm.fieldsStore.metaOf (fieldName f)) action) _ _ _ _
      ⟨x, hxsel, rfl⟩ (fun f _ hf => by simp only [hf])
  · simp only [PassResult.dispatchedValues, PassResult.form]
    rw [hrefresh]
    exact Obj.foldl_set_get?_mem (fun f => f)
      (fun f => ((sel2.store.setFields sel2.allFields).getFieldValue f).1) _ _ _ _
      ⟨fieldName x, hmemV, rfl⟩ (fun f _ hf => by
        have hf2 : f = fieldName x := hf
        rw [hf2])

/-- The witness of `validateFieldsInternal_snapshot`: a pass over the record of `f`
with the value 1 on a form where `f` is registered with a rule. -/
theorem validateFieldsInternal_snapshot_witness :
    ∃ res : PassResult,
      Form.validateFieldsInternal { fieldsStore := Demo.storeF } Demo.batchF (some ["f"]) none
        false true = .ok res ∧
      res.form.fieldsStore.getFieldMember "f" "validating" = .bool true ∧
      res.form.fieldsStore.getFieldMember "f" "dirty" = .bool true ∧
      res.form.fieldsStore.getFieldMember "f" "errors" = .undefined ∧
      Obj.get? res.dispatchedRules "f" = some [.str "required"] :=
  let ⟨res, h0, h1, h2, h3, _, h5, _⟩ :=
    validateFieldsInternal_snapshot { fieldsStore := Demo.storeF } Demo.batchF (some ["f"])
      none false true [("value", .num 1), ("dirty", .bool true), ("name", .str "f")]
      (by decide)
      (by intro f hf _; rw [List.mem_singleton.1 hf]; decide)
      (by intro f hf _; rw [List.mem_singleton.1 hf]; decide)
      (List.mem_singleton.2 rfl) (by decide)
  ⟨res, h0, h1, h2, h3, h5.trans (by decide)⟩

/-- C26 as stated fails: on a form where the empty name is registered next to `f`, a
pass over the record of `f` with the value 1 leaves no record of `f` in the store and
dispatches `undefined` as its value; without the empty name the record is stored and
the value 1 is dispatched. -/
theorem validateFieldsInternal_snapshot_counterexample :
    Demo.snapshotOf Demo.formEmptyName = (none, some [.str "required"], some .undefined) ∧
      Demo.snapshotOf { fieldsStore := { fields := [], fieldsMeta := [("f", Demo.ruled)] } } =
        (some [("name", .str "f"), ("value", .num 1), ("errors", .undefined),
            ("validating", .bool true), ("dirty", .bool true)],
          some [.str "required"], some (.num 1)) := by
  decide

/-! ## Reading the value of a name that is not registered -/

/-- C27, as the code has it: for a name that is not registered, under which no visible
registered name is nested and whose record, if there is one, has no `value`,
`getFieldValue(name)` returns `undefined` and registers the name: the metadata gets
the entry `{}` for the name after the entries it had, so that
`isValidNestedFieldName` is false for every name nested under it and for every name
it is nested under; the records are unchanged. -/
theorem getFieldValue_registers (s : FieldsStore) (name : String)
    (hreg : name ∉ Obj.keys s.fieldsMeta)
    (hnone : ∀ n ∈ s.getValidFieldsName, partOf name n = false)
    (hval : ∀ field, Obj.get? s.fields name = some field → Obj.has field "value" = false) :
    (s.getFieldValue name).1 = .undefined ∧
    (s.getFieldValue name).2.fields = s.fields ∧
    (s.getFieldValue name).2.fieldsMeta = s.fieldsMeta ++ [(name, ({} : FieldMeta))] ∧
    (s.getFieldValue name).2.getAllFieldsName = s.getAllFieldsName ++ [name] ∧
    (∀ n, partOf name n = true ∨ partOf n name = true →
      (s.getFieldValue name).2.isValidNestedFieldName n = false) := by
  have hD : s.getValidFieldsFullName [name] = [] := by
    unfold FieldsStore.getValidFieldsFullName
    rw [List.filter_eq_nil_iff]
    intro n hn
    have hne : n ≠ name := fun e => hreg (e ▸ FieldsStore.mem_getValidFieldsName s n hn)
    have hp := hnone n hn
    unfold partOf at hp
    simp only [List.any_cons, List.any_nil, Bool.or_false, startsWith]
    simp only [Bool.and_eq_false_iff, Bool.or_eq_false_iff] at hp
    simp only [Bool.or_eq_true, decide_eq_true_eq, Bool.and_eq_true, not_or, not_and]
    refine ⟨hne, ?_⟩
    intro hpre
    rcases hp with hp | hp
    · rw [hpre] at hp; cases hp
    · simpa using hp
  have hmeta : s.metaOf name = {} := by
    unfold FieldsStore.metaOf
    rw [(Obj.get?_eq_none _ _).2 hreg]
    rfl
  have hget : s.getValueFromFields name s.fields =
      (.undefined, { s with fieldsMeta := s.fieldsMeta ++ [(name, {})] }) := by
    have hupsert : s.getFieldMeta name =
        ({}, { s with fieldsMeta := s.fieldsMeta ++ [(name, {})] }) := by
      unfold FieldsStore.getFieldMeta
      rw [hmeta, Obj.set_of_not_mem _ _ _ hreg]
    unfold FieldsStore.getValueFromFields
    rw [hupsert]
    cases hf : Obj.get? s.fields name with
    | none => rfl
    | some field =>
      simp only [hval field hf, Bool.false_eq_true, if_false]
      rfl
  have hrun : s.getFieldValue name =
      (.undefined, { s with fieldsMeta := s.fieldsMeta ++ [(name, {})] }) := by
    unfold FieldsStore.getFieldValue FieldsStore.getNestedField
    simp only [hD, List.length_nil, true_or, if_true]
    exact hget
  rw [hrun]
  refine ⟨rfl, rfl, rfl, ?_, ?_⟩
  · simp [FieldsStore.getAllFieldsName, Obj.keys]
  · intro n hn
    unfold FieldsStore.isValidNestedFieldName FieldsStore.getAllFieldsName
    rw [List.all_eq_false]
    refine ⟨name, by simp [Obj.keys], ?_⟩
    rcases hn with h | h
    · simp [h]
    · simp [h]

/-- The witness of `getFieldValue_registers`: on `Demo.storePlain`, `getFieldValue('z')`
is `undefined`, and `z` is registered afterwards, so that `z.k` is no valid nested
field name any more. -/
theorem getFieldValue_registers_witness :
    (Demo.storePlain.getFieldValue "z").1 = .undefined ∧
      (Demo.storePlain.getFieldValue "z").2.getAllFieldsName = ["a.b", "a.c", "z"] ∧
      (Demo.storePlain.getFieldValue "z").2.isValidNestedFieldName "z.k" = false :=
  let h := getFieldValue_registers Demo.storePlain "z" (by decide)
    (by
      intro n hn
      have hn2 : n ∈ ["a.b", "a.c"] := hn
      simp only [List.mem_cons, List.mem_singleton, List.not_mem_nil, or_false] at hn2
      rcases hn2 with e | e <;> (rw [e]; decide))
    (by
      intro field hf
      have hz : Obj.get? Demo.storePlain.fields "z" = none := by decide
      rw [hz] at hf
      cases hf)
  ⟨h.1, h.2.2.2.1.trans (by decide), h.2.2.2.2 "z.k" (Or.inl (by decide))⟩

/-- C27 as stated fails: on `Demo.storePlain`, where `a.b` and `a.c` are registered and
`a` is not, `getFieldValue('a')` is the object of their values and `a` is not
registered afterwards; and for a name that is not registered but has a record with
a value, `getFieldValue` returns that value and registers nothing. -/
theorem getFieldValue_registers_counterexample :
    (Demo.storePlain.getFieldValue "a").1 = .obj [("b", .num 1), ("c", .num 2)] ∧
      (Demo.storePlain.getFieldValue "a").2.getAllFieldsName = ["a.b", "a.c"] ∧
      (FieldsStore.getFieldValue { fields := [("z", [("value", .num 5)])] } "z").1 = .num 5 ∧
      (FieldsStore.getFieldValue
        { fields := [("z", [("value", .num 5)])] } "z").2.getAllFieldsName = [] := by
  decide

end RcForm
